import Mathlib

/-!
# Reference-counted red-black tree (src/src/rcrb.c)

Shallow embedding of the tree engine of `rcrb.c`.  Node memory is a map from
addresses to node records, and every C statement that reads or writes a field
through a pointer becomes a read or an update of that map, in the order of the
source.  Loops carry a fuel argument and return `none` when it runs out.
-/

namespace Rcrb

/-- Node colours `CF_RCRB_RED` and `CF_RCRB_BLACK`. -/
inductive Color where
  | RED
  | BLACK
deriving DecidableEq

open Color

/-- The record `cf_rcrb_node`: colour, key, value pointer (0 is the empty slot)
and the three links, each an address.  A `cf_digest` is a fixed-length byte
string; it is represented by the number its bytes spell in big-endian order, so
that byte-lexicographic order is the order of the numbers. -/
structure cf_rcrb_node where
  color : Color
  key : Nat
  value : Nat
  left : Nat
  right : Nat
  parent : Nat
deriving DecidableEq

/-- The record `cf_rcrb_tree` together with the memory it lives in: `mem` is node
memory, `rc` the table of value reference counts kept by the `cf_rc` allocator,
`destroyed` the log of destructor calls `(value, udata)` (latest first), `freed`
the log of `free` calls on nodes, `refcount` the tree's own reference count and
`lock` the state of the tree mutex.  The counter `elements` is declared in the
header `cf.h`; it is kept as a natural number. -/
structure cf_rcrb_tree where
  root : Nat
  sentinel : Nat
  elements : Nat
  lock : Bool
  destructor_udata : Nat
  refcount : Nat
  mem : Nat → cf_rcrb_node
  rc : Nat → Nat
  destroyed : List (Nat × Nat)
  freed : List Nat

/-- Modelled from the spec: `cf_digest_compare` is declared in `cf.h`; keys are
compared as raw byte strings, the sign of the result giving the order. -/
def cf_digest_compare (k1 k2 : Nat) : Int :=
  if k1 < k2 then -1 else if k1 = k2 then 0 else 1

/-- Modelled from the spec: `cf_rc_reserve` of the reference-counting allocator
increments the count of a value. -/
def cf_rc_reserve (rc : Nat → Nat) (v : Nat) : Nat → Nat :=
  fun x => if x = v then rc v + 1 else rc x

/-- Modelled from the spec: `cf_rc_release` of the reference-counting allocator
decrements the count of a value and returns the new count. -/
def cf_rc_release (rc : Nat → Nat) (v : Nat) : (Nat → Nat) × Nat :=
  (fun x => if x = v then rc v - 1 else rc x, rc v - 1)

/-- Write through a node pointer: the record at `a` is replaced by `f` of it. -/
def upd (m : Nat → cf_rcrb_node) (a : Nat) (f : cf_rcrb_node → cf_rcrb_node) :
    Nat → cf_rcrb_node :=
  fun x => if x = a then f (m x) else m x

/-- The assignment `a->color = c`. -/
def setColor (tree : cf_rcrb_tree) (a : Nat) (c : Color) : cf_rcrb_tree :=
  { tree with mem := upd tree.mem a (fun n => { n with color := c }) }

/-- The assignment `a->left = b`. -/
def setLeft (tree : cf_rcrb_tree) (a b : Nat) : cf_rcrb_tree :=
  { tree with mem := upd tree.mem a (fun n => { n with left := b }) }

/-- The assignment `a->right = b`. -/
def setRight (tree : cf_rcrb_tree) (a b : Nat) : cf_rcrb_tree :=
  { tree with mem := upd tree.mem a (fun n => { n with right := b }) }

/-- The assignment `a->parent = b`. -/
def setParent (tree : cf_rcrb_tree) (a b : Nat) : cf_rcrb_tree :=
  { tree with mem := upd tree.mem a (fun n => { n with parent := b }) }

/-- The pointer expression `a->parent`. -/
def par (tree : cf_rcrb_tree) (a : Nat) : Nat := (tree.mem a).parent

/-- The pointer expression `a->left`. -/
def lft (tree : cf_rcrb_tree) (a : Nat) : Nat := (tree.mem a).left

/-- The pointer expression `a->right`. -/
def rgt (tree : cf_rcrb_tree) (a : Nat) : Nat := (tree.mem a).right

/-- The expression `a->color`. -/
def col (tree : cf_rcrb_tree) (a : Nat) : Color := (tree.mem a).color

/-- Function `cf_rcrb_rotate_left` (rcrb.c 50-70). -/
def cf_rcrb_rotate_left (tree : cf_rcrb_tree) (r : Nat) : cf_rcrb_tree :=
  let s := rgt tree r
  let t1 := setRight tree r (lft tree s)
  let t2 := if lft t1 s ≠ t1.sentinel then setParent t1 (lft t1 s) r else t1
  let t3 := setParent t2 s (par t2 r)
  let t4 := if r = lft t3 (par t3 r) then setLeft t3 (par t3 r) s
            else setRight t3 (par t3 r) s
  let t5 := setLeft t4 s r
  setParent t5 r s

/-- Function `cf_rcrb_rotate_right` (rcrb.c 75-95). -/
def cf_rcrb_rotate_right (tree : cf_rcrb_tree) (r : Nat) : cf_rcrb_tree :=
  let s := lft tree r
  let t1 := setLeft tree r (rgt tree s)
  let t2 := if rgt t1 s ≠ t1.sentinel then setParent t1 (rgt t1 s) r else t1
  let t3 := setParent t2 s (par t2 r)
  let t4 := if r = lft t3 (par t3 r) then setLeft t3 (par t3 r) s
            else setRight t3 (par t3 r) s
  let t5 := setRight t4 s r
  setParent t5 r s

/-- The descent loop of the two insert functions (rcrb.c 115-124, 227-240):
returns the final value of `s`. -/
def insert_descend : Nat → cf_rcrb_tree → Nat → Nat → Nat → Option Nat
  | 0, _, _, _, _ => none
  | fuel + 1, tree, key, s, t =>
    if t ≠ tree.sentinel then
      let c := cf_digest_compare key (tree.mem t).key
      if c ≠ 0 then
        insert_descend fuel tree key t (if c > 0 then lft tree t else rgt tree t)
      else some t
    else some s

/-- One iteration of the rebalancing loop of the insert functions
(rcrb.c 159-191, 273-305): the new state and the new value of `n`. -/
def insert_rebalance_step (tree : cf_rcrb_tree) (n : Nat) : cf_rcrb_tree × Nat :=
  if par tree n = lft tree (par tree (par tree n)) then
    let s := rgt tree (par tree (par tree n))
    if col tree s = RED then
      let t1 := setColor tree (par tree n) BLACK
      let t2 := setColor t1 s BLACK
      let t3 := setColor t2 (par t2 (par t2 n)) RED
      (t3, par t3 (par t3 n))
    else
      let tn := if n = rgt tree (par tree n) then
          (cf_rcrb_rotate_left tree (par tree n), par tree n)
        else (tree, n)
      let t2 := setColor tn.1 (par tn.1 tn.2) BLACK
      let t3 := setColor t2 (par t2 (par t2 tn.2)) RED
      (cf_rcrb_rotate_right t3 (par t3 (par t3 tn.2)), tn.2)
  else
    let s := lft tree (par tree (par tree n))
    if col tree s = RED then
      let t1 := setColor tree (par tree n) BLACK
      let t2 := setColor t1 s BLACK
      let t3 := setColor t2 (par t2 (par t2 n)) RED
      (t3, par t3 (par t3 n))
    else
      let tn := if n = lft tree (par tree n) then
          (cf_rcrb_rotate_right tree (par tree n), par tree n)
        else (tree, n)
      let t2 := setColor tn.1 (par tn.1 tn.2) BLACK
      let t3 := setColor t2 (par t2 (par t2 tn.2)) RED
      (cf_rcrb_rotate_left t3 (par t3 (par t3 tn.2)), tn.2)

/-- The rebalancing loop `while (CF_RCRB_RED == n->parent->color)` of the
insert functions (rcrb.c 158-192, 272-306). -/
def insert_rebalance : Nat → cf_rcrb_tree → Nat → Option cf_rcrb_tree
  | 0, _, _ => none
  | fuel + 1, tree, n =>
    if col tree (par tree n) = RED then
      insert_rebalance fuel (insert_rebalance_step tree n).1 (insert_rebalance_step tree n).2
    else some tree

/-- The statements of the insert functions that initialise the new node `n` and
link it below `s` (rcrb.c 143-155, 258-269). -/
def insert_link (tree : cf_rcrb_tree) (key s n : Nat) : cf_rcrb_tree :=
  let t1 : cf_rcrb_tree :=
    { tree with mem := fun x => if x = n then ⟨RED, key, 0, tree.sentinel, tree.sentinel, s⟩
                                else tree.mem x }
  if s = t1.root ∨ 0 < cf_digest_compare (t1.mem n).key (t1.mem s).key
  then setLeft t1 s n else setRight t1 s n

/-- The part of the insert functions after the allocation (rcrb.c 143-194,
258-308): initialise the node `n`, attach it under `s`, rebalance, force the
top node BLACK and count the element. -/
def insert_attach (fuel : Nat) (tree : cf_rcrb_tree) (key s n : Nat) : Option cf_rcrb_tree :=
  let t2 := insert_link tree key s n
  match insert_rebalance fuel t2 n with
  | none => none
  | some t3 =>
    let t4 := setColor t3 (lft t3 t3.root) BLACK
    some { t4 with elements := t4.elements + 1 }

/-- Function `cf_rcrb_insert_vlock` (rcrb.c 100-201).  `malloc` is the result of
`CF_MALLOC` (`none` for NULL).  The result is the new state and the returned
node pointer (`none` for 0); on a successful insertion the lock stays held. -/
def cf_rcrb_insert_vlock (fuel : Nat) (tree : cf_rcrb_tree) (key : Nat) (malloc : Option Nat) :
    Option (cf_rcrb_tree × Option Nat) :=
  let t0 := { tree with lock := true }
  match insert_descend fuel t0 key t0.root (lft t0 t0.root) with
  | none => none
  | some s =>
    if s ≠ t0.root ∧ 0 = cf_digest_compare key (t0.mem s).key then
      some ({ t0 with lock := false }, none)
    else
      match malloc with
      | none => some ({ t0 with lock := false }, none)
      | some n =>
        match insert_attach fuel t0 key s n with
        | none => none
        | some t5 => some (t5, some n)

/-- Function `cf_rcrb_get_insert_vlock` (rcrb.c 212-315).  The lock stays held
on every return. -/
def cf_rcrb_get_insert_vlock (fuel : Nat) (tree : cf_rcrb_tree) (key : Nat)
    (malloc : Option Nat) : Option (cf_rcrb_tree × Option Nat) :=
  let t0 := { tree with lock := true }
  match insert_descend fuel t0 key t0.root (lft t0 t0.root) with
  | none => none
  | some s =>
    if s ≠ t0.root ∧ 0 = cf_digest_compare key (t0.mem s).key then
      some (t0, some s)
    else
      match malloc with
      | none => some (t0, none)
      | some n =>
        match insert_attach fuel t0 key s n with
        | none => none
        | some t5 => some (t5, some n)

/-- The loop `while (tree->sentinel != s->left) s = s->left` of
`cf_rcrb_successor`. -/
def successor_down : Nat → cf_rcrb_tree → Nat → Option Nat
  | 0, _, _ => none
  | fuel + 1, tree, s =>
    if tree.sentinel ≠ lft tree s then successor_down fuel tree (lft tree s) else some s

/-- The loop `while (n == s->right) { n = s; s = s->parent; }` of
`cf_rcrb_successor`: the final value of `s`. -/
def successor_up : Nat → cf_rcrb_tree → Nat → Nat → Option Nat
  | 0, _, _, _ => none
  | fuel + 1, tree, n, s =>
    if n = rgt tree s then successor_up fuel tree s (par tree s) else some s

/-- Function `cf_rcrb_successor` (rcrb.c 322-343). -/
def cf_rcrb_successor (fuel : Nat) (tree : cf_rcrb_tree) (n : Nat) : Option Nat :=
  if tree.sentinel ≠ rgt tree n then successor_down fuel tree (rgt tree n)
  else
    match successor_up fuel tree n (par tree n) with
    | none => none
    | some s => if tree.root = s then some tree.sentinel else some s

/-- The first block of an iteration of `cf_rcrb_deleterebalance` when `r` is a
left child (rcrb.c 355-361): the sibling `s`, after the rotation that makes it
BLACK when it is RED. -/
def delete_sibling_left (tree : cf_rcrb_tree) (r : Nat) : cf_rcrb_tree × Nat :=
  let s0 := rgt tree (par tree r)
  if col tree s0 = RED then
    let a := setColor tree s0 BLACK
    let b := setColor a (par a r) RED
    let c := cf_rcrb_rotate_left b (par b r)
    (c, rgt c (par c r))
  else (tree, s0)

/-- The second block of an iteration of `cf_rcrb_deleterebalance` when `r` is a
left child (rcrb.c 363-378), with sibling `s`: the new state and the new `r`. -/
def delete_cases_left (tree : cf_rcrb_tree) (r s : Nat) : cf_rcrb_tree × Nat :=
  if col tree (rgt tree s) ≠ RED ∧ col tree (lft tree s) ≠ RED then
    let t2 := setColor tree s RED
    (t2, par t2 r)
  else
    let us := if col tree (rgt tree s) ≠ RED then
        let a := setColor tree (lft tree s) BLACK
        let b := setColor a s RED
        let c := cf_rcrb_rotate_right b s
        (c, rgt c (par c r))
      else (tree, s)
    let t3 := setColor us.1 us.2 (col us.1 (par us.1 r))
    let t4 := setColor t3 (par t3 r) BLACK
    let t5 := setColor t4 (rgt t4 us.2) BLACK
    let t6 := cf_rcrb_rotate_left t5 (par t5 r)
    (t6, lft t6 t6.root)

/-- The first block of an iteration of `cf_rcrb_deleterebalance` when `r` is a
right child (rcrb.c 381-387). -/
def delete_sibling_right (tree : cf_rcrb_tree) (r : Nat) : cf_rcrb_tree × Nat :=
  let s0 := lft tree (par tree r)
  if col tree s0 = RED then
    let a := setColor tree s0 BLACK
    let b := setColor a (par a r) RED
    let c := cf_rcrb_rotate_right b (par b r)
    (c, lft c (par c r))
  else (tree, s0)

/-- The second block of an iteration of `cf_rcrb_deleterebalance` when `r` is a
right child (rcrb.c 389-404). -/
def delete_cases_right (tree : cf_rcrb_tree) (r s : Nat) : cf_rcrb_tree × Nat :=
  if col tree (rgt tree s) ≠ RED ∧ col tree (lft tree s) ≠ RED then
    let t2 := setColor tree s RED
    (t2, par t2 r)
  else
    let us := if col tree (lft tree s) ≠ RED then
        let a := setColor tree (rgt tree s) BLACK
        let b := setColor a s RED
        let c := cf_rcrb_rotate_left b s
        (c, lft c (par c r))
      else (tree, s)
    let t3 := setColor us.1 us.2 (col us.1 (par us.1 r))
    let t4 := setColor t3 (par t3 r) BLACK
    let t5 := setColor t4 (lft t4 us.2) BLACK
    let t6 := cf_rcrb_rotate_right t5 (par t5 r)
    (t6, lft t6 t6.root)

/-- One iteration of the loop of `cf_rcrb_deleterebalance` (rcrb.c 354-405):
the new state and the new value of `r`. -/
def deleterebalance_step (tree : cf_rcrb_tree) (r : Nat) : cf_rcrb_tree × Nat :=
  if r = lft tree (par tree r) then
    delete_cases_left (delete_sibling_left tree r).1 r (delete_sibling_left tree r).2
  else
    delete_cases_right (delete_sibling_right tree r).1 r (delete_sibling_right tree r).2

/-- Function `cf_rcrb_deleterebalance` (rcrb.c 348-410). -/
def cf_rcrb_deleterebalance : Nat → cf_rcrb_tree → Nat → Option cf_rcrb_tree
  | 0, _, _ => none
  | fuel + 1, tree, r =>
    if col tree r = BLACK ∧ lft tree tree.root ≠ r then
      cf_rcrb_deleterebalance fuel (deleterebalance_step tree r).1 (deleterebalance_step tree r).2
    else some (setColor tree r BLACK)

/-- The loop of `cf_rcrb_search_lockless` (rcrb.c 429-438); the outer `Option`
is the fuel, the inner one the returned pointer. -/
def search_loop : Nat → cf_rcrb_tree → Nat → Nat → Option (Option Nat)
  | 0, _, _, _ => none
  | fuel + 1, tree, key, s =>
    if s ≠ tree.sentinel then
      let c := cf_digest_compare key (tree.mem s).key
      if c ≠ 0 then search_loop fuel tree key (if c > 0 then lft tree s else rgt tree s)
      else some (some s)
    else some none

/-- Function `cf_rcrb_search_lockless` (rcrb.c 415-443). -/
def cf_rcrb_search_lockless (fuel : Nat) (tree : cf_rcrb_tree) (key : Nat) :
    Option (Option Nat) :=
  if lft tree tree.root = tree.sentinel then some none
  else search_loop fuel tree key (lft tree tree.root)

/-- Function `cf_rcrb_search` (rcrb.c 448-468): the new state and the returned
value pointer (0 for NULL). -/
def cf_rcrb_search (fuel : Nat) (tree : cf_rcrb_tree) (key : Nat) :
    Option (cf_rcrb_tree × Nat) :=
  let t0 := { tree with lock := true }
  match cf_rcrb_search_lockless fuel t0 key with
  | none => none
  | some none => some ({ t0 with lock := false }, 0)
  | some (some n) =>
    let v := (t0.mem n).value
    some ({ t0 with rc := cf_rc_reserve t0.rc v, lock := false }, v)

/-- The statements `cf_rc_release(v)` / destructor call / `free(node)` shared by
both branches of `cf_rcrb_delete` (rcrb.c 535-539, 550-554). -/
def consume (tree : cf_rcrb_tree) (node : Nat) : cf_rcrb_tree :=
  let v := (tree.mem node).value
  let rel := cf_rc_release tree.rc v
  { tree with
    rc := rel.1
    destroyed := if rel.2 = 0 then (v, tree.destructor_udata) :: tree.destroyed
                 else tree.destroyed
    freed := node :: tree.freed }

/-- The splice of `cf_rcrb_delete` (rcrb.c 504-512): `t->parent = s->parent` and
the redirection of the link that pointed to `s`. -/
def delete_splice (tree : cf_rcrb_tree) (s t : Nat) : cf_rcrb_tree :=
  let t1 := setParent tree t (par tree s)
  if t1.root = par t1 t then setLeft t1 t1.root t
  else if s = lft t1 (par t1 s) then setLeft t1 (par t1 s) t
  else setRight t1 (par t1 s) t

/-- The statements of `cf_rcrb_delete` that put `s` in the place of `r`
(rcrb.c 521-530). -/
def delete_replace (tree : cf_rcrb_tree) (r s : Nat) : cf_rcrb_tree :=
  let t1 := setLeft tree s (lft tree r)
  let t2 := setRight t1 s (rgt t1 r)
  let t3 := setParent t2 s (par t2 r)
  let t4 := setColor t3 s (col t3 r)
  let t5 := setParent t4 (rgt t4 r) s
  let t6 := setParent t5 (lft t5 r) s
  if r = lft t6 (par t6 r) then setLeft t6 (par t6 r) s else setRight t6 (par t6 r) s

/-- The statements of `cf_rcrb_delete` between the search and the decrement of
the counter (rcrb.c 503-556), for the node `r` found by the search: choice of
the node `s` to splice out and of its child `t`, the splice, the rebalancing
when `s` is BLACK, and the two branches `s != r` and `s == r`. -/
def delete_node (fuel : Nat) (t0 : cf_rcrb_tree) (r : Nat) : Option cf_rcrb_tree :=
  match (if t0.sentinel = lft t0 r ∨ t0.sentinel = rgt t0 r then some r
         else cf_rcrb_successor fuel t0 r) with
  | none => none
  | some s =>
    let t := if t0.sentinel = lft t0 s then rgt t0 s else lft t0 s
    let t1 := delete_splice t0 s t
    match (if col t1 s = BLACK then cf_rcrb_deleterebalance fuel t1 t else some t1) with
    | none => none
    | some t2 => some (if s ≠ r then consume (delete_replace t2 r s) r else consume t2 s)

/-- Function `cf_rcrb_delete` (rcrb.c 481-564).  `lock_ok` says whether
`pthread_mutex_lock` returned 0.  The result is the new state and the return
value (0, -1 or -2). -/
def cf_rcrb_delete (fuel : Nat) (tree : cf_rcrb_tree) (key : Nat) (lock_ok : Bool) :
    Option (cf_rcrb_tree × Int) :=
  if ¬ lock_ok then some (tree, -1)
  else
    let t0 := { tree with lock := true }
    match cf_rcrb_search_lockless fuel t0 key with
    | none => none
    | some none => some ({ t0 with lock := false }, -2)
    | some (some r) =>
      match delete_node fuel t0 r with
      | none => none
      | some t3 => some ({ t3 with elements := t3.elements - 1, lock := false }, 0)

/-- Function `cf_rcrb_create` (rcrb.c 569-607).  `tree_ok` says whether
`cf_rc_alloc` succeeded, `sentinel` and `root` are the results of the two
`calloc` calls, `mem` and `rc` the memory and the count table before the call.
A new reference-counted object starts with count 1. -/
def cf_rcrb_create (destructor_udata : Nat) (tree_ok : Bool) (sentinel root : Option Nat)
    (mem : Nat → cf_rcrb_node) (rc : Nat → Nat) : Option cf_rcrb_tree :=
  if ¬ tree_ok then none
  else
    match sentinel with
    | none => none
    | some sn =>
      let m1 : Nat → cf_rcrb_node := fun x => if x = sn then ⟨BLACK, 0, 0, sn, sn, sn⟩ else mem x
      match root with
      | none => none
      | some rt =>
        let m2 : Nat → cf_rcrb_node :=
          fun x => if x = rt then ⟨BLACK, 0, 0, sn, sn, sn⟩ else m1 x
        some { root := rt, sentinel := sn, elements := 0, lock := false,
               destructor_udata := destructor_udata, refcount := 1,
               mem := m2, rc := rc, destroyed := [], freed := [] }

/-- Function `cf_rcrb_size` (rcrb.c 636-644): the new state and the returned
`uint32_t`. -/
def cf_rcrb_size (tree : cf_rcrb_tree) : cf_rcrb_tree × Nat :=
  ({ tree with lock := false }, tree.elements % 4294967296)

/-! ## Abstract shape of the memory -/

/-- A finite binary tree of nodes, each with its address, colour, key and value;
`nil` stands for the sentinel. -/
inductive RTree where
  | nil
  | node (a : Nat) (c : Color) (l : RTree) (k v : Nat) (r : RTree)

/-- One level of the path from a position of a tree up to its top: the node
there (address, colour, key, value) and its other subtree.  `L` is a node whose
left child is the position, `R` one whose right child is. -/
inductive Frame where
  | L (a : Nat) (c : Color) (k v : Nat) (r : RTree)
  | R (a : Nat) (c : Color) (l : RTree) (k v : Nat)

/-- Address of the top node of a tree; the sentinel for `nil`. -/
def RTree.addr (sent : Nat) : RTree → Nat
  | .nil => sent
  | .node a _ _ _ _ _ => a

/-- Addresses of the nodes of a tree. -/
def RTree.addrs : RTree → List Nat
  | .nil => []
  | .node a _ l _ _ r => a :: (l.addrs ++ r.addrs)

/-- Colour of the top node of a tree; the sentinel is BLACK. -/
def RTree.color : RTree → Color
  | .nil => BLACK
  | .node _ c _ _ _ _ => c

/-- Number of nodes of a tree. -/
def RTree.size : RTree → Nat
  | .nil => 0
  | .node _ _ l _ _ r => l.size + r.size + 1

/-- The (key, value) pairs of a tree, left subtree first, then the node, then
the right subtree. -/
def RTree.toList : RTree → List (Nat × Nat)
  | .nil => []
  | .node _ _ l k v r => l.toList ++ (k, v) :: r.toList

/-- The keys of a tree, in the order of `toList`. -/
def RTree.keys : RTree → List Nat
  | .nil => []
  | .node _ _ l k _ r => l.keys ++ k :: r.keys

/-- Address of the node of a frame. -/
def Frame.addr : Frame → Nat
  | .L a _ _ _ _ => a
  | .R a _ _ _ _ => a

/-- Colour of the node of a frame. -/
def Frame.color : Frame → Color
  | .L _ c _ _ _ => c
  | .R _ c _ _ _ => c

/-- The other subtree of a frame. -/
def Frame.sib : Frame → RTree
  | .L _ _ _ _ r => r
  | .R _ _ l _ _ => l

/-- Put a tree in the position a frame leaves open. -/
def Frame.fill : Frame → RTree → RTree
  | .L a c k v r, t => .node a c t k v r
  | .R a c l k v, t => .node a c l k v t

/-- Addresses of a frame: its node and its other subtree. -/
def Frame.addrs (f : Frame) : List Nat := f.addr :: f.sib.addrs

/-- Rebuild the whole tree from a path (innermost frame first) and the tree at
the position. -/
def plug : List Frame → RTree → RTree
  | [], t => t
  | f :: rest, t => plug rest (f.fill t)

/-- Addresses of a path. -/
def ctxAddrs : List Frame → List Nat
  | [] => []
  | f :: rest => f.addrs ++ ctxAddrs rest

/-- Address of the parent of the position: the innermost frame, or the root
header. -/
def ctxPar (root : Nat) : List Frame → Nat
  | [] => root
  | f :: _ => f.addr

/-- Colour of the parent of the position; the root header is BLACK. -/
def ctxColor : List Frame → Color
  | [] => BLACK
  | f :: _ => f.color

/-- Memory `m` holds the nodes of a tree whose top node has parent `p`. -/
def RNodes (m : Nat → cf_rcrb_node) (sent : Nat) : Nat → RTree → Prop
  | _, .nil => True
  | p, .node a c l k v r =>
    m a = ⟨c, k, v, l.addr sent, r.addr sent, p⟩ ∧ RNodes m sent a l ∧ RNodes m sent a r

/-- Memory `m` holds the nodes of a path up to the root header, the open
position being occupied by address `hole`. -/
def RCtx (m : Nat → cf_rcrb_node) (sent root : Nat) : List Frame → Nat → Prop
  | [], hole => (m root).left = hole
  | .L a c k v r :: rest, hole =>
    m a = ⟨c, k, v, hole, r.addr sent, ctxPar root rest⟩ ∧ RNodes m sent a r ∧
      RCtx m sent root rest a
  | .R a c l k v :: rest, hole =>
    m a = ⟨c, k, v, l.addr sent, hole, ctxPar root rest⟩ ∧ RNodes m sent a l ∧
      RCtx m sent root rest a

/-- The memory of `tree` holds, below the root header, the tree obtained by
putting `t` at the end of the path `ctx`: the addresses are pairwise distinct
and differ from the sentinel and the root header, which are both BLACK, and
every node record has the colour, key, value and links the shape prescribes.
The sentinel's child links point to the sentinel itself and the right link of
the root header is the sentinel, as `cf_rcrb_create` sets them. -/
structure RepZ (tree : cf_rcrb_tree) (ctx : List Frame) (t : RTree) : Prop where
  nodup : (t.addrs ++ ctxAddrs ctx).Nodup
  sent_notin : tree.sentinel ∉ t.addrs ++ ctxAddrs ctx
  root_notin : tree.root ∉ t.addrs ++ ctxAddrs ctx
  root_ne_sent : tree.root ≠ tree.sentinel
  root_color : (tree.mem tree.root).color = BLACK
  sent_color : (tree.mem tree.sentinel).color = BLACK
  path : RCtx tree.mem tree.sentinel tree.root ctx (t.addr tree.sentinel)
  nodes : RNodes tree.mem tree.sentinel (ctxPar tree.root ctx) t
  sent_left : (tree.mem tree.sentinel).left = tree.sentinel
  sent_right : (tree.mem tree.sentinel).right = tree.sentinel
  root_right : (tree.mem tree.root).right = tree.sentinel

/-- The memory of `tree` holds the tree `t` below the root header
(`root->left` is the top node of `t`). -/
def Rep (tree : cf_rcrb_tree) (t : RTree) : Prop := RepZ tree [] t

/-- No RED node has a RED child. -/
def NoRedRed : RTree → Prop
  | .nil => True
  | .node _ c l _ _ r =>
    (c = RED → l.color = BLACK ∧ r.color = BLACK) ∧ NoRedRed l ∧ NoRedRed r

/-- Every path from the top of the tree to the sentinel crosses exactly `n`
BLACK nodes. -/
def BlackHeight : RTree → Nat → Prop
  | .nil, n => n = 0
  | .node _ c l _ _ r, n =>
    match c with
    | RED => BlackHeight l n ∧ BlackHeight r n
    | BLACK => ∃ m, n = m + 1 ∧ BlackHeight l m ∧ BlackHeight r m

/-- Key-ordering of the tree: every key of a left subtree is strictly greater
than the key of the node, every key of a right subtree strictly smaller. -/
def Ordered : RTree → Prop
  | .nil => True
  | .node _ _ l k _ r =>
    (∀ x ∈ l.keys, k < x) ∧ (∀ x ∈ r.keys, x < k) ∧ Ordered l ∧ Ordered r

/-- The red-black invariants: top node BLACK, no RED node with a RED parent,
equal number of BLACK nodes on all paths. -/
def RedBlack (t : RTree) : Prop :=
  t.color = BLACK ∧ NoRedRed t ∧ ∃ n, BlackHeight t n


/-- The search path of a key: go down from the position, to the left when the
key is greater than the key of the node, to the right when it is smaller; stop
at the node that holds the key, or at `nil`. -/
def descend (key : Nat) : List Frame → RTree → List Frame × RTree
  | ctx, .nil => (ctx, .nil)
  | ctx, .node a c l k v r =>
    if k < key then descend key (.L a c k v r :: ctx) l
    else if key < k then descend key (.R a c l k v :: ctx) r
    else (ctx, .node a c l k v r)

/-- A path is a search path of `key`: below an `L` frame the key is greater than
the key of the frame, below an `R` frame smaller. -/
def PathOf (key : Nat) : List Frame → Prop
  | [] => True
  | .L _ _ k _ _ :: rest => k < key ∧ PathOf key rest
  | .R _ _ _ k _ :: rest => key < k ∧ PathOf key rest

/-- Recolour the top node of a tree. -/
def RTree.paint (c : Color) : RTree → RTree
  | .nil => .nil
  | .node a _ l k v r => .node a c l k v r

/-- The nodes of a tree as (address, key, value), left subtree first, then the
node, then the right subtree. -/
def RTree.nodes : RTree → List (Nat × Nat × Nat)
  | .nil => []
  | .node a _ l k v r => l.nodes ++ (a, k, v) :: r.nodes

/-- Effect of one iteration of the insertion rebalancing loop on the shape: `f1`
is the frame of the parent, `f2` the frame of the grandparent, `t` the subtree of
the current node.  The result is the frames that replace `f1` and `f2` and the
subtree of the new current node. -/
def insFix : Frame → Frame → RTree → List Frame × RTree
  | .L p _ kp vp ps, .L g _ kg vg U, t =>
    if U.color = RED then
      ([], .node g RED (.node p BLACK t kp vp ps) kg vg (U.paint BLACK))
    else ([.L p BLACK kp vp (.node g RED ps kg vg U)], t)
  | .R p cp pl kp vp, .L g _ kg vg U, t =>
    if U.color = RED then
      ([], .node g RED (.node p BLACK pl kp vp t) kg vg (U.paint BLACK))
    else
      match t with
      | .nil => ([], .nil)
      | .node n _ l k v r => ([.L n BLACK k v (.node g RED r kg vg U)], .node p cp pl kp vp l)
  | .R p _ pl kp vp, .R g _ U kg vg, t =>
    if U.color = RED then
      ([], .node g RED (U.paint BLACK) kg vg (.node p BLACK pl kp vp t))
    else ([.R p BLACK (.node g RED U kg vg pl) kp vp], t)
  | .L p cp kp vp ps, .R g _ U kg vg, t =>
    if U.color = RED then
      ([], .node g RED (U.paint BLACK) kg vg (.node p BLACK t kp vp ps))
    else
      match t with
      | .nil => ([], .nil)
      | .node n _ l k v r => ([.R n BLACK (.node g RED U kg vg l) k v], .node p cp r kp vp ps)

/-- Invariant of the insertion rebalancing loop: the current node is RED, the
only possible RED-RED pair is the current node and its parent, all paths have
`H` BLACK nodes, and the top node is BLACK unless it is the current node. -/
def InsInv (ctx : List Frame) (t : RTree) (H : Nat) : Prop :=
  t.color = RED ∧ NoRedRed t ∧ NoRedRed (plug ctx (t.paint BLACK)) ∧
    BlackHeight (plug ctx t) H ∧ (ctx ≠ [] → (plug ctx t).color = BLACK)

/-- Two states differ in node memory only. -/
def MemOnly (s s' : cf_rcrb_tree) : Prop :=
  s'.root = s.root ∧ s'.sentinel = s.sentinel ∧ s'.elements = s.elements ∧ s'.lock = s.lock ∧
    s'.destructor_udata = s.destructor_udata ∧ s'.refcount = s.refcount ∧ s'.rc = s.rc ∧
    s'.destroyed = s.destroyed ∧ s'.freed = s.freed

/-- An address the allocator can return for a new node of the tree: it is not
the root header, not the sentinel and not a node of the tree. -/
def Fresh (tree : cf_rcrb_tree) (T : RTree) (n : Nat) : Prop :=
  n ≠ tree.root ∧ n ≠ tree.sentinel ∧ n ∉ T.addrs

/-- An example memory: root header at 1, sentinel at 2, a BLACK node at 3 with
key 20 and value 77, whose left child is a RED node at 4 with key 30 and value
88. -/
def exTree : cf_rcrb_tree :=
  { root := 1, sentinel := 2, elements := 2, lock := false, destructor_udata := 0,
    refcount := 1,
    mem := fun x =>
      if x = 1 then ⟨BLACK, 0, 0, 3, 2, 2⟩
      else if x = 3 then ⟨BLACK, 20, 77, 4, 2, 1⟩
      else if x = 4 then ⟨RED, 30, 88, 2, 2, 3⟩
      else ⟨BLACK, 0, 0, 2, 2, 2⟩,
    rc := fun x => if x = 77 then 1 else if x = 88 then 1 else 0,
    destroyed := [], freed := [] }

/-- The shape held by `exTree`. -/
def exShape : RTree :=
  .node 3 BLACK (.node 4 RED .nil 30 88 .nil) 20 77 .nil

/-- The caller's assignment `node->value = v` on a node returned by an insert
function. -/
def set_value (tree : cf_rcrb_tree) (node v : Nat) : cf_rcrb_tree :=
  { tree with mem := upd tree.mem node (fun n => { n with value := v }) }

/-- The caller's `pthread_mutex_unlock(vlock)` after an insert function. -/
def unlock (tree : cf_rcrb_tree) : cf_rcrb_tree := { tree with lock := false }

/-- Insert the keys of a list of (key, value, address returned by the
allocator) one after the other with `cf_rcrb_insert_vlock`, each time storing
the value in the returned node and releasing the lock. -/
def insert_all (fuel : Nat) : cf_rcrb_tree → List (Nat × Nat × Nat) → Option cf_rcrb_tree
  | tree, [] => some tree
  | tree, (k, v, n) :: rest =>
    match cf_rcrb_insert_vlock fuel tree k (some n) with
    | some (t1, some u) => insert_all fuel (unlock (set_value t1 u v)) rest
    | _ => none

/-- The shape after the value of the node at address `u` is set to `v`. -/
def RTree.setValue (u v : Nat) : RTree → RTree
  | .nil => .nil
  | .node a c l k w r =>
    .node a c (l.setValue u v) k (if a = u then v else w) (r.setValue u v)

/-- An example empty tree: root header at 1, sentinel at 2. -/
def exEmpty : cf_rcrb_tree :=
  { root := 1, sentinel := 2, elements := 0, lock := false, destructor_udata := 0,
    refcount := 1, mem := fun _ => ⟨BLACK, 0, 0, 2, 2, 2⟩, rc := fun _ => 1,
    destroyed := [], freed := [] }

/-- Effect on the shape of the second block of an iteration of the deletion
rebalancing loop: `f` is the frame of the parent, whose other subtree (the
sibling) has a BLACK top node, `t` the subtree of the current node.  The result
is the subtree that replaces the parent's subtree and whether the loop is
finished (`r` set to `root->left`). -/
def delFixB : Frame → RTree → RTree × Bool
  | .L p cp kp vp (.node s _ a sk sv b), t =>
    if a.color = BLACK ∧ b.color = BLACK then
      (.node p cp t kp vp (.node s RED a sk sv b), false)
    else if b.color = BLACK then
      match a with
      | .node x _ al xk xv ar =>
        (.node x cp (.node p BLACK t kp vp al) xk xv (.node s BLACK ar sk sv b), true)
      | .nil => (.nil, true)
    else (.node s cp (.node p BLACK t kp vp a) sk sv (b.paint BLACK), true)
  | .R p cp (.node s _ a sk sv b) kp vp, t =>
    if a.color = BLACK ∧ b.color = BLACK then
      (.node p cp (.node s RED a sk sv b) kp vp t, false)
    else if a.color = BLACK then
      match b with
      | .node y _ bl yk yv br =>
        (.node y cp (.node s BLACK a sk sv bl) yk yv (.node p BLACK br kp vp t), true)
      | .nil => (.nil, true)
    else (.node s cp (a.paint BLACK) sk sv (.node p BLACK b kp vp t), true)
  | _, _ => (.nil, true)

/-- Effect on the shape of one iteration of the deletion rebalancing loop: the
frames that replace the frame of the parent (one more frame after the rotation
for a RED sibling), the subtree at the end of these frames, and whether the
loop is finished. -/
def delFix (f : Frame) (t : RTree) : List Frame × RTree × Bool :=
  if f.sib.color = RED then
    match f with
    | .L p _ kp vp (.node s _ a sk sv b) => ([.L s BLACK sk sv b], delFixB (.L p RED kp vp a) t)
    | .R p _ (.node s _ a sk sv b) kp vp => ([.R s BLACK a sk sv], delFixB (.R p RED b kp vp) t)
    | _ => ([], .nil, true)
  else ([], delFixB f t)

/-- Invariant of the deletion rebalancing loop: the subtree of the current node
has no RED-RED pair below its top, the rest of the tree has none either, the top
node of the tree is BLACK unless it is the current node, and the paths through
the current node have one BLACK node less than the `H` of all other paths. -/
def DelInv (ctx : List Frame) (t : RTree) (H : Nat) : Prop :=
  NoRedRed (t.paint BLACK) ∧ NoRedRed (plug ctx .nil) ∧
    (ctx ≠ [] → (plug ctx t).color = BLACK) ∧
    ∃ h, BlackHeight t h ∧ ∀ t', BlackHeight t' (h + 1) → BlackHeight (plug ctx t') H

/-- Two states whose node records hold the same keys and values at every
address. -/
def KeepsData (s s' : cf_rcrb_tree) : Prop :=
  ∀ x, (s'.mem x).key = (s.mem x).key ∧ (s'.mem x).value = (s.mem x).value

/-- The path to the leftmost node of the subtree at a position: go down to the
left as long as there is a left child. -/
def leftmost : List Frame → RTree → List Frame × RTree
  | ctx, .nil => (ctx, .nil)
  | ctx, .node a c l k v r =>
    match l with
    | .nil => (ctx, .node a c .nil k v r)
    | .node a' c' l' k' v' r' => leftmost (.L a c k v r :: ctx) (.node a' c' l' k' v' r')

/-- The record `cf_rcrb_validate_data` (rcrb.c 792-798): `d` is the array of
collected keys, indexed from 0. -/
structure cf_rcrb_validate_data where
  max_depth : Nat
  digest_alloc_sz : Nat
  extra_digests : Nat
  n_digests : Nat
  d : Nat → Nat

/-- Function `cf_rcrb_validate_traverse` (rcrb.c 800-828): the new validation
data and the return value.  The parameter `color` is the colour of the parent
(`none` for the -1 of the first call); the statement `if (r->color == color)`
of the source has a body of comments only, so the parameter is carried along
and never looked at. -/
def cf_rcrb_validate_traverse : Nat → cf_rcrb_tree → Nat → Nat → Nat → Option Color →
    cf_rcrb_validate_data → Option (cf_rcrb_validate_data × Int)
  | 0, _, _, _, _, _, _ => none
  | fuel + 1, tree, r, sentinel, depth, _, vd =>
    let vd1 := if depth > vd.max_depth then { vd with max_depth := depth } else vd
    let vd2 :=
      if vd1.n_digests ≥ vd1.digest_alloc_sz then
        { vd1 with extra_digests := vd1.extra_digests + 1 }
      else
        { vd1 with
          d := fun i => if i = vd1.n_digests then (tree.mem r).key else vd1.d i
          n_digests := vd1.n_digests + 1 }
    match (if lft tree r ≠ sentinel then
        cf_rcrb_validate_traverse fuel tree (lft tree r) sentinel (depth + 1)
          (some (col tree r)) vd2
      else some (vd2, 0)) with
    | none => none
    | some (vd3, rv) =>
      if rv = 0 ∧ rgt tree r ≠ sentinel then
        cf_rcrb_validate_traverse fuel tree (rgt tree r) sentinel (depth + 1)
          (some (col tree r)) vd3
      else some (vd3, rv)

/-- Modelled from the spec: `qsort` of the C library with the comparison
`key_compar` (rcrb.c 784-788, `memcmp` of two digests): the entries in
ascending order. -/
def qsort (l : List Nat) : List Nat := l.insertionSort (· ≤ ·)

/-- The loop `for (i = 1; i < n_digests; i++)` of `cf_rcrb_validate_lockfree`
(rcrb.c 872-877) over the sorted keys: whether some entry equals the one before
it. -/
def adjacent_equal : List Nat → Bool
  | a :: b :: rest => (a == b) || adjacent_equal (b :: rest)
  | _ => false

/-- Function `cf_rcrb_validate_lockfree` (rcrb.c 832-890): the return value.
Address 0 is the NULL pointer.  The `malloc` of the validation data is taken to
succeed (the source does not test it); with a NULL `root->left` and a zero
counter the source goes on to the traversal, which reads through the NULL
pointer: no result. -/
def cf_rcrb_validate_lockfree (fuel : Nat) (tree : cf_rcrb_tree) : Option Int :=
  if tree.root = 0 then some 0
  else if lft tree tree.root = 0 ∧ tree.elements ≠ 0 then some (-1)
  else if lft tree tree.root = tree.sentinel ∧ tree.elements ≠ 0 then some (-1)
  else if lft tree tree.root = 0 then none
  else
    let vd : cf_rcrb_validate_data :=
      { max_depth := 0, digest_alloc_sz := tree.elements, extra_digests := 0, n_digests := 0,
        d := fun _ => 0 }
    match cf_rcrb_validate_traverse fuel tree (lft tree tree.root) tree.sentinel 1 none vd with
    | none => none
    | some (vd1, rv) =>
      let rv1 : Int :=
        if vd1.n_digests > 1 then
          if adjacent_equal (qsort ((List.range vd1.n_digests).map vd1.d)) then -1 else rv
        else rv
      some (if vd1.extra_digests ≠ 0 then -1 else rv1)

/-- Function `cf_rcrb_validate` (rcrb.c 895-906): the new state and the return
value (0 is success, -1 is failure). -/
def cf_rcrb_validate (fuel : Nat) (tree : cf_rcrb_tree) : Option (cf_rcrb_tree × Int) :=
  let t0 := { tree with lock := true }
  match cf_rcrb_validate_lockfree fuel t0 with
  | none => none
  | some rv => some ({ t0 with lock := false }, rv)

/-- An example memory with a RED node below a RED node: root header at 1,
sentinel at 2, a BLACK node at 3 (key 20), its left child a RED node at 4 (key
30), whose left child is a RED node at 5 (key 40); the counter is 3. -/
def exRedRed : cf_rcrb_tree :=
  { root := 1, sentinel := 2, elements := 3, lock := false, destructor_udata := 0,
    refcount := 1,
    mem := fun x =>
      if x = 1 then ⟨BLACK, 0, 0, 3, 2, 2⟩
      else if x = 3 then ⟨BLACK, 20, 77, 4, 2, 1⟩
      else if x = 4 then ⟨RED, 30, 88, 5, 2, 3⟩
      else if x = 5 then ⟨RED, 40, 99, 2, 2, 4⟩
      else ⟨BLACK, 0, 0, 2, 2, 2⟩,
    rc := fun _ => 1,
    destroyed := [], freed := [] }

/-- The shape held by `exRedRed`. -/
def exRedRedShape : RTree :=
  .node 3 BLACK (.node 4 RED (.node 5 RED .nil 40 99 .nil) 30 88 .nil) 20 77 .nil

/-- The record `cf_rcrb_value_array` (rcrb.c 651-655): `values` is the array of
collected (key, value) pairs, indexed from 0.  `room` is not a member of the
record: it is the number of entries the memory the record lies in has room
for. -/
structure cf_rcrb_value_array where
  alloc_sz : Nat
  pos : Nat
  values : Nat → Nat × Nat
  room : Nat

/-- Function `cf_rcrb_reduce_traverse` (rcrb.c 661-682): the new state (the
reference counts change) and the new array.  The store into `values[pos]` has
no result when the entry lies beyond the memory of the array. -/
def cf_rcrb_reduce_traverse : Nat → cf_rcrb_tree → Nat → Nat → cf_rcrb_value_array →
    Option (cf_rcrb_tree × cf_rcrb_value_array)
  | 0, _, _, _, _ => none
  | fuel + 1, tree, r, sentinel, v_a =>
    if v_a.pos ≥ v_a.alloc_sz then some (tree, v_a)
    else
      match (if (tree.mem r).value ≠ 0 then
          (if v_a.pos < v_a.room then
            some (({ tree with rc := cf_rc_reserve tree.rc (tree.mem r).value } : cf_rcrb_tree),
              ({ v_a with
                values := fun i => if i = v_a.pos then ((tree.mem r).key, (tree.mem r).value)
                                   else v_a.values i
                pos := v_a.pos + 1 } : cf_rcrb_value_array))
           else none)
        else some (tree, v_a)) with
      | none => none
      | some s1 =>
        match (if lft s1.1 r ≠ sentinel then
            cf_rcrb_reduce_traverse fuel s1.1 (lft s1.1 r) sentinel s1.2
          else some s1) with
        | none => none
        | some s2 =>
          if rgt s2.1 r ≠ sentinel then
            cf_rcrb_reduce_traverse fuel s2.1 (rgt s2.1 r) sentinel s2.2
          else some s2

/-- The size `sz` of the value array (rcrb.c 701), a `uint`: the sum is cut to
32 bits.  `sizeof_value_array` and `sizeof_value` are the sizes of the header
`cf_rcrb_value_array` and of one entry `cf_rcrb_value`. -/
def reduce_sz (sizeof_value_array sizeof_value elements : Nat) : Nat :=
  (sizeof_value_array + sizeof_value * elements) % 2 ^ 32

/-- The number of entries the memory chosen for the value array (rcrb.c
702-710) has room for: the 64 KiB buffer on the stack, or the `sz` bytes from
`CF_MALLOC` when `sz` is larger than that. -/
def reduce_room (sizeof_value_array sizeof_value elements : Nat) : Nat :=
  ((if reduce_sz sizeof_value_array sizeof_value elements > 64 * 1024 then
      reduce_sz sizeof_value_array sizeof_value elements
    else 64 * 1024) - sizeof_value_array) / sizeof_value

/-- Function `cf_rcrb_reduce` (rcrb.c 685-737): the new state and the sequence
of invocations `cb(key, value, udata)` in the order they are made.  Address 0
is the NULL pointer.  `sizeof_value_array` and `sizeof_value` are the sizes of
the two records of rcrb.c 646-655, `malloc_ok` says whether `CF_MALLOC`, when
it is called, returns memory; when it does not, the source returns without
unlocking.  The member `alloc_sz` is a `uint`. -/
def cf_rcrb_reduce (fuel : Nat) (tree : cf_rcrb_tree) (udata : Nat)
    (sizeof_value_array sizeof_value : Nat) (malloc_ok : Bool) :
    Option (cf_rcrb_tree × List (Nat × Nat × Nat)) :=
  let t0 := { tree with lock := true }
  if t0.elements = 0 then some ({ t0 with lock := false }, [])
  else if reduce_sz sizeof_value_array sizeof_value t0.elements > 64 * 1024 ∧ ¬ malloc_ok then
    some (t0, [])
  else
    let v_a : cf_rcrb_value_array :=
      { alloc_sz := t0.elements % 2 ^ 32, pos := 0, values := fun _ => (0, 0),
        room := reduce_room sizeof_value_array sizeof_value t0.elements }
    match (if t0.root ≠ 0 ∧ lft t0 t0.root ≠ 0 ∧ lft t0 t0.root ≠ t0.sentinel then
        cf_rcrb_reduce_traverse fuel t0 (lft t0 t0.root) t0.sentinel v_a
      else some (t0, v_a)) with
    | none => none
    | some s1 =>
      some ({ s1.1 with lock := false },
        (List.range s1.2.pos).map (fun i => ((s1.2.values i).1, (s1.2.values i).2, udata)))

/-- Function `cf_rcrb_reduce_sync_traverse` (rcrb.c 742-753): the invocations of
the callback so far, in order. -/
def cf_rcrb_reduce_sync_traverse : Nat → cf_rcrb_tree → Nat → Nat → Nat →
    List (Nat × Nat × Nat) → Option (List (Nat × Nat × Nat))
  | 0, _, _, _, _, _ => none
  | fuel + 1, tree, r, sentinel, udata, calls =>
    let c1 := if (tree.mem r).value ≠ 0 then
        calls ++ [((tree.mem r).key, (tree.mem r).value, udata)]
      else calls
    match (if lft tree r ≠ sentinel then
        cf_rcrb_reduce_sync_traverse fuel tree (lft tree r) sentinel udata c1
      else some c1) with
    | none => none
    | some c2 =>
      if rgt tree r ≠ sentinel then
        cf_rcrb_reduce_sync_traverse fuel tree (rgt tree r) sentinel udata c2
      else some c2

/-- Function `cf_rcrb_reduce_sync` (rcrb.c 756-776): the new state and the
sequence of invocations of the callback. -/
def cf_rcrb_reduce_sync (fuel : Nat) (tree : cf_rcrb_tree) (udata : Nat) :
    Option (cf_rcrb_tree × List (Nat × Nat × Nat)) :=
  let t0 := { tree with lock := true }
  match (if t0.root ≠ 0 ∧ lft t0 t0.root ≠ 0 ∧ lft t0 t0.root ≠ t0.sentinel then
      cf_rcrb_reduce_sync_traverse fuel t0 (lft t0 t0.root) t0.sentinel udata []
    else some []) with
  | none => none
  | some calls => some ({ t0 with lock := false }, calls)

/-- The (key, value) pairs of a tree in pre-order: the node, then its left
subtree, then its right subtree. -/
def RTree.prepairs : RTree → List (Nat × Nat)
  | .nil => []
  | .node _ _ l k v r => (k, v) :: (l.prepairs ++ r.prepairs)

/-- The number of nodes of a tree that hold a value. -/
def RTree.valued (t : RTree) : Nat := (t.prepairs.filter (fun kv => kv.2 ≠ 0)).length

/-- What `cf_rcrb_reduce_traverse` does with one node, on the reference counts,
the position and the array. -/
def reduce_step (s : (Nat → Nat) × Nat × (Nat → Nat × Nat)) (kv : Nat × Nat) :
    (Nat → Nat) × Nat × (Nat → Nat × Nat) :=
  if kv.2 ≠ 0 then
    (cf_rc_reserve s.1 kv.2, s.2.1 + 1, fun i => if i = s.2.1 then kv else s.2.2 i)
  else s

/-- Function `cf_rcrb_purge` (rcrb.c 610-634): the children first, then the
release of the value, the destructor call and the `free` of the node. -/
def cf_rcrb_purge : Nat → cf_rcrb_tree → Nat → Option cf_rcrb_tree
  | 0, _, _ => none
  | fuel + 1, tree, r =>
    if r = tree.sentinel then some tree
    else
      match cf_rcrb_purge fuel tree (lft tree r) with
      | none => none
      | some t1 =>
        match cf_rcrb_purge fuel t1 (rgt t1 r) with
        | none => none
        | some t2 => some (consume t2 r)

/-- Function `cf_rcrb_release` (rcrb.c 910-933): the new state and the return
value.  `cf_rc_release(tree)` decrements the tree's own count `refcount`.  The
parameter `destructor_udata` is not used by the source.  After the purge the
root header and the sentinel are freed; the source then zeroes and frees the
tree object itself, whose fields are kept here as they were at that point. -/
def cf_rcrb_release (fuel : Nat) (tree : cf_rcrb_tree) (_destructor_udata : Nat) :
    Option (cf_rcrb_tree × Int) :=
  let t0 := { tree with refcount := tree.refcount - 1 }
  if t0.refcount ≠ 0 then some (t0, 1)
  else
    let t1 := { t0 with lock := true }
    match cf_rcrb_purge fuel t1 (lft t1 t1.root) with
    | none => none
    | some t2 =>
      some ({ t2 with freed := t2.sentinel :: t2.root :: t2.freed, lock := false }, 0)

/-- The values of a tree in the order of the purge: left subtree, right
subtree, node. -/
def RTree.postvalues : RTree → List Nat
  | .nil => []
  | .node _ _ l _ v r => l.postvalues ++ r.postvalues ++ [v]

/-- The addresses of a tree in the order of the purge. -/
def RTree.postaddrs : RTree → List Nat
  | .nil => []
  | .node a _ l _ _ r => l.postaddrs ++ r.postaddrs ++ [a]

/-- The release of one value by the tree: the count goes down, and the
destructor call is logged when it reached zero. -/
def release_step (udata : Nat) (s : (Nat → Nat) × List (Nat × Nat)) (v : Nat) :
    (Nat → Nat) × List (Nat × Nat) :=
  ((cf_rc_release s.1 v).1,
   if (cf_rc_release s.1 v).2 = 0 then (v, udata) :: s.2 else s.2)

/-! ## The plain tree (rb.c) -/

/-- The record `cf_rb_node`, with the fields `rb.c` uses: colour, key (a digest,
as the number its bytes spell in big-endian order), value pointer and the three
links. -/
structure cf_rb_node where
  color : Color
  key : Nat
  value : Nat
  left : Nat
  right : Nat
  parent : Nat
deriving DecidableEq

/-- The record `cf_rb_tree` together with the memory it lives in: `mem` is node
memory, `freed` the log of `free` calls on nodes and `lock` the state of the
tree mutex. -/
structure cf_rb_tree where
  root : Nat
  sentinel : Nat
  lock : Bool
  mem : Nat → cf_rb_node
  freed : List Nat

/-- The C library's `memcmp` on two digests: the sign of the byte-lexicographic
comparison. -/
def memcmp (k1 k2 : Nat) : Int :=
  if k1 < k2 then -1 else if k1 = k2 then 0 else 1

/-- Write through a node pointer of the plain tree. -/
def rb_upd (tree : cf_rb_tree) (a : Nat) (f : cf_rb_node → cf_rb_node) : cf_rb_tree :=
  { tree with mem := fun x => if x = a then f (tree.mem x) else tree.mem x }

/-- Function `cf_rb_rotate_left` (rb.c 24-44). -/
def cf_rb_rotate_left (tree : cf_rb_tree) (r : Nat) : cf_rb_tree :=
  let s := (tree.mem r).right
  let t1 := rb_upd tree r (fun n => { n with right := (tree.mem s).left })
  let t2 := if (t1.mem s).left ≠ t1.sentinel
            then rb_upd t1 (t1.mem s).left (fun n => { n with parent := r }) else t1
  let t3 := rb_upd t2 s (fun n => { n with parent := (t2.mem r).parent })
  let t4 := if r = (t3.mem (t3.mem r).parent).left
            then rb_upd t3 (t3.mem r).parent (fun n => { n with left := s })
            else rb_upd t3 (t3.mem r).parent (fun n => { n with right := s })
  let t5 := rb_upd t4 s (fun n => { n with left := r })
  rb_upd t5 r (fun n => { n with parent := s })

/-- Function `cf_rb_rotate_right` (rb.c 49-69). -/
def cf_rb_rotate_right (tree : cf_rb_tree) (r : Nat) : cf_rb_tree :=
  let s := (tree.mem r).left
  let t1 := rb_upd tree r (fun n => { n with left := (tree.mem s).right })
  let t2 := if (t1.mem s).right ≠ t1.sentinel
            then rb_upd t1 (t1.mem s).right (fun n => { n with parent := r }) else t1
  let t3 := rb_upd t2 s (fun n => { n with parent := (t2.mem r).parent })
  let t4 := if r = (t3.mem (t3.mem r).parent).left
            then rb_upd t3 (t3.mem r).parent (fun n => { n with left := s })
            else rb_upd t3 (t3.mem r).parent (fun n => { n with right := s })
  let t5 := rb_upd t4 s (fun n => { n with right := r })
  rb_upd t5 r (fun n => { n with parent := s })

/-- The descent loop of `cf_rb_insert` (rb.c 96-99): the final value of `s`.
The loop has no exit on an equal key. -/
def rb_insert_descend : Nat → cf_rb_tree → Nat → Nat → Nat → Option Nat
  | 0, _, _, _, _ => none
  | fuel + 1, tree, key, s, t =>
    if t ≠ tree.sentinel then
      rb_insert_descend fuel tree key t
        (if 0 ≤ memcmp key (tree.mem t).key then (tree.mem t).left else (tree.mem t).right)
    else some s

/-- One iteration of the rebalancing loop of `cf_rb_insert` (rb.c 118-151): the
new state and the new value of `n`.  In the second branch the grandparent of a
node with a RED uncle is coloured BLACK (rb.c 140). -/
def rb_insert_rebalance_step (tree : cf_rb_tree) (n : Nat) : cf_rb_tree × Nat :=
  let p := (tree.mem n).parent
  let g := (tree.mem p).parent
  if p = (tree.mem g).left then
    let s := (tree.mem g).right
    if (tree.mem s).color = RED then
      let t1 := rb_upd tree (tree.mem n).parent (fun x => { x with color := BLACK })
      let t2 := rb_upd t1 s (fun x => { x with color := BLACK })
      let t3 := rb_upd t2 (t2.mem (t2.mem n).parent).parent (fun x => { x with color := RED })
      (t3, (t3.mem (t3.mem n).parent).parent)
    else
      let tn := if n = (tree.mem p).right then (cf_rb_rotate_left tree p, p) else (tree, n)
      let t2 := rb_upd tn.1 (tn.1.mem tn.2).parent (fun x => { x with color := BLACK })
      let t3 := rb_upd t2 (t2.mem (t2.mem tn.2).parent).parent (fun x => { x with color := RED })
      (cf_rb_rotate_right t3 (t3.mem (t3.mem tn.2).parent).parent, tn.2)
  else
    let s := (tree.mem g).left
    if (tree.mem s).color = RED then
      let t1 := rb_upd tree (tree.mem n).parent (fun x => { x with color := BLACK })
      let t2 := rb_upd t1 s (fun x => { x with color := BLACK })
      let t3 := rb_upd t2 (t2.mem (t2.mem n).parent).parent (fun x => { x with color := BLACK })
      (t3, (t3.mem (t3.mem n).parent).parent)
    else
      let tn := if n = (tree.mem p).left then (cf_rb_rotate_right tree p, p) else (tree, n)
      let t2 := rb_upd tn.1 (tn.1.mem tn.2).parent (fun x => { x with color := BLACK })
      let t3 := rb_upd t2 (t2.mem (t2.mem tn.2).parent).parent (fun x => { x with color := RED })
      (cf_rb_rotate_left t3 (t3.mem (t3.mem tn.2).parent).parent, tn.2)

/-- The rebalancing loop `while (CF_RB_RED == n->parent->color)` of
`cf_rb_insert` (rb.c 117-152). -/
def rb_insert_rebalance : Nat → cf_rb_tree → Nat → Option cf_rb_tree
  | 0, _, _ => none
  | fuel + 1, tree, n =>
    if (tree.mem (tree.mem n).parent).color = RED then
      rb_insert_rebalance fuel (rb_insert_rebalance_step tree n).1
        (rb_insert_rebalance_step tree n).2
    else some tree

/-- The statements of `cf_rb_insert` that link the node `n` below `s`
(rb.c 110-114). -/
def rb_insert_link (tree : cf_rb_tree) (s n : Nat) : cf_rb_tree :=
  if s = tree.root ∨ 0 < memcmp (tree.mem n).key (tree.mem s).key
  then rb_upd tree s (fun x => { x with left := n })
  else rb_upd tree s (fun x => { x with right := n })

/-- Function `cf_rb_insert` (rb.c 74-158).  `digest` is the result of
`cf_digest_compute` on the key, `calloc` the result of the allocation (`none`
for NULL; the new record is zeroed, 0 being NULL).  The result is the new state
and the returned node pointer (`none` for NULL). -/
def cf_rb_insert (fuel : Nat) (tree : cf_rb_tree) (digest value : Nat) (calloc : Option Nat) :
    Option (cf_rb_tree × Option Nat) :=
  match calloc with
  | none => some (tree, none)
  | some n =>
    let t0 : cf_rb_tree :=
      { tree with
        mem := fun x => if x = n then ⟨RED, digest, value, tree.sentinel, tree.sentinel, 0⟩
                        else tree.mem x
        lock := true }
    match rb_insert_descend fuel t0 digest t0.root (t0.mem t0.root).left with
    | none => none
    | some s =>
      let t1 := rb_upd t0 n (fun x => { x with parent := s })
      if s ≠ t1.root ∧ 0 = memcmp (t1.mem n).key (t1.mem s).key then
        some ({ t1 with freed := n :: t1.freed, lock := false }, none)
      else
        match rb_insert_rebalance fuel (rb_insert_link t1 s n) n with
        | none => none
        | some t3 =>
          let t4 := rb_upd t3 (t3.mem t3.root).left (fun x => { x with color := BLACK })
          some ({ t4 with lock := false }, some n)

/-- Function `cf_rb_create` (rb.c 369-399).  `tree_ok` says whether the
allocation of the tree object and the initialisation of its mutex succeeded,
`sentinel` and `root` are the results of the two `calloc` calls, `mem` the
memory before the call. -/
def cf_rb_create (tree_ok : Bool) (sentinel root : Option Nat) (mem : Nat → cf_rb_node) :
    Option cf_rb_tree :=
  if ¬ tree_ok then none
  else
    match sentinel with
    | none => none
    | some sn =>
      let m1 : Nat → cf_rb_node := fun x => if x = sn then ⟨BLACK, 0, 0, sn, sn, sn⟩ else mem x
      match root with
      | none => none
      | some rt =>
        let m2 : Nat → cf_rb_node := fun x => if x = rt then ⟨BLACK, 0, 0, sn, sn, sn⟩ else m1 x
        some { root := rt, sentinel := sn, lock := false, mem := m2, freed := [] }

/-- A caller that inserts digests one after the other, each with the address
its node is allocated at and the value 0, and stops at the first insertion that
returns NULL. -/
def rb_insert_all (fuel : Nat) : cf_rb_tree → List (Nat × Nat) → Option cf_rb_tree
  | tree, [] => some tree
  | tree, (digest, n) :: rest =>
    match cf_rb_insert fuel tree digest 0 (some n) with
    | some (t, some _) => rb_insert_all fuel t rest
    | _ => none

/-- A caller that creates a plain tree (sentinel at address 2, root header at
address 1, the memory otherwise zeroed) and inserts the digests of a list. -/
def rb_build (fuel : Nat) (l : List (Nat × Nat)) : Option cf_rb_tree :=
  match cf_rb_create true (some 2) (some 1) (fun _ => ⟨BLACK, 0, 0, 0, 0, 0⟩) with
  | none => none
  | some t => rb_insert_all fuel t l

/-- Memory `m` of the plain tree holds the nodes of `t` with parent link `p`. -/
def RbNodes (m : Nat → cf_rb_node) (sent : Nat) : Nat → RTree → Prop
  | _, .nil => True
  | p, .node a c l k v r =>
    m a = ⟨c, k, v, l.addr sent, r.addr sent, p⟩ ∧ RbNodes m sent a l ∧ RbNodes m sent a r

/-- The memory of the plain tree holds the tree `t` below the root header: the
addresses are pairwise distinct and differ from the sentinel and the root
header, which are both BLACK, `root->left` is the top node of `t` and every node
record has the colour, key, value and links the shape prescribes. -/
structure RbRep (tree : cf_rb_tree) (t : RTree) : Prop where
  nodup : t.addrs.Nodup
  sent_notin : tree.sentinel ∉ t.addrs
  root_notin : tree.root ∉ t.addrs
  root_ne_sent : tree.root ≠ tree.sentinel
  root_color : (tree.mem tree.root).color = BLACK
  sent_color : (tree.mem tree.sentinel).color = BLACK
  top : (tree.mem tree.root).left = t.addr tree.sentinel
  nodes : RbNodes tree.mem tree.sentinel tree.root t

/-- The shape of the plain tree built by inserting the digests 50, 40, 30, 20
and 10 in this order, the nodes being allocated at the addresses 3 to 7. -/
def exRbBefore : RTree :=
  .node 4 BLACK (.node 3 BLACK .nil 50 0 .nil) 40 0
    (.node 6 BLACK (.node 5 RED .nil 30 0 .nil) 20 0 (.node 7 RED .nil 10 0 .nil))

/-- The shape of that tree after the insertion of the digest 5 at address 8. -/
def exRbAfter : RTree :=
  .node 4 BLACK (.node 3 BLACK .nil 50 0 .nil) 40 0
    (.node 6 BLACK (.node 5 BLACK .nil 30 0 .nil) 20 0
      (.node 7 BLACK .nil 10 0 (.node 8 RED .nil 5 0 .nil)))

/-- The shape of the plain tree built by inserting the digests 20 and 30 at the
addresses 3 and 4: the node of 20 has the node of 30 as its left child. -/
def exRbPair : RTree :=
  .node 3 BLACK (.node 4 RED .nil 30 0 .nil) 20 0 .nil

/-- The shape of that tree after a second insertion of the digest 20, at
address 5. -/
def exRbTwice : RTree :=
  .node 5 BLACK (.node 4 RED .nil 30 0 .nil) 20 0 (.node 3 RED .nil 20 0 .nil)

/-- The node memory of a plain tree seen as memory of the reference-counted
tree: the same records at the same addresses, the same root header and
sentinel. -/
def rb_as_rcrb (t : cf_rb_tree) : cf_rcrb_tree :=
  { root := t.root, sentinel := t.sentinel, elements := 0, lock := t.lock,
    destructor_udata := 0, refcount := 1,
    mem := fun x => ⟨(t.mem x).color, (t.mem x).key, (t.mem x).value, (t.mem x).left,
      (t.mem x).right, (t.mem x).parent⟩,
    rc := fun _ => 0, destroyed := [], freed := t.freed }

/-- The plain tree `exRbBefore` with a RED node for the digest 5 attached at
address 8 below the node of 10 (address 7), as `cf_rb_insert` has it when it
enters its rebalancing loop. -/
def exRbAttached : cf_rb_tree :=
  { root := 1, sentinel := 2, lock := true, freed := [],
    mem := fun x =>
      if x = 1 then ⟨BLACK, 0, 0, 4, 2, 2⟩
      else if x = 3 then ⟨BLACK, 50, 0, 2, 2, 4⟩
      else if x = 4 then ⟨BLACK, 40, 0, 3, 6, 1⟩
      else if x = 5 then ⟨RED, 30, 0, 2, 2, 6⟩
      else if x = 6 then ⟨BLACK, 20, 0, 5, 7, 4⟩
      else if x = 7 then ⟨RED, 10, 0, 2, 8, 6⟩
      else if x = 8 then ⟨RED, 5, 0, 2, 2, 7⟩
      else ⟨BLACK, 0, 0, 2, 2, 2⟩ }

/-- The shape held by `exRbAttached`. -/
def exRbAttachedShape : RTree :=
  .node 4 BLACK (.node 3 BLACK .nil 50 0 .nil) 40 0
    (.node 6 BLACK (.node 5 RED .nil 30 0 .nil) 20 0
      (.node 7 RED .nil 10 0 (.node 8 RED .nil 5 0 .nil)))

/-! ## Wire messages (msg.c) -/

/-- The enumeration `field_type` of the header `cf.h`, with the constants that
`msg.c` names. -/
inductive field_type where
  | M_FT_INT32
  | M_FT_UINT32
  | M_FT_INT64
  | M_FT_UINT64
  | M_FT_STR
  | M_FT_BUF
  | M_FT_ARRAY
  | M_FT_MESSAGE
deriving DecidableEq

/-- One row `msg_desc` of a message descriptor: field id and field type. -/
structure msg_desc where
  id : Nat
  type : field_type

/-- The record `msg_field` with the members `msg.c` uses.  The integer members
of the union `u` share their storage: `u_int` is the 64-bit number held there on
a little-endian host, of which `u.i32` and `u.ui32` are the lower 32 bits.
`u_buf` is the sequence of bytes at the pointer `u.buf` (or `u.str`). -/
structure msg_field where
  id : Nat
  type : field_type
  field_len : Nat
  is_valid : Bool
  is_set : Bool
  is_copy : Bool
  u_int : Nat
  u_buf : List Nat

/-- The record `msg`: the number of fields `len` and the field table `f`. -/
structure msg where
  len : Nat
  f : Nat → msg_field

/-- The `n` bytes that spell `x` (modulo `256 ^ n`) in big-endian order. -/
def be_bytes : Nat → Nat → List Nat
  | 0, _ => []
  | n + 1, x => (x / 256 ^ n % 256) :: be_bytes n x

/-- The number a sequence of bytes spells in big-endian order. -/
def be_read (bs : List Nat) : Nat := bs.foldl (fun a b => a * 256 + b) 0

/-- Function `msg_create` (msg.c 21-80): the new message and the return value 0;
`mem` is the content of the memory the field table is placed in.  The assertion
on an empty descriptor makes the call fail. -/
def msg_create (md : List msg_desc) (mem : Nat → msg_field) : Option (msg × Int) :=
  if md.length = 0 then none
  else
    let max_id := md.foldl (fun a d => if d.id ≥ a then d.id else a) 0 + 1
    let f0 : Nat → msg_field :=
      fun i => if i < max_id then { mem i with is_valid := false } else mem i
    let f1 : Nat → msg_field :=
      md.foldl (fun f d => fun x =>
        if x = d.id then { f x with id := d.id, type := d.type, is_set := false, is_valid := true }
        else f x) f0
    some ({ len := max_id, f := f1 }, 0)

/-- The macro `htonll_p` (msg.c 111-113) on a little-endian host, from a 64-bit
union member to the buffer: the upper word first, each word in network order. -/
def htonll_p_store (x : Nat) : List Nat :=
  be_bytes 4 (x / 2 ^ 32 % 2 ^ 32) ++ be_bytes 4 (x % 2 ^ 32)

/-- The macro `htonll_p` (msg.c 111-113) on a little-endian host, from the buffer
to a 64-bit union member: the lower word is read from the bytes 4 to 7, the
upper word from the bytes 0 to 3. -/
def htonll_p_load (bs : List Nat) : Nat :=
  be_read ((bs.drop 4).take 4) + 2 ^ 32 * be_read (bs.take 4)

/-- The switch of `msg_parse` (msg.c 165-196) for a field found in the
message, `bs` being the bytes at `buf` and `flen` the length read from the
wire.  A read beyond the bytes supplied has no result. -/
def msg_parse_value (mf : msg_field) (bs : List Nat) (flen : Nat) (copy : Bool) :
    Option msg_field :=
  match mf.type with
  | .M_FT_INT32 | .M_FT_UINT32 =>
    if bs.length < 4 then none
    else some { mf with u_int := mf.u_int / 2 ^ 32 * 2 ^ 32 + be_read (bs.take 4) }
  | .M_FT_INT64 | .M_FT_UINT64 =>
    if bs.length < 8 then none
    else some { mf with u_int := htonll_p_load bs }
  | .M_FT_STR | .M_FT_BUF =>
    if copy then
      if bs.length < flen then none
      else some { mf with field_len := flen, u_buf := bs.take flen, is_copy := true }
    else some { mf with field_len := flen, u_buf := bs.take flen, is_copy := false }
  | .M_FT_ARRAY | .M_FT_MESSAGE => some mf

/-- One iteration of the loop of `msg_parse` (msg.c 136-200), `bs` being the
bytes at `buf`: the new message and the number of bytes `buf` advances by.
`code` gives the numeric values of the enumeration `field_type`. -/
def msg_parse_step (code : field_type → Nat) (m : msg) (bs : List Nat) (copy : Bool) :
    Option (msg × Nat) :=
  match bs with
  | b0 :: b1 :: b2 :: b3 :: b4 :: b5 :: rest =>
    let id := (b0 <<< 8) ||| b1
    let flen := (b3 <<< 16) ||| (b4 <<< 8) ||| b5
    if id < m.len ∧ (m.f id).is_valid = true ∧ b2 = code (m.f id).type then
      match msg_parse_value (m.f id) rest flen copy with
      | none => none
      | some mf =>
        some ({ m with f := fun x => if x = id then { mf with is_set := true } else m.f x },
          6 + flen)
    else some (m, 6 + flen)
  | _ => none

/-- The loop `while (buf < eob)` of `msg_parse`: `bs` is the sequence of bytes
at `buf` and `n` the distance from `buf` to `eob` (0 when `buf` is at or beyond
`eob`). -/
def msg_parse_loop : Nat → (field_type → Nat) → msg → List Nat → Nat → Bool → Option msg
  | 0, _, _, _, _, _ => none
  | fuel + 1, code, m, bs, n, copy =>
    if 0 < n then
      match msg_parse_step code m bs copy with
      | none => none
      | some (m1, k) => msg_parse_loop fuel code m1 (bs.drop k) (n - k) copy
    else some m

/-- Function `msg_parse` (msg.c 119-205): the new message and the return value.
`buf` holds the bytes of the buffer, at least `buflen` of them.  The sum
`len + 4` is computed in 32 bits. -/
def msg_parse (fuel : Nat) (code : field_type → Nat) (m : msg) (buf : List Nat) (buflen : Nat)
    (copy : Bool) : Option (msg × Int) :=
  if buf.length < buflen then none
  else if buflen < 4 then some (m, -2)
  else
    let len := be_read (buf.take 4)
    if buflen < (len + 4) % 2 ^ 32 then some (m, -2)
    else
      match msg_parse_loop fuel code m (buf.drop 4) len copy with
      | none => none
      | some m1 => some (m1, 0)

/-- Function `msg_get_size` (msg.c 208-225): the value stored in `*size_r` (if
any) and the return value. -/
def msg_get_size (buf : List Nat) (buflen : Nat) : Option (Option Nat × Int) :=
  if buf.length < buflen then none
  else if buflen < 4 then some (none, -2)
  else some (some (be_read (buf.take 4) + 4), 0)

/-- Function `msg_get_wire_field_size` (msg.c 228-250). -/
def msg_get_wire_field_size (mf : msg_field) : Nat :=
  match mf.type with
  | .M_FT_INT32 | .M_FT_UINT32 => 4
  | .M_FT_INT64 | .M_FT_UINT64 => 8
  | .M_FT_STR | .M_FT_BUF => mf.field_len
  | .M_FT_ARRAY | .M_FT_MESSAGE => 0

/-- The bytes `bytes` stored in a buffer from offset `pos` on. -/
def write (buf : List Nat) (pos : Nat) (bytes : List Nat) : List Nat :=
  buf.take pos ++ bytes ++ buf.drop (pos + bytes.length)

/-- The switch of `msg_stamp_field` (msg.c 272-303): the length `flen` and the
payload bytes, or nothing for a type that is not supported. -/
def msg_stamp_payload (mf : msg_field) : Option (Nat × List Nat) :=
  match mf.type with
  | .M_FT_INT32 | .M_FT_UINT32 => some (4, be_bytes 4 (mf.u_int % 2 ^ 32))
  | .M_FT_INT64 | .M_FT_UINT64 => some (8, htonll_p_store mf.u_int)
  | .M_FT_STR | .M_FT_BUF => some (mf.field_len, mf.u_buf.take mf.field_len)
  | .M_FT_ARRAY | .M_FT_MESSAGE => none

/-- Function `msg_stamp_field` (msg.c 254-313), the field being written at
offset `pos` of the buffer: the new buffer and the number of bytes written.
The three length bytes, which the source patches in after the payload, are
stored together with it. -/
def msg_stamp_field (code : field_type → Nat) (buf : List Nat) (pos : Nat) (mf : msg_field) :
    List Nat × Nat :=
  if mf.id ≥ 1 <<< 16 then (buf, 0)
  else
    let b1 := write buf pos [(mf.id >>> 8) &&& 0xff, mf.id &&& 0xff, code mf.type % 256]
    match msg_stamp_payload mf with
    | none => (b1, 0)
    | some (flen, payload) =>
      (write b1 (pos + 3)
        ([(flen >>> 16) &&& 0xff, (flen >>> 8) &&& 0xff, flen &&& 0xff] ++ payload), 6 + flen)

/-- The first loop of `msg_fillbuf` (msg.c 331-336): the size of the fields with
index in `is`. -/
def msg_fillbuf_size (m : msg) (is : List Nat) : Nat :=
  (is.map (fun i =>
    if (m.f i).is_valid ∧ (m.f i).is_set then 6 + msg_get_wire_field_size (m.f i) else 0)).sum

/-- One iteration of the second loop of `msg_fillbuf` (msg.c 350-355) on the
buffer and the offset of `buf` in it. -/
def msg_fillbuf_step (code : field_type → Nat) (m : msg) (s : List Nat × Nat) (i : Nat) :
    List Nat × Nat :=
  if (m.f i).is_valid ∧ (m.f i).is_set then
    ((msg_stamp_field code s.1 s.2 (m.f i)).1, s.2 + (msg_stamp_field code s.1 s.2 (m.f i)).2)
  else s

/-- Function `msg_fillbuf` (msg.c 322-358) on a buffer of `buflen` bytes: the
content of the buffer, the value of `*buflen` and the return value.  The header
is the 32-bit value `sz - 4`. -/
def msg_fillbuf (code : field_type → Nat) (m : msg) (buflen : Nat) : (List Nat × Nat) × Int :=
  let buf0 := List.replicate buflen 0xff
  let sz := 4 + msg_fillbuf_size m (List.range m.len)
  if sz > buflen then ((buf0, buflen), -2)
  else
    let buf1 := write buf0 0 (be_bytes 4 ((sz - 4) % 2 ^ 32))
    ((((List.range m.len).foldl (msg_fillbuf_step code m) (buf1, 4)).1, sz), 0)

/-- The payload of a field as the wire format describes it: the integer in
big-endian order, or the bytes of the string or buffer; a field of another type
has no payload. -/
def wire_payload (mf : msg_field) : List Nat :=
  match mf.type with
  | .M_FT_INT32 | .M_FT_UINT32 => be_bytes 4 mf.u_int
  | .M_FT_INT64 | .M_FT_UINT64 => be_bytes 8 mf.u_int
  | .M_FT_STR | .M_FT_BUF => mf.u_buf.take mf.field_len
  | .M_FT_ARRAY | .M_FT_MESSAGE => []

/-- One field in the wire format: 2-byte big-endian id, 1 type byte, 3-byte
big-endian payload length, payload. -/
def wire_field (code : field_type → Nat) (mf : msg_field) : List Nat :=
  be_bytes 2 mf.id ++ [code mf.type] ++ be_bytes 3 (msg_get_wire_field_size mf) ++
    wire_payload mf

/-- The fields of a message with index in `is` that are valid and set. -/
def wire_set (m : msg) (is : List Nat) : List Nat :=
  is.filter (fun i => (m.f i).is_valid && (m.f i).is_set)

/-- The fields with index in `is` in the wire format, one after the other. -/
def wire_fields (code : field_type → Nat) (m : msg) (is : List Nat) : List Nat :=
  ((wire_set m is).map (fun i => wire_field code (m.f i))).flatten

/-- The wire format of a message: the 4-byte big-endian length of what follows,
then every valid and set field in ascending order of the index. -/
def wire_format (code : field_type → Nat) (m : msg) : List Nat :=
  be_bytes 4 (msg_fillbuf_size m (List.range m.len)) ++ wire_fields code m (List.range m.len)

/-- A field that `msg_fillbuf` supports: the id is below 2^16, the type is one of
INT32, UINT32, INT64, UINT64, STR and BUF, and a string or buffer is shorter
than 2^24 bytes and has its `field_len` bytes at the pointer. -/
def Supported (mf : msg_field) : Prop :=
  mf.id < 2 ^ 16 ∧ mf.type ≠ .M_FT_ARRAY ∧ mf.type ≠ .M_FT_MESSAGE ∧
  ((mf.type = .M_FT_STR ∨ mf.type = .M_FT_BUF) →
    mf.field_len < 2 ^ 24 ∧ mf.field_len ≤ mf.u_buf.length)

/-- A message whose valid and set fields with index in `is` are supported. -/
def SupportedOn (m : msg) (is : List Nat) : Prop :=
  ∀ i ∈ is, (m.f i).is_valid = true → (m.f i).is_set = true → Supported (m.f i)

/-- Numeric values of the enumeration `field_type` used in the examples. -/
def exCode : field_type → Nat
  | .M_FT_INT32 => 1
  | .M_FT_UINT32 => 2
  | .M_FT_INT64 => 3
  | .M_FT_UINT64 => 4
  | .M_FT_STR => 5
  | .M_FT_BUF => 6
  | .M_FT_ARRAY => 7
  | .M_FT_MESSAGE => 8

/-- Zeroed memory for a field table. -/
def exMem : Nat → msg_field := fun _ => ⟨0, .M_FT_INT32, 0, false, false, false, 0, []⟩

/-- An example descriptor: an INT32 field 0, a STR field 1 and a UINT64 field 2. -/
def exDesc : List msg_desc := [⟨0, .M_FT_INT32⟩, ⟨1, .M_FT_STR⟩, ⟨2, .M_FT_UINT64⟩]

/-- The message `msg_create` returns for `exDesc`. -/
def exFresh : msg := ((msg_create exDesc exMem).getD (⟨0, exMem⟩, 0)).1

/-- A message of the descriptor `exDesc` in which the field 0 is set to 7 and
the field 1 to a three-byte string; the field 2 is not set. -/
def exMsg : msg :=
  { len := 3,
    f := fun i =>
      if i = 0 then ⟨0, .M_FT_INT32, 0, true, true, false, 7, []⟩
      else if i = 1 then ⟨1, .M_FT_STR, 3, true, true, false, 0, [104, 105, 0]⟩
      else if i = 2 then ⟨2, .M_FT_UINT64, 0, true, false, false, 0, []⟩
      else exMem i }

/-- A descriptor with one field of type ARRAY. -/
def exArrayDesc : List msg_desc := [⟨0, .M_FT_ARRAY⟩]

/-- The message `msg_create` returns for `exArrayDesc`. -/
def exArrayFresh : msg := ((msg_create exArrayDesc exMem).getD (⟨0, exMem⟩, 0)).1

/-- One call of a client on the tree: `cf_rcrb_insert_vlock` or
`cf_rcrb_get_insert_vlock` on a key, with the address `CF_MALLOC` returns if it
is called (`none` for an allocation failure), or `cf_rcrb_delete` on a key. -/
inductive Op where
  | insert (key : Nat) (malloc : Option Nat)
  | get_insert (key : Nat) (malloc : Option Nat)
  | delete (key : Nat)

/-- The tree of a client together with the addresses of the nodes that the
allocator has handed out and that were not freed since. -/
structure Client where
  tree : cf_rcrb_tree
  live : List Nat

/-- How a call, or a sequence of calls, ends: the calls returned; or the
allocator was made to return memory that is in use, which no allocator does; or
the fuel of a loop ran out. -/
inductive Outcome where
  | done (c : Client)
  | misuse
  | out_of_fuel

/-- The fuel given to the loops of a call on a tree: more than twice the
counter of the tree. -/
def fuel_for (tree : cf_rcrb_tree) : Nat := 2 * tree.elements + 3

/-- The address the allocator returns in a call, if the call allocates. -/
def op_alloc : Op → Option Nat
  | .insert _ malloc => malloc
  | .get_insert _ malloc => malloc
  | .delete _ => none

/-- The key of a call. -/
def op_key : Op → Nat
  | .insert key _ => key
  | .get_insert key _ => key
  | .delete key => key

/-- The address returned by the allocator is memory not in use: it is not the
root header, not the sentinel, and not a node handed out and not yet freed. -/
def alloc_ok (c : Client) : Option Nat → Bool
  | none => true
  | some n => decide (n ≠ c.tree.root) && decide (n ≠ c.tree.sentinel) && decide (n ∉ c.live)

/-- One call of a client.  After an insert function that returned a node the
client releases the lock it was handed; after a delete that returned 0 the
freed node is not in use any more. -/
def apply_op (c : Client) (op : Op) : Outcome :=
  if alloc_ok c (op_alloc op) = true then
    match op with
    | .insert key malloc =>
      match cf_rcrb_insert_vlock (fuel_for c.tree) c.tree key malloc with
      | none => .out_of_fuel
      | some (t, none) => .done ⟨t, c.live⟩
      | some (t, some n) => .done ⟨unlock t, n :: c.live⟩
    | .get_insert key malloc =>
      match cf_rcrb_get_insert_vlock (fuel_for c.tree) c.tree key malloc with
      | none => .out_of_fuel
      | some (t, none) => .done ⟨t, c.live⟩
      | some (t, some n) => .done ⟨unlock t, if n ∈ c.live then c.live else n :: c.live⟩
    | .delete key =>
      match cf_rcrb_delete (fuel_for c.tree) c.tree key true with
      | none => .out_of_fuel
      | some (t, rv) =>
        if rv = 0 then .done ⟨t, c.live.filter (fun x => x ≠ t.freed.headD 0)⟩
        else .done ⟨t, c.live⟩
  else .misuse

/-- A sequence of calls of a client, one after the other. -/
def run_ops : Client → List Op → Outcome
  | c, [] => .done c
  | c, op :: rest =>
    match apply_op c op with
    | .done c1 => run_ops c1 rest
    | .misuse => .misuse
    | .out_of_fuel => .out_of_fuel

/-- The state of a client holds the tree `T`: the memory holds `T`, which is
red-black and ordered, the counter is the number of nodes, and the addresses in
use are those of the nodes. -/
def OpInv (c : Client) (T : RTree) : Prop :=
  Rep c.tree T ∧ RedBlack T ∧ Ordered T ∧ c.tree.elements = T.size ∧
    ∀ x, x ∈ c.live ↔ x ∈ T.addrs

/-- The number of nodes a call is to leave, from the tree `T` it is made on: one
more after the insertion of a key that is not in the tree (unless the
allocation fails), one less after the deletion of a key that is in the tree,
and the same number otherwise. -/
def op_size (T : RTree) : Op → Nat
  | .insert key (some _) => if key ∈ T.keys then T.size else T.size + 1
  | .get_insert key (some _) => if key ∈ T.keys then T.size else T.size + 1
  | .insert _ none => T.size
  | .get_insert _ none => T.size
  | .delete key => if key ∈ T.keys then T.size - 1 else T.size

/-- The insertion of the keys 0 to `n - 1`, the node of the key `i` being
allocated at the address `i + 3`. -/
def exManyOps (n : Nat) : List Op :=
  (List.range n).map (fun i => Op.insert i (some (i + 3)))

/-! ## Values, handles and the destructor -/

/-- One call of a holder of search handles: `cf_rcrb_search` on a key, the
release of a handle on a value, or `cf_rcrb_delete` on a key. -/
inductive HOp where
  | search (key : Nat)
  | release (v : Nat)
  | delete (key : Nat)

/-- Modelled from the spec: the holder of a search handle releases it with the
`release` of the reference-counting allocator, which decrements the count of the
value and reports whether it reached zero; the allocator knows nothing of the
tree and of its destructor callback. -/
def handle_release (tree : cf_rcrb_tree) (v : Nat) : cf_rcrb_tree :=
  { tree with rc := (cf_rc_release tree.rc v).1 }

/-- The tree together with the number of references held outside the tree on
each value (search handles that were not released yet). -/
structure Holder where
  tree : cf_rcrb_tree
  handles : Nat → Nat

/-- How a call of a holder ends: the call returned; or a handle was released
that is not held; or the fuel of a loop ran out. -/
inductive HOutcome where
  | done (s : Holder)
  | misuse
  | out_of_fuel

/-- One call of a holder.  A search that returns a value hands out a handle on
it. -/
def apply_hop (s : Holder) : HOp → HOutcome
  | .search key =>
    match cf_rcrb_search (fuel_for s.tree) s.tree key with
    | none => .out_of_fuel
    | some (t, v) =>
      .done ⟨t, if v = 0 then s.handles
                else fun x => if x = v then s.handles v + 1 else s.handles x⟩
  | .release v =>
    if s.handles v = 0 then .misuse
    else .done ⟨handle_release s.tree v,
                fun x => if x = v then s.handles v - 1 else s.handles x⟩
  | .delete key =>
    match cf_rcrb_delete (fuel_for s.tree) s.tree key true with
    | none => .out_of_fuel
    | some (t, _) => .done ⟨t, s.handles⟩

/-- A sequence of calls of a holder, one after the other. -/
def run_hops : Holder → List HOp → HOutcome
  | s, [] => .done s
  | s, op :: rest =>
    match apply_hop s op with
    | .done s1 => run_hops s1 rest
    | .misuse => .misuse
    | .out_of_fuel => .out_of_fuel

/-- The values of the nodes of a tree. -/
def RTree.values (t : RTree) : List Nat := t.nodes.map (fun x => x.2.2)

/-- The state of a holder holds the tree `T`: the memory holds `T`, which is
red-black and ordered, the counter is the number of nodes, the lock is free, no
node holds the NULL value, and the reference count of every value is the number
of nodes that hold it plus the number of references held outside the tree. -/
def HInv (s : Holder) (T : RTree) : Prop :=
  Rep s.tree T ∧ RedBlack T ∧ Ordered T ∧ s.tree.elements = T.size ∧
    s.tree.lock = false ∧ 0 ∉ T.values ∧
    ∀ x, s.tree.rc x = T.values.count x + s.handles x

/-- The number of calls of the destructor of the tree on the value `v`. -/
def destructor_calls (tree : cf_rcrb_tree) (v : Nat) : Nat :=
  tree.destroyed.count (v, tree.destructor_udata)

/-- Whether a call is a call of `cf_rcrb_delete`. -/
def HOp.is_delete : HOp → Bool
  | .delete _ => true
  | _ => false

/-- The state that a sequence of calls ends in (the initial state if it does
not return). -/
def HOutcome.state (s : Holder) : HOutcome → Holder
  | .done s1 => s1
  | _ => s

/-- A holder of the example tree without any handle. -/
def exHolder : Holder := ⟨exTree, fun _ => 0⟩

/-! ## The root header and the sentinel -/

/-- The two header records of state `t`, which has the root header and the
sentinel of state `s`: both are BLACK, the sentinel's left and right links point
to the sentinel, and the right link of the root header is the sentinel.  The
sentinel's parent link is not constrained. -/
def HeadersKept (s t : cf_rcrb_tree) : Prop :=
  t.root = s.root ∧ t.sentinel = s.sentinel ∧
  (t.mem t.sentinel).color = BLACK ∧ (t.mem t.root).color = BLACK ∧
  (t.mem t.sentinel).left = t.sentinel ∧ (t.mem t.sentinel).right = t.sentinel ∧
  (t.mem t.root).right = t.sentinel

/-! ## An example with two children -/

/-- An example memory: root header at 1, sentinel at 2, a BLACK node at 3 with
key 20 whose left child is a RED node at 4 with key 30 and whose right child is
a RED node at 5 with key 10. -/
def exThree : cf_rcrb_tree :=
  { root := 1, sentinel := 2, elements := 3, lock := false, destructor_udata := 0,
    refcount := 1,
    mem := fun x =>
      if x = 1 then ⟨BLACK, 0, 0, 3, 2, 2⟩
      else if x = 3 then ⟨BLACK, 20, 77, 4, 5, 1⟩
      else if x = 4 then ⟨RED, 30, 88, 2, 2, 3⟩
      else if x = 5 then ⟨RED, 10, 66, 2, 2, 3⟩
      else ⟨BLACK, 0, 0, 2, 2, 2⟩,
    rc := fun _ => 1,
    destroyed := [], freed := [] }

/-- The shape held by `exThree`. -/
def exThreeShape : RTree :=
  .node 3 BLACK (.node 4 RED .nil 30 88 .nil) 20 77 (.node 5 RED .nil 10 66 .nil)

/-! ## An example with a node that has no value yet -/

/-- An example memory: root header at 1, sentinel at 2, a BLACK node at 3 with
key 20 whose value slot is still 0, and its left child, a RED node at 4 with
key 30 and value 88. -/
def exPending : cf_rcrb_tree :=
  { root := 1, sentinel := 2, elements := 2, lock := false, destructor_udata := 0,
    refcount := 1,
    mem := fun x =>
      if x = 1 then ⟨BLACK, 0, 0, 3, 2, 2⟩
      else if x = 3 then ⟨BLACK, 20, 0, 4, 2, 1⟩
      else if x = 4 then ⟨RED, 30, 88, 2, 2, 3⟩
      else ⟨BLACK, 0, 0, 2, 2, 2⟩,
    rc := fun x => if x = 88 then 1 else 0,
    destroyed := [], freed := [] }

/-- The shape held by `exPending`. -/
def exPendingShape : RTree :=
  .node 3 BLACK (.node 4 RED .nil 30 88 .nil) 20 0 .nil

/-- A buffer of 14 bytes whose header declares a payload of 2^32 - 1 bytes,
followed by one INT32 field with the id 0 and the value 7. -/
def exTruncated : List Nat := [255, 255, 255, 255, 0, 0, 1, 0, 0, 4, 0, 0, 0, 7]

/-! ## Messages in memory: the setters and getters of msg.c -/

/-- The record `msg_field` as it lies in memory, with the members the setters
and getters of strings and buffers use: `u_str` is the pointer held in the union
member `u.str`, which shares its storage with `u.buf`. -/
structure msg_field_rec where
  id : Nat
  type : field_type
  field_len : Nat
  is_valid : Bool
  is_set : Bool
  is_copy : Bool
  u_str : Nat

/-- The record `msg` as it lies in memory, with the members `msg.c` uses: the
number of fields, the two byte counters, the flag `is_stack` and the field
table. -/
structure msg_rec where
  len : Nat
  bytes_used : Nat
  bytes_alloc : Nat
  is_stack : Bool
  f : Nat → msg_field_rec

/-- The memory the setters and getters work on: the message record `hdr`, which
lies at the address `m`, the bytes of the memory (the field table apart), and
the pointers passed to `free`, the last one first.  Address 0 is the NULL
pointer. -/
structure msg_heap where
  hdr : msg_rec
  m : Nat
  bytes : Nat → Nat
  freed : List Nat

/-- The library function `strlen` on the bytes at the address `p`: the number of
bytes before the first 0 byte, looked for among the first `fuel` bytes. -/
def strlen : Nat → (Nat → Nat) → Nat → Option Nat
  | 0, _, _ => none
  | fuel + 1, bytes, p =>
    if bytes p = 0 then some 0
    else
      match strlen fuel bytes (p + 1) with
      | none => none
      | some n => some (n + 1)

/-- The library function `memcpy` on two regions that do not overlap: the
memory after `len` bytes were copied from `src` to `dst`. -/
def memcpy (bytes : Nat → Nat) (dst src len : Nat) : Nat → Nat :=
  fun x => if dst ≤ x ∧ x < dst + len then bytes (src + (x - dst)) else bytes x

/-- The `len` bytes at the address `p`. -/
def bytes_at (bytes : Nat → Nat) (p len : Nat) : List Nat :=
  (List.range len).map (fun i => bytes (p + i))

/-- The C string at the address `p`: the bytes before the first 0 byte. -/
def cstr (fuel : Nat) (bytes : Nat → Nat) (p : Nat) : Option (List Nat) :=
  match strlen fuel bytes p with
  | none => none
  | some n => some (bytes_at bytes p n)

/-- Function `msg_create` (msg.c 21-80) with the memory the message is placed
in.  `sizeof_msg` and `sizeof_msg_field` are the sizes of the two records,
`stack_buf` is the caller's buffer of `stack_buf_sz` bytes (0 for none), `malloc`
the result of the call of `malloc`, `f` the content of the memory the field
table is placed in and `bytes` the other memory.  The two assertions make the
call fail. -/
def msg_create_heap (sizeof_msg sizeof_msg_field : Nat) (md : List msg_desc)
    (stack_buf stack_buf_sz : Nat) (malloc : Option Nat) (f : Nat → msg_field_rec)
    (bytes : Nat → Nat) : Option (msg_heap × Int) :=
  if md.length = 0 then none
  else
    let max_id := md.foldl (fun a d => if d.id ≥ a then d.id else a) 0 + 1
    let m_sz := sizeof_msg_field * max_id
    let f0 : Nat → msg_field_rec :=
      fun i => if i < max_id then { f i with is_valid := false } else f i
    let f1 : Nat → msg_field_rec :=
      md.foldl (fun f d => fun x =>
        if x = d.id then { f x with id := d.id, type := d.type, is_set := false, is_valid := true }
        else f x) f0
    if stack_buf = 0 ∨ m_sz > stack_buf_sz then
      let a_sz := (sizeof_msg + m_sz) / 512 + 1 + 512
      match malloc with
      | none => none
      | some p =>
        if p = 0 then none
        else
          some ({ hdr := { len := max_id, bytes_used := a_sz, bytes_alloc := a_sz,
                           is_stack := false, f := f1 },
                  m := p, bytes := bytes, freed := [] }, 0)
    else
      some ({ hdr := { len := max_id, bytes_used := sizeof_msg + m_sz,
                       bytes_alloc := stack_buf_sz, is_stack := true, f := f1 },
              m := stack_buf, bytes := bytes, freed := [] }, 0)

/-- The assignment to the record of the field `field_id`. -/
def set_field (s : msg_heap) (field_id : Nat) (mf : msg_field_rec) : msg_rec :=
  { s.hdr with f := fun x => if x = field_id then mf else s.hdr.f x }

/-- Function `msg_get_str` (msg.c 451-480): the new memory, the return value
and, on success, the pointer stored in `*r` and the length stored in `*len`.
`malloc` is the result of the allocation `strdup` makes. -/
def msg_get_str (fuel : Nat) (s : msg_heap) (field_id : Nat) (copy : Bool)
    (malloc : Option Nat) : Option (msg_heap × Int × Option (Nat × Nat)) :=
  if ¬ (s.hdr.f field_id).is_valid = true then some (s, -1, none)
  else if (s.hdr.f field_id).type ≠ .M_FT_STR then some (s, -1, none)
  else if ¬ (s.hdr.f field_id).is_set = true then some (s, -2, none)
  else if copy then
    match strlen fuel s.bytes (s.hdr.f field_id).u_str, malloc with
    | some n, some p =>
      if p = 0 then none
      else
        some ({ s with bytes := memcpy s.bytes p (s.hdr.f field_id).u_str (n + 1) }, 0,
          some (p, (s.hdr.f field_id).field_len))
    | _, _ => none
  else some (s, 0, some ((s.hdr.f field_id).u_str, (s.hdr.f field_id).field_len))

/-- Function `msg_get_buf` (msg.c 482-511): the new memory, the return value
and, on success, the pointer stored in `*r` and the length stored in `*len`.
`malloc` is the result of the call of `malloc`. -/
def msg_get_buf (s : msg_heap) (field_id : Nat) (copy : Bool) (malloc : Option Nat) :
    Option (msg_heap × Int × Option (Nat × Nat)) :=
  if ¬ (s.hdr.f field_id).is_valid = true then some (s, -1, none)
  else if (s.hdr.f field_id).type ≠ .M_FT_BUF then some (s, -1, none)
  else if ¬ (s.hdr.f field_id).is_set = true then some (s, -2, none)
  else if copy then
    match malloc with
    | none => none
    | some p =>
      if p = 0 then none
      else
        some ({ s with
            bytes := memcpy s.bytes p (s.hdr.f field_id).u_str (s.hdr.f field_id).field_len },
          0, some (p, (s.hdr.f field_id).field_len))
  else some (s, 0, some ((s.hdr.f field_id).u_str, (s.hdr.f field_id).field_len))

/-- The number of values of the type `size_t` on the 64-bit host: the byte
counters of a message are assigned `size_t` expressions by `msg_create` and
compared with a `size_t`, and unsigned arithmetic on them is taken modulo this
number. -/
def size_t_mod : Nat := 2 ^ 64

/-- The expression `m->bytes_alloc - m->bytes_used` of the two setters (msg.c
615 and 661), an unsigned difference: it wraps when `bytes_used` is the larger
one. -/
def msg_spare (s : msg_heap) : Nat :=
  (s.hdr.bytes_alloc % size_t_mod + size_t_mod - s.hdr.bytes_used % size_t_mod) % size_t_mod

/-- The block `free auld value if necessary` of the two setters (msg.c 604-607
and 652-655): the field record and the list of freed pointers. -/
def msg_free_old (s : msg_heap) (field_id : Nat) : msg_field_rec × List Nat :=
  if (s.hdr.f field_id).is_set = true ∧ (s.hdr.f field_id).is_copy = true then
    ({ s.hdr.f field_id with u_str := 0 }, (s.hdr.f field_id).u_str :: s.freed)
  else (s.hdr.f field_id, s.freed)

/-- Function `msg_set_str` (msg.c 589-634): the new memory and the return
value.  `v` is the address of the caller's string and `malloc` the result of the
allocation `strdup` makes. -/
def msg_set_str (fuel : Nat) (s : msg_heap) (field_id v : Nat) (copy : Bool)
    (malloc : Option Nat) : Option (msg_heap × Int) :=
  if ¬ (s.hdr.f field_id).is_valid = true then some (s, -1)
  else if (s.hdr.f field_id).type ≠ .M_FT_STR then some (s, -1)
  else
    let old := msg_free_old s field_id
    match strlen fuel s.bytes v with
    | none => none
    | some n =>
      let mf : msg_field_rec := { old.1 with field_len := n + 1 }
      if copy then
        if msg_spare s ≥ n + 1 then
          let p := s.m + s.hdr.bytes_used
          some ({ s with
              hdr := { set_field s field_id
                  { mf with u_str := p, is_copy := false, is_set := true } with
                bytes_alloc := (s.hdr.bytes_alloc + (n + 1)) % size_t_mod }
              bytes := memcpy s.bytes p v (n + 1)
              freed := old.2 }, 0)
        else
          match malloc with
          | none => none
          | some p =>
            if p = 0 then none
            else
              some ({ s with
                  hdr := set_field s field_id
                    { mf with u_str := p, is_copy := true, is_set := true }
                  bytes := memcpy s.bytes p v (n + 1)
                  freed := old.2 }, 0)
      else
        some ({ s with
            hdr := set_field s field_id { mf with u_str := v, is_copy := false, is_set := true }
            freed := old.2 }, 0)

/-- Function `msg_set_buf` (msg.c 637-683): the new memory and the return
value.  `v` is the address of the caller's bytes and `malloc` the result of the
call of `malloc`. -/
def msg_set_buf (s : msg_heap) (field_id v len : Nat) (copy : Bool) (malloc : Option Nat) :
    Option (msg_heap × Int) :=
  if ¬ (s.hdr.f field_id).is_valid = true then some (s, -1)
  else if (s.hdr.f field_id).type ≠ .M_FT_STR then some (s, -1)
  else
    let old := msg_free_old s field_id
    let mf : msg_field_rec := { old.1 with field_len := len }
    if copy then
      if msg_spare s ≥ len then
        let p := s.m + s.hdr.bytes_used
        some ({ s with
            hdr := { set_field s field_id
                { mf with u_str := p, is_copy := false, is_set := true } with
              bytes_alloc := (s.hdr.bytes_alloc + len) % size_t_mod }
            bytes := memcpy s.bytes p v len
            freed := old.2 }, 0)
      else
        match malloc with
        | none => none
        | some p =>
          if p = 0 then none
          else
            some ({ s with
                hdr := set_field s field_id
                  { mf with u_str := p, is_copy := true, is_set := true }
                bytes := memcpy s.bytes p v len
                freed := old.2 }, 0)
    else
      some ({ s with
          hdr := set_field s field_id { mf with u_str := v, is_copy := false, is_set := true }
          freed := old.2 }, 0)

/-- Zeroed memory for a field table. -/
def exTable : Nat → msg_field_rec := fun _ => ⟨0, .M_FT_INT32, 0, false, false, false, 0⟩

/-- An example memory: the string "ab" at the address 5000, the string "xyz" at
the address 6000, and 0 everywhere else. -/
def exBytes : Nat → Nat := fun x =>
  if x = 5000 then 97 else if x = 5001 then 98
  else if x = 6000 then 120 else if x = 6001 then 121 else if x = 6002 then 122
  else 0

/-- A descriptor with two STR fields, 0 and 1. -/
def exStrDesc : List msg_desc := [⟨0, .M_FT_STR⟩, ⟨1, .M_FT_STR⟩]

/-- A descriptor with one BUF field, 0. -/
def exBufDesc : List msg_desc := [⟨0, .M_FT_BUF⟩]

/-- The insertion of the keys 0 to `n - 1` with the values `d` to `n - 1 + d`,
the node of the key `i` being allocated at the address `i + 3`: the entries
(key, value, address) for `insert_all`. -/
def exManyItems (d n : Nat) : List (Nat × Nat × Nat) :=
  (List.range n).map (fun i => (i, i + d, i + 3))

/-! # Theorems -/

/-! ## Reading and writing memory -/

@[simp] theorem upd_same (m : Nat → cf_rcrb_node) (a : Nat) (f : cf_rcrb_node → cf_rcrb_node) :
    upd m a f a = f (m a) := by simp [upd]

theorem upd_other (m : Nat → cf_rcrb_node) {a x : Nat} (f : cf_rcrb_node → cf_rcrb_node)
    (h : x ≠ a) : upd m a f x = m x := by simp [upd, h]

@[simp] theorem setColor_root (t : cf_rcrb_tree) (a c) : (setColor t a c).root = t.root := rfl
@[simp] theorem setColor_sentinel (t : cf_rcrb_tree) (a c) :
    (setColor t a c).sentinel = t.sentinel := rfl
@[simp] theorem setLeft_root (t : cf_rcrb_tree) (a b) : (setLeft t a b).root = t.root := rfl
@[simp] theorem setLeft_sentinel (t : cf_rcrb_tree) (a b) :
    (setLeft t a b).sentinel = t.sentinel := rfl
@[simp] theorem setRight_root (t : cf_rcrb_tree) (a b) : (setRight t a b).root = t.root := rfl
@[simp] theorem setRight_sentinel (t : cf_rcrb_tree) (a b) :
    (setRight t a b).sentinel = t.sentinel := rfl
@[simp] theorem setParent_root (t : cf_rcrb_tree) (a b) : (setParent t a b).root = t.root := rfl
@[simp] theorem setParent_sentinel (t : cf_rcrb_tree) (a b) :
    (setParent t a b).sentinel = t.sentinel := rfl

theorem setColor_mem (t : cf_rcrb_tree) (a c x) :
    (setColor t a c).mem x = if x = a then { t.mem a with color := c } else t.mem x := by
  by_cases h : x = a <;> simp [setColor, upd, h]
theorem setLeft_mem (t : cf_rcrb_tree) (a b x) :
    (setLeft t a b).mem x = if x = a then { t.mem a with left := b } else t.mem x := by
  by_cases h : x = a <;> simp [setLeft, upd, h]
theorem setRight_mem (t : cf_rcrb_tree) (a b x) :
    (setRight t a b).mem x = if x = a then { t.mem a with right := b } else t.mem x := by
  by_cases h : x = a <;> simp [setRight, upd, h]
theorem setParent_mem (t : cf_rcrb_tree) (a b x) :
    (setParent t a b).mem x = if x = a then { t.mem a with parent := b } else t.mem x := by
  by_cases h : x = a <;> simp [setParent, upd, h]

/-! ## Frame lemmas for the shape predicates -/

@[simp] theorem ctxPar_nil (root : Nat) : ctxPar root [] = root := rfl
@[simp] theorem ctxPar_cons (root : Nat) (f : Frame) (rest : List Frame) :
    ctxPar root (f :: rest) = f.addr := rfl
@[simp] theorem ctxColor_nil : ctxColor [] = BLACK := rfl
@[simp] theorem ctxColor_cons (f : Frame) (rest : List Frame) :
    ctxColor (f :: rest) = f.color := rfl
@[simp] theorem Frame.addr_L (a c k v r) : (Frame.L a c k v r).addr = a := rfl
@[simp] theorem Frame.addr_R (a c l k v) : (Frame.R a c l k v).addr = a := rfl
@[simp] theorem Frame.color_L (a c k v r) : (Frame.L a c k v r).color = c := rfl
@[simp] theorem Frame.color_R (a c l k v) : (Frame.R a c l k v).color = c := rfl
@[simp] theorem Frame.sib_L (a c k v r) : (Frame.L a c k v r).sib = r := rfl
@[simp] theorem Frame.sib_R (a c l k v) : (Frame.R a c l k v).sib = l := rfl
@[simp] theorem Frame.addrs_L (a c k v r) : (Frame.L a c k v r).addrs = a :: r.addrs := rfl
@[simp] theorem Frame.addrs_R (a c l k v) : (Frame.R a c l k v).addrs = a :: l.addrs := rfl
@[simp] theorem ctxAddrs_nil : ctxAddrs [] = [] := rfl
@[simp] theorem ctxAddrs_cons (f : Frame) (rest : List Frame) :
    ctxAddrs (f :: rest) = f.addrs ++ ctxAddrs rest := rfl
@[simp] theorem RTree.addr_nil (sent : Nat) : RTree.nil.addr sent = sent := rfl
@[simp] theorem RTree.addr_node (sent a c l k v r) : (RTree.node a c l k v r).addr sent = a := rfl
@[simp] theorem RTree.addrs_nil : RTree.nil.addrs = [] := rfl
@[simp] theorem RTree.addrs_node (a c l k v r) :
    (RTree.node a c l k v r).addrs = a :: (l.addrs ++ r.addrs) := rfl
@[simp] theorem RTree.color_nil : RTree.nil.color = BLACK := rfl
@[simp] theorem RTree.color_node (a c l k v r) : (RTree.node a c l k v r).color = c := rfl
@[simp] theorem plug_nil (t : RTree) : plug [] t = t := rfl
@[simp] theorem plug_cons (f : Frame) (rest : List Frame) (t : RTree) :
    plug (f :: rest) t = plug rest (f.fill t) := rfl
@[simp] theorem Frame.fill_L (a c k v r t) : (Frame.L a c k v r).fill t = .node a c t k v r := rfl
@[simp] theorem Frame.fill_R (a c l k v t) : (Frame.R a c l k v).fill t = .node a c l k v t := rfl

theorem RTree.addr_mem (sent : Nat) (t : RTree) : t.addr sent = sent ∨ t.addr sent ∈ t.addrs := by
  cases t <;> simp

theorem RTree.addr_ne {sent x : Nat} {t : RTree} (hs : x ≠ sent) (hx : x ∉ t.addrs) :
    x ≠ t.addr sent := by
  rcases RTree.addr_mem sent t with h | h
  · rw [h]; exact hs
  · intro e; exact hx (e ▸ h)

theorem RNodes.congr_nodes {m m' : Nat → cf_rcrb_node} {sent : Nat} :
    ∀ {t : RTree} {p : Nat}, RNodes m sent p t → (∀ x ∈ t.addrs, m' x = m x) →
      RNodes m' sent p t
  | .nil, _, _, _ => trivial
  | .node a c l k v r, p, h, heq => by
    obtain ⟨h1, h2, h3⟩ := h
    refine ⟨?_, RNodes.congr_nodes h2 ?_, RNodes.congr_nodes h3 ?_⟩
    · rw [heq a (by simp [RTree.addrs]), h1]
    · intro x hx; exact heq x (by simp [RTree.addrs, hx])
    · intro x hx; exact heq x (by simp [RTree.addrs, hx])

/-- The nodes of a tree can be given a new parent by changing the top record. -/
theorem RNodes.reparent {m m' : Nat → cf_rcrb_node} {sent p p' : Nat} {t : RTree}
    (h : RNodes m sent p t) (hnd : t.addrs.Nodup)
    (htop : t.addr sent ≠ sent → m' (t.addr sent) = { m (t.addr sent) with parent := p' })
    (hsent : sent ∉ t.addrs)
    (heq : ∀ x ∈ t.addrs, x ≠ t.addr sent → m' x = m x) : RNodes m' sent p' t := by
  cases t with
  | nil => trivial
  | node a c l k v r =>
    obtain ⟨h1, h2, h3⟩ := h
    simp only [RTree.addrs, List.nodup_cons, List.mem_append, not_or, List.nodup_append,
      List.mem_cons] at hnd hsent heq
    simp only [RTree.addr] at htop heq
    have ha : a ≠ sent := fun e => hsent.1 e.symm
    refine ⟨?_, RNodes.congr_nodes h2 ?_, RNodes.congr_nodes h3 ?_⟩
    · rw [htop ha, h1]
    · intro x hx; exact heq x (Or.inr (Or.inl hx)) (fun e => hnd.1.1 (e ▸ hx))
    · intro x hx; exact heq x (Or.inr (Or.inr hx)) (fun e => hnd.1.2 (e ▸ hx))

theorem RCtx.congr_path {m m' : Nat → cf_rcrb_node} {sent root : Nat} :
    ∀ {ctx : List Frame} {hole : Nat}, RCtx m sent root ctx hole →
      (m' root).left = (m root).left → (∀ x ∈ ctxAddrs ctx, m' x = m x) →
      RCtx m' sent root ctx hole
  | [], _, h, hr, _ => by simpa [RCtx, hr] using h
  | .L a c k v r :: rest, _, h, hr, heq => by
    obtain ⟨h1, h2, h3⟩ := h
    refine ⟨?_, RNodes.congr_nodes h2 ?_, RCtx.congr_path h3 hr ?_⟩
    · rw [heq a (by simp [ctxAddrs, Frame.addrs, Frame.addr]), h1]
    · intro x hx; exact heq x (by simp [ctxAddrs, Frame.addrs, Frame.sib, hx])
    · intro x hx; exact heq x (by simp [ctxAddrs, hx])
  | .R a c l k v :: rest, _, h, hr, heq => by
    obtain ⟨h1, h2, h3⟩ := h
    refine ⟨?_, RNodes.congr_nodes h2 ?_, RCtx.congr_path h3 hr ?_⟩
    · rw [heq a (by simp [ctxAddrs, Frame.addrs, Frame.addr]), h1]
    · intro x hx; exact heq x (by simp [ctxAddrs, Frame.addrs, Frame.sib, hx])
    · intro x hx; exact heq x (by simp [ctxAddrs, hx])

/-- Redirecting, in the parent of the position, the link that points to the
position gives a path to the new occupant. -/
theorem RCtx.rehole {m m' : Nat → cf_rcrb_node} {sent root : Nat} {ctx : List Frame}
    {hole hole' : Nat} (h : RCtx m sent root ctx hole)
    (hp : m' (ctxPar root ctx) =
      if hole = (m (ctxPar root ctx)).left then { m (ctxPar root ctx) with left := hole' }
      else { m (ctxPar root ctx) with right := hole' })
    (heq : ∀ x, x ≠ ctxPar root ctx → x = root ∨ x ∈ ctxAddrs ctx → m' x = m x)
    (hnd : (ctxAddrs ctx).Nodup) (hroot : root ∉ ctxAddrs ctx)
    (hh : hole ∉ ctxAddrs ctx) (hhs : hole ≠ sent) : RCtx m' sent root ctx hole' := by
  cases ctx with
  | nil =>
    simp only [RCtx, ctxPar_nil] at h hp ⊢
    rw [hp, if_pos h.symm]
  | cons f rest =>
    cases f with
    | L a c k v r =>
      obtain ⟨h1, h2, h3⟩ := h
      simp only [ctxPar_cons, Frame.addr_L, Frame.addr_R, ctxAddrs_cons, Frame.addrs_L,
        Frame.addrs_R, List.cons_append,
        List.nodup_cons, List.mem_append, not_or, List.nodup_append, List.mem_cons] at *
      refine ⟨?_, RNodes.congr_nodes h2 ?_, RCtx.congr_path h3 ?_ ?_⟩
      · rw [hp, h1]; simp
      · intro x hx
        exact heq x (fun e => hnd.1.1 (e ▸ hx)) (Or.inr (Or.inr (Or.inl hx)))
      · have : root ≠ a := fun e => hroot.1 e
        rw [heq root this (Or.inl rfl)]
      · intro x hx
        exact heq x (fun e => hnd.1.2 (e ▸ hx)) (Or.inr (Or.inr (Or.inr hx)))
    | R a c l k v =>
      obtain ⟨h1, h2, h3⟩ := h
      simp only [ctxPar_cons, Frame.addr_L, Frame.addr_R, ctxAddrs_cons, Frame.addrs_L,
        Frame.addrs_R, List.cons_append,
        List.nodup_cons, List.mem_append, not_or, List.nodup_append, List.mem_cons] at *
      have hne : hole ≠ l.addr sent := RTree.addr_ne hhs hh.2.1
      refine ⟨?_, RNodes.congr_nodes h2 ?_, RCtx.congr_path h3 ?_ ?_⟩
      · rw [hp, h1]; simp [hne]
      · intro x hx
        exact heq x (fun e => hnd.1.1 (e ▸ hx)) (Or.inr (Or.inr (Or.inl hx)))
      · have : root ≠ a := fun e => hroot.1 e
        rw [heq root this (Or.inl rfl)]
      · intro x hx
        exact heq x (fun e => hnd.1.2 (e ▸ hx)) (Or.inr (Or.inr (Or.inr hx)))


/-! ## Moving along the path -/

theorem RepZ.up_L {tree : cf_rcrb_tree} {ctx : List Frame} {a c k v r} {l : RTree}
    (h : RepZ tree (.L a c k v r :: ctx) l) : RepZ tree ctx (.node a c l k v r) := by
  obtain ⟨h1, h2, h3, h4, h5, h6, h7, h8, h9, h10, h11⟩ := h
  obtain ⟨p1, p2, p3⟩ := h7
  refine ⟨?_, ?_, ?_, h4, h5, h6, p3, ⟨p1, h8, p2⟩, h9, h10, h11⟩
  · refine List.Perm.nodup ?_ h1
    simp only [ctxAddrs_cons, Frame.addrs_L, RTree.addrs_node, List.cons_append, List.append_assoc]
    exact List.perm_middle
  · simpa [or_left_comm] using h2
  · simpa [or_left_comm] using h3

theorem RepZ.down_L {tree : cf_rcrb_tree} {ctx : List Frame} {a c k v r} {l : RTree}
    (h : RepZ tree ctx (.node a c l k v r)) : RepZ tree (.L a c k v r :: ctx) l := by
  obtain ⟨h1, h2, h3, h4, h5, h6, h7, h8, h9, h10, h11⟩ := h
  obtain ⟨p1, p2, p3⟩ := h8
  refine ⟨?_, ?_, ?_, h4, h5, h6, ⟨p1, p3, h7⟩, p2, h9, h10, h11⟩
  · refine List.Perm.nodup ?_ h1
    simp only [ctxAddrs_cons, Frame.addrs_L, RTree.addrs_node, List.cons_append, List.append_assoc]
    exact List.perm_middle.symm
  · simpa [or_left_comm] using h2
  · simpa [or_left_comm] using h3

theorem RepZ.up_R {tree : cf_rcrb_tree} {ctx : List Frame} {a c k v l} {r : RTree}
    (h : RepZ tree (.R a c l k v :: ctx) r) : RepZ tree ctx (.node a c l k v r) := by
  obtain ⟨h1, h2, h3, h4, h5, h6, h7, h8, h9, h10, h11⟩ := h
  obtain ⟨p1, p2, p3⟩ := h7
  refine ⟨?_, ?_, ?_, h4, h5, h6, p3, ⟨p1, p2, h8⟩, h9, h10, h11⟩
  · refine List.Perm.nodup ?_ h1
    simp only [ctxAddrs_cons, Frame.addrs_R, RTree.addrs_node, List.cons_append, List.append_assoc]
    refine List.Perm.trans List.perm_middle (List.Perm.cons _ ?_)
    rw [← List.append_assoc, ← List.append_assoc]
    exact List.Perm.append_right _ List.perm_append_comm
  · simpa [or_left_comm, or_comm, or_assoc] using h2
  · simpa [or_left_comm, or_comm, or_assoc] using h3

theorem RepZ.down_R {tree : cf_rcrb_tree} {ctx : List Frame} {a c k v l} {r : RTree}
    (h : RepZ tree ctx (.node a c l k v r)) : RepZ tree (.R a c l k v :: ctx) r := by
  obtain ⟨h1, h2, h3, h4, h5, h6, h7, h8, h9, h10, h11⟩ := h
  obtain ⟨p1, p2, p3⟩ := h8
  refine ⟨?_, ?_, ?_, h4, h5, h6, ⟨p1, p2, h7⟩, p3, h9, h10, h11⟩
  · refine List.Perm.nodup ?_ h1
    simp only [ctxAddrs_cons, Frame.addrs_R, RTree.addrs_node, List.cons_append, List.append_assoc]
    refine List.Perm.trans (List.Perm.cons _ ?_) List.perm_middle.symm
    rw [← List.append_assoc, ← List.append_assoc]
    exact List.Perm.append_right _ List.perm_append_comm
  · simpa [or_left_comm, or_comm, or_assoc] using h2
  · simpa [or_left_comm, or_comm, or_assoc] using h3

theorem RepZ.up {tree : cf_rcrb_tree} {ctx : List Frame} {f : Frame} {t : RTree}
    (h : RepZ tree (f :: ctx) t) : RepZ tree ctx (f.fill t) := by
  cases f with
  | L a c k v r => exact h.up_L
  | R a c l k v => exact h.up_R

theorem RepZ.down {tree : cf_rcrb_tree} {ctx : List Frame} {f : Frame} {t : RTree}
    (h : RepZ tree ctx (f.fill t)) : RepZ tree (f :: ctx) t := by
  cases f with
  | L a c k v r => exact h.down_L
  | R a c l k v => exact h.down_R

theorem RepZ.plug {tree : cf_rcrb_tree} :
    ∀ {z : List Frame} {t : RTree}, RepZ tree z t → Rep tree (plug z t)
  | [], _, h => h
  | f :: rest, t, h => RepZ.plug (z := rest) (t := f.fill t) h.up

theorem Rep.unplug {tree : cf_rcrb_tree} :
    ∀ {z : List Frame} {t : RTree}, Rep tree (plug z t) → RepZ tree z t
  | [], _, h => h
  | f :: rest, t, h => (Rep.unplug (z := rest) (t := f.fill t) h).down

/-- The record of the node at the position. -/
theorem RepZ.read {tree : cf_rcrb_tree} {ctx : List Frame} {a c l k v r}
    (h : RepZ tree ctx (.node a c l k v r)) :
    tree.mem a = ⟨c, k, v, l.addr tree.sentinel, r.addr tree.sentinel, ctxPar tree.root ctx⟩ :=
  h.nodes.1

/-- The record of the parent of the position. -/
theorem RepZ.read_L {tree : cf_rcrb_tree} {ctx : List Frame} {a c k v r} {t : RTree}
    (h : RepZ tree (.L a c k v r :: ctx) t) :
    tree.mem a = ⟨c, k, v, t.addr tree.sentinel, r.addr tree.sentinel, ctxPar tree.root ctx⟩ :=
  h.path.1

theorem RepZ.read_R {tree : cf_rcrb_tree} {ctx : List Frame} {a c k v l} {t : RTree}
    (h : RepZ tree (.R a c l k v :: ctx) t) :
    tree.mem a = ⟨c, k, v, l.addr tree.sentinel, t.addr tree.sentinel, ctxPar tree.root ctx⟩ :=
  h.path.1

/-- The root header points to the top node. -/
theorem Rep.read_root {tree : cf_rcrb_tree} {t : RTree} (h : Rep tree t) :
    (tree.mem tree.root).left = t.addr tree.sentinel := h.path

/-! ## Recolouring -/

theorem RepZ.recolor {tree : cf_rcrb_tree} {ctx : List Frame} {a c l k v r}
    (h : RepZ tree ctx (.node a c l k v r)) (c' : Color) :
    RepZ (setColor tree a c') ctx (.node a c' l k v r) := by
  obtain ⟨h1, h2, h3, h4, h5, h6, h7, h8, h9, h10, h11⟩ := h
  obtain ⟨p1, p2, p3⟩ := h8
  have h1' := h1
  have h2' := h2
  have h3' := h3
  simp only [RTree.addrs_node, List.cons_append, List.nodup_cons, List.mem_append, not_or,
    List.mem_cons, List.nodup_append] at h1 h2 h3
  have hra : tree.root ≠ a := h3.1
  have hsa : tree.sentinel ≠ a := h2.1
  refine ⟨h1', h2', h3', h4, ?_, ?_, ?_, ⟨?_, ?_, ?_⟩, ?_, ?_, ?_⟩
  · simp [setColor_mem, hra, h5]
  · simp [setColor_mem, hsa, h6]
  · refine RCtx.congr_path h7 ?_ ?_
    · simp [setColor_mem, hra]
    · intro x hx
      have : x ≠ a := fun e => h1.1.2 (e ▸ hx)
      simp [setColor_mem, this]
  · simp [setColor_mem, p1]
  · refine RNodes.congr_nodes p2 ?_
    intro x hx
    have : x ≠ a := fun e => h1.1.1.1 (e ▸ hx)
    simp [setColor_mem, this]
  · refine RNodes.congr_nodes p3 ?_
    intro x hx
    have : x ≠ a := fun e => h1.1.1.2 (e ▸ hx)
    simp [setColor_mem, this]
  · simp [setColor_mem, hsa, h9]
  · simp [setColor_mem, hsa, h10]
  · simp [setColor_mem, hra, h11]


/-! ## Rotations -/

@[simp] theorem cf_rcrb_rotate_left_root (t : cf_rcrb_tree) (r : Nat) :
    (cf_rcrb_rotate_left t r).root = t.root := by
  simp only [cf_rcrb_rotate_left, setParent_root, setLeft_root, setRight_root,
    apply_ite cf_rcrb_tree.root, ite_self]

@[simp] theorem cf_rcrb_rotate_left_sentinel (t : cf_rcrb_tree) (r : Nat) :
    (cf_rcrb_rotate_left t r).sentinel = t.sentinel := by
  simp only [cf_rcrb_rotate_left, setParent_sentinel, setLeft_sentinel, setRight_sentinel,
    apply_ite cf_rcrb_tree.sentinel, ite_self]

@[simp] theorem cf_rcrb_rotate_right_root (t : cf_rcrb_tree) (r : Nat) :
    (cf_rcrb_rotate_right t r).root = t.root := by
  simp only [cf_rcrb_rotate_right, setParent_root, setLeft_root, setRight_root,
    apply_ite cf_rcrb_tree.root, ite_self]

@[simp] theorem cf_rcrb_rotate_right_sentinel (t : cf_rcrb_tree) (r : Nat) :
    (cf_rcrb_rotate_right t r).sentinel = t.sentinel := by
  simp only [cf_rcrb_rotate_right, setParent_sentinel, setLeft_sentinel, setRight_sentinel,
    apply_ite cf_rcrb_tree.sentinel, ite_self]

/-- Memory after `cf_rcrb_rotate_left` when `r`, its right child `s` and its
parent `P` are three different nodes and the left child `b` of `s` is none of
them. -/
theorem cf_rcrb_rotate_left_mem (t : cf_rcrb_tree) (r s P b : Nat)
    (hs : (t.mem r).right = s) (hb : (t.mem s).left = b) (hP : (t.mem r).parent = P)
    (hrs : r ≠ s) (hrP : r ≠ P) (hsP : s ≠ P) (hbr : b ≠ r) (hbs : b ≠ s)
    (hbP : b ≠ t.sentinel → b ≠ P) (x : Nat) :
    (cf_rcrb_rotate_left t r).mem x =
      if x = r then { t.mem r with right := b, parent := s }
      else if x = s then { t.mem s with left := r, parent := P }
      else if x = P then
        (if r = (t.mem P).left then { t.mem P with left := s } else { t.mem P with right := s })
      else if x = b ∧ b ≠ t.sentinel then { t.mem b with parent := r }
      else t.mem x := by
  have hsr : s ≠ r := fun e => hrs e.symm
  have hPr : P ≠ r := fun e => hrP e.symm
  have hPs : P ≠ s := fun e => hsP e.symm
  by_cases hbn : b = t.sentinel
  · simp only [cf_rcrb_rotate_left, lft, rgt, par, setLeft_mem, setRight_mem, setParent_mem,
      setLeft_sentinel, setRight_sentinel, setParent_sentinel, hs, hb, hP, hsr, hPr, hPs, hbn,
      if_true, if_false, ne_eq, not_true, not_false_eq_true, hrs, hrP, hsP]
    by_cases h1 : r = (t.mem P).left
    · simp only [h1.symm, if_true, setLeft_mem, setRight_mem, setParent_mem, hsr, hPr, hPs, hrs,
        hrP, hsP, if_false, hs, hb, hP]
      by_cases e1 : x = r
      · subst e1; simp [hs, hP, hbn]
      by_cases e2 : x = s
      · subst e2; simp [e1, hb, hbn]
      by_cases e3 : x = P
      · subst e3; simp [e1, e2, h1.symm]
      simp [e1, e2, e3]
    · simp only [h1, if_true, setLeft_mem, setRight_mem, setParent_mem, hsr, hPr, hPs, hrs,
        hrP, hsP, if_false, hs, hb, hP]
      by_cases e1 : x = r
      · subst e1; simp [hs, hP, hbn]
      by_cases e2 : x = s
      · subst e2; simp [e1, hb, hbn]
      by_cases e3 : x = P
      · subst e3; simp [e1, e2, h1]
      simp [e1, e2, e3]
  · have hbP' := hbP hbn
    have hrb : r ≠ b := fun e => hbr e.symm
    have hsb : s ≠ b := fun e => hbs e.symm
    have hPb : P ≠ b := fun e => hbP' e.symm
    simp only [cf_rcrb_rotate_left, lft, rgt, par, setLeft_mem, setRight_mem, setParent_mem,
      setLeft_sentinel, setRight_sentinel, setParent_sentinel, hs, hb, hP, hsr, hPr, hPs, hbn,
      if_true, if_false, ne_eq, not_true, not_false_eq_true, hrs, hrP, hsP, hbr, hbs, hbP', hrb,
      hsb, hPb]
    by_cases h1 : r = (t.mem P).left
    · simp only [h1.symm, if_true, setLeft_mem, setRight_mem, setParent_mem, hsr, hPr, hPs, hrs,
        hrP, hsP, if_false, hs, hb, hP, hbr, hbs, hbP', hrb, hsb, hPb]
      by_cases e1 : x = r
      · subst e1; simp [hs, hP, hbn]
      by_cases e2 : x = s
      · subst e2; simp [e1, hb, hbn]
      by_cases e3 : x = P
      · subst e3; simp [e1, e2, h1.symm]
      by_cases e4 : x = b
      · subst e4; simp [e1, e2, e3, hbn]
      simp [e1, e2, e3, e4]
    · simp only [h1, if_true, setLeft_mem, setRight_mem, setParent_mem, hsr, hPr, hPs, hrs,
        hrP, hsP, if_false, hs, hb, hP, hbr, hbs, hbP', hrb, hsb, hPb]
      by_cases e1 : x = r
      · subst e1; simp [hs, hP, hbn]
      by_cases e2 : x = s
      · subst e2; simp [e1, hb, hbn]
      by_cases e3 : x = P
      · subst e3; simp [e1, e2, h1]
      by_cases e4 : x = b
      · subst e4; simp [e1, e2, e3, hbn]
      simp [e1, e2, e3, e4]

theorem perm_of_coe {l1 l2 : List Nat} (h : (l1 : Multiset Nat) = l2) : l1.Perm l2 :=
  Multiset.coe_eq_coe.mp h

theorem ctxPar_mem (root : Nat) (ctx : List Frame) :
    ctxPar root ctx = root ∨ ctxPar root ctx ∈ ctxAddrs ctx := by
  cases ctx with
  | nil => simp
  | cons f rest => cases f <;> simp

/-- When the position hangs directly below the root header, the header's left
link is the focus. -/
theorem RepZ.root_par {tree : cf_rcrb_tree} {ctx : List Frame} {t : RTree}
    (h : RepZ tree ctx t) (e : tree.root = ctxPar tree.root ctx) :
    (tree.mem tree.root).left = t.addr tree.sentinel := by
  cases ctx with
  | nil => exact h.path
  | cons f rest =>
    exfalso
    refine h.root_notin (List.mem_append_right _ ?_)
    rw [e]
    cases f <;> simp

theorem RepZ.rot_left {tree : cf_rcrb_tree} {ctx : List Frame} {r c A k v s c' B k' v' C}
    (h : RepZ tree ctx (.node r c A k v (.node s c' B k' v' C))) :
    RepZ (cf_rcrb_rotate_left tree r) ctx (.node s c' (.node r c A k v B) k' v' C) ∧
    (cf_rcrb_rotate_left tree r).mem tree.sentinel = tree.mem tree.sentinel := by
  have hr := h.read
  have hrl : tree.root = ctxPar tree.root ctx → r = (tree.mem tree.root).left :=
    fun e => by rw [h.root_par e]; rfl
  have hs := h.down_R.read
  obtain ⟨h1, h2, h3, h4, h5, h6, h7, h8, h9, h10, h11⟩ := h
  obtain ⟨-, pA, -, pB, pC⟩ := h8
  simp only [RTree.addr_node, ctxPar_cons, Frame.addr_R] at hr hs h7
  have h1' := h1
  have h2' := h2
  have h3' := h3
  simp only [RTree.addrs_node, List.cons_append, List.nodup_cons, List.mem_append, not_or,
    List.mem_cons, List.nodup_append, List.append_assoc, List.disjoint_cons_right,
    List.disjoint_cons_left, List.disjoint_append_left, List.disjoint_append_right] at h1 h2 h3
  obtain ⟨⟨nrA, nrs, nrB, nrC, nrX⟩, ndA, ⟨⟨nsB, nsC, nsX⟩, ndB, ⟨ndC, ndX, dCX⟩, dBC, dBX⟩,
    nsA, dAB, dAC, dAX⟩ := h1
  obtain ⟨qr, qA, qs, qB, qC, qX⟩ := h2
  obtain ⟨gr, gA, gs, gB, gC, gX⟩ := h3
  have hPr : ctxPar tree.root ctx ≠ r := by
    rcases ctxPar_mem tree.root ctx with e | e
    · rw [e]; exact gr
    · intro e'; exact nrX (e' ▸ e)
  have hPs : ctxPar tree.root ctx ≠ s := by
    rcases ctxPar_mem tree.root ctx with e | e
    · rw [e]; exact gs
    · intro e'; exact nsX (e' ▸ e)
  have hPsent : ctxPar tree.root ctx ≠ tree.sentinel := by
    rcases ctxPar_mem tree.root ctx with e | e
    · rw [e]; exact h4
    · intro e'; exact qX (e' ▸ e)
  have hPA : ctxPar tree.root ctx ∉ A.addrs := by
    rcases ctxPar_mem tree.root ctx with e | e
    · rw [e]; exact gA
    · intro e'; exact dAX e' e
  have hPB : ctxPar tree.root ctx ∉ B.addrs := by
    rcases ctxPar_mem tree.root ctx with e | e
    · rw [e]; exact gB
    · intro e'; exact dBX e' e
  have hPC : ctxPar tree.root ctx ∉ C.addrs := by
    rcases ctxPar_mem tree.root ctx with e | e
    · rw [e]; exact gC
    · intro e'; exact dCX e' e
  have hbr : B.addr tree.sentinel ≠ r := by
    rcases RTree.addr_mem tree.sentinel B with e | e
    · rw [e]; exact qr
    · intro e'; exact nrB (e' ▸ e)
  have hbs : B.addr tree.sentinel ≠ s := by
    rcases RTree.addr_mem tree.sentinel B with e | e
    · rw [e]; exact qs
    · intro e'; exact nsB (e' ▸ e)
  have hbP : B.addr tree.sentinel ≠ tree.sentinel →
      B.addr tree.sentinel ≠ ctxPar tree.root ctx := by
    intro hn
    rcases RTree.addr_mem tree.sentinel B with e | e
    · exact absurd e hn
    · intro e'; exact hPB (e' ▸ e)
  have hmem := cf_rcrb_rotate_left_mem tree r s (ctxPar tree.root ctx) (B.addr tree.sentinel)
    (by rw [hr]) (by rw [hs]) (by rw [hr]) (fun e => nrs e) (fun e => hPr e.symm)
    (fun e => hPs e.symm) hbr hbs hbP
  have hother : ∀ x, x ≠ r → x ≠ s → x ≠ ctxPar tree.root ctx → x ∉ B.addrs →
      (cf_rcrb_rotate_left tree r).mem x = tree.mem x := by
    intro x e1 e2 e3 e4
    rw [hmem, if_neg e1, if_neg e2, if_neg e3, if_neg]
    rintro ⟨e5, e6⟩
    rcases RTree.addr_mem tree.sentinel B with e | e
    · exact e6 e
    · exact e4 (e5 ▸ e)
  have hsentm : (cf_rcrb_rotate_left tree r).mem tree.sentinel = tree.mem tree.sentinel :=
    hother _ qr qs (fun e => hPsent e.symm) qB
  refine ⟨⟨?_, ?_, ?_, by simpa using h4, ?_, ?_, ?_, ⟨?_, ⟨?_, ?_, ?_⟩, ?_⟩, ?_, ?_, ?_⟩, hsentm⟩
  · refine List.Perm.nodup ?_ h1'
    apply perm_of_coe
    simp only [RTree.addrs_node, ← Multiset.cons_coe, ← Multiset.coe_add,
      ← Multiset.singleton_add, List.cons_append]
    ac_rfl
  · simp only [cf_rcrb_rotate_left_sentinel, RTree.addrs_node, List.cons_append,
      List.mem_append, not_or, List.mem_cons]
    tauto
  · simp only [cf_rcrb_rotate_left_root, RTree.addrs_node, List.cons_append,
      List.mem_append, not_or, List.mem_cons]
    tauto
  · simp only [cf_rcrb_rotate_left_root]
    rw [hmem, if_neg gr, if_neg gs]
    by_cases e : tree.root = ctxPar tree.root ctx
    · rw [if_pos e, ← e]; split_ifs <;> exact h5
    · rw [if_neg e, if_neg, h5]
      rintro ⟨e5, e6⟩
      rcases RTree.addr_mem tree.sentinel B with e' | e'
      · exact e6 e'
      · exact gB (e5 ▸ e')
  · simp only [cf_rcrb_rotate_left_sentinel]; rw [hsentm, h6]
  · simp only [cf_rcrb_rotate_left_sentinel, cf_rcrb_rotate_left_root, RTree.addr_node]
    refine RCtx.rehole h7 ?_ ?_ h1'.of_append_right (fun e => h3' (List.mem_append_right _ e))
      nrX (fun e => qr e.symm)
    · rw [hmem, if_neg hPr, if_neg hPs, if_pos rfl]
    · intro x e1 e2
      refine hother x ?_ ?_ e1 ?_
      · rcases e2 with e | e
        · rw [e]; exact gr
        · intro e'; exact nrX (e' ▸ e)
      · rcases e2 with e | e
        · rw [e]; exact gs
        · intro e'; exact nsX (e' ▸ e)
      · rcases e2 with e | e
        · rw [e]; exact gB
        · intro e'; exact dBX e' e
  · simp only [cf_rcrb_rotate_left_sentinel, cf_rcrb_rotate_left_root, RTree.addr_node]
    rw [hmem, if_neg (fun e => nrs e.symm), if_pos rfl, hs]
  · simp only [cf_rcrb_rotate_left_sentinel, cf_rcrb_rotate_left_root, RTree.addr_node]
    rw [hmem, if_pos rfl, hr]
  · simp only [cf_rcrb_rotate_left_sentinel]
    refine RNodes.congr_nodes pA ?_
    intro x hx
    exact hother x (fun e => nrA (e ▸ hx)) (fun e => nsA (e ▸ hx)) (fun e => hPA (e ▸ hx))
      (fun e => dAB hx e)
  · simp only [cf_rcrb_rotate_left_sentinel]
    refine RNodes.reparent pB ndB ?_ qB ?_
    · intro hn
      rw [hmem, if_neg hbr, if_neg hbs, if_neg (hbP hn), if_pos ⟨rfl, hn⟩]
    · intro x hx hne
      have e1 : x ≠ r := fun e => nrB (e ▸ hx)
      have e2 : x ≠ s := fun e => nsB (e ▸ hx)
      have e3 : x ≠ ctxPar tree.root ctx := fun e => hPB (e ▸ hx)
      rw [hmem, if_neg e1, if_neg e2, if_neg e3, if_neg (fun e => hne e.1)]
  · simp only [cf_rcrb_rotate_left_sentinel]
    refine RNodes.congr_nodes pC ?_
    intro x hx
    exact hother x (fun e => nrC (e ▸ hx)) (fun e => nsC (e ▸ hx)) (fun e => hPC (e ▸ hx))
      (fun e => dBC e hx)
  · simp only [cf_rcrb_rotate_left_sentinel]; rw [hsentm, h9]
  · simp only [cf_rcrb_rotate_left_sentinel]; rw [hsentm, h10]
  · simp only [cf_rcrb_rotate_left_sentinel, cf_rcrb_rotate_left_root]
    rw [hmem, if_neg gr, if_neg gs]
    by_cases e : tree.root = ctxPar tree.root ctx
    · rw [if_pos e, ← e, if_pos (hrl e)]; exact h11
    · rw [if_neg e, if_neg, h11]
      rintro ⟨e5, e6⟩
      rcases RTree.addr_mem tree.sentinel B with e' | e'
      · exact e6 e'
      · exact gB (e5 ▸ e')

/-- Memory after `cf_rcrb_rotate_right` when `r`, its left child `s` and its
parent `P` are three different nodes and the right child `b` of `s` is none of
them. -/
theorem cf_rcrb_rotate_right_mem (t : cf_rcrb_tree) (r s P b : Nat)
    (hs : (t.mem r).left = s) (hb : (t.mem s).right = b) (hP : (t.mem r).parent = P)
    (hrs : r ≠ s) (hrP : r ≠ P) (hsP : s ≠ P) (hbr : b ≠ r) (hbs : b ≠ s)
    (hbP : b ≠ t.sentinel → b ≠ P) (x : Nat) :
    (cf_rcrb_rotate_right t r).mem x =
      if x = r then { t.mem r with left := b, parent := s }
      else if x = s then { t.mem s with right := r, parent := P }
      else if x = P then
        (if r = (t.mem P).left then { t.mem P with left := s } else { t.mem P with right := s })
      else if x = b ∧ b ≠ t.sentinel then { t.mem b with parent := r }
      else t.mem x := by
  have hsr : s ≠ r := fun e => hrs e.symm
  have hPr : P ≠ r := fun e => hrP e.symm
  have hPs : P ≠ s := fun e => hsP e.symm
  by_cases hbn : b = t.sentinel
  · simp only [cf_rcrb_rotate_right, lft, rgt, par, setLeft_mem, setRight_mem, setParent_mem,
      setLeft_sentinel, setRight_sentinel, setParent_sentinel, hs, hb, hP, hsr, hPr, hPs, hbn,
      if_true, if_false, ne_eq, not_true, not_false_eq_true, hrs, hrP, hsP]
    by_cases h1 : r = (t.mem P).left
    · simp only [h1.symm, if_true, setLeft_mem, setRight_mem, setParent_mem, hsr, hPr, hPs, hrs,
        hrP, hsP, if_false, hs, hb, hP]
      by_cases e1 : x = r
      · subst e1; simp [hs, hP, hbn]
      by_cases e2 : x = s
      · subst e2; simp [e1, hb, hbn]
      by_cases e3 : x = P
      · subst e3; simp [e1, e2, h1.symm]
      simp [e1, e2, e3]
    · simp only [h1, if_true, setLeft_mem, setRight_mem, setParent_mem, hsr, hPr, hPs, hrs,
        hrP, hsP, if_false, hs, hb, hP]
      by_cases e1 : x = r
      · subst e1; simp [hs, hP, hbn]
      by_cases e2 : x = s
      · subst e2; simp [e1, hb, hbn]
      by_cases e3 : x = P
      · subst e3; simp [e1, e2, h1]
      simp [e1, e2, e3]
  · have hbP' := hbP hbn
    have hrb : r ≠ b := fun e => hbr e.symm
    have hsb : s ≠ b := fun e => hbs e.symm
    have hPb : P ≠ b := fun e => hbP' e.symm
    simp only [cf_rcrb_rotate_right, lft, rgt, par, setLeft_mem, setRight_mem, setParent_mem,
      setLeft_sentinel, setRight_sentinel, setParent_sentinel, hs, hb, hP, hsr, hPr, hPs, hbn,
      if_true, if_false, ne_eq, not_true, not_false_eq_true, hrs, hrP, hsP, hbr, hbs, hbP', hrb,
      hsb, hPb]
    by_cases h1 : r = (t.mem P).left
    · simp only [h1.symm, if_true, setLeft_mem, setRight_mem, setParent_mem, hsr, hPr, hPs, hrs,
        hrP, hsP, if_false, hs, hb, hP, hbr, hbs, hbP', hrb, hsb, hPb]
      by_cases e1 : x = r
      · subst e1; simp [hs, hP, hbn]
      by_cases e2 : x = s
      · subst e2; simp [e1, hb, hbn]
      by_cases e3 : x = P
      · subst e3; simp [e1, e2, h1.symm]
      by_cases e4 : x = b
      · subst e4; simp [e1, e2, e3, hbn]
      simp [e1, e2, e3, e4]
    · simp only [h1, if_true, setLeft_mem, setRight_mem, setParent_mem, hsr, hPr, hPs, hrs,
        hrP, hsP, if_false, hs, hb, hP, hbr, hbs, hbP', hrb, hsb, hPb]
      by_cases e1 : x = r
      · subst e1; simp [hs, hP, hbn]
      by_cases e2 : x = s
      · subst e2; simp [e1, hb, hbn]
      by_cases e3 : x = P
      · subst e3; simp [e1, e2, h1]
      by_cases e4 : x = b
      · subst e4; simp [e1, e2, e3, hbn]
      simp [e1, e2, e3, e4]


theorem RepZ.rot_right {tree : cf_rcrb_tree} {ctx : List Frame} {r c A k v s c' B k' v' C}
    (h : RepZ tree ctx (.node r c (.node s c' A k' v' B) k v C)) :
    RepZ (cf_rcrb_rotate_right tree r) ctx (.node s c' A k' v' (.node r c B k v C)) ∧
    (cf_rcrb_rotate_right tree r).mem tree.sentinel = tree.mem tree.sentinel := by
  have hr := h.read
  have hrl : tree.root = ctxPar tree.root ctx → r = (tree.mem tree.root).left :=
    fun e => by rw [h.root_par e]; rfl
  have hs := h.down_L.read
  obtain ⟨h1, h2, h3, h4, h5, h6, h7, h8, h9, h10, h11⟩ := h
  obtain ⟨-, ⟨-, pA, pB⟩, pC⟩ := h8
  simp only [RTree.addr_node, ctxPar_cons, Frame.addr_L] at hr hs h7
  have h1' := h1
  have h2' := h2
  have h3' := h3
  simp only [RTree.addrs_node, List.cons_append, List.nodup_cons, List.mem_append, not_or,
    List.mem_cons, List.nodup_append, List.append_assoc, List.disjoint_cons_right,
    List.disjoint_cons_left, List.disjoint_append_left, List.disjoint_append_right] at h1 h2 h3
  obtain ⟨⟨nrs, nrA, nrB, nrC, nrX⟩, ⟨nsA, nsB, nsC, nsX⟩, ndA, ⟨ndB, ⟨ndC, ndX, dCX⟩, dBC, dBX⟩,
    dAB, dAC, dAX⟩ := h1
  obtain ⟨qr, qs, qA, qB, qC, qX⟩ := h2
  obtain ⟨gr, gs, gA, gB, gC, gX⟩ := h3
  have hPr : ctxPar tree.root ctx ≠ r := by
    rcases ctxPar_mem tree.root ctx with e | e
    · rw [e]; exact gr
    · intro e'; exact nrX (e' ▸ e)
  have hPs : ctxPar tree.root ctx ≠ s := by
    rcases ctxPar_mem tree.root ctx with e | e
    · rw [e]; exact gs
    · intro e'; exact nsX (e' ▸ e)
  have hPsent : ctxPar tree.root ctx ≠ tree.sentinel := by
    rcases ctxPar_mem tree.root ctx with e | e
    · rw [e]; exact h4
    · intro e'; exact qX (e' ▸ e)
  have hPA : ctxPar tree.root ctx ∉ A.addrs := by
    rcases ctxPar_mem tree.root ctx with e | e
    · rw [e]; exact gA
    · intro e'; exact dAX e' e
  have hPB : ctxPar tree.root ctx ∉ B.addrs := by
    rcases ctxPar_mem tree.root ctx with e | e
    · rw [e]; exact gB
    · intro e'; exact dBX e' e
  have hPC : ctxPar tree.root ctx ∉ C.addrs := by
    rcases ctxPar_mem tree.root ctx with e | e
    · rw [e]; exact gC
    · intro e'; exact dCX e' e
  have hbr : B.addr tree.sentinel ≠ r := by
    rcases RTree.addr_mem tree.sentinel B with e | e
    · rw [e]; exact qr
    · intro e'; exact nrB (e' ▸ e)
  have hbs : B.addr tree.sentinel ≠ s := by
    rcases RTree.addr_mem tree.sentinel B with e | e
    · rw [e]; exact qs
    · intro e'; exact nsB (e' ▸ e)
  have hbP : B.addr tree.sentinel ≠ tree.sentinel →
      B.addr tree.sentinel ≠ ctxPar tree.root ctx := by
    intro hn
    rcases RTree.addr_mem tree.sentinel B with e | e
    · exact absurd e hn
    · intro e'; exact hPB (e' ▸ e)
  have hmem := cf_rcrb_rotate_right_mem tree r s (ctxPar tree.root ctx) (B.addr tree.sentinel)
    (by rw [hr]) (by rw [hs]) (by rw [hr]) (fun e => nrs e) (fun e => hPr e.symm)
    (fun e => hPs e.symm) hbr hbs hbP
  have hother : ∀ x, x ≠ r → x ≠ s → x ≠ ctxPar tree.root ctx → x ∉ B.addrs →
      (cf_rcrb_rotate_right tree r).mem x = tree.mem x := by
    intro x e1 e2 e3 e4
    rw [hmem, if_neg e1, if_neg e2, if_neg e3, if_neg]
    rintro ⟨e5, e6⟩
    rcases RTree.addr_mem tree.sentinel B with e | e
    · exact e6 e
    · exact e4 (e5 ▸ e)
  have hsentm : (cf_rcrb_rotate_right tree r).mem tree.sentinel = tree.mem tree.sentinel :=
    hother _ qr qs (fun e => hPsent e.symm) qB
  refine ⟨⟨?_, ?_, ?_, by simpa using h4, ?_, ?_, ?_, ⟨?_, ?_, ⟨?_, ?_, ?_⟩⟩, ?_, ?_, ?_⟩, hsentm⟩
  · refine List.Perm.nodup ?_ h1'
    apply perm_of_coe
    simp only [RTree.addrs_node, ← Multiset.cons_coe, ← Multiset.coe_add,
      ← Multiset.singleton_add, List.cons_append]
    ac_rfl
  · simp only [cf_rcrb_rotate_right_sentinel, RTree.addrs_node, List.cons_append,
      List.mem_append, not_or, List.mem_cons]
    tauto
  · simp only [cf_rcrb_rotate_right_root, RTree.addrs_node, List.cons_append,
      List.mem_append, not_or, List.mem_cons]
    tauto
  · simp only [cf_rcrb_rotate_right_root]
    rw [hmem, if_neg gr, if_neg gs]
    by_cases e : tree.root = ctxPar tree.root ctx
    · rw [if_pos e, ← e]; split_ifs <;> exact h5
    · rw [if_neg e, if_neg, h5]
      rintro ⟨e5, e6⟩
      rcases RTree.addr_mem tree.sentinel B with e' | e'
      · exact e6 e'
      · exact gB (e5 ▸ e')
  · simp only [cf_rcrb_rotate_right_sentinel]; rw [hsentm, h6]
  · simp only [cf_rcrb_rotate_right_sentinel, cf_rcrb_rotate_right_root, RTree.addr_node]
    refine RCtx.rehole h7 ?_ ?_ h1'.of_append_right (fun e => h3' (List.mem_append_right _ e))
      nrX (fun e => qr e.symm)
    · rw [hmem, if_neg hPr, if_neg hPs, if_pos rfl]
    · intro x e1 e2
      refine hother x ?_ ?_ e1 ?_
      · rcases e2 with e | e
        · rw [e]; exact gr
        · intro e'; exact nrX (e' ▸ e)
      · rcases e2 with e | e
        · rw [e]; exact gs
        · intro e'; exact nsX (e' ▸ e)
      · rcases e2 with e | e
        · rw [e]; exact gB
        · intro e'; exact dBX e' e
  · simp only [cf_rcrb_rotate_right_sentinel, cf_rcrb_rotate_right_root, RTree.addr_node]
    rw [hmem, if_neg (fun e => nrs e.symm), if_pos rfl, hs]
  · simp only [cf_rcrb_rotate_right_sentinel]
    refine RNodes.congr_nodes pA ?_
    intro x hx
    exact hother x (fun e => nrA (e ▸ hx)) (fun e => nsA (e ▸ hx)) (fun e => hPA (e ▸ hx))
      (fun e => dAB hx e)
  · simp only [cf_rcrb_rotate_right_sentinel, cf_rcrb_rotate_right_root, RTree.addr_node]
    rw [hmem, if_pos rfl, hr]
  · simp only [cf_rcrb_rotate_right_sentinel]
    refine RNodes.reparent pB ndB ?_ qB ?_
    · intro hn
      rw [hmem, if_neg hbr, if_neg hbs, if_neg (hbP hn), if_pos ⟨rfl, hn⟩]
    · intro x hx hne
      have e1 : x ≠ r := fun e => nrB (e ▸ hx)
      have e2 : x ≠ s := fun e => nsB (e ▸ hx)
      have e3 : x ≠ ctxPar tree.root ctx := fun e => hPB (e ▸ hx)
      rw [hmem, if_neg e1, if_neg e2, if_neg e3, if_neg (fun e => hne e.1)]
  · simp only [cf_rcrb_rotate_right_sentinel]
    refine RNodes.congr_nodes pC ?_
    intro x hx
    exact hother x (fun e => nrC (e ▸ hx)) (fun e => nsC (e ▸ hx)) (fun e => hPC (e ▸ hx))
      (fun e => dBC e hx)
  · simp only [cf_rcrb_rotate_right_sentinel]; rw [hsentm, h9]
  · simp only [cf_rcrb_rotate_right_sentinel]; rw [hsentm, h10]
  · simp only [cf_rcrb_rotate_right_sentinel, cf_rcrb_rotate_right_root]
    rw [hmem, if_neg gr, if_neg gs]
    by_cases e : tree.root = ctxPar tree.root ctx
    · rw [if_pos e, ← e, if_pos (hrl e)]; exact h11
    · rw [if_neg e, if_neg, h11]
      rintro ⟨e5, e6⟩
      rcases RTree.addr_mem tree.sentinel B with e' | e'
      · exact e6 e'
      · exact gB (e5 ▸ e')


/-! ## Colours, black height and contents along a path -/

@[simp] theorem NoRedRed_nil : NoRedRed .nil := trivial
@[simp] theorem NoRedRed_node (a c l k v r) :
    NoRedRed (.node a c l k v r) ↔
      (c = RED → l.color = BLACK ∧ r.color = BLACK) ∧ NoRedRed l ∧ NoRedRed r := Iff.rfl
@[simp] theorem BlackHeight_nil (n : Nat) : BlackHeight .nil n ↔ n = 0 := Iff.rfl
@[simp] theorem BlackHeight_red (a l k v r) (n : Nat) :
    BlackHeight (.node a RED l k v r) n ↔ BlackHeight l n ∧ BlackHeight r n := Iff.rfl
@[simp] theorem BlackHeight_black (a l k v r) (n : Nat) :
    BlackHeight (.node a BLACK l k v r) n ↔ ∃ m, n = m + 1 ∧ BlackHeight l m ∧ BlackHeight r m :=
  Iff.rfl
@[simp] theorem RTree.toList_nil : RTree.nil.toList = [] := rfl
@[simp] theorem RTree.toList_node (a c l k v r) :
    (RTree.node a c l k v r).toList = l.toList ++ (k, v) :: r.toList := rfl
@[simp] theorem RTree.keys_nil : RTree.nil.keys = [] := rfl
@[simp] theorem RTree.keys_node (a c l k v r) :
    (RTree.node a c l k v r).keys = l.keys ++ k :: r.keys := rfl
@[simp] theorem RTree.size_nil : RTree.nil.size = 0 := rfl
@[simp] theorem RTree.size_node (a c l k v r) :
    (RTree.node a c l k v r).size = l.size + r.size + 1 := rfl
@[simp] theorem Ordered_nil : Ordered .nil := trivial
@[simp] theorem Ordered_node (a c l k v r) :
    Ordered (.node a c l k v r) ↔
      (∀ x ∈ l.keys, k < x) ∧ (∀ x ∈ r.keys, x < k) ∧ Ordered l ∧ Ordered r := Iff.rfl

theorem Color.ne_red {c : Color} : c ≠ RED ↔ c = BLACK := by cases c <;> simp
theorem Color.ne_black {c : Color} : c ≠ BLACK ↔ c = RED := by cases c <;> simp

theorem BlackHeight.unique : ∀ {t : RTree} {n m : Nat}, BlackHeight t n → BlackHeight t m → n = m
  | .nil, _, _, h1, h2 => by simp at h1 h2; omega
  | .node _ RED l _ _ _, _, _, h1, h2 => BlackHeight.unique (t := l) h1.1 h2.1
  | .node _ BLACK l _ _ _, _, _, h1, h2 => by
    obtain ⟨a, ha, h1, -⟩ := h1
    obtain ⟨b, hb, h2, -⟩ := h2
    have := BlackHeight.unique (t := l) h1 h2
    omega

theorem RTree.keys_eq_map (t : RTree) : t.keys = t.toList.map Prod.fst := by
  induction t with
  | nil => rfl
  | node a c l k v r ihl ihr => simp [ihl, ihr]

theorem RTree.size_eq_length (t : RTree) : t.size = t.toList.length := by
  induction t with
  | nil => rfl
  | node a c l k v r ihl ihr => simp [ihl, ihr]; omega

theorem plug_color_of_ne_nil {ctx : List Frame} (hne : ctx ≠ []) (t t' : RTree) :
    (plug ctx t).color = (plug ctx t').color := by
  induction ctx generalizing t t' with
  | nil => exact absurd rfl hne
  | cons f rest ih =>
    cases rest with
    | nil => cases f <;> rfl
    | cons g rest' => exact ih (by simp) _ _

theorem NoRedRed.nrr_of_plug : ∀ {z : List Frame} {t : RTree}, NoRedRed (plug z t) → NoRedRed t
  | [], _, h => h
  | .L _ _ _ _ _ :: rest, t, h => (NoRedRed.nrr_of_plug (z := rest) h).2.1
  | .R _ _ _ _ _ :: rest, t, h => (NoRedRed.nrr_of_plug (z := rest) h).2.2

/-- A subtree can be replaced by one without RED-RED pair whose top is BLACK
whenever the top of the replaced one is. -/
theorem NoRedRed.nrr_replace : ∀ {z : List Frame} {t t' : RTree}, NoRedRed (plug z t) →
    NoRedRed t' → (t.color = BLACK → t'.color = BLACK) → NoRedRed (plug z t')
  | [], _, _, _, h', _ => h'
  | .L a c k v r :: rest, t, t', h, h', hc => by
    have hf := NoRedRed.nrr_of_plug (z := rest) h
    refine NoRedRed.nrr_replace (z := rest) h ?_ (fun e => e)
    simp only [Frame.fill_L, NoRedRed_node] at hf ⊢
    exact ⟨fun e => ⟨hc (hf.1 e).1, (hf.1 e).2⟩, h', hf.2.2⟩
  | .R a c l k v :: rest, t, t', h, h', hc => by
    have hf := NoRedRed.nrr_of_plug (z := rest) h
    refine NoRedRed.nrr_replace (z := rest) h ?_ (fun e => e)
    simp only [Frame.fill_R, NoRedRed_node] at hf ⊢
    exact ⟨fun e => ⟨(hf.1 e).1, hc (hf.1 e).2⟩, hf.2.1, h'⟩

/-- The black height of the whole tree depends on a subtree only through the
black height of the subtree. -/
theorem BlackHeight.bh_of_plug : ∀ {z : List Frame} {t : RTree} {H : Nat},
    BlackHeight (plug z t) H →
      ∃ h, BlackHeight t h ∧ ∀ t', BlackHeight t' h → BlackHeight (plug z t') H
  | [], _, H, h => ⟨H, h, fun _ h' => h'⟩
  | .L a c k v r :: rest, t, H, h => by
    obtain ⟨n, hn, hrep⟩ := BlackHeight.bh_of_plug (z := rest) h
    cases c with
    | RED =>
      simp only [Frame.fill_L, BlackHeight_red] at hn
      exact ⟨n, hn.1, fun t' ht' => hrep _ (by simpa using ⟨ht', hn.2⟩)⟩
    | BLACK =>
      simp only [Frame.fill_L, BlackHeight_black] at hn
      obtain ⟨m, hm, h1, h2⟩ := hn
      exact ⟨m, h1, fun t' ht' => hrep _ (by simpa using ⟨m, hm, ht', h2⟩)⟩
  | .R a c l k v :: rest, t, H, h => by
    obtain ⟨n, hn, hrep⟩ := BlackHeight.bh_of_plug (z := rest) h
    cases c with
    | RED =>
      simp only [Frame.fill_R, BlackHeight_red] at hn
      exact ⟨n, hn.2, fun t' ht' => hrep _ (by simpa using ⟨hn.1, ht'⟩)⟩
    | BLACK =>
      simp only [Frame.fill_R, BlackHeight_black] at hn
      obtain ⟨m, hm, h1, h2⟩ := hn
      exact ⟨m, h2, fun t' ht' => hrep _ (by simpa using ⟨m, hm, h1, ht'⟩)⟩

theorem plug_toList_congr : ∀ (ctx : List Frame) {t t' : RTree}, t.toList = t'.toList →
    (plug ctx t).toList = (plug ctx t').toList
  | [], _, _, h => h
  | .L a c k v r :: rest, _, _, h => plug_toList_congr rest (by simp [h])
  | .R a c l k v :: rest, _, _, h => plug_toList_congr rest (by simp [h])

/-- Key-ordering is a property of the key sequence: it is strictly decreasing. -/
theorem Ordered_iff_sorted (t : RTree) : Ordered t ↔ t.keys.Sorted (· > ·) := by
  induction t with
  | nil => simp
  | node a c l k v r ihl ihr =>
    simp only [Ordered_node, RTree.keys_node, List.Sorted, List.pairwise_append,
      List.pairwise_cons, List.mem_cons, ihl, ihr]
    constructor
    · rintro ⟨h1, h2, h3, h4⟩
      refine ⟨h3, ⟨fun x hx => h2 x hx, h4⟩, ?_⟩
      rintro x hx y (rfl | hy)
      · exact h1 x hx
      · exact lt_trans (h2 y hy) (h1 x hx)
    · rintro ⟨h3, ⟨h2, h4⟩, h5⟩
      exact ⟨fun x hx => h5 x hx k (Or.inl rfl), h2, h3, h4⟩

theorem Ordered_congr {t t' : RTree} (h : t.toList = t'.toList) : Ordered t ↔ Ordered t' := by
  rw [Ordered_iff_sorted, Ordered_iff_sorted, RTree.keys_eq_map, RTree.keys_eq_map, h]


/-! ## One iteration of the insertion rebalancing loop -/

@[simp] theorem RTree.paint_nil (c : Color) : RTree.nil.paint c = .nil := rfl
@[simp] theorem RTree.paint_node (c a c' l k v r) :
    (RTree.node a c' l k v r).paint c = .node a c l k v r := rfl

theorem Color.black_eq_red : (BLACK = RED) = False := by simp
theorem Color.red_eq_black : (RED = BLACK) = False := by simp

/-- The colour field at the address of the position. -/
theorem RepZ.col_addr {tree : cf_rcrb_tree} {ctx : List Frame} {t : RTree}
    (h : RepZ tree ctx t) : (tree.mem (t.addr tree.sentinel)).color = t.color := by
  cases t with
  | nil => exact h.sent_color
  | node a c l k v r => rw [RTree.addr_node, h.read]; rfl

theorem RepZ.addr_ne_sent {tree : cf_rcrb_tree} {ctx : List Frame} {a c l k v r}
    (h : RepZ tree ctx (.node a c l k v r)) : a ≠ tree.sentinel := by
  intro e; exact h.sent_notin (by simp [e])

theorem RepZ.addr_ne_root {tree : cf_rcrb_tree} {ctx : List Frame} {a c l k v r}
    (h : RepZ tree ctx (.node a c l k v r)) : a ≠ tree.root := by
  intro e; exact h.root_notin (by simp [e])

/-- The top of a subtree is not the node above it. -/
theorem RepZ.addr_ne_L {tree : cf_rcrb_tree} {ctx : List Frame} {a c k v r} {t : RTree}
    (h : RepZ tree (.L a c k v r :: ctx) t) : a ≠ t.addr tree.sentinel := by
  have h1 := h.nodup
  have h2 := h.sent_notin
  simp only [ctxAddrs_cons, Frame.addrs_L, List.mem_append, List.mem_cons, not_or] at h2
  refine RTree.addr_ne (fun e => h2.2.1.1 e.symm) ?_
  intro e
  exact (List.nodup_append.mp h1).2.2 e (by simp)

theorem RepZ.addr_ne_R {tree : cf_rcrb_tree} {ctx : List Frame} {a c k v l} {t : RTree}
    (h : RepZ tree (.R a c l k v :: ctx) t) : a ≠ t.addr tree.sentinel := by
  have h1 := h.nodup
  have h2 := h.sent_notin
  simp only [ctxAddrs_cons, Frame.addrs_R, List.mem_append, List.mem_cons, not_or] at h2
  refine RTree.addr_ne (fun e => h2.2.1.1 e.symm) ?_
  intro e
  exact (List.nodup_append.mp h1).2.2 e (by simp)

theorem insert_rebalance_step_LL_red {tree : cf_rcrb_tree} {rest : List Frame}
    {p cp kp vp ps g cg kg vg u ul uk uv ur n cn l k v r}
    (h : RepZ tree (.L p cp kp vp ps :: .L g cg kg vg (.node u RED ul uk uv ur) :: rest)
      (.node n cn l k v r)) :
    RepZ (insert_rebalance_step tree n).1 rest
      (.node g RED (.node p BLACK (.node n cn l k v r) kp vp ps) kg vg
        (.node u BLACK ul uk uv ur)) ∧
    (insert_rebalance_step tree n).2 = g := by
  have rn := h.read
  have rp := h.read_L
  have rg := h.up_L.read_L
  have ru := h.up_L.up_L.down_R.read
  have h1 := h.up_L.recolor BLACK
  have h2 := h1.up_L.down_R.recolor BLACK
  have r2n := h2.up_R.down_L.down_L.read
  have r2p := h2.up_R.down_L.read
  have h3 := h2.up_R.recolor RED
  have r3n := h3.down_L.down_L.read
  have r3p := h3.down_L.read
  simp only [ctxPar_cons, Frame.addr_L, Frame.addr_R, RTree.addr_node] at *
  simp only [insert_rebalance_step, par, lft, rgt, col, rn, rp, rg, ru, if_true, r2n, r2p, r3n,
    r3p]
  exact ⟨h3, trivial⟩

/-- The top of a subtree is not the top of its sibling. -/
theorem RepZ.addr_ne_sib_L {tree : cf_rcrb_tree} {ctx : List Frame} {a c k v r n cn nl nk nv nr}
    (h : RepZ tree (.L a c k v r :: ctx) (.node n cn nl nk nv nr)) :
    n ≠ r.addr tree.sentinel := by
  have h1 := h.nodup
  refine RTree.addr_ne h.addr_ne_sent ?_
  intro e
  have hd := (List.nodup_append.mp h1).2.2
  exact hd (a := n) (by simp) (by simp [e])

theorem RepZ.addr_ne_sib_R {tree : cf_rcrb_tree} {ctx : List Frame} {a c k v l n cn nl nk nv nr}
    (h : RepZ tree (.R a c l k v :: ctx) (.node n cn nl nk nv nr)) :
    n ≠ l.addr tree.sentinel := by
  have h1 := h.nodup
  refine RTree.addr_ne h.addr_ne_sent ?_
  intro e
  have hd := (List.nodup_append.mp h1).2.2
  exact hd (a := n) (by simp) (by simp [e])

theorem insert_rebalance_step_RL_red {tree : cf_rcrb_tree} {rest : List Frame}
    {p cp kp vp pl g cg kg vg u ul uk uv ur n cn l k v r}
    (h : RepZ tree (.R p cp pl kp vp :: .L g cg kg vg (.node u RED ul uk uv ur) :: rest)
      (.node n cn l k v r)) :
    RepZ (insert_rebalance_step tree n).1 rest
      (.node g RED (.node p BLACK pl kp vp (.node n cn l k v r)) kg vg
        (.node u BLACK ul uk uv ur)) ∧
    (insert_rebalance_step tree n).2 = g := by
  have rn := h.read
  have rp := h.read_R
  have rg := h.up_R.read_L
  have ru := h.up_R.up_L.down_R.read
  have h1 := h.up_R.recolor BLACK
  have h2 := h1.up_L.down_R.recolor BLACK
  have r2n := h2.up_R.down_L.down_R.read
  have r2p := h2.up_R.down_L.read
  have h3 := h2.up_R.recolor RED
  have r3n := h3.down_L.down_R.read
  have r3p := h3.down_L.read
  simp only [ctxPar_cons, Frame.addr_L, Frame.addr_R, RTree.addr_node] at *
  simp only [insert_rebalance_step, par, lft, rgt, col, rn, rp, rg, ru, if_true, r2n, r2p, r3n,
    r3p]
  exact ⟨h3, trivial⟩

theorem insert_rebalance_step_LL_black {tree : cf_rcrb_tree} {rest : List Frame}
    {p cp kp vp ps g cg kg vg U n cn l k v r}
    (h : RepZ tree (.L p cp kp vp ps :: .L g cg kg vg U :: rest) (.node n cn l k v r))
    (hU : U.color = BLACK) :
    RepZ (insert_rebalance_step tree n).1 (.L p BLACK kp vp (.node g RED ps kg vg U) :: rest)
      (.node n cn l k v r) ∧
    (insert_rebalance_step tree n).2 = n := by
  have rn := h.read
  have rp := h.read_L
  have rg := h.up_L.read_L
  have cu := h.up_L.up_L.down_R.col_addr
  have hne := h.addr_ne_sib_L
  have h1 := h.up_L.recolor BLACK
  have r1n := h1.down_L.read
  have r1p := h1.read
  have h2 := h1.up_L.recolor RED
  have r2n := h2.down_L.down_L.read
  have r2p := h2.down_L.read
  have h3 := h2.rot_right.1
  simp only [ctxPar_cons, Frame.addr_L, Frame.addr_R, RTree.addr_node] at *
  simp only [insert_rebalance_step, par, lft, rgt, col, rn, rp, rg, cu, hU, if_true, hne,
    if_false, r1n, r1p, r2n, r2p, Color.black_eq_red]
  exact ⟨h3.down_L, trivial⟩

theorem insert_rebalance_step_RL_black {tree : cf_rcrb_tree} {rest : List Frame}
    {p cp kp vp pl g cg kg vg U n cn l k v r}
    (h : RepZ tree (.R p cp pl kp vp :: .L g cg kg vg U :: rest) (.node n cn l k v r))
    (hU : U.color = BLACK) :
    RepZ (insert_rebalance_step tree n).1 (.L n BLACK k v (.node g RED r kg vg U) :: rest)
      (.node p cp pl kp vp l) ∧
    (insert_rebalance_step tree n).2 = p := by
  have rn := h.read
  have rp := h.read_R
  have rg := h.up_R.read_L
  have cu := h.up_R.up_L.down_R.col_addr
  have hA := h.up_R.rot_left.1
  have rAp := hA.down_L.read
  have hB := hA.recolor BLACK
  have rBp := hB.down_L.read
  have rBn := hB.read
  have hC := hB.up_L.recolor RED
  have rCp := hC.down_L.down_L.read
  have rCn := hC.down_L.read
  have hD := hC.rot_right.1
  simp only [ctxPar_cons, Frame.addr_L, Frame.addr_R, RTree.addr_node] at *
  simp only [insert_rebalance_step, par, lft, rgt, col, rn, rp, rg, cu, hU, if_true,
    if_false, rAp, rBp, rBn, rCp, rCn, Color.black_eq_red]
  exact ⟨hD.down_L, trivial⟩

theorem insert_rebalance_step_RR_red {tree : cf_rcrb_tree} {rest : List Frame}
    {p cp kp vp pl g cg kg vg u ul uk uv ur n cn l k v r}
    (h : RepZ tree (.R p cp pl kp vp :: .R g cg (.node u RED ul uk uv ur) kg vg :: rest)
      (.node n cn l k v r)) :
    RepZ (insert_rebalance_step tree n).1 rest
      (.node g RED (.node u BLACK ul uk uv ur) kg vg
        (.node p BLACK pl kp vp (.node n cn l k v r))) ∧
    (insert_rebalance_step tree n).2 = g := by
  have rn := h.read
  have rp := h.read_R
  have rg := h.up_R.read_R
  have hne := h.up_R.addr_ne_sib_R
  have ru := h.up_R.up_R.down_L.read
  have h1 := h.up_R.recolor BLACK
  have h2 := h1.up_R.down_L.recolor BLACK
  have r2n := h2.up_L.down_R.down_R.read
  have r2p := h2.up_L.down_R.read
  have h3 := h2.up_L.recolor RED
  have r3n := h3.down_R.down_R.read
  have r3p := h3.down_R.read
  simp only [ctxPar_cons, Frame.addr_L, Frame.addr_R, RTree.addr_node] at *
  simp only [insert_rebalance_step, par, lft, rgt, col, rn, rp, rg, ru, if_true, r2n, r2p, r3n,
    r3p, hne, if_false]
  exact ⟨h3, trivial⟩

theorem insert_rebalance_step_LR_red {tree : cf_rcrb_tree} {rest : List Frame}
    {p cp kp vp ps g cg kg vg u ul uk uv ur n cn l k v r}
    (h : RepZ tree (.L p cp kp vp ps :: .R g cg (.node u RED ul uk uv ur) kg vg :: rest)
      (.node n cn l k v r)) :
    RepZ (insert_rebalance_step tree n).1 rest
      (.node g RED (.node u BLACK ul uk uv ur) kg vg
        (.node p BLACK (.node n cn l k v r) kp vp ps)) ∧
    (insert_rebalance_step tree n).2 = g := by
  have rn := h.read
  have rp := h.read_L
  have rg := h.up_L.read_R
  have hne := h.up_L.addr_ne_sib_R
  have ru := h.up_L.up_R.down_L.read
  have h1 := h.up_L.recolor BLACK
  have h2 := h1.up_R.down_L.recolor BLACK
  have r2n := h2.up_L.down_R.down_L.read
  have r2p := h2.up_L.down_R.read
  have h3 := h2.up_L.recolor RED
  have r3n := h3.down_R.down_L.read
  have r3p := h3.down_R.read
  simp only [ctxPar_cons, Frame.addr_L, Frame.addr_R, RTree.addr_node] at *
  simp only [insert_rebalance_step, par, lft, rgt, col, rn, rp, rg, ru, if_true, r2n, r2p, r3n,
    r3p, hne, if_false]
  exact ⟨h3, trivial⟩

theorem insert_rebalance_step_RR_black {tree : cf_rcrb_tree} {rest : List Frame}
    {p cp kp vp pl g cg kg vg U n cn l k v r}
    (h : RepZ tree (.R p cp pl kp vp :: .R g cg U kg vg :: rest) (.node n cn l k v r))
    (hU : U.color = BLACK) :
    RepZ (insert_rebalance_step tree n).1 (.R p BLACK (.node g RED U kg vg pl) kp vp :: rest)
      (.node n cn l k v r) ∧
    (insert_rebalance_step tree n).2 = n := by
  have rn := h.read
  have rp := h.read_R
  have rg := h.up_R.read_R
  have hnp := h.up_R.addr_ne_sib_R
  have cu := h.up_R.up_R.down_L.col_addr
  have hne := h.addr_ne_sib_R
  have h1 := h.up_R.recolor BLACK
  have r1n := h1.down_R.read
  have r1p := h1.read
  have h2 := h1.up_R.recolor RED
  have r2n := h2.down_R.down_R.read
  have r2p := h2.down_R.read
  have h3 := h2.rot_left.1
  simp only [ctxPar_cons, Frame.addr_L, Frame.addr_R, RTree.addr_node] at *
  simp only [insert_rebalance_step, par, lft, rgt, col, rn, rp, rg, cu, hU, if_true, hne, hnp,
    if_false, r1n, r1p, r2n, r2p, Color.black_eq_red]
  exact ⟨h3.down_R, trivial⟩

theorem insert_rebalance_step_LR_black {tree : cf_rcrb_tree} {rest : List Frame}
    {p cp kp vp ps g cg kg vg U n cn l k v r}
    (h : RepZ tree (.L p cp kp vp ps :: .R g cg U kg vg :: rest) (.node n cn l k v r))
    (hU : U.color = BLACK) :
    RepZ (insert_rebalance_step tree n).1 (.R n BLACK (.node g RED U kg vg l) k v :: rest)
      (.node p cp r kp vp ps) ∧
    (insert_rebalance_step tree n).2 = p := by
  have rn := h.read
  have rp := h.read_L
  have rg := h.up_L.read_R
  have hnp := h.up_L.addr_ne_sib_R
  have cu := h.up_L.up_R.down_L.col_addr
  have hA := h.up_L.rot_right.1
  have rAp := hA.down_R.read
  have hB := hA.recolor BLACK
  have rBp := hB.down_R.read
  have rBn := hB.read
  have hC := hB.up_R.recolor RED
  have rCp := hC.down_R.down_R.read
  have rCn := hC.down_R.read
  have hD := hC.rot_left.1
  simp only [ctxPar_cons, Frame.addr_L, Frame.addr_R, RTree.addr_node] at *
  simp only [insert_rebalance_step, par, lft, rgt, col, rn, rp, rg, cu, hU, if_true, hnp,
    if_false, rAp, rBp, rBn, rCp, rCn, Color.black_eq_red]
  exact ⟨hD.down_R, trivial⟩


/-! ## The insertion rebalancing loop -/

@[simp] theorem RTree.nodes_nil : RTree.nil.nodes = [] := rfl
@[simp] theorem RTree.nodes_node (a c l k v r) :
    (RTree.node a c l k v r).nodes = l.nodes ++ (a, k, v) :: r.nodes := rfl

theorem RTree.toList_eq_map (t : RTree) : t.toList = t.nodes.map (fun x => (x.2.1, x.2.2)) := by
  induction t with
  | nil => rfl
  | node a c l k v r ihl ihr => simp [ihl, ihr]

theorem RTree.addrs_perm (t : RTree) : t.addrs.Perm (t.nodes.map (fun x => x.1)) := by
  induction t with
  | nil => simp
  | node a c l k v r ihl ihr =>
    simp only [RTree.addrs_node, RTree.nodes_node, List.map_append, List.map_cons]
    exact (List.Perm.cons a (ihl.append ihr)).trans List.perm_middle.symm

theorem plug_nodes_congr : ∀ (ctx : List Frame) {t t' : RTree}, t.nodes = t'.nodes →
    (plug ctx t).nodes = (plug ctx t').nodes
  | [], _, _, h => h
  | .L a c k v r :: rest, _, _, h => plug_nodes_congr rest (by simp [h])
  | .R a c l k v :: rest, _, _, h => plug_nodes_congr rest (by simp [h])

theorem plug_append (c1 c2 : List Frame) (t : RTree) :
    plug (c1 ++ c2) t = plug c2 (plug c1 t) := by
  induction c1 generalizing t with
  | nil => rfl
  | cons f rest ih => simp [ih]

@[simp] theorem RTree.paint_nodes (c : Color) (t : RTree) : (t.paint c).nodes = t.nodes := by
  cases t <;> rfl
@[simp] theorem RTree.paint_addr (c : Color) (s : Nat) (t : RTree) :
    (t.paint c).addr s = t.addr s := by
  cases t <;> rfl

theorem MemOnly.refl (s : cf_rcrb_tree) : MemOnly s s := by simp [MemOnly]
theorem MemOnly.trans {a b c : cf_rcrb_tree} (h1 : MemOnly a b) (h2 : MemOnly b c) :
    MemOnly a c := by
  simp only [MemOnly] at *
  obtain ⟨a1, a2, a3, a4, a5, a6, a7, a8, a9⟩ := h1
  obtain ⟨b1, b2, b3, b4, b5, b6, b7, b8, b9⟩ := h2
  exact ⟨b1.trans a1, b2.trans a2, b3.trans a3, b4.trans a4, b5.trans a5, b6.trans a6,
    b7.trans a7, b8.trans a8, b9.trans a9⟩
theorem MemOnly.mo_setColor (s : cf_rcrb_tree) (a c) : MemOnly s (setColor s a c) := by
  simp [MemOnly, Rcrb.setColor]
theorem MemOnly.mo_setLeft (s : cf_rcrb_tree) (a b) : MemOnly s (setLeft s a b) := by
  simp [MemOnly, Rcrb.setLeft]
theorem MemOnly.mo_setRight (s : cf_rcrb_tree) (a b) : MemOnly s (setRight s a b) := by
  simp [MemOnly, Rcrb.setRight]
theorem MemOnly.mo_setParent (s : cf_rcrb_tree) (a b) : MemOnly s (setParent s a b) := by
  simp [MemOnly, Rcrb.setParent]
theorem MemOnly.ite {s : cf_rcrb_tree} {c : Prop} [Decidable c] {a b : cf_rcrb_tree}
    (ha : MemOnly s a) (hb : MemOnly s b) : MemOnly s (if c then a else b) := by
  split_ifs <;> assumption
theorem MemOnly.mo_setColor' {s x : cf_rcrb_tree} {a c} (h : MemOnly s x) :
    MemOnly s (Rcrb.setColor x a c) := h.trans (MemOnly.mo_setColor _ _ _)
theorem MemOnly.mo_setLeft' {s x : cf_rcrb_tree} {a b} (h : MemOnly s x) :
    MemOnly s (Rcrb.setLeft x a b) := h.trans (MemOnly.mo_setLeft _ _ _)
theorem MemOnly.mo_setRight' {s x : cf_rcrb_tree} {a b} (h : MemOnly s x) :
    MemOnly s (Rcrb.setRight x a b) := h.trans (MemOnly.mo_setRight _ _ _)
theorem MemOnly.mo_setParent' {s x : cf_rcrb_tree} {a b} (h : MemOnly s x) :
    MemOnly s (Rcrb.setParent x a b) := h.trans (MemOnly.mo_setParent _ _ _)

theorem MemOnly.mo_rotate_left (s : cf_rcrb_tree) (r : Nat) :
    MemOnly s (cf_rcrb_rotate_left s r) := by
  simp only [cf_rcrb_rotate_left]
  repeat first
    | with_reducible apply MemOnly.mo_setColor'
    | with_reducible apply MemOnly.mo_setLeft'
    | with_reducible apply MemOnly.mo_setRight'
    | with_reducible apply MemOnly.mo_setParent'
    | with_reducible apply MemOnly.ite
    | exact MemOnly.refl _

theorem MemOnly.mo_rotate_right (s : cf_rcrb_tree) (r : Nat) :
    MemOnly s (cf_rcrb_rotate_right s r) := by
  simp only [cf_rcrb_rotate_right]
  repeat first
    | with_reducible apply MemOnly.mo_setColor'
    | with_reducible apply MemOnly.mo_setLeft'
    | with_reducible apply MemOnly.mo_setRight'
    | with_reducible apply MemOnly.mo_setParent'
    | with_reducible apply MemOnly.ite
    | exact MemOnly.refl _

theorem MemOnly.mo_rotate_left' {s x : cf_rcrb_tree} {r} (h : MemOnly s x) :
    MemOnly s (cf_rcrb_rotate_left x r) := h.trans (MemOnly.mo_rotate_left _ _)
theorem MemOnly.mo_rotate_right' {s x : cf_rcrb_tree} {r} (h : MemOnly s x) :
    MemOnly s (cf_rcrb_rotate_right x r) := h.trans (MemOnly.mo_rotate_right _ _)

theorem MemOnly.mo_insert_rebalance_step (s : cf_rcrb_tree) (n : Nat) :
    MemOnly s (insert_rebalance_step s n).1 := by
  simp only [Rcrb.insert_rebalance_step]
  split_ifs <;>
  repeat first
    | with_reducible apply MemOnly.mo_setColor'
    | with_reducible apply MemOnly.mo_rotate_left'
    | with_reducible apply MemOnly.mo_rotate_right'
    | exact MemOnly.refl _

/-- One iteration of the loop of the insert functions acts on the shape as
`insFix`. -/
theorem insert_rebalance_step_spec {tree : cf_rcrb_tree} {rest : List Frame} {f1 f2 : Frame}
    {n cn l k v r} (h : RepZ tree (f1 :: f2 :: rest) (.node n cn l k v r)) :
    RepZ (insert_rebalance_step tree n).1 ((insFix f1 f2 (.node n cn l k v r)).1 ++ rest)
      (insFix f1 f2 (.node n cn l k v r)).2 ∧
    (insert_rebalance_step tree n).2 =
      (insFix f1 f2 (.node n cn l k v r)).2.addr tree.sentinel := by
  cases f1 with
  | L p cp kp vp ps =>
    cases f2 with
    | L g cg kg vg U =>
      by_cases hU : U.color = RED
      · cases U with
        | nil => simp at hU
        | node u cu ul uk uv ur =>
          simp only [RTree.color_node] at hU; subst hU
          simpa [insFix] using insert_rebalance_step_LL_red h
      · simpa [insFix, hU] using insert_rebalance_step_LL_black h (Color.ne_red.mp hU)
    | R g cg U kg vg =>
      by_cases hU : U.color = RED
      · cases U with
        | nil => simp at hU
        | node u cu ul uk uv ur =>
          simp only [RTree.color_node] at hU; subst hU
          simpa [insFix] using insert_rebalance_step_LR_red h
      · simpa [insFix, hU] using insert_rebalance_step_LR_black h (Color.ne_red.mp hU)
  | R p cp pl kp vp =>
    cases f2 with
    | L g cg kg vg U =>
      by_cases hU : U.color = RED
      · cases U with
        | nil => simp at hU
        | node u cu ul uk uv ur =>
          simp only [RTree.color_node] at hU; subst hU
          simpa [insFix] using insert_rebalance_step_RL_red h
      · simpa [insFix, hU] using insert_rebalance_step_RL_black h (Color.ne_red.mp hU)
    | R g cg U kg vg =>
      by_cases hU : U.color = RED
      · cases U with
        | nil => simp at hU
        | node u cu ul uk uv ur =>
          simp only [RTree.color_node] at hU; subst hU
          simpa [insFix] using insert_rebalance_step_RR_red h
      · simpa [insFix, hU] using insert_rebalance_step_RR_black h (Color.ne_red.mp hU)


@[simp] theorem Color.not_red {c : Color} : (¬ c = RED) ↔ c = BLACK := by cases c <;> simp
@[simp] theorem Color.not_black {c : Color} : (¬ c = BLACK) ↔ c = RED := by cases c <;> simp

theorem plug_color_congr (ctx : List Frame) {t t' : RTree} (h : t.color = t'.color) :
    (plug ctx t).color = (plug ctx t').color := by
  cases ctx with
  | nil => exact h
  | cons f rest => exact plug_color_of_ne_nil (by simp) _ _

/-- The loop invariant is kept by one iteration, the nodes in order stay the
same, and the path gets shorter. -/
theorem insFix_inv {f1 f2 : Frame} {rest : List Frame} {t : RTree} {H : Nat}
    (hinv : InsInv (f1 :: f2 :: rest) t H) (hred : f1.color = RED) :
    InsInv ((insFix f1 f2 t).1 ++ rest) (insFix f1 f2 t).2 H ∧
    (plug ((insFix f1 f2 t).1 ++ rest) (insFix f1 f2 t).2).nodes =
      (plug (f1 :: f2 :: rest) t).nodes ∧
    ((insFix f1 f2 t).1 ++ rest).length < rest.length + 2 ∧
    ((insFix f1 f2 t).1 ≠ [] → ctxColor ((insFix f1 f2 t).1 ++ rest) = BLACK) := by
  obtain ⟨hc, hn, hp, hb, hr⟩ := hinv
  have hr' := hr (by simp)
  have hp' := NoRedRed.nrr_of_plug (z := rest) hp
  obtain ⟨h, hb', hrep⟩ := BlackHeight.bh_of_plug (z := rest) hb
  cases t with
  | nil => simp at hc
  | node n cn l k v r =>
  simp only [RTree.color_node] at hc; subst hc
  cases f1 with
  | L p cp kp vp ps =>
    simp only [Frame.color_L] at hred; subst hred
    cases f2 with
    | L g cg kg vg U =>
      simp only [plug_cons, Frame.fill_L, RTree.paint_node, NoRedRed_node, RTree.color_node,
        forall_const, true_and, reduceCtorEq, false_implies, and_true,
        BlackHeight_red, ne_eq] at hp hp' hb hb' hr' hn
      have hcg : cg = BLACK := Color.ne_red.mp (fun e => by simp [e] at hp')
      subst hcg
      simp only [BlackHeight_black] at hb'
      obtain ⟨m, hm, ⟨⟨hl, hr2⟩, hps⟩, hUm⟩ := hb'
      by_cases hU : U.color = RED
      · cases U with
        | nil => simp at hU
        | node u cu ul uk uv ur =>
          simp only [RTree.color_node] at hU; subst hU
          simp only [insFix, RTree.color_node, if_true, List.nil_append, RTree.paint_node]
          refine ⟨⟨rfl, ?_, ?_, ?_, ?_⟩, ?_, by simp, by simp⟩
          · simp only [NoRedRed_node, RTree.color_node] at hp' ⊢
            tauto
          · refine NoRedRed.nrr_replace hp ?_ (fun _ => rfl)
            simp only [NoRedRed_node, RTree.color_node] at hp' ⊢
            simp; tauto
          · apply hrep
            simp only [BlackHeight_red, BlackHeight_black] at hUm ⊢
            exact ⟨⟨m, hm, ⟨hl, hr2⟩, hps⟩, ⟨m, hm, hUm⟩⟩
          · intro hne
            refine Eq.trans ?_ hr'
            exact plug_color_of_ne_nil hne _ _
          · exact plug_nodes_congr rest (by simp)
      · have hU' := Color.ne_red.mp hU
        simp only [insFix, hU, if_false, List.singleton_append]
        refine ⟨⟨rfl, ?_, ?_, ?_, ?_⟩, ?_, by simp, by simp⟩
        · simpa using hn
        · simp only [plug_cons, Frame.fill_L, RTree.paint_node]
          refine NoRedRed.nrr_replace hp ?_ (fun _ => rfl)
          simp only [NoRedRed_node, RTree.color_node] at hp' ⊢
          simp; tauto
        · simp only [plug_cons, Frame.fill_L]
          apply hrep
          simp only [BlackHeight_red, BlackHeight_black] at hUm ⊢
          exact ⟨m, hm, ⟨hl, hr2⟩, hps, hUm⟩
        · intro _
          refine Eq.trans ?_ hr'
          exact plug_color_congr rest rfl
        · exact plug_nodes_congr rest (by simp)
    | R g cg U kg vg =>
      simp only [plug_cons, Frame.fill_L, Frame.fill_R, RTree.paint_node, NoRedRed_node,
        RTree.color_node, forall_const, true_and, reduceCtorEq, false_implies, and_true,
        BlackHeight_red, ne_eq] at hp hp' hb hb' hr' hn
      have hcg : cg = BLACK := Color.ne_red.mp (fun e => by simp [e] at hp')
      subst hcg
      simp only [BlackHeight_black] at hb'
      obtain ⟨m, hm, hUm, ⟨hl, hr2⟩, hps⟩ := hb'
      by_cases hU : U.color = RED
      · cases U with
        | nil => simp at hU
        | node u cu ul uk uv ur =>
          simp only [RTree.color_node] at hU; subst hU
          simp only [insFix, RTree.color_node, if_true, List.nil_append, RTree.paint_node]
          refine ⟨⟨rfl, ?_, ?_, ?_, ?_⟩, ?_, by simp, by simp⟩
          · simp only [NoRedRed_node, RTree.color_node] at hp' ⊢
            tauto
          · refine NoRedRed.nrr_replace hp ?_ (fun _ => rfl)
            simp only [NoRedRed_node, RTree.color_node] at hp' ⊢
            simp; tauto
          · apply hrep
            simp only [BlackHeight_red, BlackHeight_black] at hUm ⊢
            exact ⟨⟨m, hm, hUm⟩, ⟨m, hm, ⟨hl, hr2⟩, hps⟩⟩
          · intro hne
            refine Eq.trans ?_ hr'
            exact plug_color_of_ne_nil hne _ _
          · exact plug_nodes_congr rest (by simp)
      · have hU' := Color.ne_red.mp hU
        simp only [insFix, hU, if_false, List.singleton_append]
        refine ⟨⟨rfl, ?_, ?_, ?_, ?_⟩, ?_, by simp, by simp⟩
        · simp only [NoRedRed_node, RTree.color_node] at hp' ⊢
          tauto
        · simp only [plug_cons, Frame.fill_R, RTree.paint_node]
          refine NoRedRed.nrr_replace hp ?_ (fun _ => rfl)
          simp only [NoRedRed_node, RTree.color_node] at hp' ⊢
          simp; tauto
        · simp only [plug_cons, Frame.fill_R]
          apply hrep
          simp only [BlackHeight_red, BlackHeight_black] at hUm ⊢
          exact ⟨m, hm, ⟨hUm, hl⟩, hr2, hps⟩
        · intro _
          refine Eq.trans ?_ hr'
          exact plug_color_congr rest rfl
        · exact plug_nodes_congr rest (by simp)
  | R p cp pl kp vp =>
    simp only [Frame.color_R] at hred; subst hred
    cases f2 with
    | L g cg kg vg U =>
      simp only [plug_cons, Frame.fill_L, Frame.fill_R, RTree.paint_node, NoRedRed_node,
        RTree.color_node, forall_const, true_and, reduceCtorEq, false_implies, and_true,
        BlackHeight_red, ne_eq] at hp hp' hb hb' hr' hn
      have hcg : cg = BLACK := Color.ne_red.mp (fun e => by simp [e] at hp')
      subst hcg
      simp only [BlackHeight_black] at hb'
      obtain ⟨m, hm, ⟨hpl, hl, hr2⟩, hUm⟩ := hb'
      by_cases hU : U.color = RED
      · cases U with
        | nil => simp at hU
        | node u cu ul uk uv ur =>
          simp only [RTree.color_node] at hU; subst hU
          simp only [insFix, RTree.color_node, if_true, List.nil_append, RTree.paint_node]
          refine ⟨⟨rfl, ?_, ?_, ?_, ?_⟩, ?_, by simp, by simp⟩
          · simp only [NoRedRed_node, RTree.color_node] at hp' ⊢
            tauto
          · refine NoRedRed.nrr_replace hp ?_ (fun _ => rfl)
            simp only [NoRedRed_node, RTree.color_node] at hp' ⊢
            simp; tauto
          · apply hrep
            simp only [BlackHeight_red, BlackHeight_black] at hUm ⊢
            exact ⟨⟨m, hm, hpl, hl, hr2⟩, ⟨m, hm, hUm⟩⟩
          · intro hne
            refine Eq.trans ?_ hr'
            exact plug_color_of_ne_nil hne _ _
          · exact plug_nodes_congr rest (by simp)
      · have hU' := Color.ne_red.mp hU
        simp only [insFix, hU, if_false, List.singleton_append]
        refine ⟨⟨rfl, ?_, ?_, ?_, ?_⟩, ?_, by simp, by simp⟩
        · simp only [NoRedRed_node, RTree.color_node] at hp' ⊢
          tauto
        · simp only [plug_cons, Frame.fill_L, RTree.paint_node]
          refine NoRedRed.nrr_replace hp ?_ (fun _ => rfl)
          simp only [NoRedRed_node, RTree.color_node] at hp' ⊢
          simp; tauto
        · simp only [plug_cons, Frame.fill_L]
          apply hrep
          simp only [BlackHeight_red, BlackHeight_black] at hUm ⊢
          exact ⟨m, hm, ⟨hpl, hl⟩, hr2, hUm⟩
        · intro _
          refine Eq.trans ?_ hr'
          exact plug_color_congr rest rfl
        · exact plug_nodes_congr rest (by simp)
    | R g cg U kg vg =>
      simp only [plug_cons, Frame.fill_L, Frame.fill_R, RTree.paint_node, NoRedRed_node,
        RTree.color_node, forall_const, true_and, reduceCtorEq, false_implies, and_true,
        BlackHeight_red, ne_eq] at hp hp' hb hb' hr' hn
      have hcg : cg = BLACK := Color.ne_red.mp (fun e => by simp [e] at hp')
      subst hcg
      simp only [BlackHeight_black] at hb'
      obtain ⟨m, hm, hUm, hpl, hl, hr2⟩ := hb'
      by_cases hU : U.color = RED
      · cases U with
        | nil => simp at hU
        | node u cu ul uk uv ur =>
          simp only [RTree.color_node] at hU; subst hU
          simp only [insFix, RTree.color_node, if_true, List.nil_append, RTree.paint_node]
          refine ⟨⟨rfl, ?_, ?_, ?_, ?_⟩, ?_, by simp, by simp⟩
          · simp only [NoRedRed_node, RTree.color_node] at hp' ⊢
            tauto
          · refine NoRedRed.nrr_replace hp ?_ (fun _ => rfl)
            simp only [NoRedRed_node, RTree.color_node] at hp' ⊢
            simp; tauto
          · apply hrep
            simp only [BlackHeight_red, BlackHeight_black] at hUm ⊢
            exact ⟨⟨m, hm, hUm⟩, ⟨m, hm, hpl, hl, hr2⟩⟩
          · intro hne
            refine Eq.trans ?_ hr'
            exact plug_color_of_ne_nil hne _ _
          · exact plug_nodes_congr rest (by simp)
      · have hU' := Color.ne_red.mp hU
        simp only [insFix, hU, if_false, List.singleton_append]
        refine ⟨⟨rfl, ?_, ?_, ?_, ?_⟩, ?_, by simp, by simp⟩
        · simpa using hn
        · simp only [plug_cons, Frame.fill_R, RTree.paint_node]
          refine NoRedRed.nrr_replace hp ?_ (fun _ => rfl)
          simp only [NoRedRed_node, RTree.color_node] at hp' ⊢
          simp; tauto
        · simp only [plug_cons, Frame.fill_R]
          apply hrep
          simp only [BlackHeight_red, BlackHeight_black] at hUm ⊢
          exact ⟨m, hm, ⟨hUm, hpl⟩, hl, hr2⟩
        · intro _
          refine Eq.trans ?_ hr'
          exact plug_color_congr rest rfl
        · exact plug_nodes_congr rest (by simp)

/-- Below a BLACK parent a subtree can be replaced by any tree without RED-RED
pair. -/
theorem NoRedRed.replace_black {ctx : List Frame} {t t' : RTree} (hc : ctxColor ctx = BLACK)
    (h : NoRedRed (plug ctx t)) (h' : NoRedRed t') : NoRedRed (plug ctx t') := by
  cases ctx with
  | nil => exact h'
  | cons f rest =>
    have hf := NoRedRed.nrr_of_plug (z := rest) h
    cases f with
    | L a c k v r =>
      simp only [ctxColor_cons, Frame.color_L] at hc; subst hc
      refine NoRedRed.nrr_replace (z := rest) h ?_ (fun e => e)
      simp only [Frame.fill_L, NoRedRed_node] at hf ⊢
      exact ⟨fun e => by simp at e, h', hf.2.2⟩
    | R a c l k v =>
      simp only [ctxColor_cons, Frame.color_R] at hc; subst hc
      refine NoRedRed.nrr_replace (z := rest) h ?_ (fun e => e)
      simp only [Frame.fill_R, NoRedRed_node] at hf ⊢
      exact ⟨fun e => by simp at e, hf.2.1, h'⟩

/-- The colour field of the parent of the position. -/
theorem RepZ.col_par {tree : cf_rcrb_tree} {ctx : List Frame} {t : RTree}
    (h : RepZ tree ctx t) : (tree.mem (ctxPar tree.root ctx)).color = ctxColor ctx := by
  cases ctx with
  | nil => exact h.root_color
  | cons f rest =>
    cases f with
    | L a c k v r => rw [ctxPar_cons, Frame.addr_L, h.read_L]; rfl
    | R a c l k v => rw [ctxPar_cons, Frame.addr_R, h.read_R]; rfl

/-- The insertion rebalancing loop terminates and leaves a tree without RED-RED
pair, with the same black height and the same nodes in order. -/
theorem insert_rebalance_spec : ∀ (fuel : Nat) {tree : cf_rcrb_tree} {ctx : List Frame}
    {t : RTree} {H : Nat}, RepZ tree ctx t → InsInv ctx t H → ctx.length < fuel →
    ∃ tree' T', insert_rebalance fuel tree (t.addr tree.sentinel) = some tree' ∧
      Rep tree' T' ∧ MemOnly tree tree' ∧ NoRedRed T' ∧ BlackHeight T' H ∧
      T'.nodes = (plug ctx t).nodes
  | 0, _, _, _, _, _, _, hf => absurd hf (Nat.not_lt_zero _)
  | fuel + 1, tree, ctx, t, H, h, hinv, hf => by
    obtain ⟨hc, hn, hp, hb, hr⟩ := id hinv
    cases t with
    | nil => simp at hc
    | node n cn l k v r =>
    simp only [RTree.color_node] at hc; subst hc
    have hpar : par tree n = ctxPar tree.root ctx := by rw [par, h.read]
    simp only [insert_rebalance, RTree.addr_node, col, hpar, h.col_par]
    by_cases hcc : ctxColor ctx = RED
    · rw [if_pos hcc]
      cases ctx with
      | nil => simp at hcc
      | cons f1 rest0 =>
        cases rest0 with
        | nil =>
          have := hr (by simp)
          cases f1 <;> simp_all
        | cons f2 rest =>
          obtain ⟨s1, s2⟩ := insert_rebalance_step_spec h
          obtain ⟨i1, i2, i3, -⟩ := insFix_inv hinv (by simpa using hcc)
          rw [s2]
          have hlen : ((insFix f1 f2 (.node n RED l k v r)).1 ++ rest).length < fuel := by
            simp only [List.length_cons] at hf; omega
          obtain ⟨tree', T', e1, e2, e3, e4, e5, e6⟩ :=
            insert_rebalance_spec fuel s1 i1 hlen
          rw [(MemOnly.mo_insert_rebalance_step tree n).2.1] at e1
          exact ⟨tree', T', e1, e2, (MemOnly.mo_insert_rebalance_step _ _).trans e3, e4, e5,
            e6.trans i2⟩
    · rw [if_neg hcc]
      have hcb := Color.ne_red.mp hcc
      refine ⟨tree, plug ctx (.node n RED l k v r), rfl, h.plug, MemOnly.refl _,
        NoRedRed.replace_black hcb hp hn, hb, rfl⟩


/-! ## The descent -/

theorem cf_digest_compare_lt {a b : Nat} (h : a < b) : cf_digest_compare a b = -1 := by
  simp [cf_digest_compare, h]
theorem cf_digest_compare_gt {a b : Nat} (h : b < a) : cf_digest_compare a b = 1 := by
  have h1 : ¬ a < b := by omega
  have h2 : a ≠ b := by omega
  simp [cf_digest_compare, h1, h2]
@[simp] theorem cf_digest_compare_self (a : Nat) : cf_digest_compare a a = 0 := by
  simp [cf_digest_compare]
theorem cf_digest_compare_eq_zero {a b : Nat} : cf_digest_compare a b = 0 ↔ a = b := by
  unfold cf_digest_compare
  split_ifs with h1 h2
  · simp; omega
  · simp [h2]
  · simp [h2]

theorem descend_plug (key : Nat) : ∀ (t : RTree) (ctx : List Frame),
    plug (descend key ctx t).1 (descend key ctx t).2 = plug ctx t
  | .nil, _ => rfl
  | .node a c l k v r, ctx => by
    unfold descend
    split_ifs
    · rw [descend_plug key l]; rfl
    · rw [descend_plug key r]; rfl
    · rfl

theorem RepZ.descend_rep {tree : cf_rcrb_tree} (key : Nat) : ∀ (t : RTree) {ctx : List Frame},
    RepZ tree ctx t → RepZ tree (descend key ctx t).1 (descend key ctx t).2
  | .nil, _, h => h
  | .node a c l k v r, ctx, h => by
    unfold Rcrb.descend
    split_ifs
    · exact RepZ.descend_rep key l h.down_L
    · exact RepZ.descend_rep key r h.down_R
    · exact h

theorem PathOf.descend_path {key : Nat} : ∀ (t : RTree) {ctx : List Frame},
    PathOf key ctx → PathOf key (descend key ctx t).1
  | .nil, _, h => h
  | .node a c l k v r, ctx, h => by
    unfold Rcrb.descend
    split_ifs with h1 h2
    · exact PathOf.descend_path l ⟨h1, h⟩
    · exact PathOf.descend_path r ⟨h2, h⟩
    · exact h

theorem descend_length (key : Nat) : ∀ (t : RTree) (ctx : List Frame),
    (descend key ctx t).1.length + (descend key ctx t).2.size ≤ ctx.length + t.size
  | .nil, _ => Nat.le_refl _
  | .node a c l k v r, ctx => by
    unfold descend
    split_ifs
    · have := descend_length key l (.L a c k v r :: ctx)
      simp only [List.length_cons, RTree.size_node] at *; omega
    · have := descend_length key r (.R a c l k v :: ctx)
      simp only [List.length_cons, RTree.size_node] at *; omega
    · exact Nat.le_refl _

/-- The descent stops at `nil` or at a node that holds the key. -/
theorem descend_key (key : Nat) : ∀ (t : RTree) (ctx : List Frame) {a c l k v r},
    (descend key ctx t).2 = .node a c l k v r → k = key
  | .nil, _, _, _, _, _, _, _, h => by simp [descend] at h
  | .node a' c' l' k' v' r', ctx, a, c, l, k, v, r, h => by
    unfold descend at h
    split_ifs at h with h1 h2
    · exact descend_key key l' _ h
    · exact descend_key key r' _ h
    · simp only [RTree.node.injEq] at h
      omega

theorem descend_nil_of_not_mem (key : Nat) : ∀ (t : RTree) (ctx : List Frame),
    key ∉ t.keys → (descend key ctx t).2 = .nil
  | .nil, _, _ => rfl
  | .node a c l k v r, ctx, h => by
    simp only [RTree.keys_node, List.mem_append, List.mem_cons, not_or] at h
    unfold descend
    split_ifs with h1 h2
    · exact descend_nil_of_not_mem key l _ h.1
    · exact descend_nil_of_not_mem key r _ h.2.2
    · omega

/-- In an ordered tree the descent finds every node by its key. -/
theorem descend_of_mem (key : Nat) : ∀ (t : RTree) (ctx : List Frame) {a v : Nat},
    Ordered t → (a, key, v) ∈ t.nodes →
      ∃ c l r, (descend key ctx t).2 = .node a c l key v r
  | .nil, _, _, _, _, h => by simp at h
  | .node a' c' l' k' v' r', ctx, a, v, ho, h => by
    obtain ⟨o1, o2, o3, o4⟩ := ho
    simp only [RTree.nodes_node, List.mem_append, List.mem_cons, Prod.mk.injEq] at h
    have keyl : ∀ {x : Nat × Nat × Nat} {t : RTree}, x ∈ t.nodes → x.2.1 ∈ t.keys := by
      intro x t hx
      rw [RTree.keys_eq_map, RTree.toList_eq_map, List.map_map]
      exact List.mem_map.mpr ⟨x, hx, rfl⟩
    unfold descend
    rcases h with h | ⟨rfl, rfl, rfl⟩ | h
    · have := o1 _ (keyl h)
      simp only at this
      rw [if_pos this]
      exact descend_of_mem key l' _ o3 h
    · simp
    · have := o2 _ (keyl h)
      simp only at this
      rw [if_neg (by omega), if_pos this]
      exact descend_of_mem key r' _ o4 h

/-- The descent loop of the insert functions follows the search path. -/
theorem insert_descend_spec {tree : cf_rcrb_tree} (key : Nat) : ∀ (fuel : Nat) (t : RTree)
    {ctx : List Frame}, RepZ tree ctx t → t.size < fuel →
    insert_descend fuel tree key (ctxPar tree.root ctx) (t.addr tree.sentinel) =
      some (match (descend key ctx t).2 with
        | .nil => ctxPar tree.root (descend key ctx t).1
        | .node a _ _ _ _ _ => a)
  | 0, _, _, _, hf => absurd hf (Nat.not_lt_zero _)
  | fuel + 1, .nil, ctx, h, _ => by simp [insert_descend, descend]
  | fuel + 1, .node a c l k v r, ctx, h, hf => by
    have ha := h.addr_ne_sent
    simp only [RTree.size_node] at hf
    simp only [insert_descend, RTree.addr_node, ne_eq, ha, not_false_eq_true, if_true, h.read,
      lft, rgt]
    unfold descend
    by_cases h1 : k < key
    · rw [if_pos h1, cf_digest_compare_gt h1]
      simp only [ne_eq, one_ne_zero, not_false_eq_true, if_true, gt_iff_lt, zero_lt_one]
      have := insert_descend_spec key fuel l h.down_L (by omega)
      simpa using this
    · rw [if_neg h1]
      by_cases h2 : key < k
      · rw [if_pos h2, cf_digest_compare_lt h2]
        simp only [ne_eq, neg_eq_zero, one_ne_zero, not_false_eq_true, if_true, gt_iff_lt,
          Left.neg_pos_iff, Int.reduceNeg]
        have := insert_descend_spec key fuel r h.down_R (by omega)
        simpa using this
      · have : key = k := by omega
        subst this
        simp


/-! ## Attaching the new node -/

theorem Ordered.ord_of_plug : ∀ {z : List Frame} {t : RTree}, Ordered (plug z t) → Ordered t
  | [], _, h => h
  | .L _ _ _ _ _ :: rest, _, h => (Ordered.ord_of_plug (z := rest) h).2.2.1
  | .R _ _ _ _ _ :: rest, _, h => (Ordered.ord_of_plug (z := rest) h).2.2.2

/-- In an ordered tree the path to a subtree is a search path of every key of
the subtree. -/
theorem Ordered.pathOf : ∀ {z : List Frame} {t : RTree}, Ordered (plug z t) →
    ∀ x ∈ t.keys, PathOf x z
  | [], _, _, _, _ => trivial
  | .L a c k v r :: rest, t, h, x, hx => by
    have h1 := Ordered.ord_of_plug (z := rest) h
    exact ⟨h1.1 x hx, Ordered.pathOf (z := rest) h x (by simp [hx])⟩
  | .R a c l k v :: rest, t, h, x, hx => by
    have h1 := Ordered.ord_of_plug (z := rest) h
    exact ⟨h1.2.1 x hx, Ordered.pathOf (z := rest) h x (by simp [hx])⟩

/-- A subtree of an ordered tree can be replaced by an ordered tree whose keys
all have the path to the subtree as search path. -/
theorem Ordered.ord_replace : ∀ {z : List Frame} {t t' : RTree}, Ordered (plug z t) →
    Ordered t' → (∀ x ∈ t'.keys, PathOf x z) → Ordered (plug z t')
  | [], _, _, _, h', _ => h'
  | .L a c k v r :: rest, t, t', h, h', hp => by
    have h1 := Ordered.ord_of_plug (z := rest) h
    refine Ordered.ord_replace (z := rest) h ⟨fun x hx => (hp x hx).1, h1.2.1, h', h1.2.2.2⟩ ?_
    intro x hx
    simp only [Frame.fill_L, RTree.keys_node, List.mem_append, List.mem_cons] at hx
    rcases hx with hx | hx | hx
    · exact (hp x hx).2
    · exact Ordered.pathOf (z := rest) h x (by simp [hx])
    · exact Ordered.pathOf (z := rest) h x (by simp [hx])
  | .R a c l k v :: rest, t, t', h, h', hp => by
    have h1 := Ordered.ord_of_plug (z := rest) h
    refine Ordered.ord_replace (z := rest) h ⟨h1.1, fun x hx => (hp x hx).1, h1.2.2.1, h'⟩ ?_
    intro x hx
    simp only [Frame.fill_R, RTree.keys_node, List.mem_append, List.mem_cons] at hx
    rcases hx with hx | hx | hx
    · exact Ordered.pathOf (z := rest) h x (by simp [hx])
    · exact Ordered.pathOf (z := rest) h x (by simp [hx])
    · exact (hp x hx).2

theorem plug_nodes_perm_cons : ∀ (ctx : List Frame) {t t' : RTree} {x : Nat × Nat × Nat},
    t'.nodes.Perm (x :: t.nodes) → (plug ctx t').nodes.Perm (x :: (plug ctx t).nodes)
  | [], _, _, _, h => h
  | .L a c k v r :: rest, _, _, _, h => by
    refine plug_nodes_perm_cons rest ?_
    simp only [Frame.fill_L, RTree.nodes_node]
    exact (h.append_right _).trans (by simp)
  | .R a c l k v :: rest, _, _, _, h => by
    refine plug_nodes_perm_cons rest ?_
    simp only [Frame.fill_R, RTree.nodes_node]
    refine List.Perm.trans ?_ List.perm_middle
    exact List.Perm.append_left _ ((List.Perm.cons _ h).trans (List.Perm.swap _ _ _))

theorem insert_link_left {tree : cf_rcrb_tree} {key s n : Nat} (hsn : s ≠ n)
    (hc : s = tree.root ∨ 0 < cf_digest_compare key (tree.mem s).key) :
    insert_link tree key s n =
      { tree with mem := fun x =>
          if x = s then { tree.mem s with left := n }
          else if x = n then ⟨RED, key, 0, tree.sentinel, tree.sentinel, s⟩ else tree.mem x } := by
  have hns : n ≠ s := fun e => hsn e.symm
  simp only [insert_link, if_true, hsn, if_false, hc, setLeft, upd]
  congr 1
  funext x
  by_cases e : x = s
  · subst e; simp [hsn]
  · simp [e, upd]

theorem insert_link_right {tree : cf_rcrb_tree} {key s n : Nat} (hsn : s ≠ n)
    (hc : ¬ (s = tree.root ∨ 0 < cf_digest_compare key (tree.mem s).key)) :
    insert_link tree key s n =
      { tree with mem := fun x =>
          if x = s then { tree.mem s with right := n }
          else if x = n then ⟨RED, key, 0, tree.sentinel, tree.sentinel, s⟩ else tree.mem x } := by
  have hns : n ≠ s := fun e => hsn e.symm
  simp only [insert_link, if_true, hsn, if_false, hc, setRight, upd]
  congr 1
  funext x
  by_cases e : x = s
  · subst e; simp [hsn]
  · simp [e, upd]

theorem MemOnly.mo_insert_link (tree : cf_rcrb_tree) (key s n : Nat) :
    MemOnly tree (insert_link tree key s n) := by
  simp only [Rcrb.insert_link]
  split_ifs <;> simp [MemOnly, Rcrb.setLeft, Rcrb.setRight]

theorem insert_link_mem_new {tree : cf_rcrb_tree} {key s n : Nat} (hsn : s ≠ n) :
    (insert_link tree key s n).mem n = ⟨RED, key, 0, tree.sentinel, tree.sentinel, s⟩ := by
  have hns : n ≠ s := fun e => hsn e.symm
  by_cases hc : s = tree.root ∨ 0 < cf_digest_compare key (tree.mem s).key
  · rw [insert_link_left hsn hc]; simp [hns]
  · rw [insert_link_right hsn hc]; simp [hns]

theorem insert_link_mem_other {tree : cf_rcrb_tree} {key s n x : Nat} (h1 : x ≠ n) (h2 : x ≠ s) :
    (insert_link tree key s n).mem x = tree.mem x := by
  simp only [insert_link]
  split_ifs <;> simp [setLeft_mem, setRight_mem, h1, h2]

/-- Writing the record of a new RED node at a fresh address `n` and linking it
below the end of the search path of its key puts the node into the tree. -/
theorem RepZ.attach {tree : cf_rcrb_tree} {ctx : List Frame} {key n : Nat}
    (h : RepZ tree ctx .nil) (hp : PathOf key ctx) (hn1 : n ≠ tree.root)
    (hn2 : n ≠ tree.sentinel) (hn3 : n ∉ ctxAddrs ctx) :
    RepZ (insert_link tree key (ctxPar tree.root ctx) n) ctx (.node n RED .nil key 0 .nil) := by
  obtain ⟨h1, h2, h3, h4, h5, h6, h7, h8, h9, h10, h11⟩ := h
  simp only [RTree.addrs_nil, List.nil_append] at h1 h2 h3
  have hsn : ctxPar tree.root ctx ≠ n := by
    rcases ctxPar_mem tree.root ctx with e | e
    · intro e'; exact hn1 (e'.symm.trans e)
    · intro e'; exact hn3 (e' ▸ e)
  have hmo := MemOnly.mo_insert_link tree key (ctxPar tree.root ctx) n
  have hroot := hmo.1
  have hsent := hmo.2.1
  have hmem : ∀ x, x ≠ n → x ≠ ctxPar tree.root ctx →
      (insert_link tree key (ctxPar tree.root ctx) n).mem x = tree.mem x :=
    fun x e1 e2 => insert_link_mem_other e1 e2
  have hmemn := @insert_link_mem_new tree key _ _ hsn
  refine ⟨?_, ?_, ?_, ?_, ?_, ?_, ?_, ?_, ?_, ?_, ?_⟩
  · simpa using ⟨hn3, h1⟩
  · rw [hsent]; simpa using ⟨hn2.symm, h2⟩
  · rw [hroot]; simpa using ⟨hn1.symm, h3⟩
  · rw [hroot, hsent]; exact h4
  · rw [hroot]
    by_cases e : tree.root = ctxPar tree.root ctx
    · by_cases hc : ctxPar tree.root ctx = tree.root ∨
          0 < cf_digest_compare key (tree.mem (ctxPar tree.root ctx)).key
      · rw [insert_link_left hsn hc]; simp [← e, h5]
      · rw [insert_link_right hsn hc]; simp [← e, h5]
    · rw [hmem _ hn1.symm e, h5]
  · rw [hsent, hmem _ hn2.symm ?_, h6]
    rcases ctxPar_mem tree.root ctx with e | e
    · intro e'; exact h4 (e.symm.trans e'.symm)
    · intro e'; exact h2 (by rw [e']; exact e)
  · rw [hroot, hsent]
    simp only [RTree.addr_node, RTree.addr_nil] at h7 ⊢
    cases ctx with
    | nil =>
      simp only [RCtx, ctxPar_nil] at h7 hsn ⊢
      rw [insert_link_left hsn (Or.inl rfl)]
      simp
    | cons f rest =>
      cases f with
      | L a c k v r =>
        obtain ⟨p1, p2, p3⟩ := h7
        obtain ⟨q1, q2⟩ := hp
        simp only [ctxAddrs_cons, Frame.addrs_L, List.cons_append, List.mem_cons, List.mem_append,
          not_or, List.nodup_cons, List.nodup_append, ctxPar_cons, Frame.addr_L] at *
        refine ⟨?_, RNodes.congr_nodes p2 ?_, RCtx.congr_path p3 ?_ ?_⟩
        · rw [insert_link_left hsn (Or.inr (by rw [p1]; simp [cf_digest_compare_gt q1]))]
          simp [p1]
        · intro x hx
          exact hmem x (fun e => hn3.2.1 (e ▸ hx)) (fun e => h1.1.1 (e ▸ hx))
        · rw [hmem _ hn1.symm (fun e => h3.1 e)]
        · intro x hx
          exact hmem x (fun e => hn3.2.2 (e ▸ hx)) (fun e => h1.1.2 (e ▸ hx))
      | R a c l k v =>
        obtain ⟨p1, p2, p3⟩ := h7
        obtain ⟨q1, q2⟩ := hp
        simp only [ctxAddrs_cons, Frame.addrs_R, List.cons_append, List.mem_cons, List.mem_append,
          not_or, List.nodup_cons, List.nodup_append, ctxPar_cons, Frame.addr_R] at *
        refine ⟨?_, RNodes.congr_nodes p2 ?_, RCtx.congr_path p3 ?_ ?_⟩
        · rw [insert_link_right hsn (by
            rw [p1]
            simp only [not_or]
            exact ⟨fun e => h3.1 e.symm, by simp [cf_digest_compare_lt q1]⟩)]
          simp [p1]
        · intro x hx
          exact hmem x (fun e => hn3.2.1 (e ▸ hx)) (fun e => h1.1.1 (e ▸ hx))
        · rw [hmem _ hn1.symm (fun e => h3.1 e)]
        · intro x hx
          exact hmem x (fun e => hn3.2.2 (e ▸ hx)) (fun e => h1.1.2 (e ▸ hx))
  · rw [hsent]
    refine ⟨?_, trivial, trivial⟩
    rw [hmemn, hroot]
    rfl
  · rw [hsent, hmem _ hn2.symm ?_, h9]
    rcases ctxPar_mem tree.root ctx with e | e
    · intro e'; exact h4 (e.symm.trans e'.symm)
    · intro e'; exact h2 (by rw [e']; exact e)
  · rw [hsent, hmem _ hn2.symm ?_, h10]
    rcases ctxPar_mem tree.root ctx with e | e
    · intro e'; exact h4 (e.symm.trans e'.symm)
    · intro e'; exact h2 (by rw [e']; exact e)
  · rw [hroot, hsent]
    by_cases e : tree.root = ctxPar tree.root ctx
    · rw [insert_link_left hsn (Or.inl e.symm)]; simp [← e, h11]
    · rw [hmem _ hn1.symm e, h11]


/-! ## Insertion -/

/-- The shape predicate depends on the node memory, the root header and the
sentinel only. -/
theorem RepZ.congr_fields {tree tree' : cf_rcrb_tree} {ctx : List Frame} {t : RTree}
    (h : RepZ tree ctx t) (hm : tree'.mem = tree.mem) (hr : tree'.root = tree.root)
    (hs : tree'.sentinel = tree.sentinel) : RepZ tree' ctx t := by
  obtain ⟨h1, h2, h3, h4, h5, h6, h7, h8, h9, h10, h11⟩ := h
  exact ⟨h1, by rw [hs]; exact h2, by rw [hr]; exact h3, by rw [hr, hs]; exact h4,
    by rw [hm, hr]; exact h5, by rw [hm, hs]; exact h6, by rw [hm, hr, hs]; exact h7,
    by rw [hm, hr, hs]; exact h8, by rw [hm, hs]; exact h9, by rw [hm, hs]; exact h10,
    by rw [hm, hr, hs]; exact h11⟩

theorem NoRedRed.nrr_paint_black {t : RTree} (h : NoRedRed t) : NoRedRed (t.paint BLACK) := by
  cases t with
  | nil => trivial
  | node a c l k v r => exact ⟨fun e => by simp at e, h.2⟩

theorem BlackHeight.bh_paint_black {t : RTree} {H : Nat} (h : BlackHeight t H) :
    ∃ H', BlackHeight (t.paint BLACK) H' := by
  cases t with
  | nil => exact ⟨H, h⟩
  | node a c l k v r =>
    cases c with
    | RED => exact ⟨H + 1, H, rfl, h⟩
    | BLACK => exact ⟨H, h⟩

theorem RTree.mem_keys_of_mem_nodes {x : Nat × Nat × Nat} {t : RTree} (hx : x ∈ t.nodes) :
    x.2.1 ∈ t.keys := by
  rw [RTree.keys_eq_map, RTree.toList_eq_map, List.map_map]
  exact List.mem_map.mpr ⟨x, hx, rfl⟩

theorem RTree.mem_addrs_of_mem_nodes {x : Nat × Nat × Nat} {t : RTree} (hx : x ∈ t.nodes) :
    x.1 ∈ t.addrs :=
  (RTree.addrs_perm t).symm.subset (List.mem_map.mpr ⟨x, hx, rfl⟩)

theorem RTree.keys_eq_map_nodes (t : RTree) : t.keys = t.nodes.map (fun x => x.2.1) := by
  rw [RTree.keys_eq_map, RTree.toList_eq_map, List.map_map]; rfl

theorem Ordered_congr_nodes {t t' : RTree} (h : t.nodes = t'.nodes) :
    Ordered t ↔ Ordered t' :=
  Ordered_congr (by rw [RTree.toList_eq_map, RTree.toList_eq_map, h])

theorem RTree.size_eq_length_nodes (t : RTree) : t.size = t.nodes.length := by
  rw [RTree.size_eq_length, RTree.toList_eq_map, List.length_map]

theorem forcing_top_black {tree : cf_rcrb_tree} {T : RTree} (h : Rep tree T) (hne : T ≠ .nil) :
    Rep (setColor tree (lft tree tree.root) BLACK) (T.paint BLACK) := by
  cases T with
  | nil => exact absurd rfl hne
  | node a c l k v r =>
    have := h.read_root
    simp only [RTree.addr_node] at this
    rw [lft, this]
    exact RepZ.recolor h BLACK

theorem mem_plug_addrs {x : Nat} : ∀ {z : List Frame} {t : RTree},
    x ∈ (plug z t).addrs ↔ x ∈ t.addrs ∨ x ∈ ctxAddrs z
  | [], _ => by simp
  | .L a c k v r :: rest, t => by
    rw [plug_cons, mem_plug_addrs (z := rest)]
    simp only [Frame.fill_L, RTree.addrs_node, List.mem_cons, List.mem_append, ctxAddrs_cons,
      Frame.addrs_L]
    tauto
  | .R a c l k v :: rest, t => by
    rw [plug_cons, mem_plug_addrs (z := rest)]
    simp only [Frame.fill_R, RTree.addrs_node, List.mem_cons, List.mem_append, ctxAddrs_cons,
      Frame.addrs_R]
    tauto

/-- The part of the insert functions after the allocation, on a red-black,
ordered tree and a key that is not in it: the new node is added, the result is
again red-black and ordered, and the element counter goes up by one. -/
theorem insert_attach_spec {tree : cf_rcrb_tree} {T : RTree} {key n fuel H : Nat}
    (h : Rep tree T) (hc : T.color = BLACK) (hnrr : NoRedRed T) (hbh : BlackHeight T H)
    (hord : Ordered T) (hkey : key ∉ T.keys) (hn1 : n ≠ tree.root) (hn2 : n ≠ tree.sentinel)
    (hn3 : n ∉ T.addrs) (hf : T.size < fuel) :
    ∃ tree' T', insert_attach fuel tree key (ctxPar tree.root (descend key [] T).1) n = some tree' ∧
      Rep tree' T' ∧ T'.color = BLACK ∧ NoRedRed T' ∧ (∃ H', BlackHeight T' H') ∧ Ordered T' ∧
      T'.nodes.Perm ((n, key, 0) :: T.nodes) ∧
      MemOnly { tree with elements := tree.elements + 1 } tree' := by
  have hnil := descend_nil_of_not_mem key T [] hkey
  have hplug := descend_plug key T []
  have hz := RepZ.descend_rep key T h
  have hpath : PathOf key (descend key [] T).1 := PathOf.descend_path T trivial
  have hlen := descend_length key T []
  generalize (descend key [] T).1 = ctx at *
  rw [hnil] at hplug hz hlen
  simp only [plug_nil, RTree.size_nil, List.length_nil, Nat.add_zero, Nat.zero_add] at hplug hlen
  have hfresh : n ∉ ctxAddrs ctx := by
    intro e
    exact hn3 (by rw [← hplug]; exact mem_plug_addrs.mpr (Or.inr e))
  have hatt := RepZ.attach hz hpath hn1 hn2 hfresh
  have hmo1 := MemOnly.mo_insert_link tree key (ctxPar tree.root ctx) n
  have hinv : InsInv ctx (.node n RED .nil key 0 .nil) H := by
    refine ⟨rfl, by simp, ?_, ?_, ?_⟩
    · refine NoRedRed.nrr_replace (t := .nil) (by rw [hplug]; exact hnrr) (by simp) (fun _ => rfl)
    · obtain ⟨h0, e0, hrep⟩ := BlackHeight.bh_of_plug (z := ctx) (t := .nil) (by
        rw [hplug]; exact hbh)
      simp only [BlackHeight_nil] at e0
      exact hrep _ (by simp [e0])
    · intro hne
      rw [plug_color_of_ne_nil hne _ .nil, hplug]; exact hc
  obtain ⟨t3, T3, e1, e2, e3, e4, e5, e6⟩ :=
    insert_rebalance_spec fuel hatt hinv (by omega)
  have hperm : T3.nodes.Perm ((n, key, 0) :: T.nodes) := by
    rw [e6, ← hplug]
    exact plug_nodes_perm_cons ctx (by simp)
  have hne : T3 ≠ .nil := by
    intro e; rw [e] at hperm; simpa using hperm.length_eq
  have hfin := forcing_top_black e2 hne
  simp only [RTree.addr_node] at e1
  refine ⟨{ setColor t3 (lft t3 t3.root) BLACK with
      elements := (setColor t3 (lft t3 t3.root) BLACK).elements + 1 },
    T3.paint BLACK, ?_, ?_, ?_, e4.nrr_paint_black, e5.bh_paint_black, ?_, ?_, ?_⟩
  · simp only [insert_attach, e1]
  · exact hfin.congr_fields rfl rfl rfl
  · cases T3 with
    | nil => exact absurd rfl hne
    | node a c l k v r => rfl
  · rw [Ordered_congr_nodes (RTree.paint_nodes BLACK T3), Ordered_congr_nodes e6]
    refine Ordered.ord_replace (t := .nil) (by rw [hplug]; exact hord) (by simp) ?_
    intro x hx
    simp only [RTree.keys_node, RTree.keys_nil, List.nil_append, List.mem_singleton] at hx
    rw [hx]; exact hpath
  · rw [RTree.paint_nodes]; exact hperm
  · have hmo := (hmo1.trans e3).trans (MemOnly.mo_setColor t3 (lft t3 t3.root) BLACK)
    obtain ⟨a1, a2, a3, a4, a5, a6, a7, a8, a9⟩ := hmo
    exact ⟨a1, a2, by simp [a3], a4, a5, a6, a7, a8, a9⟩


/-! ## Search -/

theorem RNodes.mem_of_nodes_aux {m : Nat → cf_rcrb_node} {sent : Nat} {a k v : Nat} :
    ∀ {t : RTree} {p : Nat}, RNodes m sent p t → (a, k, v) ∈ t.nodes →
      (m a).key = k ∧ (m a).value = v
  | .nil, _, _, h => by simp at h
  | .node a' c' l' k' v' r', _, hn, h => by
    simp only [RTree.nodes_node, List.mem_append, List.mem_cons, Prod.mk.injEq] at h
    rcases h with h | ⟨rfl, rfl, rfl⟩ | h
    · exact RNodes.mem_of_nodes_aux hn.2.1 h
    · rw [hn.1]; exact ⟨rfl, rfl⟩
    · exact RNodes.mem_of_nodes_aux hn.2.2 h

/-- The record of a node of the tree holds its key and its value. -/
theorem Rep.mem_of_nodes {tree : cf_rcrb_tree} {T : RTree} {a k v : Nat} (h : Rep tree T)
    (hx : (a, k, v) ∈ T.nodes) : (tree.mem a).key = k ∧ (tree.mem a).value = v :=
  RNodes.mem_of_nodes_aux h.nodes hx

theorem mem_nodes_of_mem_keys {k : Nat} {t : RTree} (h : k ∈ t.keys) :
    ∃ a v, (a, k, v) ∈ t.nodes := by
  rw [RTree.keys_eq_map_nodes, List.mem_map] at h
  obtain ⟨⟨a, k', v⟩, hx, rfl⟩ := h
  exact ⟨a, v, hx⟩

theorem descend_result_mem (key : Nat) : ∀ (t : RTree) (ctx : List Frame) {a c l k v r},
    (descend key ctx t).2 = .node a c l k v r → (a, k, v) ∈ t.nodes
  | .nil, _, _, _, _, _, _, _, h => by simp [descend] at h
  | .node a' c' l' k' v' r', ctx, a, c, l, k, v, r, h => by
    unfold descend at h
    split_ifs at h with h1 h2
    · have := descend_result_mem key l' _ h; simp [this]
    · have := descend_result_mem key r' _ h; simp [this]
    · simp only [RTree.node.injEq] at h
      obtain ⟨rfl, -, -, rfl, rfl, -⟩ := h
      simp

/-- The loop of `cf_rcrb_search_lockless` follows the search path. -/
theorem search_loop_spec {tree : cf_rcrb_tree} (key : Nat) : ∀ (fuel : Nat) (t : RTree)
    {ctx : List Frame}, RepZ tree ctx t → t.size < fuel →
    search_loop fuel tree key (t.addr tree.sentinel) =
      some (match (descend key ctx t).2 with
        | .nil => none
        | .node a _ _ _ _ _ => some a)
  | 0, _, _, _, hf => absurd hf (Nat.not_lt_zero _)
  | fuel + 1, .nil, ctx, h, _ => by simp [search_loop, descend]
  | fuel + 1, .node a c l k v r, ctx, h, hf => by
    have ha := h.addr_ne_sent
    simp only [RTree.size_node] at hf
    simp only [search_loop, RTree.addr_node, ne_eq, ha, not_false_eq_true, if_true, h.read,
      lft, rgt]
    unfold descend
    by_cases h1 : k < key
    · rw [if_pos h1, cf_digest_compare_gt h1]
      simp only [ne_eq, one_ne_zero, not_false_eq_true, if_true, gt_iff_lt, zero_lt_one]
      have := search_loop_spec key fuel l h.down_L (by omega)
      simpa using this
    · rw [if_neg h1]
      by_cases h2 : key < k
      · rw [if_pos h2, cf_digest_compare_lt h2]
        simp only [ne_eq, neg_eq_zero, one_ne_zero, not_false_eq_true, if_true, gt_iff_lt,
          Left.neg_pos_iff, Int.reduceNeg]
        have := search_loop_spec key fuel r h.down_R (by omega)
        simpa using this
      · have : key = k := by omega
        subst this
        simp

theorem cf_rcrb_search_lockless_spec {tree : cf_rcrb_tree} {T : RTree} (key : Nat) {fuel : Nat}
    (h : Rep tree T) (hf : T.size < fuel) :
    cf_rcrb_search_lockless fuel tree key =
      some (match (descend key [] T).2 with
        | .nil => none
        | .node a _ _ _ _ _ => some a) := by
  unfold cf_rcrb_search_lockless
  have hr := h.read_root
  rw [lft, hr]
  cases T with
  | nil => simp [descend]
  | node a c l k v r =>
    rw [if_neg (by simpa using h.addr_ne_sent)]
    exact search_loop_spec key fuel _ h hf

/-- Search finds a node of an ordered tree by its key. -/
theorem cf_rcrb_search_lockless_hit {tree : cf_rcrb_tree} {T : RTree} {a k v fuel : Nat}
    (h : Rep tree T) (ho : Ordered T) (hf : T.size < fuel) (hx : (a, k, v) ∈ T.nodes) :
    cf_rcrb_search_lockless fuel tree k = some (some a) := by
  rw [cf_rcrb_search_lockless_spec k h hf]
  obtain ⟨c, l, r, e⟩ := descend_of_mem k T [] ho hx
  rw [e]

/-- Search misses a key that is not in the tree. -/
theorem cf_rcrb_search_lockless_miss {tree : cf_rcrb_tree} {T : RTree} {k fuel : Nat}
    (h : Rep tree T) (hf : T.size < fuel) (hx : k ∉ T.keys) :
    cf_rcrb_search_lockless fuel tree k = some none := by
  rw [cf_rcrb_search_lockless_spec k h hf, descend_nil_of_not_mem k T [] hx]

/-! ## The insert functions -/

theorem insert_descend_hit {tree : cf_rcrb_tree} {T : RTree} {a k v fuel : Nat}
    (h : Rep tree T) (ho : Ordered T) (hf : T.size < fuel) (hx : (a, k, v) ∈ T.nodes) :
    insert_descend fuel tree k tree.root (lft tree tree.root) = some a := by
  have := insert_descend_spec k fuel T h hf
  rw [ctxPar_nil, ← h.read_root] at this
  rw [lft, this]
  obtain ⟨c, l, r, e⟩ := descend_of_mem k T [] ho hx
  rw [e]

theorem insert_descend_miss {tree : cf_rcrb_tree} {T : RTree} {k fuel : Nat}
    (h : Rep tree T) (hf : T.size < fuel) (hx : k ∉ T.keys) :
    insert_descend fuel tree k tree.root (lft tree tree.root) =
      some (ctxPar tree.root (descend k [] T).1) := by
  have := insert_descend_spec k fuel T h hf
  rw [ctxPar_nil, ← h.read_root] at this
  rw [lft, this, descend_nil_of_not_mem k T [] hx]

/-- At the end of a search path that ends at `nil` the test for an existing
node fails. -/
theorem insert_found_test_miss {tree : cf_rcrb_tree} {T : RTree} {k : Nat}
    (h : Rep tree T) (hx : k ∉ T.keys) :
    ¬ (ctxPar tree.root (descend k [] T).1 ≠ tree.root ∧
        0 = cf_digest_compare k (tree.mem (ctxPar tree.root (descend k [] T).1)).key) := by
  have hz := RepZ.descend_rep k T h
  have hpath : PathOf k (descend k [] T).1 := PathOf.descend_path T trivial
  rw [descend_nil_of_not_mem k T [] hx] at hz
  generalize (descend k [] T).1 = ctx at *
  cases ctx with
  | nil => simp
  | cons f rest =>
    cases f with
    | L a c k' v r =>
      rw [ctxPar_cons, Frame.addr_L, hz.read_L]
      have := hpath.1
      simp [cf_digest_compare_gt this]
    | R a c l k' v =>
      rw [ctxPar_cons, Frame.addr_R, hz.read_R]
      have := hpath.1
      simp [cf_digest_compare_lt this]

theorem found_test_hit {tree : cf_rcrb_tree} {T : RTree} {a k v : Nat} (h : Rep tree T)
    (hx : (a, k, v) ∈ T.nodes) :
    a ≠ tree.root ∧ 0 = cf_digest_compare k (tree.mem a).key := by
  have ha := RTree.mem_addrs_of_mem_nodes hx
  refine ⟨fun e => h.root_notin (by simpa [e] using ha), ?_⟩
  rw [(h.mem_of_nodes hx).1]; simp

/-- Inserting a key that is not in a red-black, ordered tree: the new node is
added at the allocated address, the tree stays red-black and ordered, the
counter goes up by one and the lock stays held. -/
theorem cf_rcrb_insert_vlock_new {tree : cf_rcrb_tree} {T : RTree} {key n fuel H : Nat}
    (h : Rep tree T) (hc : T.color = BLACK) (hnrr : NoRedRed T) (hbh : BlackHeight T H)
    (hord : Ordered T) (hkey : key ∉ T.keys) (hn1 : n ≠ tree.root) (hn2 : n ≠ tree.sentinel)
    (hn3 : n ∉ T.addrs) (hf : T.size < fuel) :
    ∃ tree' T', cf_rcrb_insert_vlock fuel tree key (some n) = some (tree', some n) ∧
      Rep tree' T' ∧ T'.color = BLACK ∧ NoRedRed T' ∧ (∃ H', BlackHeight T' H') ∧ Ordered T' ∧
      T'.nodes.Perm ((n, key, 0) :: T.nodes) ∧
      MemOnly { tree with elements := tree.elements + 1, lock := true } tree' := by
  have h0 : Rep { tree with lock := true } T := h.congr_fields rfl rfl rfl
  obtain ⟨tree', T', e1, e2, e3, e4, e5, e6, e7, e8⟩ :=
    insert_attach_spec h0 hc hnrr hbh hord hkey hn1 hn2 hn3 hf
  refine ⟨tree', T', ?_, e2, e3, e4, e5, e6, e7, e8⟩
  have hd := insert_descend_miss h0 hf hkey
  have ht := insert_found_test_miss h0 hkey
  simp only [cf_rcrb_insert_vlock, hd, if_neg ht, e1]

theorem cf_rcrb_get_insert_vlock_new {tree : cf_rcrb_tree} {T : RTree} {key n fuel H : Nat}
    (h : Rep tree T) (hc : T.color = BLACK) (hnrr : NoRedRed T) (hbh : BlackHeight T H)
    (hord : Ordered T) (hkey : key ∉ T.keys) (hn1 : n ≠ tree.root) (hn2 : n ≠ tree.sentinel)
    (hn3 : n ∉ T.addrs) (hf : T.size < fuel) :
    ∃ tree' T', cf_rcrb_get_insert_vlock fuel tree key (some n) = some (tree', some n) ∧
      Rep tree' T' ∧ T'.color = BLACK ∧ NoRedRed T' ∧ (∃ H', BlackHeight T' H') ∧ Ordered T' ∧
      T'.nodes.Perm ((n, key, 0) :: T.nodes) ∧
      MemOnly { tree with elements := tree.elements + 1, lock := true } tree' := by
  have h0 : Rep { tree with lock := true } T := h.congr_fields rfl rfl rfl
  obtain ⟨tree', T', e1, e2, e3, e4, e5, e6, e7, e8⟩ :=
    insert_attach_spec h0 hc hnrr hbh hord hkey hn1 hn2 hn3 hf
  refine ⟨tree', T', ?_, e2, e3, e4, e5, e6, e7, e8⟩
  have hd := insert_descend_miss h0 hf hkey
  have ht := insert_found_test_miss h0 hkey
  simp only [cf_rcrb_get_insert_vlock, hd, if_neg ht, e1]

/-- Inserting a key that is in the tree returns 0 and only releases the lock. -/
theorem cf_rcrb_insert_vlock_dup {tree : cf_rcrb_tree} {T : RTree} {a k v fuel : Nat}
    (h : Rep tree T) (ho : Ordered T) (hf : T.size < fuel) (hx : (a, k, v) ∈ T.nodes)
    (malloc : Option Nat) :
    cf_rcrb_insert_vlock fuel tree k malloc = some ({ tree with lock := false }, none) := by
  have h0 : Rep { tree with lock := true } T := h.congr_fields rfl rfl rfl
  have hd := insert_descend_hit h0 ho hf hx
  have ht := found_test_hit h0 hx
  simp only [cf_rcrb_insert_vlock, hd, if_pos ht]

/-- The get-or-insert function returns the node that holds the key and only
takes the lock. -/
theorem cf_rcrb_get_insert_vlock_dup {tree : cf_rcrb_tree} {T : RTree} {a k v fuel : Nat}
    (h : Rep tree T) (ho : Ordered T) (hf : T.size < fuel) (hx : (a, k, v) ∈ T.nodes)
    (malloc : Option Nat) :
    cf_rcrb_get_insert_vlock fuel tree k malloc = some ({ tree with lock := true }, some a) := by
  have h0 : Rep { tree with lock := true } T := h.congr_fields rfl rfl rfl
  have hd := insert_descend_hit h0 ho hf hx
  have ht := found_test_hit h0 hx
  simp only [cf_rcrb_get_insert_vlock, hd, if_pos ht]


/-! ## The example tree -/

theorem exTree_rep : Rep exTree exShape :=
  ⟨by decide, by decide, by decide, by decide, rfl, rfl, rfl, ⟨rfl, ⟨rfl, trivial, trivial⟩, trivial⟩,
    rfl, rfl, rfl⟩

theorem exShape_redBlack : RedBlack exShape :=
  ⟨rfl, by simp [exShape], 1, by simp [exShape]⟩

theorem exShape_ordered : Ordered exShape := by simp [exShape]

theorem exShape_fresh : Fresh exTree exShape 5 := by
  refine ⟨by decide, by decide, by decide⟩

theorem cf_rcrb_create_rep {udata sn rt : Nat} {mem : Nat → cf_rcrb_node} {rc : Nat → Nat}
    (hne : sn ≠ rt) :
    ∃ t0, cf_rcrb_create udata true (some sn) (some rt) mem rc = some t0 ∧ Rep t0 .nil ∧
      t0.elements = 0 ∧ t0.root = rt ∧ t0.sentinel = sn ∧ t0.lock = false := by
  refine ⟨_, rfl, ⟨by simp, by simp, by simp, fun e => hne e.symm, ?_, ?_, ?_, trivial,
    ?_, ?_, ?_⟩, rfl, rfl, rfl, rfl⟩
  · simp
  · simp [hne]
  · simp [RCtx]
  · simp [hne]
  · simp [hne]
  · simp

/-! ## Claims about insertion and search -/

/-- C1: for every tree that satisfies the red-black invariants (top node BLACK,
no RED node with a RED parent, equal number of BLACK nodes on every path) and
the key ordering, and every key not present, `cf_rcrb_insert_vlock` returns the
new node, and the tree afterwards again has no RED node with a RED parent, the
same number of BLACK nodes on all paths, and a BLACK node at `root->left`. -/
theorem C1_insert_preserves_red_black (tree : cf_rcrb_tree) (T : RTree) (key n fuel : Nat)
    (h : Rep tree T) (hrb : RedBlack T) (ho : Ordered T) (hkey : key ∉ T.keys)
    (hn : Fresh tree T n) (hf : T.size < fuel) :
    ∃ tree' T', cf_rcrb_insert_vlock fuel tree key (some n) = some (tree', some n) ∧
      Rep tree' T' ∧ NoRedRed T' ∧ (∃ H, BlackHeight T' H) ∧ T'.color = BLACK ∧
      col tree' (lft tree' tree'.root) = BLACK := by
  obtain ⟨hc, hnrr, H, hbh⟩ := hrb
  obtain ⟨tree', T', e1, e2, e3, e4, e5, -, -, -⟩ :=
    cf_rcrb_insert_vlock_new h hc hnrr hbh ho hkey hn.1 hn.2.1 hn.2.2 hf
  refine ⟨tree', T', e1, e2, e4, e5, e3, ?_⟩
  rw [col, lft, e2.read_root, e2.col_addr, e3]

theorem C1_insert_preserves_red_black_witness :
    ∃ tree' T', cf_rcrb_insert_vlock 3 exTree 40 (some 5) = some (tree', some 5) ∧
      Rep tree' T' ∧ NoRedRed T' ∧ (∃ H, BlackHeight T' H) ∧ T'.color = BLACK ∧
      col tree' (lft tree' tree'.root) = BLACK :=
  C1_insert_preserves_red_black exTree exShape 40 5 3 exTree_rep exShape_redBlack
    exShape_ordered (by decide) exShape_fresh (by decide)

/-- C5: on a tree that satisfies the key ordering, `cf_rcrb_search_lockless`
returns a node exactly when some node of the tree holds the key, the node it
returns holds exactly that key, and otherwise it returns NULL. -/
theorem C5_search_lockless_correct (tree : cf_rcrb_tree) (T : RTree) (k fuel : Nat)
    (h : Rep tree T) (ho : Ordered T) (hf : T.size < fuel) :
    (k ∈ T.keys → ∃ a, a ∈ T.addrs ∧ cf_rcrb_search_lockless fuel tree k = some (some a) ∧
      (tree.mem a).key = k) ∧
    (k ∉ T.keys → cf_rcrb_search_lockless fuel tree k = some none) := by
  refine ⟨fun hk => ?_, fun hk => cf_rcrb_search_lockless_miss h hf hk⟩
  obtain ⟨a, v, hx⟩ := mem_nodes_of_mem_keys hk
  exact ⟨a, RTree.mem_addrs_of_mem_nodes hx, cf_rcrb_search_lockless_hit h ho hf hx,
    (h.mem_of_nodes hx).1⟩

theorem C5_search_lockless_correct_witness :
    (30 ∈ exShape.keys → ∃ a, a ∈ exShape.addrs ∧
      cf_rcrb_search_lockless 3 exTree 30 = some (some a) ∧ (exTree.mem a).key = 30) ∧
    (30 ∉ exShape.keys → cf_rcrb_search_lockless 3 exTree 30 = some none) :=
  C5_search_lockless_correct exTree exShape 30 3 exTree_rep exShape_ordered (by decide)

/-- C7: `cf_rcrb_search` changes reference counts only on a hit.  When the key
is held by a node it returns the value of that node, the count of that value is
higher by one, and nothing else in the state changes; when the key is absent it
returns NULL and the state is unchanged. -/
theorem C7_search_frame (tree : cf_rcrb_tree) (T : RTree) (k fuel : Nat)
    (h : Rep tree T) (ho : Ordered T) (hf : T.size < fuel) (hl : tree.lock = false) :
    (∀ a v, (a, k, v) ∈ T.nodes →
      cf_rcrb_search fuel tree k = some ({ tree with rc := cf_rc_reserve tree.rc v }, v) ∧
      cf_rc_reserve tree.rc v v = tree.rc v + 1 ∧
      ∀ w, w ≠ v → cf_rc_reserve tree.rc v w = tree.rc w) ∧
    (k ∉ T.keys → cf_rcrb_search fuel tree k = some (tree, 0)) := by
  have h0 : Rep { tree with lock := true } T := h.congr_fields rfl rfl rfl
  constructor
  · intro a v hx
    have e := cf_rcrb_search_lockless_hit h0 ho hf hx
    have hv := (h.mem_of_nodes hx).2
    refine ⟨?_, by simp [cf_rc_reserve], fun w hw => by simp [cf_rc_reserve, hw]⟩
    simp only [cf_rcrb_search, e, hv, ← hl]
  · intro hk
    have e := cf_rcrb_search_lockless_miss h0 hf hk
    simp only [cf_rcrb_search, e, ← hl]

theorem C7_search_frame_witness :
    (∀ a v, (a, 30, v) ∈ exShape.nodes →
      cf_rcrb_search 3 exTree 30 = some ({ exTree with rc := cf_rc_reserve exTree.rc v }, v) ∧
      cf_rc_reserve exTree.rc v v = exTree.rc v + 1 ∧
      ∀ w, w ≠ v → cf_rc_reserve exTree.rc v w = exTree.rc w) ∧
    (30 ∉ exShape.keys → cf_rcrb_search 3 exTree 30 = some (exTree, 0)) :=
  C7_search_frame exTree exShape 30 3 exTree_rep exShape_ordered (by decide) rfl


theorem mem_keys_iff_of_perm {T T' : RTree} {x : Nat × Nat × Nat}
    (hp : T'.nodes.Perm (x :: T.nodes)) (k : Nat) :
    k ∈ T'.keys ↔ k = x.2.1 ∨ k ∈ T.keys := by
  rw [RTree.keys_eq_map_nodes, RTree.keys_eq_map_nodes, (hp.map _).mem_iff]
  simp

theorem size_of_perm {T T' : RTree} {x : Nat × Nat × Nat}
    (hp : T'.nodes.Perm (x :: T.nodes)) : T'.size = T.size + 1 := by
  rw [RTree.size_eq_length_nodes, RTree.size_eq_length_nodes, hp.length_eq]
  simp

/-- C8: for every valid tree and every key not present (allocation succeeding),
`cf_rcrb_insert_vlock` returns a new node whose key is the inserted key and
whose value slot is 0; afterwards the keys of the tree are the old keys plus the
new one, every node that was in the tree is still found by its key and has the
same value, and the element count is one higher. -/
theorem C8_insert_adds_key (tree : cf_rcrb_tree) (T : RTree) (key n fuel : Nat)
    (h : Rep tree T) (hrb : RedBlack T) (ho : Ordered T) (hkey : key ∉ T.keys)
    (hn : Fresh tree T n) (hf : T.size + 1 < fuel) :
    ∃ tree' T', cf_rcrb_insert_vlock fuel tree key (some n) = some (tree', some n) ∧
      Rep tree' T' ∧ (tree'.mem n).key = key ∧ (tree'.mem n).value = 0 ∧
      (∀ x, x ∈ T'.keys ↔ x = key ∨ x ∈ T.keys) ∧
      (∀ a k v, (a, k, v) ∈ T.nodes →
        cf_rcrb_search_lockless fuel tree' k = some (some a) ∧ (tree'.mem a).value = v) ∧
      tree'.elements = tree.elements + 1 := by
  obtain ⟨hc, hnrr, H, hbh⟩ := hrb
  have hlt0 : T.size < fuel := by omega
  obtain ⟨tree', T', e1, e2, e3, e4, e5, e6, e7, e8⟩ :=
    cf_rcrb_insert_vlock_new h hc hnrr hbh ho hkey hn.1 hn.2.1 hn.2.2 hlt0
  have hnew : (n, key, 0) ∈ T'.nodes := e7.symm.subset (List.mem_cons_self _ _)
  have hsz := size_of_perm e7
  refine ⟨tree', T', e1, e2, (e2.mem_of_nodes hnew).1, (e2.mem_of_nodes hnew).2,
    fun x => mem_keys_iff_of_perm e7 x, ?_, e8.2.2.1⟩
  intro a k v hx
  have hx' : (a, k, v) ∈ T'.nodes := e7.symm.subset (List.mem_cons_of_mem _ hx)
  have hlt : T'.size < fuel := by omega
  exact ⟨cf_rcrb_search_lockless_hit e2 e6 hlt hx', (e2.mem_of_nodes hx').2⟩

theorem C8_insert_adds_key_witness :
    ∃ tree' T', cf_rcrb_insert_vlock 4 exTree 40 (some 5) = some (tree', some 5) ∧
      Rep tree' T' ∧ (tree'.mem 5).key = 40 ∧ (tree'.mem 5).value = 0 ∧
      (∀ x, x ∈ T'.keys ↔ x = 40 ∨ x ∈ exShape.keys) ∧
      (∀ a k v, (a, k, v) ∈ exShape.nodes →
        cf_rcrb_search_lockless 4 tree' k = some (some a) ∧ (tree'.mem a).value = v) ∧
      tree'.elements = exTree.elements + 1 :=
  C8_insert_adds_key exTree exShape 40 5 4 exTree_rep exShape_redBlack exShape_ordered
    (by decide) exShape_fresh (by decide)

/-- C9: for every valid tree and every key already present,
`cf_rcrb_insert_vlock` returns 0 and leaves the state as it was, whatever the
allocator would return: only the lock is taken and released.  In particular,
inserting the same key twice into a newly created tree leaves size 1. -/
theorem C9_duplicate_insert (tree : cf_rcrb_tree) (T : RTree) (k fuel : Nat)
    (malloc : Option Nat) (h : Rep tree T) (ho : Ordered T) (hk : k ∈ T.keys)
    (hf : T.size < fuel) :
    cf_rcrb_insert_vlock fuel tree k malloc = some ({ tree with lock := false }, none) ∧
    (tree.lock = false → cf_rcrb_insert_vlock fuel tree k malloc = some (tree, none)) ∧
    (∀ (udata sn rt n : Nat) (mem : Nat → cf_rcrb_node) (rc : Nat → Nat),
      sn ≠ rt → n ≠ rt → n ≠ sn →
      ∃ t0 t1 t2, cf_rcrb_create udata true (some sn) (some rt) mem rc = some t0 ∧
        cf_rcrb_insert_vlock 2 t0 k (some n) = some (t1, some n) ∧
        cf_rcrb_insert_vlock 2 { t1 with lock := false } k malloc = some (t2, none) ∧
        (cf_rcrb_size t2).2 = 1) := by
  obtain ⟨a, v, hx⟩ := mem_nodes_of_mem_keys hk
  have e := cf_rcrb_insert_vlock_dup h ho hf hx malloc
  refine ⟨e, fun hl => by rw [e, ← hl], ?_⟩
  intro udata sn rt n mem rc h1 h2 h3
  obtain ⟨t0, c1, c2, c3, c4, c5, c6⟩ := @cf_rcrb_create_rep udata sn rt mem rc h1
  obtain ⟨t1, T1, d1, d2, d3, d4, d5, d6, d7, d8⟩ :=
    @cf_rcrb_insert_vlock_new t0 .nil k n 2 0 c2 rfl trivial rfl trivial
      (by simp) (by rw [c4]; exact h2) (by rw [c5]; exact h3) (by simp) (by simp)
  have hnew : (n, k, 0) ∈ T1.nodes := d7.symm.subset (List.mem_cons_self _ _)
  have hsz := size_of_perm d7
  have d2' : Rep { t1 with lock := false } T1 := d2.congr_fields rfl rfl rfl
  have hlt : T1.size < 2 := by simp at hsz; omega
  have e2 := cf_rcrb_insert_vlock_dup d2' d6 hlt hnew malloc
  refine ⟨t0, t1, _, c1, d1, e2, ?_⟩
  have := d8.2.2.1
  simp only [cf_rcrb_size]
  rw [this, c3]
  rfl

theorem C9_duplicate_insert_witness :
    cf_rcrb_insert_vlock 3 exTree 30 (some 5) = some ({ exTree with lock := false }, none) ∧
    (exTree.lock = false → cf_rcrb_insert_vlock 3 exTree 30 (some 5) = some (exTree, none)) ∧
    (∀ (udata sn rt n : Nat) (mem : Nat → cf_rcrb_node) (rc : Nat → Nat),
      sn ≠ rt → n ≠ rt → n ≠ sn →
      ∃ t0 t1 t2, cf_rcrb_create udata true (some sn) (some rt) mem rc = some t0 ∧
        cf_rcrb_insert_vlock 2 t0 30 (some n) = some (t1, some n) ∧
        cf_rcrb_insert_vlock 2 { t1 with lock := false } 30 (some 5) = some (t2, none) ∧
        (cf_rcrb_size t2).2 = 1) :=
  C9_duplicate_insert exTree exShape 30 3 (some 5) exTree_rep exShape_ordered (by decide)
    (by decide)

/-- C10: `cf_rcrb_get_insert_vlock` called twice with the same key and no
delete in between returns the same node both times.  When the key was absent
the first call adds one element and the second call changes nothing; when the
key was present both calls return the node that holds it and change nothing but
the lock. -/
theorem C10_get_insert_idempotent (tree : cf_rcrb_tree) (T : RTree) (key n fuel : Nat)
    (h : Rep tree T) (hrb : RedBlack T) (ho : Ordered T) (hn : Fresh tree T n)
    (hf : T.size + 1 < fuel) :
    (key ∉ T.keys → ∃ tree1, cf_rcrb_get_insert_vlock fuel tree key (some n) =
        some (tree1, some n) ∧ tree1.elements = tree.elements + 1 ∧
      ∀ m, cf_rcrb_get_insert_vlock fuel tree1 key m = some (tree1, some n)) ∧
    (∀ a v, (a, key, v) ∈ T.nodes → ∀ m m',
      cf_rcrb_get_insert_vlock fuel tree key m = some ({ tree with lock := true }, some a) ∧
      cf_rcrb_get_insert_vlock fuel { tree with lock := true } key m' =
        some ({ tree with lock := true }, some a)) := by
  constructor
  · intro hkey
    obtain ⟨hc, hnrr, H, hbh⟩ := hrb
    have hlt0 : T.size < fuel := by omega
    obtain ⟨tree1, T1, e1, e2, e3, e4, e5, e6, e7, e8⟩ :=
      cf_rcrb_get_insert_vlock_new h hc hnrr hbh ho hkey hn.1 hn.2.1 hn.2.2 hlt0
    have hnew : (n, key, 0) ∈ T1.nodes := e7.symm.subset (List.mem_cons_self _ _)
    have hsz := size_of_perm e7
    refine ⟨tree1, e1, e8.2.2.1, fun m => ?_⟩
    have hl : tree1.lock = true := e8.2.2.2.1
    have hlt : T1.size < fuel := by omega
    have := cf_rcrb_get_insert_vlock_dup e2 e6 hlt hnew m
    rw [this, ← hl]
  · intro a v hx m m'
    have h0 : Rep { tree with lock := true } T := h.congr_fields rfl rfl rfl
    have hlt : T.size < fuel := by omega
    exact ⟨cf_rcrb_get_insert_vlock_dup h ho hlt hx m,
      cf_rcrb_get_insert_vlock_dup h0 ho hlt hx m'⟩

theorem C10_get_insert_idempotent_witness :
    (40 ∉ exShape.keys → ∃ tree1, cf_rcrb_get_insert_vlock 4 exTree 40 (some 5) =
        some (tree1, some 5) ∧ tree1.elements = exTree.elements + 1 ∧
      ∀ m, cf_rcrb_get_insert_vlock 4 tree1 40 m = some (tree1, some 5)) ∧
    (∀ a v, (a, 40, v) ∈ exShape.nodes → ∀ m m',
      cf_rcrb_get_insert_vlock 4 exTree 40 m = some ({ exTree with lock := true }, some a) ∧
      cf_rcrb_get_insert_vlock 4 { exTree with lock := true } 40 m' =
        some ({ exTree with lock := true }, some a)) :=
  C10_get_insert_idempotent exTree exShape 40 5 4 exTree_rep exShape_redBlack exShape_ordered
    exShape_fresh (by decide)


/-! ## Storing values -/

@[simp] theorem RTree.setValue_addr (u v s : Nat) (t : RTree) :
    (t.setValue u v).addr s = t.addr s := by cases t <;> rfl

@[simp] theorem RTree.setValue_color (u v : Nat) (t : RTree) :
    (t.setValue u v).color = t.color := by cases t <;> rfl

@[simp] theorem RTree.setValue_addrs (u v : Nat) (t : RTree) :
    (t.setValue u v).addrs = t.addrs := by
  induction t with
  | nil => rfl
  | node a c l k w r ihl ihr => simp [RTree.setValue, ihl, ihr]

theorem RTree.setValue_nodes (u v : Nat) (t : RTree) :
    (t.setValue u v).nodes = t.nodes.map (fun x => if x.1 = u then (x.1, x.2.1, v) else x) := by
  induction t with
  | nil => rfl
  | node a c l k w r ihl ihr =>
    by_cases e : a = u <;> simp [RTree.setValue, ihl, ihr, e]

theorem NoRedRed.setValue_nrr (u v : Nat) {t : RTree} (h : NoRedRed t) :
    NoRedRed (t.setValue u v) := by
  induction t with
  | nil => trivial
  | node a c l k w r ihl ihr =>
    simp only [RTree.setValue, NoRedRed_node, RTree.setValue_color] at h ⊢
    exact ⟨h.1, ihl h.2.1, ihr h.2.2⟩

theorem BlackHeight.setValue_bh (u v : Nat) : ∀ {t : RTree} {H : Nat}, BlackHeight t H →
    BlackHeight (t.setValue u v) H
  | .nil, _, h => h
  | .node _ RED _ _ _ _, _, h => ⟨BlackHeight.setValue_bh u v h.1, BlackHeight.setValue_bh u v h.2⟩
  | .node _ BLACK _ _ _ _, _, ⟨m, hm, h1, h2⟩ =>
    ⟨m, hm, BlackHeight.setValue_bh u v h1, BlackHeight.setValue_bh u v h2⟩

theorem RTree.setValue_keys (u v : Nat) (t : RTree) : (t.setValue u v).keys = t.keys := by
  induction t with
  | nil => rfl
  | node a c l k w r ihl ihr => simp [RTree.setValue, ihl, ihr]

theorem Ordered.setValue_ord (u v : Nat) {t : RTree} (h : Ordered t) :
    Ordered (t.setValue u v) := by
  rw [Ordered_iff_sorted] at h ⊢
  rw [RTree.setValue_keys]; exact h

theorem RNodes.setValue_rnodes {m : Nat → cf_rcrb_node} {sent u v : Nat} :
    ∀ {t : RTree} {p : Nat}, RNodes m sent p t →
      RNodes (upd m u (fun n => { n with value := v })) sent p (t.setValue u v)
  | .nil, _, _ => trivial
  | .node a c l k w r, p, h => by
    obtain ⟨h1, h2, h3⟩ := h
    refine ⟨?_, RNodes.setValue_rnodes h2, RNodes.setValue_rnodes h3⟩
    by_cases e : a = u
    · subst e; simp [h1]
    · simp [upd, e, h1]

/-- Storing a value in a node of the tree changes that value in the shape. -/
theorem Rep.set_value {tree : cf_rcrb_tree} {T : RTree} (h : Rep tree T) {u : Nat} (v : Nat)
    (hu : u ∈ T.addrs) : Rep (unlock (Rcrb.set_value tree u v)) (T.setValue u v) := by
  obtain ⟨h1, h2, h3, h4, h5, h6, h7, h8, h9, h10, h11⟩ := h
  have hur : tree.root ≠ u := fun e => h3 (by simpa [e] using hu)
  have hus : tree.sentinel ≠ u := fun e => h2 (by simpa [e] using hu)
  refine ⟨by simpa using h1, by simpa using h2, by simpa using h3, h4, ?_, ?_, ?_, ?_,
    ?_, ?_, ?_⟩
  · simpa [unlock, Rcrb.set_value, upd, hur] using h5
  · simpa [unlock, Rcrb.set_value, upd, hus] using h6
  · simpa [unlock, Rcrb.set_value, upd, hur, RCtx] using h7
  · exact RNodes.setValue_rnodes h8
  · simpa [unlock, Rcrb.set_value, upd, hus] using h9
  · simpa [unlock, Rcrb.set_value, upd, hus] using h10
  · simpa [unlock, Rcrb.set_value, upd, hur] using h11

theorem perm_setValue_new {T T1 : RTree} {n k v : Nat} (hp : T1.nodes.Perm ((n, k, 0) :: T.nodes))
    (hn : n ∉ T.addrs) : (T1.setValue n v).nodes.Perm ((n, k, v) :: T.nodes) := by
  rw [RTree.setValue_nodes]
  refine (hp.map _).trans ?_
  simp only [List.map_cons, if_true]
  refine List.Perm.cons _ (List.Perm.of_eq ?_)
  conv_rhs => rw [← List.map_id T.nodes]
  refine List.map_congr_left ?_
  intro x hx
  have : x.1 ≠ n := fun e => hn (e ▸ RTree.mem_addrs_of_mem_nodes hx)
  simp [this]

/-- Inserting a list of distinct new keys with their values: every step
succeeds, and the final tree is valid and holds the old nodes and one node per
list entry, with the key and the value of the entry. -/
theorem insert_all_spec (fuel : Nat) : ∀ (items : List (Nat × Nat × Nat)) (tree : cf_rcrb_tree)
    (T : RTree), Rep tree T → RedBlack T → Ordered T →
    (items.map (fun x => x.1)).Nodup → (items.map (fun x => x.2.2)).Nodup →
    (∀ x ∈ items, x.1 ∉ T.keys ∧ Fresh tree T x.2.2) → T.size + items.length < fuel →
    tree.lock = false →
    ∃ tf Tf, insert_all fuel tree items = some tf ∧ Rep tf Tf ∧ RedBlack Tf ∧ Ordered Tf ∧
      Tf.nodes.Perm (items.reverse.map (fun x => (x.2.2, x.1, x.2.1)) ++ T.nodes) ∧
      tf.lock = false ∧ tf.elements = tree.elements + items.length ∧ tf.root = tree.root ∧
      tf.sentinel = tree.sentinel
  | [], tree, T, h, hrb, ho, _, _, _, _, hl =>
    ⟨tree, T, rfl, h, hrb, ho, by simp, hl, by simp, rfl, rfl⟩
  | (k, v, n) :: rest, tree, T, h, hrb, ho, hk, hn, hfr, hf, hl => by
    simp only [List.map_cons, List.nodup_cons, List.mem_map, not_exists, not_and,
      List.length_cons, List.mem_cons, forall_eq_or_imp] at hk hn hfr hf
    obtain ⟨⟨hkey, hfresh⟩, hrest⟩ := hfr
    obtain ⟨hc, hnrr, H, hbh⟩ := hrb
    have hlt0 : T.size < fuel := by omega
    obtain ⟨t1, T1, e1, e2, e3, e4, e5, e6, e7, e8⟩ :=
      cf_rcrb_insert_vlock_new h hc hnrr hbh ho hkey hfresh.1 hfresh.2.1 hfresh.2.2 hlt0
    have hnew : (n, k, 0) ∈ T1.nodes := e7.symm.subset (List.mem_cons_self _ _)
    have hsz := size_of_perm e7
    have e2' := e2.set_value v (RTree.mem_addrs_of_mem_nodes hnew)
    have hp := perm_setValue_new (v := v) e7 hfresh.2.2
    have hsz' : (T1.setValue n v).size = T.size + 1 := size_of_perm hp
    obtain ⟨H1, hbh1⟩ := e5
    have hrb' : RedBlack (T1.setValue n v) :=
      ⟨by simpa using e3, e4.setValue_nrr n v, H1, hbh1.setValue_bh n v⟩
    have hroot : (unlock (Rcrb.set_value t1 n v)).root = tree.root := e8.1
    have hsent : (unlock (Rcrb.set_value t1 n v)).sentinel = tree.sentinel := e8.2.1
    have hfr' : ∀ x ∈ rest, x.1 ∉ (T1.setValue n v).keys ∧
        Fresh (unlock (Rcrb.set_value t1 n v)) (T1.setValue n v) x.2.2 := by
      intro x hx
      obtain ⟨q1, q2, q3, q4⟩ := hrest x hx
      refine ⟨?_, ?_, ?_, ?_⟩
      · rw [RTree.setValue_keys, mem_keys_iff_of_perm e7]
        simp only [not_or]
        exact ⟨fun e => hk.1 x hx e, q1⟩
      · rw [hroot]; exact q2
      · rw [hsent]; exact q3
      · rw [RTree.setValue_addrs]
        intro hmem
        have := (RTree.addrs_perm T1).subset hmem
        rw [(e7.map _).mem_iff] at this
        simp only [List.map_cons, List.mem_cons] at this
        rcases this with e | e
        · exact hn.1 x hx e
        · exact q4 ((RTree.addrs_perm T).symm.subset e)
    have hlt1 : (T1.setValue n v).size + rest.length < fuel := by omega
    obtain ⟨tf, Tf, f1, f2, f3, f4, f5, f6, f7, f8, f9⟩ :=
      insert_all_spec fuel rest _ _ e2' hrb' (e6.setValue_ord n v) hk.2 hn.2 hfr' hlt1 rfl
    refine ⟨tf, Tf, ?_, f2, f3, f4, ?_, f6, ?_, f8.trans hroot, f9.trans hsent⟩
    · simp only [insert_all, e1, f1]
    · refine f5.trans ?_
      simp only [List.reverse_cons, List.map_append, List.map_cons, List.map_nil,
        List.append_assoc, List.singleton_append]
      exact List.Perm.append_left _ hp
    · rw [f7]
      have : t1.elements = tree.elements + 1 := e8.2.2.1
      simp only [unlock, Rcrb.set_value, this, List.length_cons]
      omega

theorem exEmpty_rep : Rep exEmpty .nil :=
  ⟨by decide, by decide, by decide, by decide, rfl, rfl, rfl, trivial, rfl, rfl, rfl⟩

/-- C6: round trip.  For every list of distinct keys, after inserting each key
with `cf_rcrb_insert_vlock` into an empty tree and storing its value in the
returned node, `cf_rcrb_search` returns for every key the value stored with it
(and reserves it), whatever rotations and recolourings later insertions made. -/
theorem C6_insert_search_round_trip (fuel : Nat) (tree : cf_rcrb_tree)
    (items : List (Nat × Nat × Nat)) (h : Rep tree .nil) (hl : tree.lock = false)
    (hk : (items.map (fun x => x.1)).Nodup) (hn : (items.map (fun x => x.2.2)).Nodup)
    (hfr : ∀ x ∈ items, x.2.2 ≠ tree.root ∧ x.2.2 ≠ tree.sentinel)
    (hf : items.length < fuel) :
    ∃ tf, insert_all fuel tree items = some tf ∧
      ∀ k v n, (k, v, n) ∈ items →
        cf_rcrb_search fuel tf k = some ({ tf with rc := cf_rc_reserve tf.rc v }, v) := by
  obtain ⟨tf, Tf, f1, f2, f3, f4, f5, f6, f7, f8, f9⟩ :=
    insert_all_spec fuel items tree .nil h ⟨rfl, trivial, 0, rfl⟩ trivial hk hn
      (fun x hx => ⟨by simp, (hfr x hx).1, (hfr x hx).2, by simp⟩) (by simpa using hf) hl
  refine ⟨tf, f1, ?_⟩
  intro k v n hx
  have hmem : (n, k, v) ∈ Tf.nodes := by
    refine f5.symm.subset ?_
    simp only [RTree.nodes_nil, List.append_nil, List.mem_map, List.mem_reverse]
    exact ⟨(k, v, n), hx, rfl⟩
  have hsz : Tf.size < fuel := by
    rw [RTree.size_eq_length_nodes, f5.length_eq]
    simpa using hf
  have h0 : Rep { tf with lock := true } Tf := f2.congr_fields rfl rfl rfl
  have e := cf_rcrb_search_lockless_hit h0 f4 hsz hmem
  have hv := (f2.mem_of_nodes hmem).2
  simp only [cf_rcrb_search, e, hv, ← f6]

theorem C6_insert_search_round_trip_witness :
    ∃ tf, insert_all 4 exEmpty [(20, 77, 3), (30, 88, 4), (40, 99, 5)] = some tf ∧
      ∀ k v n, (k, v, n) ∈ [(20, 77, 3), (30, 88, 4), (40, 99, 5)] →
        cf_rcrb_search 4 tf k = some ({ tf with rc := cf_rc_reserve tf.rc v }, v) :=
  C6_insert_search_round_trip 4 exEmpty [(20, 77, 3), (30, 88, 4), (40, 99, 5)] exEmpty_rep rfl
    (by decide) (by decide) (by decide) (by decide)


/-! ## One iteration of the deletion rebalancing loop -/

@[simp] theorem par_setColor (t : cf_rcrb_tree) (x c y) : par (setColor t x c) y = par t y := by
  by_cases e : y = x <;> simp [par, setColor_mem, e]
@[simp] theorem lft_setColor (t : cf_rcrb_tree) (x c y) : lft (setColor t x c) y = lft t y := by
  by_cases e : y = x <;> simp [lft, setColor_mem, e]
@[simp] theorem rgt_setColor (t : cf_rcrb_tree) (x c y) : rgt (setColor t x c) y = rgt t y := by
  by_cases e : y = x <;> simp [rgt, setColor_mem, e]
theorem col_setColor (t : cf_rcrb_tree) (x c y) :
    col (setColor t x c) y = if y = x then c else col t y := by
  by_cases e : y = x <;> simp [col, setColor_mem, e]

theorem setColor_mem_sentinel {t : cf_rcrb_tree} {x : Nat} (c : Color) (h : x ≠ t.sentinel) :
    (setColor t x c).mem t.sentinel = t.mem t.sentinel := by
  simp [setColor_mem, Ne.symm h]

/-- Painting the node at the position BLACK; for the sentinel nothing changes. -/
theorem RepZ.paint_focus {tree : cf_rcrb_tree} {ctx : List Frame} {t : RTree}
    (h : RepZ tree ctx t) :
    RepZ (setColor tree (t.addr tree.sentinel) BLACK) ctx (t.paint BLACK) := by
  cases t with
  | node a c l k v r => exact h.recolor BLACK
  | nil =>
    refine h.congr_fields ?_ rfl rfl
    funext x
    simp only [RTree.addr_nil, setColor_mem]
    split_ifs with e
    · subst e
      have := h.sent_color
      cases hm : tree.mem tree.sentinel
      rw [hm] at this
      simp only at this
      simp [this]
    · rfl

/-- The parent link of the node at the position. -/
theorem RepZ.focus_par {tree : cf_rcrb_tree} {ctx : List Frame} {a c l k v r}
    (h : RepZ tree ctx (.node a c l k v r)) : par tree a = ctxPar tree.root ctx := by
  rw [par, h.read]

theorem RepZ.frame_ne_focus_L {tree : cf_rcrb_tree} {ctx : List Frame} {a c k v r} {t : RTree}
    (h : RepZ tree (.L a c k v r :: ctx) t) : t.addr tree.sentinel ≠ a :=
  fun e => h.addr_ne_L e.symm

theorem RepZ.sib_ne_focus_L {tree : cf_rcrb_tree} {ctx : List Frame} {a c k v s cs sl sk sv sr}
    {t : RTree} (h : RepZ tree (.L a c k v (.node s cs sl sk sv sr) :: ctx) t) :
    t.addr tree.sentinel ≠ s := by
  have h1 := h.up_L.down_R
  intro e
  exact h1.addr_ne_sib_R e.symm

theorem RepZ.sib_ne_focus_R {tree : cf_rcrb_tree} {ctx : List Frame} {a c k v s cs sl sk sv sr}
    {t : RTree} (h : RepZ tree (.R a c (.node s cs sl sk sv sr) k v :: ctx) t) :
    t.addr tree.sentinel ≠ s := by
  have h1 := h.up_R.down_L
  intro e
  exact h1.addr_ne_sib_L e.symm

theorem delete_sibling_left_red {tree : cf_rcrb_tree} {rest : List Frame} {p cp kp vp s a sk sv b}
    {t : RTree} (h : RepZ tree (.L p cp kp vp (.node s RED a sk sv b) :: rest) t)
    (hpar : par tree (t.addr tree.sentinel) = p) :
    ∃ tree1, delete_sibling_left tree (t.addr tree.sentinel) = (tree1, a.addr tree.sentinel) ∧
      RepZ tree1 (.L p RED kp vp a :: .L s BLACK sk sv b :: rest) t ∧
      par tree1 (t.addr tree.sentinel) = p ∧ MemOnly tree tree1 := by
  have rp := h.read_L
  have rs := h.up_L.down_R.read
  have h1 := h.up_L.down_R.recolor BLACK
  have h2 := h1.up_R.recolor RED
  obtain ⟨h3, hs3⟩ := h2.rot_left
  have h4 := h3.down_L.down_L
  have hsp := h.up_L.addr_ne_sent
  have hss := h.up_L.down_R.addr_ne_sent
  have r4p := h4.read_L
  have hs2 : (setColor (setColor tree s BLACK) p RED).mem tree.sentinel =
      tree.mem tree.sentinel := by
    simp [setColor_mem, Ne.symm hsp, Ne.symm hss]
  simp only [setColor_sentinel] at hs3
  rw [hs2] at hs3
  have hpar4 : par (cf_rcrb_rotate_left (setColor (setColor tree s BLACK) p RED) p)
      (t.addr tree.sentinel) = p := by
    cases t with
    | nil => rw [RTree.addr_nil, par, hs3]; exact hpar
    | node n cn l k v r => simpa using h4.focus_par
  refine ⟨_, ?_, h4, hpar4, ?_⟩
  · simp only [ctxPar_cons, Frame.addr_L, Frame.addr_R, RTree.addr_node, setColor_sentinel,
      setColor_root, cf_rcrb_rotate_left_sentinel, cf_rcrb_rotate_right_sentinel,
      cf_rcrb_rotate_left_root, cf_rcrb_rotate_right_root] at rp rs r4p
    simp only [delete_sibling_left, hpar, rgt, rp, col, rs, if_true, par_setColor]
    simp only [par, lft, rgt, col] at hpar4 ⊢
    rw [hpar4, r4p]
  · exact ((MemOnly.mo_setColor _ _ _).trans (MemOnly.mo_setColor _ _ _)).trans
      (MemOnly.mo_rotate_left _ _)

theorem delete_sibling_left_black {tree : cf_rcrb_tree} {rest : List Frame} {p cp kp vp S}
    {t : RTree} (h : RepZ tree (.L p cp kp vp S :: rest) t)
    (hpar : par tree (t.addr tree.sentinel) = p) (hS : S.color = BLACK) :
    delete_sibling_left tree (t.addr tree.sentinel) = (tree, S.addr tree.sentinel) := by
  have rp := h.read_L
  have cs := h.up_L.down_R.col_addr
  simp only [ctxPar_cons, Frame.addr_L, Frame.addr_R, RTree.addr_node] at rp cs
  simp only [delete_sibling_left, hpar, rgt, rp, col, cs, hS, Color.black_eq_red, if_false]

theorem delete_cases_left_both {tree : cf_rcrb_tree} {rest : List Frame} {p cp kp vp s cs a sk sv b}
    {t : RTree} (h : RepZ tree (.L p cp kp vp (.node s cs a sk sv b) :: rest) t)
    (hpar : par tree (t.addr tree.sentinel) = p) (ha : a.color = BLACK) (hb : b.color = BLACK) :
    delete_cases_left tree (t.addr tree.sentinel) s = (setColor tree s RED, p) ∧
    RepZ (setColor tree s RED) rest (.node p cp t kp vp (.node s RED a sk sv b)) := by
  have hs := h.up_L.down_R
  have rs := hs.read
  have ca := hs.down_L.col_addr
  have cb := hs.down_R.col_addr
  refine ⟨?_, (hs.recolor RED).up_R⟩
  simp only [ctxPar_cons, Frame.addr_L, Frame.addr_R, RTree.addr_node] at rs ca cb
  simp only [delete_cases_left, rgt, lft, col, rs, ca, cb, ha, hb, ne_eq, Color.black_eq_red,
    not_false_eq_true, and_self, if_true, par_setColor, hpar]

theorem delete_cases_left_far {tree : cf_rcrb_tree} {rest : List Frame}
    {p cp kp vp s cs a sk sv y bl yk yv br} {t : RTree}
    (h : RepZ tree (.L p cp kp vp (.node s cs a sk sv (.node y RED bl yk yv br)) :: rest) t)
    (hpar : par tree (t.addr tree.sentinel) = p) :
    ∃ tree1, delete_cases_left tree (t.addr tree.sentinel) s = (tree1, lft tree1 tree1.root) ∧
      RepZ tree1 rest
        (.node s cp (.node p BLACK t kp vp a) sk sv (.node y BLACK bl yk yv br)) ∧
      MemOnly tree tree1 := by
  have hs := h.up_L.down_R
  have rs := hs.read
  have rp := h.read_L
  have ry := hs.down_R.read
  have h1 := hs.recolor cp
  have h2 := h1.up_R.recolor BLACK
  have h3 := h2.down_R.down_R.recolor BLACK
  have r2s := h2.down_R.read
  obtain ⟨h4, -⟩ := h3.up_R.up_R.rot_left
  refine ⟨_, ?_, h4, ?_⟩
  · simp only [ctxPar_cons, Frame.addr_L, Frame.addr_R, RTree.addr_node, setColor_sentinel,
      setColor_root] at rs rp ry r2s
    simp only [delete_cases_left, rgt, lft, col, rs, ry, ne_eq, not_true_eq_false, false_and,
      if_false, par_setColor, hpar, rp, rgt_setColor, r2s]
  · exact (((MemOnly.mo_setColor _ _ _).trans (MemOnly.mo_setColor _ _ _)).trans
      (MemOnly.mo_setColor _ _ _)).trans (MemOnly.mo_rotate_left _ _)

theorem delete_cases_left_near {tree : cf_rcrb_tree} {rest : List Frame}
    {p cp kp vp s cs x al xk xv ar sk sv b} {t : RTree}
    (h : RepZ tree (.L p cp kp vp (.node s cs (.node x RED al xk xv ar) sk sv b) :: rest) t)
    (hpar : par tree (t.addr tree.sentinel) = p) (hb : b.color = BLACK) :
    ∃ tree1, delete_cases_left tree (t.addr tree.sentinel) s = (tree1, lft tree1 tree1.root) ∧
      RepZ tree1 rest
        (.node x cp (.node p BLACK t kp vp al) xk xv (.node s BLACK ar sk sv b)) ∧
      MemOnly tree tree1 := by
  have hs := h.up_L.down_R
  have rs := hs.read
  have rp := h.read_L
  have rx := hs.down_L.read
  have cb := hs.down_R.col_addr
  have hsx := hs.down_L.addr_ne_sent
  have hss := hs.addr_ne_sent
  have g1 := hs.down_L.recolor BLACK
  have g2 := g1.up_L.recolor RED
  obtain ⟨g3, hs3⟩ := g2.rot_right
  have hs2 : (setColor (setColor tree x BLACK) s RED).mem tree.sentinel =
      tree.mem tree.sentinel := by
    simp [setColor_mem, Ne.symm hsx, Ne.symm hss]
  simp only [setColor_sentinel] at hs3
  rw [hs2] at hs3
  have parC : par (cf_rcrb_rotate_right (setColor (setColor tree x BLACK) s RED) s)
      (t.addr tree.sentinel) = p := by
    cases t with
    | nil => rw [RTree.addr_nil, par, hs3]; exact hpar
    | node n cn l k v r => simpa using g3.up_R.down_L.focus_par
  have rCp := g3.read_R
  have g4 := g3.recolor cp
  have g5 := g4.up_R.recolor BLACK
  have r5x := g5.down_R.read
  have g6 := g5.down_R.down_R.recolor BLACK
  obtain ⟨g7, -⟩ := g6.up_R.up_R.rot_left
  refine ⟨_, ?_, g7, ?_⟩
  · simp only [ctxPar_cons, Frame.addr_L, Frame.addr_R, RTree.addr_node, setColor_sentinel,
      setColor_root, cf_rcrb_rotate_right_sentinel, cf_rcrb_rotate_right_root]
      at rs rp rx cb rCp r5x
    simp only [delete_cases_left, rgt, lft, col, rs, rx, cb, hb, ne_eq, not_true_eq_false,
      and_false, if_false, Color.black_eq_red, not_false_eq_true, if_true, par_setColor,
      parC, rCp, rgt_setColor, r5x]
  · exact ((((((MemOnly.mo_setColor _ _ _).trans (MemOnly.mo_setColor _ _ _)).trans
      (MemOnly.mo_rotate_right _ _)).trans (MemOnly.mo_setColor _ _ _)).trans
      (MemOnly.mo_setColor _ _ _)).trans (MemOnly.mo_setColor _ _ _)).trans
      (MemOnly.mo_rotate_left _ _)

theorem delete_sibling_right_red {tree : cf_rcrb_tree} {rest : List Frame}
    {p cp kp vp s a sk sv b} {t : RTree}
    (h : RepZ tree (.R p cp (.node s RED a sk sv b) kp vp :: rest) t)
    (hpar : par tree (t.addr tree.sentinel) = p) :
    ∃ tree1, delete_sibling_right tree (t.addr tree.sentinel) = (tree1, b.addr tree.sentinel) ∧
      RepZ tree1 (.R p RED b kp vp :: .R s BLACK a sk sv :: rest) t ∧
      par tree1 (t.addr tree.sentinel) = p ∧ MemOnly tree tree1 := by
  have rp := h.read_R
  have rs := h.up_R.down_L.read
  have h1 := h.up_R.down_L.recolor BLACK
  have h2 := h1.up_L.recolor RED
  obtain ⟨h3, hs3⟩ := h2.rot_right
  have h4 := h3.down_R.down_R
  have hsp := h.up_R.addr_ne_sent
  have hss := h.up_R.down_L.addr_ne_sent
  have r4p := h4.read_R
  have hs2 : (setColor (setColor tree s BLACK) p RED).mem tree.sentinel =
      tree.mem tree.sentinel := by
    simp [setColor_mem, Ne.symm hsp, Ne.symm hss]
  simp only [setColor_sentinel] at hs3
  rw [hs2] at hs3
  have hpar4 : par (cf_rcrb_rotate_right (setColor (setColor tree s BLACK) p RED) p)
      (t.addr tree.sentinel) = p := by
    cases t with
    | nil => rw [RTree.addr_nil, par, hs3]; exact hpar
    | node n cn l k v r => simpa using h4.focus_par
  refine ⟨_, ?_, h4, hpar4, ?_⟩
  · simp only [ctxPar_cons, Frame.addr_L, Frame.addr_R, RTree.addr_node, setColor_sentinel,
      setColor_root, cf_rcrb_rotate_left_sentinel, cf_rcrb_rotate_right_sentinel,
      cf_rcrb_rotate_left_root, cf_rcrb_rotate_right_root] at rp rs r4p
    simp only [delete_sibling_right, hpar, lft, rp, col, rs, if_true, par_setColor]
    simp only [par, lft, rgt, col] at hpar4 ⊢
    rw [hpar4, r4p]
  · exact ((MemOnly.mo_setColor _ _ _).trans (MemOnly.mo_setColor _ _ _)).trans
      (MemOnly.mo_rotate_right _ _)

theorem delete_sibling_right_black {tree : cf_rcrb_tree} {rest : List Frame} {p cp kp vp S}
    {t : RTree} (h : RepZ tree (.R p cp S kp vp :: rest) t)
    (hpar : par tree (t.addr tree.sentinel) = p) (hS : S.color = BLACK) :
    delete_sibling_right tree (t.addr tree.sentinel) = (tree, S.addr tree.sentinel) := by
  have rp := h.read_R
  have cs := h.up_R.down_L.col_addr
  simp only [ctxPar_cons, Frame.addr_L, Frame.addr_R, RTree.addr_node] at rp cs
  simp only [delete_sibling_right, hpar, lft, rp, col, cs, hS, Color.black_eq_red, if_false]

theorem delete_cases_right_both {tree : cf_rcrb_tree} {rest : List Frame}
    {p cp kp vp s cs a sk sv b} {t : RTree}
    (h : RepZ tree (.R p cp (.node s cs a sk sv b) kp vp :: rest) t)
    (hpar : par tree (t.addr tree.sentinel) = p) (ha : a.color = BLACK) (hb : b.color = BLACK) :
    delete_cases_right tree (t.addr tree.sentinel) s = (setColor tree s RED, p) ∧
    RepZ (setColor tree s RED) rest (.node p cp (.node s RED a sk sv b) kp vp t) := by
  have hs := h.up_R.down_L
  have rs := hs.read
  have ca := hs.down_L.col_addr
  have cb := hs.down_R.col_addr
  refine ⟨?_, (hs.recolor RED).up_L⟩
  simp only [ctxPar_cons, Frame.addr_L, Frame.addr_R, RTree.addr_node] at rs ca cb
  simp only [delete_cases_right, rgt, lft, col, rs, ca, cb, ha, hb, ne_eq, Color.black_eq_red,
    not_false_eq_true, and_self, if_true, par_setColor, hpar]

theorem delete_cases_right_far {tree : cf_rcrb_tree} {rest : List Frame}
    {p cp kp vp s cs x al xk xv ar sk sv b} {t : RTree}
    (h : RepZ tree (.R p cp (.node s cs (.node x RED al xk xv ar) sk sv b) kp vp :: rest) t)
    (hpar : par tree (t.addr tree.sentinel) = p) :
    ∃ tree1, delete_cases_right tree (t.addr tree.sentinel) s = (tree1, lft tree1 tree1.root) ∧
      RepZ tree1 rest
        (.node s cp (.node x BLACK al xk xv ar) sk sv (.node p BLACK b kp vp t)) ∧
      MemOnly tree tree1 := by
  have hs := h.up_R.down_L
  have rs := hs.read
  have rp := h.read_R
  have rx := hs.down_L.read
  have h1 := hs.recolor cp
  have h2 := h1.up_L.recolor BLACK
  have r2s := h2.down_L.read
  have h3 := h2.down_L.down_L.recolor BLACK
  obtain ⟨h4, -⟩ := h3.up_L.up_L.rot_right
  refine ⟨_, ?_, h4, ?_⟩
  · simp only [ctxPar_cons, Frame.addr_L, Frame.addr_R, RTree.addr_node, setColor_sentinel,
      setColor_root] at rs rp rx r2s
    simp only [delete_cases_right, rgt, lft, col, rs, rx, ne_eq, not_true_eq_false, and_false,
      if_false, par_setColor, hpar, rp, lft_setColor, r2s]
  · exact (((MemOnly.mo_setColor _ _ _).trans (MemOnly.mo_setColor _ _ _)).trans
      (MemOnly.mo_setColor _ _ _)).trans (MemOnly.mo_rotate_right _ _)

theorem delete_cases_right_near {tree : cf_rcrb_tree} {rest : List Frame}
    {p cp kp vp s cs a sk sv y bl yk yv br} {t : RTree}
    (h : RepZ tree (.R p cp (.node s cs a sk sv (.node y RED bl yk yv br)) kp vp :: rest) t)
    (hpar : par tree (t.addr tree.sentinel) = p) (ha : a.color = BLACK) :
    ∃ tree1, delete_cases_right tree (t.addr tree.sentinel) s = (tree1, lft tree1 tree1.root) ∧
      RepZ tree1 rest
        (.node y cp (.node s BLACK a sk sv bl) yk yv (.node p BLACK br kp vp t)) ∧
      MemOnly tree tree1 := by
  have hs := h.up_R.down_L
  have rs := hs.read
  have rp := h.read_R
  have ry := hs.down_R.read
  have ca := hs.down_L.col_addr
  have hsy := hs.down_R.addr_ne_sent
  have hss := hs.addr_ne_sent
  have g1 := hs.down_R.recolor BLACK
  have g2 := g1.up_R.recolor RED
  obtain ⟨g3, hs3⟩ := g2.rot_left
  have hs2 : (setColor (setColor tree y BLACK) s RED).mem tree.sentinel =
      tree.mem tree.sentinel := by
    simp [setColor_mem, Ne.symm hsy, Ne.symm hss]
  simp only [setColor_sentinel] at hs3
  rw [hs2] at hs3
  have parC : par (cf_rcrb_rotate_left (setColor (setColor tree y BLACK) s RED) s)
      (t.addr tree.sentinel) = p := by
    cases t with
    | nil => rw [RTree.addr_nil, par, hs3]; exact hpar
    | node n cn l k v r => simpa using g3.up_L.down_R.focus_par
  have rCp := g3.read_L
  have g4 := g3.recolor cp
  have g5 := g4.up_L.recolor BLACK
  have r5y := g5.down_L.read
  have g6 := g5.down_L.down_L.recolor BLACK
  obtain ⟨g7, -⟩ := g6.up_L.up_L.rot_right
  refine ⟨_, ?_, g7, ?_⟩
  · simp only [ctxPar_cons, Frame.addr_L, Frame.addr_R, RTree.addr_node, setColor_sentinel,
      setColor_root, cf_rcrb_rotate_left_sentinel, cf_rcrb_rotate_left_root]
      at rs rp ry ca rCp r5y
    simp only [delete_cases_right, rgt, lft, col, rs, ry, ca, ha, ne_eq, not_true_eq_false,
      false_and, if_false, Color.black_eq_red, not_false_eq_true, if_true, par_setColor,
      parC, rCp, lft_setColor, r5y]
  · exact ((((((MemOnly.mo_setColor _ _ _).trans (MemOnly.mo_setColor _ _ _)).trans
      (MemOnly.mo_rotate_left _ _)).trans (MemOnly.mo_setColor _ _ _)).trans
      (MemOnly.mo_setColor _ _ _)).trans (MemOnly.mo_setColor _ _ _)).trans
      (MemOnly.mo_rotate_right _ _)


/-! ## The deletion rebalancing loop -/

theorem BlackHeight.ne_nil_of_succ {t : RTree} {h : Nat} (hb : BlackHeight t (h + 1)) :
    t ≠ .nil := by
  rintro rfl; simp at hb

theorem RTree.color_black_of_nrr_red {a l k v r} (h : NoRedRed (.node a RED l k v r)) :
    l.color = BLACK ∧ r.color = BLACK := h.1 rfl

/-- The second block of an iteration, on the shape: the nodes in order stay the
same; when the loop is finished the subtree has no RED-RED pair and the black
height the rest of the tree expects; otherwise the subtree still lacks one BLACK
node and becomes the subtree of the current node. -/
theorem delFixB_spec {f : Frame} {t : RTree} {h : Nat} (hS : f.sib.color = BLACK)
    (hbS : BlackHeight f.sib (h + 1)) (hnS : NoRedRed f.sib) (hbt : BlackHeight t h)
    (hnt : NoRedRed t) :
    (delFixB f t).1.nodes = (f.fill t).nodes ∧
    (delFixB f t).1.color = f.color ∧ (delFixB f t).1 ≠ .nil ∧
    ((delFixB f t).2 = true → NoRedRed (delFixB f t).1 ∧
      BlackHeight (delFixB f t).1 (h + 1 + (if f.color = BLACK then 1 else 0))) ∧
    ((delFixB f t).2 = false → NoRedRed ((delFixB f t).1.paint BLACK) ∧
      BlackHeight (delFixB f t).1 (h + (if f.color = BLACK then 1 else 0))) := by
  cases f with
  | L p cp kp vp S =>
    cases S with
    | nil => simp at hbS
    | node s cs a sk sv b =>
      simp only [Frame.sib_L, RTree.color_node] at hS hbS hnS
      subst hS
      simp only [BlackHeight_black, Nat.add_right_cancel_iff, exists_eq_left', NoRedRed_node,
        reduceCtorEq, false_implies, true_and] at hbS hnS
      obtain ⟨ha, hb⟩ := hbS
      by_cases hab : a.color = BLACK ∧ b.color = BLACK
      · have e : delFixB (.L p cp kp vp (.node s BLACK a sk sv b)) t =
            (.node p cp t kp vp (.node s RED a sk sv b), false) := by
          simp [delFixB, hab]
        rw [e]
        refine ⟨rfl, rfl, by simp, by simp, fun _ => ⟨?_, ?_⟩⟩
        · simp [hnt, hnS, hab]
        · cases cp <;> simp [hbt, ha, hb]
      · by_cases hbc : b.color = BLACK
        · have hac : a.color = RED := Color.ne_black.mp (fun e => hab ⟨e, hbc⟩)
          cases a with
          | nil => simp at hac
          | node x cx al xk xv ar =>
            simp only [RTree.color_node] at hac; subst hac
            simp only [BlackHeight_red, NoRedRed_node, forall_const] at ha hnS
            have e : delFixB (.L p cp kp vp (.node s BLACK (.node x RED al xk xv ar) sk sv b)) t =
                (.node x cp (.node p BLACK t kp vp al) xk xv (.node s BLACK ar sk sv b), true) := by
              simp [delFixB, hbc]
            rw [e]
            refine ⟨by simp, rfl, by simp, fun _ => ⟨?_, ?_⟩, by simp⟩
            · simp [hnt, hnS]
            · cases cp <;> simp [hbt, ha, hb]
        · have hbr := Color.ne_black.mp hbc
          cases b with
          | nil => simp at hbr
          | node y cy bl yk yv br =>
            simp only [RTree.color_node] at hbr; subst hbr
            simp only [BlackHeight_red, NoRedRed_node, forall_const] at hb hnS
            have e : delFixB (.L p cp kp vp (.node s BLACK a sk sv (.node y RED bl yk yv br))) t =
                (.node s cp (.node p BLACK t kp vp a) sk sv (.node y BLACK bl yk yv br), true) := by
              simp [delFixB]
            rw [e]
            refine ⟨by simp, rfl, by simp, fun _ => ⟨?_, ?_⟩, by simp⟩
            · simp [hnt, hnS]
            · cases cp <;> simp [hbt, ha, hb]
  | R p cp S kp vp =>
    cases S with
    | nil => simp at hbS
    | node s cs a sk sv b =>
      simp only [Frame.sib_R, RTree.color_node] at hS hbS hnS
      subst hS
      simp only [BlackHeight_black, Nat.add_right_cancel_iff, exists_eq_left', NoRedRed_node,
        reduceCtorEq, false_implies, true_and] at hbS hnS
      obtain ⟨ha, hb⟩ := hbS
      by_cases hab : a.color = BLACK ∧ b.color = BLACK
      · have e : delFixB (.R p cp (.node s BLACK a sk sv b) kp vp) t =
            (.node p cp (.node s RED a sk sv b) kp vp t, false) := by
          simp [delFixB, hab]
        rw [e]
        refine ⟨rfl, rfl, by simp, by simp, fun _ => ⟨?_, ?_⟩⟩
        · simp [hnt, hnS, hab]
        · cases cp <;> simp [hbt, ha, hb]
      · by_cases hac : a.color = BLACK
        · have hbr : b.color = RED := Color.ne_black.mp (fun e => hab ⟨hac, e⟩)
          cases b with
          | nil => simp at hbr
          | node y cy bl yk yv br =>
            simp only [RTree.color_node] at hbr; subst hbr
            simp only [BlackHeight_red, NoRedRed_node, forall_const] at hb hnS
            have e : delFixB (.R p cp (.node s BLACK a sk sv (.node y RED bl yk yv br)) kp vp) t =
                (.node y cp (.node s BLACK a sk sv bl) yk yv (.node p BLACK br kp vp t), true) := by
              simp [delFixB, hac]
            rw [e]
            refine ⟨by simp, rfl, by simp, fun _ => ⟨?_, ?_⟩, by simp⟩
            · simp [hnt, hnS]
            · cases cp <;> simp [hbt, ha, hb]
        · have har := Color.ne_black.mp hac
          cases a with
          | nil => simp at har
          | node x cx al xk xv ar =>
            simp only [RTree.color_node] at har; subst har
            simp only [BlackHeight_red, NoRedRed_node, forall_const] at ha hnS
            have e : delFixB (.R p cp (.node s BLACK (.node x RED al xk xv ar) sk sv b) kp vp) t =
                (.node s cp (.node x BLACK al xk xv ar) sk sv (.node p BLACK b kp vp t), true) := by
              simp [delFixB]
            rw [e]
            refine ⟨by simp, rfl, by simp, fun _ => ⟨?_, ?_⟩, by simp⟩
            · simp [hnt, hnS]
            · cases cp <;> simp [hbt, ha, hb]

theorem RTree.paint_of_black {t : RTree} (h : t.color = BLACK) : t.paint BLACK = t := by
  cases t with
  | nil => rfl
  | node a c l k v r => simp only [RTree.color_node] at h; subst h; rfl

/-- What the loop invariant says about the frame of the parent: its other
subtree has no RED-RED pair, is BLACK when the parent is RED, and has one BLACK
node more on its paths than the subtree of the current node. -/
theorem DelInv.frame_facts {f : Frame} {rest : List Frame} {t : RTree} {H : Nat}
    (hinv : DelInv (f :: rest) t H) :
    NoRedRed f.sib ∧ (f.color = RED → f.sib.color = BLACK) ∧
    ∃ h, BlackHeight t h ∧ BlackHeight f.sib (h + 1) ∧
      ∀ t', BlackHeight t' (h + 1 + (if f.color = BLACK then 1 else 0)) →
        BlackHeight (plug rest t') H := by
  obtain ⟨-, hctx, -, h, hbt, hall⟩ := hinv
  have hf := NoRedRed.nrr_of_plug (z := rest) hctx
  have hw := hall (.node 0 BLACK t 0 0 t) (by simp [hbt])
  obtain ⟨h2, hb2, hrep⟩ := BlackHeight.bh_of_plug (z := rest) hw
  cases f with
  | L p cp kp vp S =>
    simp only [Frame.fill_L, NoRedRed_node, RTree.color_nil, true_and, Frame.sib_L,
      Frame.color_L] at hf ⊢
    refine ⟨hf.2.2, hf.1, h, hbt, ?_⟩
    cases cp with
    | RED =>
      simp only [Frame.fill_L, Frame.fill_R, BlackHeight_red, BlackHeight_black] at hb2
      obtain ⟨⟨m, hm, -, hm2⟩, hS⟩ := hb2
      have := BlackHeight.unique hm2 hbt
      subst this
      subst hm
      exact ⟨hS, fun t' ht' => hrep t' (by simpa using ht')⟩
    | BLACK =>
      simp only [Frame.fill_L, Frame.fill_R, BlackHeight_black] at hb2
      obtain ⟨m1, hm1, ⟨m, hm, -, hm2⟩, hS⟩ := hb2
      have := BlackHeight.unique hm2 hbt
      subst this
      subst hm
      subst hm1
      exact ⟨hS, fun t' ht' => hrep t' (by simpa using ht')⟩
  | R p cp S kp vp =>
    simp only [Frame.fill_R, NoRedRed_node, RTree.color_nil, and_true, Frame.sib_R,
      Frame.color_R] at hf ⊢
    refine ⟨hf.2.1, hf.1, h, hbt, ?_⟩
    cases cp with
    | RED =>
      simp only [Frame.fill_L, Frame.fill_R, BlackHeight_red, BlackHeight_black] at hb2
      obtain ⟨hS, ⟨m, hm, -, hm2⟩⟩ := hb2
      have := BlackHeight.unique hm2 hbt
      subst this
      subst hm
      exact ⟨hS, fun t' ht' => hrep t' (by simpa using ht')⟩
    | BLACK =>
      simp only [Frame.fill_L, Frame.fill_R, BlackHeight_black] at hb2
      obtain ⟨m1, hm1, hS, ⟨m, hm, -, hm2⟩⟩ := hb2
      have := BlackHeight.unique hm2 hbt
      subst this
      subst hm
      subst hm1
      exact ⟨hS, fun t' ht' => hrep t' (by simpa using ht')⟩


@[simp] theorem Frame.fill_color (f : Frame) (t : RTree) : (f.fill t).color = f.color := by
  cases f <;> rfl

theorem Frame.fill_nodes_congr (f : Frame) {t t' : RTree} (h : t.nodes = t'.nodes) :
    (f.fill t).nodes = (f.fill t').nodes := by
  cases f <;> simp [h]

/-- The second block of an iteration keeps the loop invariant or finishes with
a tree without RED-RED pair and with `H` BLACK nodes on every path. -/
theorem delFixB_inv {f : Frame} {rest : List Frame} {t : RTree} {h H : Nat}
    (hS : f.sib.color = BLACK) (hbS : BlackHeight f.sib (h + 1)) (hnS : NoRedRed f.sib)
    (hbt : BlackHeight t h) (hnt : NoRedRed t)
    (hctx : NoRedRed (plug rest (f.fill .nil)))
    (hroot : (plug rest (f.fill t)).color = BLACK)
    (hrep : ∀ t', BlackHeight t' (h + 1 + (if f.color = BLACK then 1 else 0)) →
      BlackHeight (plug rest t') H) :
    (delFixB f t).1.nodes = (f.fill t).nodes ∧ (delFixB f t).1 ≠ .nil ∧
    (delFixB f t).1.color = f.color ∧
    ((delFixB f t).2 = true → NoRedRed (plug rest (delFixB f t).1) ∧
      BlackHeight (plug rest (delFixB f t).1) H ∧ (plug rest (delFixB f t).1).color = BLACK) ∧
    ((delFixB f t).2 = false → DelInv rest (delFixB f t).1 H) := by
  obtain ⟨e1, e2, e3, e4, e5⟩ := delFixB_spec hS hbS hnS hbt hnt
  have hcol : (plug rest (delFixB f t).1).color = BLACK := by
    rw [@plug_color_congr rest _ (f.fill t) (by rw [e2, Frame.fill_color])]
    exact hroot
  refine ⟨e1, e3, e2, fun hfin => ?_, fun hfin => ?_⟩
  · obtain ⟨n1, b1⟩ := e4 hfin
    exact ⟨NoRedRed.nrr_replace (z := rest) hctx n1 (fun e => by
      rw [e2]; simpa using e), hrep _ b1, hcol⟩
  · obtain ⟨n1, b1⟩ := e5 hfin
    refine ⟨n1, NoRedRed.nrr_replace (z := rest) hctx NoRedRed_nil (fun _ => rfl),
      fun _ => hcol, _, b1, fun t' ht' => hrep t' ?_⟩
    have : h + (if f.color = BLACK then 1 else 0) + 1 =
        h + 1 + (if f.color = BLACK then 1 else 0) := by omega
    rw [← this]; exact ht'

/-- One iteration of the deletion rebalancing loop keeps the nodes in order and
the loop invariant, or finishes with a red-black tree; after a rotation for a
RED sibling the new current node is RED. -/
theorem delFix_inv {f : Frame} {rest : List Frame} {t : RTree} {H : Nat}
    (hinv : DelInv (f :: rest) t H) (hct : t.color = BLACK) :
    (plug ((delFix f t).1 ++ rest) (delFix f t).2.1).nodes = (plug (f :: rest) t).nodes ∧
    (delFix f t).2.1 ≠ .nil ∧
    ((delFix f t).2.2 = true →
      NoRedRed (plug ((delFix f t).1 ++ rest) (delFix f t).2.1) ∧
      BlackHeight (plug ((delFix f t).1 ++ rest) (delFix f t).2.1) H ∧
      (plug ((delFix f t).1 ++ rest) (delFix f t).2.1).color = BLACK) ∧
    ((delFix f t).2.2 = false → DelInv ((delFix f t).1 ++ rest) (delFix f t).2.1 H ∧
      ((delFix f t).1 ≠ [] → (delFix f t).2.1.color = RED) ∧
      ((delFix f t).1 ++ rest).length ≤ rest.length + 1) := by
  obtain ⟨hnS, hcS, h, hbt, hbS, hrep⟩ := hinv.frame_facts
  have hnt : NoRedRed t := by
    have := hinv.1
    rwa [RTree.paint_of_black hct] at this
  have hctx := hinv.2.1
  have hroot := hinv.2.2.1 (by simp)
  simp only [plug_cons] at hctx hroot
  by_cases hS : f.sib.color = RED
  · have hcf : f.color = BLACK := by
      by_contra hc
      have := hcS (by simpa using hc)
      rw [hS] at this
      exact absurd this (by simp)
    cases f with
    | L p cp kp vp S =>
      simp only [Frame.sib_L, Frame.color_L] at hS hbS hnS hcf
      subst hcf
      cases S with
      | nil => simp at hS
      | node s cs a sk sv b =>
        simp only [RTree.color_node] at hS
        subst hS
        simp only [BlackHeight_red, NoRedRed_node, true_implies] at hbS hnS
        have hf : delFix (.L p BLACK kp vp (.node s RED a sk sv b)) t =
            ([.L s BLACK sk sv b], delFixB (.L p RED kp vp a) t) := by
          simp [delFix]
        have hctx' : NoRedRed (plug (.L s BLACK sk sv b :: rest) ((Frame.L p RED kp vp a).fill .nil)) := by
          refine NoRedRed.nrr_replace (z := rest) hctx ?_ (fun _ => rfl)
          simp [hnS.1.1, hnS.2.1, hnS.2.2]
        have hroot' : (plug (.L s BLACK sk sv b :: rest) ((Frame.L p RED kp vp a).fill t)).color = BLACK := by
          rw [plug_cons]
          exact (plug_color_congr rest (by simp)).trans hroot
        have hrep' : ∀ t', BlackHeight t' (h + 1 + (if (Frame.L p RED kp vp a).color = BLACK then 1 else 0)) →
            BlackHeight (plug (.L s BLACK sk sv b :: rest) t') H := by
          intro t' ht'
          refine hrep _ ?_
          simp only [Frame.color_L, Color.red_eq_black, if_false, if_true, Nat.add_zero] at ht' ⊢
          simp [ht', hbS.2]
        obtain ⟨e1, e2, e3, e4, e5⟩ := @delFixB_inv (.L p RED kp vp a)
          (.L s BLACK sk sv b :: rest) _ _ _ hnS.1.1 hbS.1 hnS.2.1 hbt hnt hctx' hroot' hrep'
        rw [hf]
        refine ⟨?_, e2, e4, fun hfin => ⟨e5 hfin, fun _ => e3, by simp⟩⟩
        simp only [List.singleton_append, plug_cons]
        refine plug_nodes_congr rest ?_
        simp only [Frame.fill_L, RTree.nodes_node, e1]
        simp
    | R p cp S kp vp =>
      simp only [Frame.sib_R, Frame.color_R] at hS hbS hnS hcf
      subst hcf
      cases S with
      | nil => simp at hS
      | node s cs a sk sv b =>
        simp only [RTree.color_node] at hS
        subst hS
        simp only [BlackHeight_red, NoRedRed_node, true_implies] at hbS hnS
        have hf : delFix (.R p BLACK (.node s RED a sk sv b) kp vp) t =
            ([.R s BLACK a sk sv], delFixB (.R p RED b kp vp) t) := by
          simp [delFix]
        have hctx' : NoRedRed (plug (.R s BLACK a sk sv :: rest) ((Frame.R p RED b kp vp).fill .nil)) := by
          refine NoRedRed.nrr_replace (z := rest) hctx ?_ (fun _ => rfl)
          simp [hnS.1.2, hnS.2.1, hnS.2.2]
        have hroot' : (plug (.R s BLACK a sk sv :: rest) ((Frame.R p RED b kp vp).fill t)).color = BLACK := by
          rw [plug_cons]
          exact (plug_color_congr rest (by simp)).trans hroot
        have hrep' : ∀ t', BlackHeight t' (h + 1 + (if (Frame.R p RED b kp vp).color = BLACK then 1 else 0)) →
            BlackHeight (plug (.R s BLACK a sk sv :: rest) t') H := by
          intro t' ht'
          refine hrep _ ?_
          simp only [Frame.color_R, Color.red_eq_black, if_false, if_true, Nat.add_zero] at ht' ⊢
          simp [ht', hbS.1]
        obtain ⟨e1, e2, e3, e4, e5⟩ := @delFixB_inv (.R p RED b kp vp)
          (.R s BLACK a sk sv :: rest) _ _ _ hnS.1.2 hbS.2 hnS.2.2 hbt hnt hctx' hroot' hrep'
        rw [hf]
        refine ⟨?_, e2, e4, fun hfin => ⟨e5 hfin, fun _ => e3, by simp⟩⟩
        simp only [List.singleton_append, plug_cons]
        refine plug_nodes_congr rest ?_
        simp only [Frame.fill_R, RTree.nodes_node, e1]
        simp
  · have hSb : f.sib.color = BLACK := by simpa using hS
    have hf : delFix f t = ([], delFixB f t) := by simp [delFix, hSb]
    obtain ⟨e1, e2, e3, e4, e5⟩ := delFixB_inv hSb hbS hnS hbt hnt hctx hroot hrep
    rw [hf]
    refine ⟨plug_nodes_congr rest e1, e2, e4, fun hfin => ⟨e5 hfin, fun hne => absurd rfl hne,
      by simp⟩⟩

/-- The second block of an iteration for a left child, on the memory. -/
theorem delete_cases_left_spec {tree : cf_rcrb_tree} {rest : List Frame}
    {p cp kp vp s cs a sk sv b} {t : RTree}
    (h : RepZ tree (.L p cp kp vp (.node s cs a sk sv b) :: rest) t)
    (hpar : par tree (t.addr tree.sentinel) = p) :
    RepZ (delete_cases_left tree (t.addr tree.sentinel) s).1 rest
      (delFixB (.L p cp kp vp (.node s cs a sk sv b)) t).1 ∧
    MemOnly tree (delete_cases_left tree (t.addr tree.sentinel) s).1 ∧
    (delete_cases_left tree (t.addr tree.sentinel) s).2 =
      if (delFixB (.L p cp kp vp (.node s cs a sk sv b)) t).2 then
        lft (delete_cases_left tree (t.addr tree.sentinel) s).1
          (delete_cases_left tree (t.addr tree.sentinel) s).1.root
      else (delFixB (.L p cp kp vp (.node s cs a sk sv b)) t).1.addr tree.sentinel := by
  by_cases hb : b.color = BLACK
  · by_cases ha : a.color = BLACK
    · obtain ⟨e, hr⟩ := delete_cases_left_both h hpar ha hb
      have d : delFixB (.L p cp kp vp (.node s cs a sk sv b)) t =
          (.node p cp t kp vp (.node s RED a sk sv b), false) := by simp [delFixB, ha, hb]
      rw [e, d]
      exact ⟨hr, MemOnly.mo_setColor _ _ _, by simp⟩
    · cases a with
      | nil => simp at ha
      | node x cx al xk xv ar =>
        simp only [RTree.color_node, Color.not_black] at ha
        subst ha
        obtain ⟨tree1, e, hr, hm⟩ := delete_cases_left_near h hpar hb
        have d : delFixB (.L p cp kp vp (.node s cs (.node x RED al xk xv ar) sk sv b)) t =
            (.node x cp (.node p BLACK t kp vp al) xk xv (.node s BLACK ar sk sv b), true) := by
          simp [delFixB, hb]
        rw [e, d]
        exact ⟨hr, hm, by simp⟩
  · cases b with
    | nil => simp at hb
    | node y cy bl yk yv br =>
      simp only [RTree.color_node, Color.not_black] at hb
      subst hb
      obtain ⟨tree1, e, hr, hm⟩ := delete_cases_left_far h hpar
      have d : delFixB (.L p cp kp vp (.node s cs a sk sv (.node y RED bl yk yv br))) t =
          (.node s cp (.node p BLACK t kp vp a) sk sv (.node y BLACK bl yk yv br), true) := by
        simp [delFixB]
      rw [e, d]
      exact ⟨hr, hm, by simp⟩

/-- The second block of an iteration for a right child, on the memory. -/
theorem delete_cases_right_spec {tree : cf_rcrb_tree} {rest : List Frame}
    {p cp kp vp s cs a sk sv b} {t : RTree}
    (h : RepZ tree (.R p cp (.node s cs a sk sv b) kp vp :: rest) t)
    (hpar : par tree (t.addr tree.sentinel) = p) :
    RepZ (delete_cases_right tree (t.addr tree.sentinel) s).1 rest
      (delFixB (.R p cp (.node s cs a sk sv b) kp vp) t).1 ∧
    MemOnly tree (delete_cases_right tree (t.addr tree.sentinel) s).1 ∧
    (delete_cases_right tree (t.addr tree.sentinel) s).2 =
      if (delFixB (.R p cp (.node s cs a sk sv b) kp vp) t).2 then
        lft (delete_cases_right tree (t.addr tree.sentinel) s).1
          (delete_cases_right tree (t.addr tree.sentinel) s).1.root
      else (delFixB (.R p cp (.node s cs a sk sv b) kp vp) t).1.addr tree.sentinel := by
  by_cases ha : a.color = BLACK
  · by_cases hb : b.color = BLACK
    · obtain ⟨e, hr⟩ := delete_cases_right_both h hpar ha hb
      have d : delFixB (.R p cp (.node s cs a sk sv b) kp vp) t =
          (.node p cp (.node s RED a sk sv b) kp vp t, false) := by simp [delFixB, ha, hb]
      rw [e, d]
      exact ⟨hr, MemOnly.mo_setColor _ _ _, by simp⟩
    · cases b with
      | nil => simp at hb
      | node y cy bl yk yv br =>
        simp only [RTree.color_node, Color.not_black] at hb
        subst hb
        obtain ⟨tree1, e, hr, hm⟩ := delete_cases_right_near h hpar ha
        have d : delFixB (.R p cp (.node s cs a sk sv (.node y RED bl yk yv br)) kp vp) t =
            (.node y cp (.node s BLACK a sk sv bl) yk yv (.node p BLACK br kp vp t), true) := by
          simp [delFixB, ha]
        rw [e, d]
        exact ⟨hr, hm, by simp⟩
  · cases a with
    | nil => simp at ha
    | node x cx al xk xv ar =>
      simp only [RTree.color_node, Color.not_black] at ha
      subst ha
      obtain ⟨tree1, e, hr, hm⟩ := delete_cases_right_far h hpar
      have d : delFixB (.R p cp (.node s cs (.node x RED al xk xv ar) sk sv b) kp vp) t =
          (.node s cp (.node x BLACK al xk xv ar) sk sv (.node p BLACK b kp vp t), true) := by
        simp [delFixB]
      rw [e, d]
      exact ⟨hr, hm, by simp⟩

/-- One iteration of the deletion rebalancing loop, on the memory: when the
other subtree of the parent has at least one BLACK node on its paths and no
RED-RED pair, the iteration performs the shape change `delFix`. -/
theorem deleterebalance_step_spec {tree : cf_rcrb_tree} {f : Frame} {rest : List Frame}
    {t : RTree} {hh : Nat} (h : RepZ tree (f :: rest) t)
    (hpar : par tree (t.addr tree.sentinel) = f.addr)
    (hbS : BlackHeight f.sib (hh + 1)) (hnS : NoRedRed f.sib) :
    RepZ (deleterebalance_step tree (t.addr tree.sentinel)).1 ((delFix f t).1 ++ rest)
      (delFix f t).2.1 ∧
    MemOnly tree (deleterebalance_step tree (t.addr tree.sentinel)).1 ∧
    (deleterebalance_step tree (t.addr tree.sentinel)).2 =
      if (delFix f t).2.2 then
        lft (deleterebalance_step tree (t.addr tree.sentinel)).1
          (deleterebalance_step tree (t.addr tree.sentinel)).1.root
      else (delFix f t).2.1.addr tree.sentinel := by
  cases f with
  | L p cp kp vp S =>
    simp only [Frame.sib_L, Frame.addr_L] at hbS hnS hpar
    have htest : t.addr tree.sentinel = lft tree (par tree (t.addr tree.sentinel)) := by
      rw [hpar, lft, h.read_L]
    rw [deleterebalance_step, if_pos htest]
    cases S with
    | nil => simp at hbS
    | node s cs a sk sv b =>
      cases cs with
      | BLACK =>
        have e := delete_sibling_left_black h hpar rfl
        have d : delFix (.L p cp kp vp (.node s BLACK a sk sv b)) t =
            ([], delFixB (.L p cp kp vp (.node s BLACK a sk sv b)) t) := by simp [delFix]
        rw [e, d]
        exact delete_cases_left_spec h hpar
      | RED =>
        simp only [BlackHeight_red, NoRedRed_node, true_implies] at hbS hnS
        obtain ⟨tree1, e, h1, hp1, hm1⟩ := delete_sibling_left_red h hpar
        have d : delFix (.L p cp kp vp (.node s RED a sk sv b)) t =
            ([.L s BLACK sk sv b], delFixB (.L p RED kp vp a) t) := by simp [delFix]
        rw [e, d]
        cases a with
        | nil => simp at hbS
        | node x cx al xk xv ar =>
          have hs1 := hm1.2.1
          rw [← hs1] at hp1 ⊢
          obtain ⟨g1, g2, g3⟩ := delete_cases_left_spec h1 hp1
          exact ⟨g1, hm1.trans g2, g3⟩
  | R p cp S kp vp =>
    simp only [Frame.sib_R, Frame.addr_R] at hbS hnS hpar
    cases S with
    | nil => simp at hbS
    | node s cs a sk sv b =>
      have htest : ¬ t.addr tree.sentinel = lft tree (par tree (t.addr tree.sentinel)) := by
        rw [hpar, lft, h.read_R]
        exact h.sib_ne_focus_R
      rw [deleterebalance_step, if_neg htest]
      cases cs with
      | BLACK =>
        have e := delete_sibling_right_black h hpar rfl
        have d : delFix (.R p cp (.node s BLACK a sk sv b) kp vp) t =
            ([], delFixB (.R p cp (.node s BLACK a sk sv b) kp vp) t) := by simp [delFix]
        rw [e, d]
        exact delete_cases_right_spec h hpar
      | RED =>
        simp only [BlackHeight_red, NoRedRed_node, true_implies] at hbS hnS
        obtain ⟨tree1, e, h1, hp1, hm1⟩ := delete_sibling_right_red h hpar
        have d : delFix (.R p cp (.node s RED a sk sv b) kp vp) t =
            ([.R s BLACK a sk sv], delFixB (.R p RED b kp vp) t) := by simp [delFix]
        rw [e, d]
        cases b with
        | nil => simp at hbS
        | node y cy bl yk yv br =>
          have hs1 := hm1.2.1
          rw [← hs1] at hp1 ⊢
          obtain ⟨g1, g2, g3⟩ := delete_cases_right_spec h1 hp1
          exact ⟨g1, hm1.trans g2, g3⟩

theorem plug_addr_mem (sent : Nat) : ∀ {z : List Frame} (t : RTree), z ≠ [] →
    (plug z t).addr sent ∈ ctxAddrs z
  | [], _, hne => absurd rfl hne
  | [f], t, _ => by cases f <;> simp
  | f :: g :: rest, t, _ => by
    rw [plug_cons, ctxAddrs_cons]
    exact List.mem_append_right _ (plug_addr_mem sent (z := g :: rest) _ (by simp))

theorem RepZ.focus_notin_ctx {tree : cf_rcrb_tree} {ctx : List Frame} {t : RTree}
    (h : RepZ tree ctx t) : t.addr tree.sentinel ∉ ctxAddrs ctx := by
  cases t with
  | nil =>
    intro e
    exact h.sent_notin (List.mem_append_right _ e)
  | node a c l k v r =>
    intro e
    have hd := (List.nodup_append.mp h.nodup).2.2
    exact hd (a := a) (by simp) e

/-- Below the top of the tree the current node is not `root->left`. -/
theorem RepZ.root_left_ne_focus {tree : cf_rcrb_tree} {ctx : List Frame} {t : RTree}
    (h : RepZ tree ctx t) (hne : ctx ≠ []) : lft tree tree.root ≠ t.addr tree.sentinel := by
  rw [lft, h.plug.read_root]
  intro e
  exact h.focus_notin_ctx (e ▸ plug_addr_mem tree.sentinel t hne)

theorem RTree.paint_black_color (t : RTree) : (t.paint BLACK).color = BLACK := by
  cases t <;> rfl

/-- Once `r` is `root->left` the loop ends. -/
theorem deleterebalance_done {tree : cf_rcrb_tree} {T : RTree} (fuel : Nat) (h : Rep tree T)
    (hc : T.color = BLACK) :
    cf_rcrb_deleterebalance (fuel + 1) tree (lft tree tree.root) =
      some (setColor tree (lft tree tree.root) BLACK) ∧
    Rep (setColor tree (lft tree tree.root) BLACK) T ∧
    MemOnly tree (setColor tree (lft tree tree.root) BLACK) := by
  refine ⟨by simp [cf_rcrb_deleterebalance], ?_, MemOnly.mo_setColor _ _ _⟩
  have := h.paint_focus
  rw [RTree.paint_of_black hc] at this
  rw [lft, h.read_root]
  exact this

/-- The deletion rebalancing loop terminates and leaves a red-black tree with
the same nodes in order. -/
theorem deleterebalance_spec : ∀ (fuel : Nat) {tree : cf_rcrb_tree} {ctx : List Frame}
    {t : RTree} {H : Nat}, RepZ tree ctx t →
    par tree (t.addr tree.sentinel) = ctxPar tree.root ctx → DelInv ctx t H →
    2 * ctx.length + (if t.color = RED then 0 else 1) < fuel →
    ∃ tree' T', cf_rcrb_deleterebalance fuel tree (t.addr tree.sentinel) = some tree' ∧
      Rep tree' T' ∧ MemOnly tree tree' ∧ NoRedRed T' ∧ (∃ H', BlackHeight T' H') ∧
      T'.color = BLACK ∧ T'.nodes = (plug ctx t).nodes
  | 0, _, _, _, _, _, _, _, hf => absurd hf (Nat.not_lt_zero _)
  | fuel + 1, tree, ctx, t, H, h, hpar, hinv, hf => by
    by_cases hgo : t.color = BLACK ∧ ctx ≠ []
    · obtain ⟨hct, hne⟩ := hgo
      cases ctx with
      | nil => exact absurd rfl hne
      | cons f rest =>
        have hcond : col tree (t.addr tree.sentinel) = BLACK ∧
            lft tree tree.root ≠ t.addr tree.sentinel :=
          ⟨by rw [col, h.col_addr]; exact hct, h.root_left_ne_focus hne⟩
        rw [cf_rcrb_deleterebalance, if_pos hcond]
        obtain ⟨hnS, -, hh, -, hbS, -⟩ := hinv.frame_facts
        obtain ⟨s1, s2, s3⟩ := deleterebalance_step_spec h hpar hbS hnS
        obtain ⟨i1, i2, i3, i4⟩ := delFix_inv hinv hct
        rw [s3]
        cases hfl : (delFix f t).2.2 with
        | true =>
          obtain ⟨n1, b1, c1⟩ := i3 hfl
          cases fuel with
          | zero => simp at hf
          | succ fuel1 =>
            obtain ⟨d1, d2, d3⟩ := deleterebalance_done fuel1 s1.plug c1
            rw [if_pos rfl, d1]
            exact ⟨_, _, rfl, d2, s2.trans d3, n1, ⟨H, b1⟩, c1, i1⟩
        | false =>
          obtain ⟨j1, j2, j3⟩ := i4 hfl
          have hsent := s2.2.1
          have hp1 : par (deleterebalance_step tree (t.addr tree.sentinel)).1
              ((delFix f t).2.1.addr (deleterebalance_step tree (t.addr tree.sentinel)).1.sentinel) =
              ctxPar (deleterebalance_step tree (t.addr tree.sentinel)).1.root
                ((delFix f t).1 ++ rest) := by
            cases hsub : (delFix f t).2.1 with
            | nil => exact absurd hsub i2
            | node a c l k v r =>
              rw [hsub] at s1
              exact s1.focus_par
          have hlen : 2 * ((delFix f t).1 ++ rest).length +
              (if (delFix f t).2.1.color = RED then 0 else 1) < fuel := by
            simp only [List.length_cons, hct, Color.black_eq_red, if_false] at hf
            by_cases hfr : (delFix f t).1 = []
            · rw [hfr, List.nil_append]
              split_ifs <;> omega
            · rw [if_pos (j2 hfr)]
              omega
          obtain ⟨tree', T', e1, e2, e3, e4, e5, e6, e7⟩ :=
            deleterebalance_spec fuel s1 hp1 j1 hlen
          rw [hsent] at e1
          simp only [Bool.false_eq_true, if_false]
          exact ⟨tree', T', e1, e2, s2.trans e3, e4, e5, e6, e7.trans i1⟩
    · have hcond : ¬ (col tree (t.addr tree.sentinel) = BLACK ∧
          lft tree tree.root ≠ t.addr tree.sentinel) := by
        rintro ⟨c1, c2⟩
        rw [col, h.col_addr] at c1
        refine hgo ⟨c1, ?_⟩
        rintro rfl
        exact c2 (by rw [lft]; exact Rep.read_root h)
      rw [cf_rcrb_deleterebalance, if_neg hcond]
      obtain ⟨n1, n2, n3, hh, b1, b2⟩ := hinv
      refine ⟨_, plug ctx (t.paint BLACK), rfl, h.paint_focus.plug, MemOnly.mo_setColor _ _ _,
        NoRedRed.nrr_replace (z := ctx) n2 n1 (fun _ => RTree.paint_black_color t), ?_, ?_,
        plug_nodes_congr ctx (by simp)⟩
      · cases ctx with
        | nil => exact b1.bh_paint_black
        | cons f rest =>
          have hr : t.color = RED := by
            by_contra hc
            exact hgo ⟨by simpa using hc, by simp⟩
          cases t with
          | nil => simp at hr
          | node a c l k v r =>
            simp only [RTree.color_node] at hr
            subst hr
            exact ⟨H, b2 _ ⟨hh, rfl, b1⟩⟩
      · cases ctx with
        | nil => exact RTree.paint_black_color t
        | cons f rest =>
          rw [plug_color_of_ne_nil (by simp) _ t]
          exact n3 (by simp)


/-! ## Unlinking and replacing a node -/

/-- Replacing the subtree at a position: the link in the parent is redirected,
the rest of the path is untouched, and the memory holds the nodes of the new
subtree. -/
theorem RepZ.relink {tree tree' : cf_rcrb_tree} {ctx : List Frame} {a c l k v r} {t' : RTree}
    (h : RepZ tree ctx (.node a c l k v r))
    (hr : tree'.root = tree.root) (hs : tree'.sentinel = tree.sentinel)
    (hnd : (t'.addrs ++ ctxAddrs ctx).Nodup) (hsn : tree.sentinel ∉ t'.addrs)
    (hrn : tree.root ∉ t'.addrs)
    (hP : tree'.mem (ctxPar tree.root ctx) =
      if a = (tree.mem (ctxPar tree.root ctx)).left then
        { tree.mem (ctxPar tree.root ctx) with left := t'.addr tree.sentinel }
      else { tree.mem (ctxPar tree.root ctx) with right := t'.addr tree.sentinel })
    (heq : ∀ x, x ≠ ctxPar tree.root ctx → x = tree.root ∨ x ∈ ctxAddrs ctx →
      tree'.mem x = tree.mem x)
    (hsc : (tree'.mem tree.sentinel).color = BLACK)
    (hsl : (tree'.mem tree.sentinel).left = tree.sentinel)
    (hsr : (tree'.mem tree.sentinel).right = tree.sentinel)
    (hn : RNodes tree'.mem tree.sentinel (ctxPar tree.root ctx) t') : RepZ tree' ctx t' := by
  have hrl : tree.root = ctxPar tree.root ctx → a = (tree.mem tree.root).left :=
    fun e => by rw [h.root_par e]; rfl
  obtain ⟨h1, h2, h3, h4, h5, h6, h7, h8, h9, h10, h11⟩ := h
  simp only [RTree.addrs_node, List.cons_append, List.mem_cons, List.mem_append, not_or,
    List.nodup_cons, List.nodup_append] at h1 h2 h3
  refine ⟨hnd, ?_, ?_, ?_, ?_, ?_, ?_, ?_, ?_, ?_, ?_⟩
  · rw [hs]
    simp only [List.mem_append, not_or]
    exact ⟨hsn, h2.2.2⟩
  · rw [hr]
    simp only [List.mem_append, not_or]
    exact ⟨hrn, h3.2.2⟩
  · rw [hr, hs]; exact h4
  · rw [hr]
    by_cases e : tree.root = ctxPar tree.root ctx
    · rw [e, hP]
      split_ifs <;> simpa [← e] using h5
    · rw [heq _ e (Or.inl rfl)]; exact h5
  · rw [hs]; exact hsc
  · rw [hr, hs]
    exact RCtx.rehole h7 hP heq h1.2.2.1 h3.2.2 h1.1.2 (fun e => h2.1 e.symm)
  · rw [hr, hs]; exact hn
  · rw [hs]; exact hsl
  · rw [hs]; exact hsr
  · rw [hr, hs]
    by_cases e : tree.root = ctxPar tree.root ctx
    · have e2 := hP
      rw [← e, if_pos (hrl e)] at e2
      rw [e2]; exact h11
    · rw [heq _ e (Or.inl rfl)]; exact h11

theorem RepZ.focus_ne_root {tree : cf_rcrb_tree} {ctx : List Frame} {t : RTree}
    (h : RepZ tree ctx t) : t.addr tree.sentinel ≠ tree.root := by
  cases t with
  | nil => exact fun e => h.root_ne_sent e.symm
  | node a c l k v r => exact h.addr_ne_root

theorem RepZ.focus_ne_par {tree : cf_rcrb_tree} {ctx : List Frame} {t : RTree}
    (h : RepZ tree ctx t) : t.addr tree.sentinel ≠ ctxPar tree.root ctx := by
  rcases ctxPar_mem tree.root ctx with e | e
  · rw [e]; exact h.focus_ne_root
  · intro e'
    exact h.focus_notin_ctx (e' ▸ e)

theorem RepZ.par_ne_sent {tree : cf_rcrb_tree} {ctx : List Frame} {t : RTree}
    (h : RepZ tree ctx t) : ctxPar tree.root ctx ≠ tree.sentinel := by
  rcases ctxPar_mem tree.root ctx with e | e
  · rw [e]; exact h.root_ne_sent
  · intro e'
    exact h.sent_notin (List.mem_append_right _ (e' ▸ e))

/-- The memory after the splice. -/
theorem delete_splice_mem {tree : cf_rcrb_tree} {s t P : Nat} (hP : par tree s = P)
    (hts : t ≠ s) (htP : t ≠ P) (hroot : P = tree.root → s = (tree.mem P).left)
 :
    delete_splice tree s t =
      { tree with mem := fun x =>
          if x = P then
            (if s = (tree.mem P).left then { tree.mem P with left := t }
             else { tree.mem P with right := t })
          else if x = t then { tree.mem t with parent := P } else tree.mem x } := by
  have hPt : P ≠ t := fun e => htP e.symm
  have hst : s ≠ t := fun e => hts e.symm
  have e1 : par (setParent tree t (par tree s)) t = P := by
    have := hP
    simp only [par] at this
    simp [par, setParent_mem, this]
  have e2 : par (setParent tree t (par tree s)) s = P := by
    rw [par, setParent_mem, if_neg hst]; exact hP
  have e3 : lft (setParent tree t (par tree s)) P = (tree.mem P).left := by
    rw [lft, setParent_mem, if_neg hPt]
  simp only [delete_splice, e1, e2, e3, setParent_root]
  by_cases hr : tree.root = P
  · rw [if_pos hr, if_pos (hroot hr.symm), hr]
    simp only [setLeft, setParent, hP]
    congr 1
    funext x
    by_cases ex : x = P
    · subst ex; simp [upd, hPt]
    · by_cases et : x = t
      · subst et; simp [upd, ex]
      · simp [upd, ex, et]
  · rw [if_neg hr]
    by_cases hl : s = (tree.mem P).left
    · rw [if_pos hl, if_pos hl]
      simp only [setLeft, setParent, hP]
      congr 1
      funext x
      by_cases ex : x = P
      · subst ex; simp [upd, hPt]
      · by_cases et : x = t
        · subst et; simp [upd, ex]
        · simp [upd, ex, et]
    · rw [if_neg hl, if_neg hl]
      simp only [setRight, setParent, hP]
      congr 1
      funext x
      by_cases ex : x = P
      · subst ex; simp [upd, hPt]
      · by_cases et : x = t
        · subst et; simp [upd, ex]
        · simp [upd, ex, et]

theorem RepZ.splice_aux {tree : cf_rcrb_tree} {ctx : List Frame} {s cs l ks vs r}
    {child : RTree} (h : RepZ tree ctx (.node s cs l ks vs r))
    (hsub : child.addrs.Sublist (l.addrs ++ r.addrs))
    (hn : RNodes tree.mem tree.sentinel s child) :
    RepZ (delete_splice tree s (child.addr tree.sentinel)) ctx child ∧
    par (delete_splice tree s (child.addr tree.sentinel)) (child.addr tree.sentinel) =
      ctxPar tree.root ctx ∧
    (delete_splice tree s (child.addr tree.sentinel)).mem s = tree.mem s ∧
    MemOnly tree (delete_splice tree s (child.addr tree.sentinel)) := by
  have hP := h.focus_par
  have hsP : s ≠ ctxPar tree.root ctx := by simpa using h.focus_ne_par
  have hss : s ≠ tree.sentinel := h.addr_ne_sent
  have hnd := h.nodup
  have hsn := h.sent_notin
  have hrn := h.root_notin
  simp only [RTree.addrs_node, List.cons_append, List.mem_cons, List.mem_append, not_or,
    List.nodup_cons] at hnd hsn hrn
  have hnd' : (child.addrs ++ ctxAddrs ctx).Nodup :=
    hnd.2.sublist (List.Sublist.append hsub (List.Sublist.refl _))
  have hmemc : ∀ x ∈ child.addrs, x ∈ l.addrs ∨ x ∈ r.addrs := fun x hx => by
    simpa using hsub.subset hx
  have hsc : s ∉ child.addrs := fun e => (hmemc s e).elim hnd.1.1.1 hnd.1.1.2
  have hsentc : tree.sentinel ∉ child.addrs := fun e => (hmemc _ e).elim hsn.2.1.1 hsn.2.1.2
  have hrootc : tree.root ∉ child.addrs := fun e => (hmemc _ e).elim hrn.2.1.1 hrn.2.1.2
  have hPc : ctxPar tree.root ctx ∉ child.addrs := by
    rcases ctxPar_mem tree.root ctx with e | e
    · rw [e]; exact hrootc
    · intro e'
      exact (List.nodup_append.mp hnd').2.2 e' e
  have hts : child.addr tree.sentinel ≠ s := (RTree.addr_ne hss hsc).symm
  have htP : child.addr tree.sentinel ≠ ctxPar tree.root ctx :=
    (RTree.addr_ne h.par_ne_sent hPc).symm
  have hroot : ctxPar tree.root ctx = tree.root → s = (tree.mem (ctxPar tree.root ctx)).left := by
    intro e
    cases ctx with
    | nil => exact (Rep.read_root h).symm
    | cons f rest =>
      exfalso
      have := h.root_notin
      apply this
      rw [← e]
      cases f <;> simp
  have hmem := delete_splice_mem hP hts htP hroot
  have hmo : MemOnly tree (delete_splice tree s (child.addr tree.sentinel)) := by
    rw [hmem]; simp [MemOnly]
  have hm : ∀ x, (delete_splice tree s (child.addr tree.sentinel)).mem x =
      if x = ctxPar tree.root ctx then
        (if s = (tree.mem (ctxPar tree.root ctx)).left then
          { tree.mem (ctxPar tree.root ctx) with left := child.addr tree.sentinel }
         else { tree.mem (ctxPar tree.root ctx) with right := child.addr tree.sentinel })
      else if x = child.addr tree.sentinel then
        { tree.mem (child.addr tree.sentinel) with parent := ctxPar tree.root ctx }
      else tree.mem x := fun x => by rw [hmem]
  refine ⟨?_, ?_, ?_, hmo⟩
  · refine h.relink hmo.1 hmo.2.1 hnd' hsentc hrootc ?_ ?_ ?_ ?_ ?_ ?_
    · rw [hm, if_pos rfl]
    · intro x hx hx'
      rw [hm, if_neg hx, if_neg]
      rcases hx' with e | e
      · rw [e]; exact fun e' => (RTree.addr_ne h.root_ne_sent hrootc) e'
      · intro e'
        have hnot : x ∉ child.addrs := fun e2 => (List.nodup_append.mp hnd').2.2 e2 e
        have hxs : x ≠ tree.sentinel := fun e2 => hsn.2.2 (e2 ▸ e)
        exact RTree.addr_ne hxs hnot e'
    · rw [hm, if_neg (Ne.symm h.par_ne_sent)]
      split_ifs with e
      · rw [← e]; exact h.sent_color
      · exact h.sent_color
    · rw [hm, if_neg (Ne.symm h.par_ne_sent)]
      split_ifs with e
      · rw [← e]; exact h.sent_left
      · exact h.sent_left
    · rw [hm, if_neg (Ne.symm h.par_ne_sent)]
      split_ifs with e
      · rw [← e]; exact h.sent_right
      · exact h.sent_right
    · refine RNodes.reparent hn (List.nodup_append.mp hnd').1 ?_ hsentc ?_
      · intro _
        rw [hm, if_neg htP, if_pos rfl]
      · intro x hx hx'
        have hxP : x ≠ ctxPar tree.root ctx := fun e => hPc (e ▸ hx)
        rw [hm, if_neg hxP, if_neg hx']
  · rw [par, hm, if_neg htP, if_pos rfl]
  · rw [hm, if_neg hsP, if_neg (Ne.symm hts)]

/-- Unlinking a node whose left subtree is empty puts its right subtree in its
place. -/
theorem RepZ.splice_right {tree : cf_rcrb_tree} {ctx : List Frame} {s cs ks vs r}
    (h : RepZ tree ctx (.node s cs .nil ks vs r)) :
    RepZ (delete_splice tree s (r.addr tree.sentinel)) ctx r ∧
    par (delete_splice tree s (r.addr tree.sentinel)) (r.addr tree.sentinel) =
      ctxPar tree.root ctx ∧
    (delete_splice tree s (r.addr tree.sentinel)).mem s = tree.mem s ∧
    MemOnly tree (delete_splice tree s (r.addr tree.sentinel)) :=
  h.splice_aux (by simp) h.nodes.2.2

/-- Unlinking a node whose right subtree is empty puts its left subtree in its
place. -/
theorem RepZ.splice_left {tree : cf_rcrb_tree} {ctx : List Frame} {s cs l ks vs}
    (h : RepZ tree ctx (.node s cs l ks vs .nil)) :
    RepZ (delete_splice tree s (l.addr tree.sentinel)) ctx l ∧
    par (delete_splice tree s (l.addr tree.sentinel)) (l.addr tree.sentinel) =
      ctxPar tree.root ctx ∧
    (delete_splice tree s (l.addr tree.sentinel)).mem s = tree.mem s ∧
    MemOnly tree (delete_splice tree s (l.addr tree.sentinel)) :=
  h.splice_aux (by simp) h.nodes.2.1

theorem MemOnly.mo_delete_replace (tree : cf_rcrb_tree) (r s : Nat) :
    MemOnly tree (delete_replace tree r s) := by
  simp only [Rcrb.delete_replace]
  split_ifs <;> simp [MemOnly, Rcrb.setLeft, Rcrb.setRight, Rcrb.setParent, Rcrb.setColor]

/-- The memory after `s` was put in the place of `r`. -/
theorem delete_replace_mem {tree : cf_rcrb_tree} {r s kr vr L R P : Nat} {cc : Color}
    (hr : tree.mem r = ⟨cc, kr, vr, L, R, P⟩) (hsr : s ≠ r) (hrL : r ≠ L) (hrR : r ≠ R)
    (hPL : P ≠ L) (hPR : P ≠ R) (hPs : P ≠ s) (hsL : s ≠ L) (hsR : s ≠ R) (x : Nat) :
    (delete_replace tree r s).mem x =
      if x = P then
        (if r = (tree.mem P).left then { tree.mem P with left := s }
         else { tree.mem P with right := s })
      else if x = L then { tree.mem L with parent := s }
      else if x = R then { tree.mem R with parent := s }
      else if x = s then ⟨cc, (tree.mem s).key, (tree.mem s).value, L, R, P⟩
      else tree.mem x := by
  have hrs : r ≠ s := fun e => hsr e.symm
  have a1 : lft tree r = L := by rw [lft, hr]
  have a2 : rgt (setLeft tree s L) r = R := by rw [rgt, setLeft_mem, if_neg hrs, hr]
  have a3 : par (setRight (setLeft tree s L) s R) r = P := by
    rw [par, setRight_mem, if_neg hrs, setLeft_mem, if_neg hrs, hr]
  have a4 : col (setParent (setRight (setLeft tree s L) s R) s P) r = cc := by
    rw [col, setParent_mem, if_neg hrs, setRight_mem, if_neg hrs, setLeft_mem, if_neg hrs, hr]
  have a5 : rgt (setColor (setParent (setRight (setLeft tree s L) s R) s P) s cc) r = R := by
    rw [rgt, setColor_mem, if_neg hrs, setParent_mem, if_neg hrs, setRight_mem, if_neg hrs,
      setLeft_mem, if_neg hrs, hr]
  have a6 : lft (setParent (setColor (setParent (setRight (setLeft tree s L) s R) s P) s cc) R s)
      r = L := by
    rw [lft, setParent_mem, if_neg hrR, setColor_mem, if_neg hrs, setParent_mem, if_neg hrs,
      setRight_mem, if_neg hrs, setLeft_mem, if_neg hrs, hr]
  have a7 : par (setParent (setParent (setColor (setParent (setRight (setLeft tree s L) s R) s P)
      s cc) R s) L s) r = P := by
    rw [par, setParent_mem, if_neg hrL, setParent_mem, if_neg hrR, setColor_mem, if_neg hrs,
      setParent_mem, if_neg hrs, setRight_mem, if_neg hrs, setLeft_mem, if_neg hrs, hr]
  have a8 : lft (setParent (setParent (setColor (setParent (setRight (setLeft tree s L) s R) s P)
      s cc) R s) L s) P = (tree.mem P).left := by
    rw [lft, setParent_mem, if_neg hPL, setParent_mem, if_neg hPR, setColor_mem, if_neg hPs,
      setParent_mem, if_neg hPs, setRight_mem, if_neg hPs, setLeft_mem, if_neg hPs]
  simp only [delete_replace, a1, a2, a3, a4, a5, a6, a7, a8]
  have hLs : L ≠ s := fun e => hsL e.symm
  have hRs : R ≠ s := fun e => hsR e.symm
  have hLP : L ≠ P := fun e => hPL e.symm
  have hRP : R ≠ P := fun e => hPR e.symm
  by_cases hc : r = (tree.mem P).left
  · rw [if_pos hc, if_pos hc]
    by_cases e1 : x = P
    · subst e1
      simp [setLeft_mem, setRight_mem, setParent_mem, setColor_mem, hPL, hPR, hPs]
    · by_cases e2 : x = L
      · subst e2
        by_cases e5 : x = R
        · simp [setLeft_mem, setRight_mem, setParent_mem, setColor_mem, hLs, ← e5, e1]
        · simp [setLeft_mem, setRight_mem, setParent_mem, setColor_mem, hLs, e5, e1]
      · by_cases e3 : x = R
        · subst e3
          simp [setLeft_mem, setRight_mem, setParent_mem, setColor_mem, e1, e2, hRs]
        · by_cases e4 : x = s
          · subst e4
            simp [setLeft_mem, setRight_mem, setParent_mem, setColor_mem, e1, e2, e3]
          · simp [setLeft_mem, setRight_mem, setParent_mem, setColor_mem, e1, e2, e3, e4]
  · rw [if_neg hc, if_neg hc]
    by_cases e1 : x = P
    · subst e1
      simp [setLeft_mem, setRight_mem, setParent_mem, setColor_mem, hPL, hPR, hPs]
    · by_cases e2 : x = L
      · subst e2
        by_cases e5 : x = R
        · simp [setLeft_mem, setRight_mem, setParent_mem, setColor_mem, hLs, ← e5, e1]
        · simp [setLeft_mem, setRight_mem, setParent_mem, setColor_mem, hLs, e5, e1]
      · by_cases e3 : x = R
        · subst e3
          simp [setLeft_mem, setRight_mem, setParent_mem, setColor_mem, e1, e2, hRs]
        · by_cases e4 : x = s
          · subst e4
            simp [setLeft_mem, setRight_mem, setParent_mem, setColor_mem, e1, e2, e3]
          · simp [setLeft_mem, setRight_mem, setParent_mem, setColor_mem, e1, e2, e3, e4]

/-- Putting a node `s` that is not in the tree in the place of node `r`: the
shape is the same, with the address, key and value of `s` where those of `r`
were; the colour is the one of `r`. -/
theorem RepZ.replace {tree : cf_rcrb_tree} {ctx : List Frame} {r c l kr vr rt} {s : Nat}
    (h : RepZ tree ctx (.node r c l kr vr rt)) (hs1 : s ≠ tree.root) (hs2 : s ≠ tree.sentinel)
    (hs3 : s ∉ (RTree.node r c l kr vr rt).addrs ++ ctxAddrs ctx) :
    RepZ (delete_replace tree r s) ctx
      (.node s c l (tree.mem s).key (tree.mem s).value rt) ∧
    (delete_replace tree r s).mem r = tree.mem r := by
  have hP := h.focus_par
  have hrP : r ≠ ctxPar tree.root ctx := by simpa using h.focus_ne_par
  have hrs : r ≠ tree.sentinel := h.addr_ne_sent
  have hPsent := h.par_ne_sent
  have hnd := h.nodup
  have hsn := h.sent_notin
  have hrn := h.root_notin
  have hread := h.read
  simp only [RTree.addrs_node, List.cons_append, List.mem_cons, List.mem_append, not_or,
    List.nodup_cons, List.nodup_append] at hnd hsn hrn hs3
  obtain ⟨⟨hr1, hr2⟩, ⟨⟨hl0, hrt0, hlr⟩, hctx0, hdis⟩⟩ := hnd
  have hPl : ctxPar tree.root ctx ∉ l.addrs := by
    rcases ctxPar_mem tree.root ctx with e | e
    · rw [e]; exact hrn.2.1.1
    · intro e'; exact hdis (List.mem_append_left _ e') e
  have hPrt : ctxPar tree.root ctx ∉ rt.addrs := by
    rcases ctxPar_mem tree.root ctx with e | e
    · rw [e]; exact hrn.2.1.2
    · intro e'; exact hdis (List.mem_append_right _ e') e
  have hsr : s ≠ r := hs3.1
  have hrL : r ≠ l.addr tree.sentinel := RTree.addr_ne hrs hr1.1
  have hrR : r ≠ rt.addr tree.sentinel := RTree.addr_ne hrs hr1.2
  have hPL : ctxPar tree.root ctx ≠ l.addr tree.sentinel := RTree.addr_ne hPsent hPl
  have hPR : ctxPar tree.root ctx ≠ rt.addr tree.sentinel := RTree.addr_ne hPsent hPrt
  have hPs : ctxPar tree.root ctx ≠ s := by
    rcases ctxPar_mem tree.root ctx with e | e
    · rw [e]; exact Ne.symm hs1
    · intro e'; exact hs3.2.2 (e' ▸ e)
  have hsL : s ≠ l.addr tree.sentinel := RTree.addr_ne hs2 hs3.2.1.1
  have hsR : s ≠ rt.addr tree.sentinel := RTree.addr_ne hs2 hs3.2.1.2
  have hm := delete_replace_mem hread hsr hrL hrR hPL hPR hPs hsL hsR
  have hmo := MemOnly.mo_delete_replace tree r s
  refine ⟨?_, ?_⟩
  · refine h.relink hmo.1 hmo.2.1 ?_ ?_ ?_ ?_ ?_ ?_ ?_ ?_ ?_
    · simp only [RTree.addrs_node, List.cons_append, List.mem_cons, List.mem_append, not_or,
        List.nodup_cons, List.nodup_append]
      refine ⟨⟨hs3.2.1, hs3.2.2⟩, ⟨⟨hl0, hrt0, hlr⟩, hctx0, ?_⟩⟩
      exact hdis
    · simp only [RTree.addrs_node, List.mem_cons, List.mem_append, not_or]
      exact ⟨Ne.symm hs2, hsn.2.1⟩
    · simp only [RTree.addrs_node, List.mem_cons, List.mem_append, not_or]
      exact ⟨Ne.symm hs1, hrn.2.1⟩
    · rw [hm, if_pos rfl]; rfl
    · intro x hx hx'
      have hxs : x ≠ s := by
        rcases hx' with e | e
        · rw [e]; exact Ne.symm hs1
        · intro e'; exact hs3.2.2 (e' ▸ e)
      have hxsent : x ≠ tree.sentinel := by
        rcases hx' with e | e
        · rw [e]; exact h.root_ne_sent
        · intro e'; exact hsn.2.2 (e' ▸ e)
      have hxl : x ∉ l.addrs := by
        rcases hx' with e | e
        · rw [e]; exact hrn.2.1.1
        · intro e'; exact hdis (List.mem_append_left _ e') e
      have hxrt : x ∉ rt.addrs := by
        rcases hx' with e | e
        · rw [e]; exact hrn.2.1.2
        · intro e'; exact hdis (List.mem_append_right _ e') e
      rw [hm, if_neg hx, if_neg (RTree.addr_ne hxsent hxl), if_neg (RTree.addr_ne hxsent hxrt),
        if_neg hxs]
    · rw [hm, if_neg (Ne.symm hPsent)]
      split_ifs with e1 e2 e3
      · rw [← e1]; exact h.sent_color
      · rw [← e2]; exact h.sent_color
      · exact absurd e3.symm hs2
      · exact h.sent_color
    · rw [hm, if_neg (Ne.symm hPsent)]
      split_ifs with e1 e2 e3
      · rw [← e1]; exact h.sent_left
      · rw [← e2]; exact h.sent_left
      · exact absurd e3.symm hs2
      · exact h.sent_left
    · rw [hm, if_neg (Ne.symm hPsent)]
      split_ifs with e1 e2 e3
      · rw [← e1]; exact h.sent_right
      · rw [← e2]; exact h.sent_right
      · exact absurd e3.symm hs2
      · exact h.sent_right
    · refine ⟨?_, ?_, ?_⟩
      · rw [hm, if_neg (Ne.symm hPs), if_neg hsL, if_neg hsR, if_pos rfl]
      · refine RNodes.reparent h.nodes.2.1 hl0 ?_ hsn.2.1.1 ?_
        · intro _
          rw [hm, if_neg (Ne.symm hPL), if_pos rfl]
        · intro x hx hx'
          have hxP : x ≠ ctxPar tree.root ctx := fun e => hPl (e ▸ hx)
          have hxsent : x ≠ tree.sentinel := fun e => hsn.2.1.1 (e ▸ hx)
          have hxrt : x ∉ rt.addrs := fun e => hlr hx e
          have hxs : x ≠ s := fun e => hs3.2.1.1 (e ▸ hx)
          rw [hm, if_neg hxP, if_neg hx', if_neg (RTree.addr_ne hxsent hxrt), if_neg hxs]
      · refine RNodes.reparent h.nodes.2.2 hrt0 ?_ hsn.2.1.2 ?_
        · intro hne
          have hRmem : rt.addr tree.sentinel ∈ rt.addrs := by
            rcases RTree.addr_mem tree.sentinel rt with e | e
            · exact absurd e hne
            · exact e
          have hRL : rt.addr tree.sentinel ≠ l.addr tree.sentinel :=
            RTree.addr_ne hne (fun e => hlr e hRmem)
          rw [hm, if_neg (Ne.symm hPR), if_neg hRL, if_pos rfl]
        · intro x hx hx'
          have hxP : x ≠ ctxPar tree.root ctx := fun e => hPrt (e ▸ hx)
          have hxsent : x ≠ tree.sentinel := fun e => hsn.2.1.2 (e ▸ hx)
          have hxl : x ∉ l.addrs := fun e => hlr e hx
          have hxs : x ≠ s := fun e => hs3.2.1.2 (e ▸ hx)
          rw [hm, if_neg hxP, if_neg (RTree.addr_ne hxsent hxl), if_neg hx', if_neg hxs]
  · rw [hm, if_neg hrP, if_neg hrL, if_neg hrR, if_neg (Ne.symm hsr)]

/-! ## Keys and values are never written by the rebalancing -/

theorem KeepsData.kd_refl (s : cf_rcrb_tree) : KeepsData s s := fun _ => ⟨rfl, rfl⟩

theorem KeepsData.kd_trans {a b c : cf_rcrb_tree} (h1 : KeepsData a b) (h2 : KeepsData b c) :
    KeepsData a c :=
  fun x => ⟨(h2 x).1.trans (h1 x).1, (h2 x).2.trans (h1 x).2⟩

theorem KeepsData.kd_setColor {s x : cf_rcrb_tree} (a : Nat) (c : Color) (h : KeepsData s x) :
    KeepsData s (setColor x a c) := by
  intro y
  rw [setColor_mem]
  split_ifs with e
  · subst e; exact h y
  · exact h y

theorem KeepsData.kd_setLeft {s x : cf_rcrb_tree} (a b : Nat) (h : KeepsData s x) :
    KeepsData s (setLeft x a b) := by
  intro y
  rw [setLeft_mem]
  split_ifs with e
  · subst e; exact h y
  · exact h y

theorem KeepsData.kd_setRight {s x : cf_rcrb_tree} (a b : Nat) (h : KeepsData s x) :
    KeepsData s (setRight x a b) := by
  intro y
  rw [setRight_mem]
  split_ifs with e
  · subst e; exact h y
  · exact h y

theorem KeepsData.kd_setParent {s x : cf_rcrb_tree} (a b : Nat) (h : KeepsData s x) :
    KeepsData s (setParent x a b) := by
  intro y
  rw [setParent_mem]
  split_ifs with e
  · subst e; exact h y
  · exact h y

theorem KeepsData.kd_ite {s a b : cf_rcrb_tree} {p : Prop} [Decidable p] (h1 : KeepsData s a)
    (h2 : KeepsData s b) : KeepsData s (if p then a else b) := by
  split_ifs <;> assumption

theorem KeepsData.kd_rotate_left {s x : cf_rcrb_tree} (r : Nat) (h : KeepsData s x) :
    KeepsData s (cf_rcrb_rotate_left x r) := by
  simp only [cf_rcrb_rotate_left]
  repeat first
    | with_reducible apply KeepsData.kd_setColor
    | with_reducible apply KeepsData.kd_setLeft
    | with_reducible apply KeepsData.kd_setRight
    | with_reducible apply KeepsData.kd_setParent
    | with_reducible apply KeepsData.kd_ite
    | exact h

theorem KeepsData.kd_rotate_right {s x : cf_rcrb_tree} (r : Nat) (h : KeepsData s x) :
    KeepsData s (cf_rcrb_rotate_right x r) := by
  simp only [cf_rcrb_rotate_right]
  repeat first
    | with_reducible apply KeepsData.kd_setColor
    | with_reducible apply KeepsData.kd_setLeft
    | with_reducible apply KeepsData.kd_setRight
    | with_reducible apply KeepsData.kd_setParent
    | with_reducible apply KeepsData.kd_ite
    | exact h

theorem KeepsData.kd_step (tree : cf_rcrb_tree) (r : Nat) :
    KeepsData tree (deleterebalance_step tree r).1 := by
  have h := KeepsData.kd_refl tree
  simp only [deleterebalance_step, delete_sibling_left, delete_sibling_right, delete_cases_left,
    delete_cases_right]
  split_ifs <;>
  repeat first
    | with_reducible apply KeepsData.kd_setColor
    | with_reducible apply KeepsData.kd_rotate_left
    | with_reducible apply KeepsData.kd_rotate_right
    | exact h

/-- The rebalancing after a deletion writes no key and no value. -/
theorem KeepsData.kd_deleterebalance : ∀ (fuel : Nat) (tree : cf_rcrb_tree) (r : Nat)
    (tree' : cf_rcrb_tree), cf_rcrb_deleterebalance fuel tree r = some tree' →
    KeepsData tree tree'
  | 0, _, _, _, h => by simp [cf_rcrb_deleterebalance] at h
  | fuel + 1, tree, r, tree', h => by
    rw [cf_rcrb_deleterebalance] at h
    split_ifs at h
    · exact (KeepsData.kd_step tree r).kd_trans (KeepsData.kd_deleterebalance fuel _ _ _ h)
    · simp only [Option.some.injEq] at h
      subst h
      exact KeepsData.kd_setColor _ _ (KeepsData.kd_refl tree)


/-! ## The successor and the position of a node -/

theorem leftmost_plug : ∀ (t : RTree) (ctx : List Frame),
    plug (leftmost ctx t).1 (leftmost ctx t).2 = plug ctx t
  | .nil, _ => rfl
  | .node a c .nil k v r, _ => rfl
  | .node a c (.node a' c' l' k' v' r') k v r, ctx => by
    rw [leftmost, leftmost_plug (.node a' c' l' k' v' r')]; rfl

theorem RepZ.leftmost_rep {tree : cf_rcrb_tree} : ∀ (t : RTree) {ctx : List Frame},
    RepZ tree ctx t → RepZ tree (leftmost ctx t).1 (leftmost ctx t).2
  | .nil, _, h => h
  | .node a c .nil k v r, _, h => h
  | .node a c (.node a' c' l' k' v' r') k v r, ctx, h => by
    rw [leftmost]
    exact RepZ.leftmost_rep (.node a' c' l' k' v' r') h.down_L

theorem leftmost_shape : ∀ (t : RTree) (ctx : List Frame), t ≠ .nil →
    ∃ s cs ks vs sr, (leftmost ctx t).2 = .node s cs .nil ks vs sr
  | .nil, _, h => absurd rfl h
  | .node a c .nil k v r, _, _ => ⟨a, c, k, v, r, rfl⟩
  | .node a c (.node a' c' l' k' v' r') k v r, ctx, _ => by
    rw [leftmost]
    exact leftmost_shape (.node a' c' l' k' v' r') _ (by simp)

theorem leftmost_length : ∀ (t : RTree) (ctx : List Frame),
    (leftmost ctx t).1.length + (leftmost ctx t).2.size ≤ ctx.length + t.size
  | .nil, _ => Nat.le_refl _
  | .node a c .nil k v r, _ => Nat.le_refl _
  | .node a c (.node a' c' l' k' v' r') k v r, ctx => by
    rw [leftmost]
    have := leftmost_length (.node a' c' l' k' v' r') (.L a c k v r :: ctx)
    simp only [List.length_cons, RTree.size_node] at *
    omega

/-- The path to the leftmost node extends the path to the subtree by frames
whose nodes all come after the position in the in-order sequence. -/
theorem leftmost_path : ∀ (t : RTree) (ctx : List Frame),
    ∃ zs C, (leftmost ctx t).1 = zs ++ ctx ∧ ∀ X : RTree, (plug zs X).nodes = X.nodes ++ C
  | .nil, _ => ⟨[], [], rfl, fun X => by simp⟩
  | .node a c .nil k v r, _ => ⟨[], [], rfl, fun X => by simp⟩
  | .node a c (.node a' c' l' k' v' r') k v r, ctx => by
    rw [leftmost]
    obtain ⟨zs, C, e1, e2⟩ := leftmost_path (.node a' c' l' k' v' r') (.L a c k v r :: ctx)
    refine ⟨zs ++ [.L a c k v r], C ++ (a, k, v) :: r.nodes, by simp [e1], fun X => ?_⟩
    rw [plug_append, plug_cons, plug_nil, Frame.fill_L, RTree.nodes_node, e2]
    simp

/-- The loop of `cf_rcrb_successor` that goes down to the left ends at the
leftmost node. -/
theorem successor_down_spec {tree : cf_rcrb_tree} : ∀ (fuel : Nat) (t : RTree)
    {ctx : List Frame}, RepZ tree ctx t → t ≠ .nil → t.size < fuel →
    successor_down fuel tree (t.addr tree.sentinel) =
      some ((leftmost ctx t).2.addr tree.sentinel)
  | 0, _, _, _, _, hf => absurd hf (Nat.not_lt_zero _)
  | _ + 1, .nil, _, _, hne, _ => absurd rfl hne
  | fuel + 1, .node a c .nil k v r, ctx, h, _, _ => by
    simp [successor_down, lft, h.read, leftmost]
  | fuel + 1, .node a c (.node a' c' l' k' v' r') k v r, ctx, h, _, hf => by
    have hne : tree.sentinel ≠ a' := Ne.symm h.down_L.addr_ne_sent
    rw [leftmost, successor_down, lft, RTree.addr_node, h.read]
    simp only [RTree.addr_node, ne_eq, hne, not_false_eq_true, if_true]
    have hlt : (RTree.node a' c' l' k' v' r').size < fuel := by
      simp only [RTree.size_node] at hf ⊢; omega
    exact successor_down_spec fuel (.node a' c' l' k' v' r') h.down_L (by simp) hlt

/-- The nodes of a tree in order: those before the position, those at the
position, those after it. -/
theorem plug_nodes_split : ∀ (ctx : List Frame),
    ∃ A B, ∀ Y : RTree, (plug ctx Y).nodes = A ++ Y.nodes ++ B
  | [] => ⟨[], [], fun Y => by simp⟩
  | .L a c k v r :: rest => by
    obtain ⟨A, B, e⟩ := plug_nodes_split rest
    refine ⟨A, (a, k, v) :: r.nodes ++ B, fun Y => ?_⟩
    rw [plug_cons, e]; simp
  | .R a c l k v :: rest => by
    obtain ⟨A, B, e⟩ := plug_nodes_split rest
    refine ⟨A ++ l.nodes ++ [(a, k, v)], B, fun Y => ?_⟩
    rw [plug_cons, e]; simp

/-- Every node of a tree is at the end of a path. -/
theorem exists_path_of_mem {a k v : Nat} : ∀ (t : RTree), (a, k, v) ∈ t.nodes →
    ∃ z c l r, ∀ ctx, plug (z ++ ctx) (.node a c l k v r) = plug ctx t
  | .nil, h => by simp at h
  | .node a' c' l' k' v' r', h => by
    simp only [RTree.nodes_node, List.mem_append, List.mem_cons, Prod.mk.injEq] at h
    rcases h with h | ⟨rfl, rfl, rfl⟩ | h
    · obtain ⟨z, c, l, r, e⟩ := exists_path_of_mem l' h
      refine ⟨z ++ [.L a' c' k' v' r'], c, l, r, fun ctx => ?_⟩
      rw [List.append_assoc, e]; rfl
    · exact ⟨[], c', l', r', fun ctx => rfl⟩
    · obtain ⟨z, c, l, r, e⟩ := exists_path_of_mem r' h
      refine ⟨z ++ [.R a' c' l' k' v'], c, l, r, fun ctx => ?_⟩
      rw [List.append_assoc, e]; rfl

theorem plug_size : ∀ (ctx : List Frame) (t : RTree), ctx.length + t.size ≤ (plug ctx t).size
  | [], _ => by simp
  | .L a c k v r :: rest, t => by
    have := plug_size rest (.node a c t k v r)
    simp only [plug_cons, Frame.fill_L, List.length_cons, RTree.size_node] at *
    omega
  | .R a c l k v :: rest, t => by
    have := plug_size rest (.node a c l k v t)
    simp only [plug_cons, Frame.fill_R, List.length_cons, RTree.size_node] at *
    omega

/-! ## Deletion -/

/-- Removing a BLACK node with at most one child sets up the invariant of the
rebalancing loop at the child. -/
theorem del_setup_black {ctx : List Frame} {s ks vs H : Nat} {l r child : RTree}
    (hnrr : NoRedRed (plug ctx (.node s BLACK l ks vs r)))
    (hbh : BlackHeight (plug ctx (.node s BLACK l ks vs r)) H)
    (hcol : (plug ctx (.node s BLACK l ks vs r)).color = BLACK)
    (hch : child = l ∨ child = r) : DelInv ctx child H := by
  have hn := NoRedRed.nrr_of_plug (z := ctx) hnrr
  obtain ⟨n, hbn, hrep⟩ := BlackHeight.bh_of_plug (z := ctx) hbh
  simp only [NoRedRed_node, BlackHeight_black] at hn hbn
  obtain ⟨m, rfl, hbl, hbr⟩ := hbn
  have hnc : NoRedRed child := by
    rcases hch with rfl | rfl
    · exact hn.2.1
    · exact hn.2.2
  have hbc : BlackHeight child m := by
    rcases hch with rfl | rfl
    · exact hbl
    · exact hbr
  refine ⟨hnc.nrr_paint_black, NoRedRed.nrr_replace (z := ctx) hnrr NoRedRed_nil (fun _ => rfl),
    fun hne => ?_, m, hbc, hrep⟩
  rw [plug_color_of_ne_nil hne child (.node s BLACK l ks vs r)]
  exact hcol

/-- A RED node with an empty subtree has no child at all, and removing it leaves
a red-black tree. -/
theorem del_setup_red {ctx : List Frame} {s ks vs H : Nat} {l r child : RTree}
    (hnrr : NoRedRed (plug ctx (.node s RED l ks vs r)))
    (hbh : BlackHeight (plug ctx (.node s RED l ks vs r)) H)
    (hcol : (plug ctx (.node s RED l ks vs r)).color = BLACK)
    (hch : (l = .nil ∧ child = r) ∨ (r = .nil ∧ child = l)) :
    NoRedRed (plug ctx child) ∧ BlackHeight (plug ctx child) H ∧
      (plug ctx child).color = BLACK := by
  have hn := NoRedRed.nrr_of_plug (z := ctx) hnrr
  obtain ⟨n, hbn, hrep⟩ := BlackHeight.bh_of_plug (z := ctx) hbh
  simp only [NoRedRed_node, BlackHeight_red, true_implies] at hn hbn
  have hcn : child = .nil := by
    rcases hch with ⟨rfl, rfl⟩ | ⟨rfl, rfl⟩
    · have h0 : n = 0 := by simpa using hbn.1
      subst h0
      cases child with
      | nil => rfl
      | node a c l' k v r' =>
        have hc : c = BLACK := by simpa using hn.1.2
        subst hc
        simp at hbn
    · have h0 : n = 0 := by simpa using hbn.2
      subst h0
      cases child with
      | nil => rfl
      | node a c l' k v r' =>
        have hc : c = BLACK := by simpa using hn.1.1
        subst hc
        simp at hbn
  subst hcn
  have h0 : n = 0 := by
    rcases hch with ⟨rfl, -⟩ | ⟨rfl, -⟩
    · simpa using hbn.1
    · simpa using hbn.2
  subst h0
  have hne : ctx ≠ [] := by
    rintro rfl
    simp at hcol
  refine ⟨NoRedRed.nrr_replace (z := ctx) hnrr NoRedRed_nil (fun _ => rfl), hrep _ (by simp), ?_⟩
  rw [plug_color_of_ne_nil hne .nil (.node s RED l ks vs r)]
  exact hcol

theorem KeepsData.kd_delete_splice (tree : cf_rcrb_tree) (s t : Nat) :
    KeepsData tree (delete_splice tree s t) := by
  have h := KeepsData.kd_refl tree
  simp only [delete_splice]
  repeat first
    | with_reducible apply KeepsData.kd_setLeft
    | with_reducible apply KeepsData.kd_setRight
    | with_reducible apply KeepsData.kd_setParent
    | with_reducible apply KeepsData.kd_ite
    | exact h

/-- The first half of `cf_rcrb_delete`: unlinking a node with at most one child
and rebalancing when the node was BLACK leaves a red-black tree with the other
nodes in the same order; the record of the unlinked node keeps its key and
value. -/
theorem delete_unlink_spec {tree : cf_rcrb_tree} {ctx : List Frame} {s ks vs H fuel : Nat}
    {cs : Color}
    {l r child : RTree} (h : RepZ tree ctx (.node s cs l ks vs r))
    (hch : (l = .nil ∧ child = r) ∨ (r = .nil ∧ child = l))
    (hnrr : NoRedRed (plug ctx (.node s cs l ks vs r)))
    (hbh : BlackHeight (plug ctx (.node s cs l ks vs r)) H)
    (hcol : (plug ctx (.node s cs l ks vs r)).color = BLACK)
    (hf : 2 * ctx.length + 1 < fuel) :
    ∃ tree2 T2,
      (if col (delete_splice tree s (child.addr tree.sentinel)) s = BLACK then
        cf_rcrb_deleterebalance fuel (delete_splice tree s (child.addr tree.sentinel))
          (child.addr tree.sentinel)
       else some (delete_splice tree s (child.addr tree.sentinel))) = some tree2 ∧
      Rep tree2 T2 ∧ RedBlack T2 ∧ T2.nodes = (plug ctx child).nodes ∧ MemOnly tree tree2 ∧
      (tree2.mem s).key = ks ∧ (tree2.mem s).value = vs := by
  have hsp : RepZ (delete_splice tree s (child.addr tree.sentinel)) ctx child ∧
      par (delete_splice tree s (child.addr tree.sentinel)) (child.addr tree.sentinel) =
        ctxPar tree.root ctx ∧
      (delete_splice tree s (child.addr tree.sentinel)).mem s = tree.mem s ∧
      MemOnly tree (delete_splice tree s (child.addr tree.sentinel)) := by
    rcases hch with ⟨rfl, rfl⟩ | ⟨rfl, rfl⟩
    · exact h.splice_right
    · exact h.splice_left
  obtain ⟨s1, s2, s3, s4⟩ := hsp
  have hread := h.read
  have hc : col (delete_splice tree s (child.addr tree.sentinel)) s = cs := by
    rw [col, s3, hread]
  have hkd := KeepsData.kd_delete_splice tree s (child.addr tree.sentinel)
  rw [hc]
  cases cs with
  | BLACK =>
    rw [if_pos rfl]
    have hinv : DelInv ctx child H :=
      del_setup_black hnrr hbh hcol (by rcases hch with ⟨-, e⟩ | ⟨-, e⟩ <;> simp [e])
    have hlen : 2 * ctx.length + (if child.color = RED then 0 else 1) < fuel := by
      split_ifs <;> omega
    have hsent := s4.2.1
    obtain ⟨tree', T', e1, e2, e3, e4, e5, e6, e7⟩ :=
      deleterebalance_spec fuel s1 (by rw [hsent, s4.1]; exact s2) hinv hlen
    rw [hsent] at e1
    have hkd2 := hkd.kd_trans (KeepsData.kd_deleterebalance _ _ _ _ e1)
    refine ⟨tree', T', e1, e2, ⟨e6, e4, e5⟩, e7, s4.trans e3, ?_, ?_⟩
    · rw [(hkd2 s).1, hread]
    · rw [(hkd2 s).2, hread]
  | RED =>
    rw [if_neg (by simp)]
    obtain ⟨n1, b1, c1⟩ := del_setup_red hnrr hbh hcol hch
    refine ⟨_, plug ctx child, rfl, s1.plug, ⟨c1, n1, H, b1⟩, rfl, s4, ?_, ?_⟩
    · rw [s3, hread]
    · rw [s3, hread]

/-- Being red-black does not depend on the address, key and value of a node. -/
theorem RedBlack.relabel {z : List Frame} {a k v a' k' v' : Nat} {c : Color} {l r : RTree}
    (h : RedBlack (plug z (.node a c l k v r))) : RedBlack (plug z (.node a' c l k' v' r)) := by
  obtain ⟨h1, h2, H, h3⟩ := h
  refine ⟨(@plug_color_congr z (.node a' c l k' v' r) (.node a c l k v r) rfl).trans h1,
    ?_, H, ?_⟩
  · have hn : NoRedRed (.node a c l k v r) := NoRedRed.nrr_of_plug (z := z) h2
    exact @NoRedRed.nrr_replace z _ (.node a' c l k' v' r) h2 hn (fun e => e)
  · obtain ⟨n, hn, hrep⟩ := BlackHeight.bh_of_plug (z := z) h3
    refine hrep _ ?_
    cases c <;> exact hn

/-- A tree whose nodes in order are a subsequence of those of an ordered tree is
ordered. -/
theorem Ordered.of_sublist {T T' : RTree} (ho : Ordered T) (hs : T'.nodes.Sublist T.nodes) :
    Ordered T' := by
  rw [Ordered_iff_sorted, RTree.keys_eq_map_nodes] at ho ⊢
  exact List.Pairwise.sublist (hs.map _) ho

theorem Rep.nodup_nodes {tree : cf_rcrb_tree} {T : RTree} (h : Rep tree T) : T.nodes.Nodup := by
  have h1 : T.addrs.Nodup := by simpa using h.nodup
  exact List.Nodup.of_map _ ((RTree.addrs_perm T).nodup_iff.mp h1)

theorem RTree.mem_addrs_iff_nodes {T : RTree} {x : Nat} :
    x ∈ T.addrs ↔ ∃ k v, (x, k, v) ∈ T.nodes := by
  rw [(RTree.addrs_perm T).mem_iff, List.mem_map]
  constructor
  · rintro ⟨⟨a, k, v⟩, h, rfl⟩
    exact ⟨k, v, h⟩
  · rintro ⟨k, v, h⟩
    exact ⟨_, h, rfl⟩

/-- The state after the release of the value of the removed node, the call of
the destructor, the `free` and the decrement of the counter. -/
theorem consume_final {t0 t2 : cf_rcrb_tree} {n v : Nat} (hm : MemOnly t0 t2)
    (hv : (t2.mem n).value = v) :
    { consume t2 n with elements := (consume t2 n).elements - 1, lock := false } =
      { t0 with
        mem := t2.mem, elements := t0.elements - 1, lock := false
        rc := (cf_rc_release t0.rc v).1
        destroyed := if (cf_rc_release t0.rc v).2 = 0 then
            (v, t0.destructor_udata) :: t0.destroyed
          else t0.destroyed
        freed := n :: t0.freed } := by
  obtain ⟨m1, m2, m3, m4, m5, m6, m7, m8, m9⟩ := hm
  cases t2
  cases t0
  simp only at m1 m2 m3 m4 m5 m6 m7 m8 m9 hv
  subst m1 m2 m3 m4 m5 m6 m7 m8 m9 hv
  rfl


/-- Removing a node with at most one child. -/
theorem delete_node_simple {tree : cf_rcrb_tree} {ctx : List Frame}
    {a key v fuel H : Nat} {c : Color} {l r child : RTree}
    (h1 : RepZ tree ctx (.node a c l key v r))
    (hc : (plug ctx (.node a c l key v r)).color = BLACK)
    (hnrr : NoRedRed (plug ctx (.node a c l key v r)))
    (hbh : BlackHeight (plug ctx (.node a c l key v r)) H)
    (hch : (l = .nil ∧ child = r) ∨ (r = .nil ∧ l ≠ .nil ∧ child = l))
    (hf : 2 * ctx.length + 1 < fuel) :
    ∃ tree2 T', delete_node fuel tree a = some (consume tree2 a) ∧ Rep tree2 T' ∧
      RedBlack T' ∧ T'.nodes = (plug ctx child).nodes ∧ MemOnly tree tree2 ∧
      (tree2.mem a).value = v := by
  have hread := h1.read
  have hch' : (l = .nil ∧ child = r) ∨ (r = .nil ∧ child = l) := by
    rcases hch with e | e
    · exact Or.inl e
    · exact Or.inr ⟨e.1, e.2.2⟩
  obtain ⟨tree2, T2, e1, e2, e3, e4, e5, e6, e7⟩ :=
    @delete_unlink_spec _ _ _ _ _ _ fuel _ _ _ _ h1 hch' hnrr hbh hc hf
  have hs : (if tree.sentinel = lft tree a ∨ tree.sentinel = rgt tree a
      then some a else cf_rcrb_successor fuel tree a) = some a := by
    rw [if_pos]
    rw [lft, rgt, hread]
    rcases hch with ⟨rfl, -⟩ | ⟨rfl, -, -⟩
    · exact Or.inl rfl
    · exact Or.inr rfl
  have ht : (if tree.sentinel = lft tree a then rgt tree a else lft tree a) =
      child.addr tree.sentinel := by
    rw [lft, rgt, hread]
    rcases hch with ⟨rfl, rfl⟩ | ⟨rfl, hl, rfl⟩
    · simp
    · cases child with
      | nil => exact absurd rfl hl
      | node a' c' l' k' v' r' =>
        have := h1.down_L.addr_ne_sent
        simp [Ne.symm this]
  refine ⟨tree2, T2, ?_, e2, e3, e4, e5, e7⟩
  simp only [delete_node, hs, ht, e1, ne_eq, not_true_eq_false, if_false]

/-- Removing a node with two children: its successor, the leftmost node of its
right subtree, is unlinked and then put in its place. -/
theorem delete_node_two {tree : cf_rcrb_tree} {ctx : List Frame}
    {a key v fuel H : Nat} {c : Color} {l r : RTree}
    (h1 : RepZ tree ctx (.node a c l key v r))
    (hc : (plug ctx (.node a c l key v r)).color = BLACK)
    (hnrr : NoRedRed (plug ctx (.node a c l key v r)))
    (hbh : BlackHeight (plug ctx (.node a c l key v r)) H)
    (hl : l ≠ .nil) (hr : r ≠ .nil)
    (hf : 2 * (plug ctx (.node a c l key v r)).size < fuel) :
    ∃ tree3 T' A B s ks vs, delete_node fuel tree a = some (consume tree3 a) ∧ Rep tree3 T' ∧
      RedBlack T' ∧
      (plug ctx (.node a c l key v r)).nodes = A ++ (a, key, v) :: (s, ks, vs) :: B ∧
      T'.nodes = A ++ (s, ks, vs) :: B ∧ MemOnly tree tree3 ∧ (tree3.mem a).value = v := by
  have hread := h1.read
  obtain ⟨s, cs, ks, vs, sr, hlm⟩ := leftmost_shape r (.R a c l key v :: ctx) hr
  obtain ⟨zs, C, ez, eC⟩ := leftmost_path r (.R a c l key v :: ctx)
  generalize hz : (leftmost (.R a c l key v :: ctx) r).1 = z at ez
  have hs1 : RepZ tree z (.node s cs .nil ks vs sr) := by
    have := RepZ.leftmost_rep r h1.down_R
    rw [hlm, hz] at this
    exact this
  have hplug : plug z (.node s cs .nil ks vs sr) = plug ctx (.node a c l key v r) := by
    have := leftmost_plug r (.R a c l key v :: ctx)
    rw [hlm, hz] at this
    exact this
  have hsize : z.length + 1 ≤ (plug ctx (.node a c l key v r)).size := by
    have := plug_size z (.node s cs .nil ks vs sr)
    rw [hplug] at this
    simp only [RTree.size_node] at this
    omega
  have hrsize : r.size < fuel := by
    have := plug_size ctx (.node a c l key v r)
    simp only [RTree.size_node] at this
    omega
  have hsread := hs1.read
  have hla : l.addr tree.sentinel ≠ tree.sentinel := by
    cases l with
    | nil => exact absurd rfl hl
    | node a' c' l' k' v' r' => exact h1.down_L.addr_ne_sent
  have hra : r.addr tree.sentinel ≠ tree.sentinel := by
    cases r with
    | nil => exact absurd rfl hr
    | node a' c' l' k' v' r' => exact h1.down_R.addr_ne_sent
  have hsucc : (if tree.sentinel = lft tree a ∨ tree.sentinel = rgt tree a
      then some a else cf_rcrb_successor fuel tree a) = some s := by
    rw [if_neg]
    · rw [cf_rcrb_successor, rgt, hread, if_pos (Ne.symm hra)]
      have := successor_down_spec fuel r h1.down_R hr hrsize
      rw [hlm] at this
      exact this
    · rw [lft, rgt, hread]
      simp only [not_or]
      exact ⟨Ne.symm hla, Ne.symm hra⟩
  have ht : (if tree.sentinel = lft tree s then rgt tree s else lft tree s) =
      sr.addr tree.sentinel := by
    rw [lft, rgt, hsread]
    simp
  rw [← hplug] at hc hnrr hbh
  obtain ⟨tree2, T2, e1, e2, e3, e4, e5, e6, e7⟩ :=
    @delete_unlink_spec _ _ _ _ _ _ fuel _ _ _ sr hs1 (Or.inl ⟨rfl, rfl⟩) hnrr hbh hc
      (by omega)
  have hamem : a ∈ ctxAddrs z := by
    rw [ez]
    have : ∀ (u w : List Frame), ctxAddrs (u ++ w) = ctxAddrs u ++ ctxAddrs w := by
      intro u w
      induction u with
      | nil => rfl
      | cons f u ih => simp [ih]
    rw [this]
    simp
  have hsa : s ≠ a := by
    intro e
    have := hs1.focus_notin_ctx
    simp only [RTree.addr_node] at this
    exact this (e ▸ hamem)
  obtain ⟨A, B, eAB⟩ := plug_nodes_split ctx
  have hT : (plug ctx (.node a c l key v r)).nodes =
      (A ++ l.nodes) ++ (a, key, v) :: (s, ks, vs) :: (sr.nodes ++ C ++ B) := by
    rw [← hplug, ez, plug_append, plug_cons, Frame.fill_R, eAB, RTree.nodes_node, eC]
    simp
  have hT2 : T2.nodes = (A ++ l.nodes) ++ (a, key, v) :: (sr.nodes ++ C ++ B) := by
    rw [e4, ez, plug_append, plug_cons, Frame.fill_R, eAB, RTree.nodes_node, eC]
    simp
  have hmem2 : (a, key, v) ∈ T2.nodes := by rw [hT2]; simp
  obtain ⟨z2, c2, l2, r2, ep⟩ := exists_path_of_mem T2 hmem2
  have hp2 : plug z2 (.node a c2 l2 key v r2) = T2 := by simpa using ep []
  have h2 : RepZ tree2 z2 (.node a c2 l2 key v r2) := Rep.unplug (by rw [hp2]; exact e2)
  have hs_root : s ≠ tree2.root := by rw [e5.1]; exact hs1.addr_ne_root
  have hs_sent : s ≠ tree2.sentinel := by rw [e5.2.1]; exact hs1.addr_ne_sent
  have hs_T2 : s ∉ T2.addrs := by
    intro hin
    obtain ⟨k', v', hin'⟩ := RTree.mem_addrs_iff_nodes.mp hin
    rw [e4] at hin'
    have hin2 : s ∈ (plug z sr).addrs := RTree.mem_addrs_iff_nodes.mpr ⟨k', v', hin'⟩
    have hnd := hs1.nodup
    simp only [RTree.addrs_node, RTree.addrs_nil, List.nil_append, List.cons_append,
      List.nodup_cons, List.mem_append, not_or] at hnd
    rcases mem_plug_addrs.mp hin2 with e | e
    · exact hnd.1.1 e
    · exact hnd.1.2 e
  have hs_fresh : s ∉ (RTree.node a c2 l2 key v r2).addrs ++ ctxAddrs z2 := by
    intro hin
    apply hs_T2
    rw [← hp2]
    exact mem_plug_addrs.mpr (List.mem_append.mp hin)
  obtain ⟨g1, g2⟩ := h2.replace hs_root hs_sent hs_fresh
  rw [e6, e7] at g1
  rw [← hp2] at e3
  obtain ⟨A2, B2, e2AB⟩ := plug_nodes_split z2
  have hnd2 := e2.nodup_nodes
  rw [← hp2, e2AB] at hnd2
  have hT2' : (A2 ++ l2.nodes) ++ (a, key, v) :: (r2.nodes ++ B2) =
      (A ++ l.nodes) ++ (a, key, v) :: (sr.nodes ++ C ++ B) := by
    rw [← hT2, ← hp2, e2AB]
    simp
  have hnd3 : ((A2 ++ l2.nodes) ++ (a, key, v) :: (r2.nodes ++ B2)).Nodup := by
    simpa using hnd2
  have hn1 : (a, key, v) ∉ A2 ++ l2.nodes := by
    intro e
    exact (List.nodup_append.mp hnd3).2.2 e (List.mem_cons_self _ _)
  have hn2 : (a, key, v) ∉ r2.nodes ++ B2 :=
    (List.nodup_cons.mp (List.nodup_append.mp hnd3).2.1).1
  obtain ⟨q1, -, q2⟩ := (List.append_cons_inj_of_not_mem hn1 hn2).mp hT2'
  refine ⟨delete_replace tree2 a s, plug z2 (.node s c2 l2 ks vs r2), A ++ l.nodes,
    sr.nodes ++ C ++ B, s, ks, vs, ?_, g1.plug, e3.relabel, hT, ?_,
    e5.trans (MemOnly.mo_delete_replace _ _ _), ?_⟩
  · simp only [delete_node, hsucc, ht, e1, ne_eq, hsa, not_false_eq_true, if_true]
  · rw [e2AB, RTree.nodes_node, ← q1, ← q2]
    simp
  · rw [g2]
    exact (e2.mem_of_nodes hmem2).2

/-- The statements of `cf_rcrb_delete` after the search, for a node of a
red-black tree: the node is taken out of the in-order sequence, the tree stays
red-black, and the last state differs from the memory that holds the new tree
by the release of the value of the node only. -/
theorem delete_node_spec {tree : cf_rcrb_tree} {ctx : List Frame}
    {a key v fuel : Nat} {c : Color} {l r : RTree}
    (h1 : RepZ tree ctx (.node a c l key v r))
    (hrb : RedBlack (plug ctx (.node a c l key v r)))
    (hf : 2 * (plug ctx (.node a c l key v r)).size < fuel) :
    ∃ tree2 T' A B, delete_node fuel tree a = some (consume tree2 a) ∧ Rep tree2 T' ∧
      RedBlack T' ∧ (plug ctx (.node a c l key v r)).nodes = A ++ (a, key, v) :: B ∧
      T'.nodes = A ++ B ∧ MemOnly tree tree2 ∧ (tree2.mem a).value = v := by
  obtain ⟨hc, hnrr, H, hbh⟩ := hrb
  have hsize : 2 * ctx.length + 1 < fuel := by
    have := plug_size ctx (.node a c l key v r)
    simp only [RTree.size_node] at this
    omega
  obtain ⟨A, B, eAB⟩ := plug_nodes_split ctx
  by_cases hl : l = .nil
  · subst hl
    obtain ⟨tree2, T', e1, e2, e3, e4, e5, e6⟩ :=
      @delete_node_simple _ _ _ _ _ _ _ _ _ _ r h1 hc hnrr hbh (Or.inl ⟨rfl, rfl⟩) hsize
    refine ⟨tree2, T', A, r.nodes ++ B, e1, e2, e3, ?_, ?_, e5, e6⟩
    · rw [eAB]; simp
    · rw [e4, eAB]; simp
  · by_cases hr : r = .nil
    · subst hr
      obtain ⟨tree2, T', e1, e2, e3, e4, e5, e6⟩ :=
        @delete_node_simple _ _ _ _ _ _ _ _ _ _ l h1 hc hnrr hbh (Or.inr ⟨rfl, hl, rfl⟩) hsize
      refine ⟨tree2, T', A ++ l.nodes, B, e1, e2, e3, ?_, ?_, e5, e6⟩
      · rw [eAB]; simp
      · rw [e4, eAB]
    · obtain ⟨tree3, T', A', B', s, ks, vs, e1, e2, e3, e4, e5, e6, e7⟩ :=
        delete_node_two h1 hc hnrr hbh hl hr hf
      exact ⟨tree3, T', A', (s, ks, vs) :: B', e1, e2, e3, e4, e5, e6, e7⟩

/-- Deleting a key that is in a red-black, ordered tree: the call returns 0,
the node that holds the key leaves the in-order sequence of nodes, the tree
stays red-black and ordered, the counter goes down by one, the lock is
released, the value of the node is released once, the destructor is called on
it when its count reached zero, and the node is freed. -/
theorem cf_rcrb_delete_spec {tree : cf_rcrb_tree} {T : RTree} {key fuel : Nat}
    (h : Rep tree T) (hrb : RedBlack T) (ho : Ordered T) (hk : key ∈ T.keys)
    (hf : 2 * T.size < fuel) :
    ∃ tree' T' a v A B, cf_rcrb_delete fuel tree key true = some (tree', 0) ∧
      Rep tree' T' ∧ RedBlack T' ∧ Ordered T' ∧
      T.nodes = A ++ (a, key, v) :: B ∧ T'.nodes = A ++ B ∧
      tree' = { tree with
        mem := tree'.mem, elements := tree.elements - 1, lock := false
        rc := (cf_rc_release tree.rc v).1
        destroyed := if (cf_rc_release tree.rc v).2 = 0 then
            (v, tree.destructor_udata) :: tree.destroyed
          else tree.destroyed
        freed := a :: tree.freed } := by
  have h0 : Rep { tree with lock := true } T := h.congr_fields rfl rfl rfl
  obtain ⟨a, v, hx⟩ := mem_nodes_of_mem_keys hk
  obtain ⟨c, l, r, hd⟩ := descend_of_mem key T [] ho hx
  have hplug : plug (descend key [] T).1 (.node a c l key v r) = T := by
    have := descend_plug key T []
    rw [hd] at this
    exact this
  have h1 : RepZ { tree with lock := true } (descend key [] T).1 (.node a c l key v r) := by
    have := RepZ.descend_rep key T h0
    rw [hd] at this
    exact this
  have hpos : 0 < T.size := by
    rw [RTree.size_eq_length_nodes]
    exact List.length_pos_of_mem hx
  have hsearch : cf_rcrb_search_lockless fuel { tree with lock := true } key = some (some a) :=
    cf_rcrb_search_lockless_hit h0 ho (by omega) hx
  rw [← hplug] at hrb hf
  obtain ⟨tree2, T', A, B, e1, e2, e3, e4, e5, e6, e7⟩ := delete_node_spec h1 hrb hf
  rw [hplug] at e4
  have hfin := consume_final e6 e7
  refine ⟨{ consume tree2 a with elements := (consume tree2 a).elements - 1, lock := false },
    T', a, v, A, B, ?_, ?_, e3, ?_, e4, e5, ?_⟩
  · simp only [cf_rcrb_delete, hsearch, e1, not_true_eq_false, if_false]
  · exact e2.congr_fields rfl rfl rfl
  · refine ho.of_sublist ?_
    rw [e4, e5]
    exact List.Sublist.append (List.Sublist.refl _) (List.sublist_cons_self _ _)
  · exact hfin


/-! ## Claims about deletion -/

theorem Ordered.nodup_keys {T : RTree} (ho : Ordered T) : T.keys.Nodup := by
  rw [Ordered_iff_sorted] at ho
  exact ho.imp (fun h => Nat.ne_of_gt h)

/-- C2: for every tree that satisfies the red-black invariants and the key
ordering, and every key present in it, `cf_rcrb_delete` returns 0 and the tree
afterwards again has no RED node with a RED parent, the same number of BLACK
nodes on every path from `root->left` to the sentinel, and a BLACK node at
`root->left`; the proof covers the removal of a node without child, with one
child, and with two children (successor spliced out). -/
theorem C2_delete_preserves_red_black (tree : cf_rcrb_tree) (T : RTree) (key fuel : Nat)
    (h : Rep tree T) (hrb : RedBlack T) (ho : Ordered T) (hk : key ∈ T.keys)
    (hf : 2 * T.size < fuel) :
    ∃ tree' T', cf_rcrb_delete fuel tree key true = some (tree', 0) ∧
      Rep tree' T' ∧ NoRedRed T' ∧ (∃ H, BlackHeight T' H) ∧ T'.color = BLACK ∧
      col tree' (lft tree' tree'.root) = BLACK := by
  obtain ⟨tree', T', a, v, A, B, e1, e2, e3, -, -, -, -⟩ := cf_rcrb_delete_spec h hrb ho hk hf
  refine ⟨tree', T', e1, e2, e3.2.1, e3.2.2, e3.1, ?_⟩
  rw [col, lft, e2.read_root, e2.col_addr, e3.1]

theorem C2_delete_preserves_red_black_witness :
    ∃ tree' T', cf_rcrb_delete 5 exTree 20 true = some (tree', 0) ∧
      Rep tree' T' ∧ NoRedRed T' ∧ (∃ H, BlackHeight T' H) ∧ T'.color = BLACK ∧
      col tree' (lft tree' tree'.root) = BLACK :=
  C2_delete_preserves_red_black exTree exShape 20 5 exTree_rep exShape_redBlack
    exShape_ordered (by decide) (by decide)

/-- C11: for every valid tree (red-black, ordered, counter equal to the number
of nodes) and every key present in it, `cf_rcrb_delete` returns 0; afterwards
the key is no longer found, the keys of the tree are the old keys without the
deleted one, every other node is still found by its key and holds the same
value, and the element counter is one lower. -/
theorem C11_delete_removes_key (tree : cf_rcrb_tree) (T : RTree) (key fuel : Nat)
    (h : Rep tree T) (hrb : RedBlack T) (ho : Ordered T) (hk : key ∈ T.keys)
    (he : tree.elements = T.size) (hf : 2 * T.size < fuel) :
    ∃ tree' T', cf_rcrb_delete fuel tree key true = some (tree', 0) ∧ Rep tree' T' ∧
      cf_rcrb_search_lockless fuel tree' key = some none ∧
      (∀ x, x ∈ T'.keys ↔ x ∈ T.keys ∧ x ≠ key) ∧
      (∀ a k v, (a, k, v) ∈ T.nodes → k ≠ key →
        cf_rcrb_search_lockless fuel tree' k = some (some a) ∧ (tree'.mem a).value = v) ∧
      tree'.elements + 1 = tree.elements ∧ tree'.elements = T'.size := by
  obtain ⟨tree', T', a, v, A, B, e1, e2, e3, e4, e5, e6, e7⟩ :=
    cf_rcrb_delete_spec h hrb ho hk hf
  have hsz : T.size = T'.size + 1 := by
    rw [RTree.size_eq_length_nodes, RTree.size_eq_length_nodes, e5, e6]
    simp only [List.length_append, List.length_cons]
    omega
  have hnd := ho.nodup_keys
  rw [RTree.keys_eq_map_nodes, e5] at hnd
  simp only [List.map_append, List.map_cons] at hnd
  have hkeys : ∀ x, x ∈ T'.keys ↔ x ∈ T.keys ∧ x ≠ key := by
    intro x
    rw [RTree.keys_eq_map_nodes, RTree.keys_eq_map_nodes, e5, e6]
    simp only [List.map_append, List.map_cons, List.mem_append, List.mem_cons]
    have h1 := (List.nodup_append.mp hnd).2.2
    have h2 := (List.nodup_cons.mp (List.nodup_append.mp hnd).2.1).1
    constructor
    · rintro (hx | hx)
      · exact ⟨Or.inl hx, fun e => h1 (e ▸ hx) (List.mem_cons_self _ _)⟩
      · exact ⟨Or.inr (Or.inr hx), fun e => h2 (e ▸ hx)⟩
    · rintro ⟨hx | hx | hx, hne⟩
      · exact Or.inl hx
      · exact absurd hx hne
      · exact Or.inr hx
  have hlt : T'.size < fuel := by omega
  have helem : tree'.elements = tree.elements - 1 := by rw [e7]
  refine ⟨tree', T', e1, e2, ?_, hkeys, ?_, by omega, by omega⟩
  · exact cf_rcrb_search_lockless_miss e2 hlt (fun hin => ((hkeys key).mp hin).2 rfl)
  · intro a' k' v' hx hne
    have hx' : (a', k', v') ∈ T'.nodes := by
      rw [e5] at hx
      rw [e6]
      simp only [List.mem_append, List.mem_cons, Prod.mk.injEq] at hx ⊢
      rcases hx with hx | ⟨-, rfl, -⟩ | hx
      · exact Or.inl hx
      · exact absurd rfl hne
      · exact Or.inr hx
    exact ⟨cf_rcrb_search_lockless_hit e2 e4 hlt hx', (e2.mem_of_nodes hx').2⟩

theorem C11_delete_removes_key_witness :
    ∃ tree' T', cf_rcrb_delete 5 exTree 30 true = some (tree', 0) ∧ Rep tree' T' ∧
      cf_rcrb_search_lockless 5 tree' 30 = some none ∧
      (∀ x, x ∈ T'.keys ↔ x ∈ exShape.keys ∧ x ≠ 30) ∧
      (∀ a k v, (a, k, v) ∈ exShape.nodes → k ≠ 30 →
        cf_rcrb_search_lockless 5 tree' k = some (some a) ∧ (tree'.mem a).value = v) ∧
      tree'.elements + 1 = exTree.elements ∧ tree'.elements = T'.size :=
  C11_delete_removes_key exTree exShape 30 5 exTree_rep exShape_redBlack exShape_ordered
    (by decide) rfl (by decide)

/-- C12: for every tree and every key not present in it, `cf_rcrb_delete`
returns -2 and changes nothing but the lock, which it takes and releases: node
memory, counter, reference counts, destructor log and freed nodes are the same;
when the lock was free before the call the state is the same altogether. -/
theorem C12_delete_absent_key (tree : cf_rcrb_tree) (T : RTree) (key fuel : Nat)
    (h : Rep tree T) (hk : key ∉ T.keys) (hf : T.size < fuel) :
    cf_rcrb_delete fuel tree key true = some ({ tree with lock := false }, -2) ∧
    (tree.lock = false → cf_rcrb_delete fuel tree key true = some (tree, -2)) := by
  have h0 : Rep { tree with lock := true } T := h.congr_fields rfl rfl rfl
  have hs := cf_rcrb_search_lockless_miss h0 hf hk
  have e : cf_rcrb_delete fuel tree key true = some ({ tree with lock := false }, -2) := by
    simp only [cf_rcrb_delete, hs, not_true_eq_false, if_false]
  refine ⟨e, fun hl => ?_⟩
  rw [e]
  cases tree
  simp only at hl
  subst hl
  rfl

theorem C12_delete_absent_key_witness :
    cf_rcrb_delete 3 exTree 25 true = some ({ exTree with lock := false }, -2) ∧
    (exTree.lock = false → cf_rcrb_delete 3 exTree 25 true = some (exTree, -2)) :=
  C12_delete_absent_key exTree exShape 25 3 exTree_rep (by decide) (by decide)

/-- C13: for every valid tree in which every stored value has a positive
reference count, and every key present, `cf_rcrb_delete` releases exactly the
value of the node that held the key (its count goes down by one, all other
counts stay), and it adds one destructor call `(value, destructor_udata)` to the
log exactly when the count of that value reached zero; no other destructor call
is made. -/
theorem C13_delete_releases_value (tree : cf_rcrb_tree) (T : RTree) (key fuel : Nat)
    (h : Rep tree T) (hrb : RedBlack T) (ho : Ordered T) (hk : key ∈ T.keys)
    (hrc : ∀ a k v, (a, k, v) ∈ T.nodes → 0 < tree.rc v) (hf : 2 * T.size < fuel) :
    ∃ tree' a v, (a, key, v) ∈ T.nodes ∧ cf_rcrb_delete fuel tree key true = some (tree', 0) ∧
      tree'.rc v + 1 = tree.rc v ∧ (∀ x, x ≠ v → tree'.rc x = tree.rc x) ∧
      tree'.destroyed =
        (if tree'.rc v = 0 then (v, tree.destructor_udata) :: tree.destroyed
         else tree.destroyed) ∧
      tree'.freed = a :: tree.freed := by
  obtain ⟨tree', T', a, v, A, B, e1, e2, e3, e4, e5, e6, e7⟩ :=
    cf_rcrb_delete_spec h hrb ho hk hf
  have hmem : (a, key, v) ∈ T.nodes := by rw [e5]; simp
  have hpos := hrc a key v hmem
  have hrc' : tree'.rc = (cf_rc_release tree.rc v).1 := by rw [e7]
  have hd' : tree'.destroyed = if (cf_rc_release tree.rc v).2 = 0 then
      (v, tree.destructor_udata) :: tree.destroyed else tree.destroyed := by rw [e7]
  have hf' : tree'.freed = a :: tree.freed := by rw [e7]
  refine ⟨tree', a, v, hmem, e1, ?_, ?_, ?_, hf'⟩
  · rw [hrc']
    simp only [cf_rc_release, if_true]
    omega
  · intro x hx
    rw [hrc']
    simp only [cf_rc_release, if_neg hx]
  · rw [hd', hrc']
    simp only [cf_rc_release, if_true]

theorem C13_delete_releases_value_witness :
    ∃ tree' a v, (a, 20, v) ∈ exShape.nodes ∧ cf_rcrb_delete 5 exTree 20 true = some (tree', 0) ∧
      tree'.rc v + 1 = exTree.rc v ∧ (∀ x, x ≠ v → tree'.rc x = exTree.rc x) ∧
      tree'.destroyed =
        (if tree'.rc v = 0 then (v, exTree.destructor_udata) :: exTree.destroyed
         else exTree.destroyed) ∧
      tree'.freed = a :: exTree.freed :=
  C13_delete_releases_value exTree exShape 20 5 exTree_rep exShape_redBlack exShape_ordered
    (by decide) (by
      intro a k v hx
      simp only [exShape, RTree.nodes_node, RTree.nodes_nil, List.nil_append, List.mem_cons,
        Prod.mk.injEq, List.mem_singleton, List.not_mem_nil, or_false, List.append_nil,
        List.cons_append, List.mem_append] at hx
      rcases hx with ⟨-, -, rfl⟩ | ⟨-, -, rfl⟩ <;> decide) (by decide)

theorem RTree.eq_nil_of_nodes {T : RTree} (h : T.nodes = []) : T = .nil := by
  cases T with
  | nil => rfl
  | node a c l k v r => simp at h

/-- C15: a single cycle.  For every key, inserting it into a newly created tree
with `cf_rcrb_insert_vlock`, storing a value in the returned node, releasing
the lock and deleting the key with `cf_rcrb_delete` returns 0 and leaves size 0,
`root->left` equal to the sentinel, and the sentinel BLACK. -/
theorem C15_insert_delete_cycle (udata sn rt n K v fuel : Nat) (mem : Nat → cf_rcrb_node)
    (rc : Nat → Nat) (h1 : sn ≠ rt) (h2 : n ≠ rt) (h3 : n ≠ sn) (hf : 2 < fuel) :
    ∃ t0 t1 t2, cf_rcrb_create udata true (some sn) (some rt) mem rc = some t0 ∧
      cf_rcrb_insert_vlock fuel t0 K (some n) = some (t1, some n) ∧
      cf_rcrb_delete fuel (unlock (set_value t1 n v)) K true = some (t2, 0) ∧
      (cf_rcrb_size t2).2 = 0 ∧ lft t2 t2.root = t2.sentinel ∧
      col t2 t2.sentinel = BLACK := by
  obtain ⟨t0, c1, c2, c3, c4, c5, c6⟩ := @cf_rcrb_create_rep udata sn rt mem rc h1
  obtain ⟨t1, T1, i1, i2, i3, i4, ⟨H1, i5⟩, i6, i7, i8⟩ :=
    @cf_rcrb_insert_vlock_new _ _ K n fuel 0 c2 rfl trivial rfl
      trivial (by simp) (by rw [c4]; exact h2) (by rw [c5]; exact h3) (by simp)
      (by simp only [RTree.size_nil]; omega)
  have hn1 : (n, K, 0) ∈ T1.nodes := i7.symm.subset (List.mem_cons_self _ _)
  have hu : n ∈ T1.addrs := RTree.mem_addrs_of_mem_nodes hn1
  have s1 := i2.set_value v hu
  have hsize : T1.size = 1 := by
    rw [RTree.size_eq_length_nodes, i7.length_eq]; simp
  have hsize' : (T1.setValue n v).size = 1 := by
    rw [RTree.size_eq_length_nodes, RTree.setValue_nodes, List.length_map,
      ← RTree.size_eq_length_nodes, hsize]
  have hkey : K ∈ (T1.setValue n v).keys := by
    rw [RTree.setValue_keys]
    exact RTree.mem_keys_of_mem_nodes hn1
  obtain ⟨t2, T2, a, w, A, B, d1, d2, d3, d4, d5, d6, d7⟩ :=
    @cf_rcrb_delete_spec _ _ _ fuel s1
      ⟨by rw [RTree.setValue_color]; exact i3, i4.setValue_nrr n v, H1, i5.setValue_bh n v⟩
      (i6.setValue_ord n v) hkey (by omega)
  have hlen : A.length + (B.length + 1) = 1 := by
    have := congrArg List.length d5
    rw [← RTree.size_eq_length_nodes, hsize'] at this
    simp only [List.length_append, List.length_cons] at this
    omega
  have hA : A = [] := List.eq_nil_of_length_eq_zero (by omega)
  have hB : B = [] := List.eq_nil_of_length_eq_zero (by omega)
  subst hA hB
  have hT2 : T2 = .nil := RTree.eq_nil_of_nodes (by simpa using d6)
  subst hT2
  have hel : t2.elements = 0 := by
    rw [d7]
    have : t1.elements = t0.elements + 1 := i8.2.2.1
    simp only [unlock, set_value, this, c3]
  refine ⟨t0, t1, t2, c1, i1, d1, ?_, ?_, ?_⟩
  · simp [cf_rcrb_size, hel]
  · rw [lft, d2.read_root]; rfl
  · exact d2.sent_color

theorem C15_insert_delete_cycle_witness :
    ∃ t0 t1 t2, cf_rcrb_create 0 true (some 2) (some 1) exEmpty.mem exEmpty.rc = some t0 ∧
      cf_rcrb_insert_vlock 3 t0 20 (some 3) = some (t1, some 3) ∧
      cf_rcrb_delete 3 (unlock (set_value t1 3 77)) 20 true = some (t2, 0) ∧
      (cf_rcrb_size t2).2 = 0 ∧ lft t2 t2.root = t2.sentinel ∧
      col t2 t2.sentinel = BLACK :=
  C15_insert_delete_cycle 0 2 1 3 20 77 3 exEmpty.mem exEmpty.rc (by decide) (by decide)
    (by decide) (by decide)

/-- C16: a tree returned by `cf_rcrb_create` is empty: the counter is 0,
`root->left` is the sentinel, the three links of the sentinel point to the
sentinel, root header and sentinel are BLACK, `cf_rcrb_size` returns 0 and
`cf_rcrb_search` returns NULL for every key without changing the state. -/
theorem C16_create_empty (udata sn rt : Nat) (mem : Nat → cf_rcrb_node) (rc : Nat → Nat)
    (hne : sn ≠ rt) :
    ∃ t0, cf_rcrb_create udata true (some sn) (some rt) mem rc = some t0 ∧
      t0.elements = 0 ∧ lft t0 t0.root = t0.sentinel ∧
      lft t0 t0.sentinel = t0.sentinel ∧ rgt t0 t0.sentinel = t0.sentinel ∧
      par t0 t0.sentinel = t0.sentinel ∧ col t0 t0.root = BLACK ∧
      col t0 t0.sentinel = BLACK ∧ (cf_rcrb_size t0).2 = 0 ∧
      ∀ fuel key, cf_rcrb_search fuel t0 key = some (t0, 0) := by
  refine ⟨_, rfl, rfl, ?_, ?_, ?_, ?_, ?_, ?_, rfl, ?_⟩
  · simp [lft]
  · simp [lft, hne]
  · simp [rgt, hne]
  · simp [par, hne]
  · simp [col]
  · simp [col, hne]
  · intro fuel key
    simp [cf_rcrb_search, cf_rcrb_search_lockless, lft]

theorem C16_create_empty_witness :
    ∃ t0, cf_rcrb_create 0 true (some 2) (some 1) exEmpty.mem exEmpty.rc = some t0 ∧
      t0.elements = 0 ∧ lft t0 t0.root = t0.sentinel ∧
      lft t0 t0.sentinel = t0.sentinel ∧ rgt t0 t0.sentinel = t0.sentinel ∧
      par t0 t0.sentinel = t0.sentinel ∧ col t0 t0.root = BLACK ∧
      col t0 t0.sentinel = BLACK ∧ (cf_rcrb_size t0).2 = 0 ∧
      ∀ fuel key, cf_rcrb_search fuel t0 key = some (t0, 0) :=
  C16_create_empty 0 2 1 exEmpty.mem exEmpty.rc (by decide)


/-! ## Validation -/

/-- C17: on the empty tree returned by `cf_rcrb_create` the function
`cf_rcrb_validate` returns -1, not 0: the traversal is started on the sentinel
itself, finds no room for it in an array of `elements = 0` keys, and counts it
as an extra node. -/
theorem C17_validate_empty_tree (udata sn rt fuel : Nat) (mem : Nat → cf_rcrb_node)
    (rc : Nat → Nat) (hne : sn ≠ rt) (hrt : rt ≠ 0) (hsn : sn ≠ 0) :
    ∃ t0, cf_rcrb_create udata true (some sn) (some rt) mem rc = some t0 ∧
      lft t0 t0.root = t0.sentinel ∧ t0.elements = 0 ∧
      cf_rcrb_validate (fuel + 1) t0 = some (t0, -1) := by
  refine ⟨_, rfl, by simp [lft], rfl, ?_⟩
  simp [cf_rcrb_validate, cf_rcrb_validate_lockfree, cf_rcrb_validate_traverse, lft, rgt, hne,
    hrt, hsn]

theorem C17_validate_empty_tree_witness :
    ∃ t0, cf_rcrb_create 0 true (some 2) (some 1) exEmpty.mem exEmpty.rc = some t0 ∧
      lft t0 t0.root = t0.sentinel ∧ t0.elements = 0 ∧
      cf_rcrb_validate (0 + 1) t0 = some (t0, -1) :=
  C17_validate_empty_tree 0 2 1 0 exEmpty.mem exEmpty.rc (by decide) (by decide) (by decide)

/-- C18: the memory `exTree` holds two nodes; with the counter set to 3 (more
than the number of nodes) `cf_rcrb_validate` returns 0, not -1: the size
mismatch is only logged. -/
theorem C18_validate_fewer_nodes :
    Rep { exTree with elements := 3 } exShape ∧ exShape.size = 2 ∧
    cf_rcrb_validate 3 { exTree with elements := 3 } =
      some ({ exTree with elements := 3 }, 0) :=
  ⟨exTree_rep.congr_fields rfl rfl rfl, rfl, rfl⟩

/-- C20: the memory `exRedRed` holds a tree with a RED node whose parent is RED,
three nodes with three different keys and the counter 3, and `cf_rcrb_validate`
returns 0 on it, not -1: the colour test of the traversal has no effect. -/
theorem C20_validate_ignores_colour :
    Rep exRedRed exRedRedShape ∧ ¬ NoRedRed exRedRedShape ∧
    exRedRed.elements = exRedRedShape.size ∧ exRedRedShape.keys.Nodup ∧
    cf_rcrb_validate 4 exRedRed = some (exRedRed, 0) := by
  refine ⟨⟨by decide, by decide, by decide, by decide, rfl, rfl, rfl,
    ⟨rfl, ⟨rfl, ⟨rfl, trivial, trivial⟩, trivial⟩, trivial⟩, rfl, rfl, rfl⟩, ?_, rfl,
    by decide, rfl⟩
  simp [exRedRedShape]


/-! ## The lock -/

theorem cf_rcrb_insert_vlock_nomem {tree : cf_rcrb_tree} {T : RTree} {k fuel : Nat}
    (h : Rep tree T) (hf : T.size < fuel) (hk : k ∉ T.keys) :
    cf_rcrb_insert_vlock fuel tree k none = some ({ tree with lock := false }, none) := by
  have h0 : Rep { tree with lock := true } T := h.congr_fields rfl rfl rfl
  have hd := insert_descend_miss h0 hf hk
  have ht := insert_found_test_miss h0 hk
  simp only [cf_rcrb_insert_vlock, hd, if_neg ht]

theorem cf_rcrb_get_insert_vlock_nomem {tree : cf_rcrb_tree} {T : RTree} {k fuel : Nat}
    (h : Rep tree T) (hf : T.size < fuel) (hk : k ∉ T.keys) :
    cf_rcrb_get_insert_vlock fuel tree k none = some ({ tree with lock := true }, none) := by
  have h0 : Rep { tree with lock := true } T := h.congr_fields rfl rfl rfl
  have hd := insert_descend_miss h0 hf hk
  have ht := insert_found_test_miss h0 hk
  simp only [cf_rcrb_get_insert_vlock, hd, if_neg ht]

theorem cf_rcrb_delete_miss {tree : cf_rcrb_tree} {T : RTree} {key fuel : Nat}
    (h : Rep tree T) (hk : key ∉ T.keys) (hf : T.size < fuel) :
    cf_rcrb_delete fuel tree key true = some ({ tree with lock := false }, -2) := by
  have h0 : Rep { tree with lock := true } T := h.congr_fields rfl rfl rfl
  have hs := cf_rcrb_search_lockless_miss h0 hf hk
  simp only [cf_rcrb_delete, hs, not_true_eq_false, if_false]

/-- C24, as stated, fails: after a successful insertion into the empty example
tree `cf_rcrb_insert_vlock` returns with the lock held. -/
theorem C24_insert_returns_locked :
    ∃ t, cf_rcrb_insert_vlock 3 exEmpty 20 (some 3) = some (t, some 3) ∧ t.lock = true :=
  ⟨_, rfl, rfl⟩

/-- C24, amended: with the lock as a flag, on a valid tree `cf_rcrb_delete`
returns with the lock released whether the key is found or not (and leaves the
state untouched when the lock cannot be taken); `cf_rcrb_insert_vlock` returns
with the lock released when the key is already present and when the allocation
fails, and with the lock held, handed to the caller, after a successful
insertion; `cf_rcrb_get_insert_vlock` returns with the lock held whenever it
returns a node, found or inserted. -/
theorem C24_lock_on_exit (tree : cf_rcrb_tree) (T : RTree) (key n fuel : Nat)
    (h : Rep tree T) (hrb : RedBlack T) (ho : Ordered T) (hn : Fresh tree T n)
    (hf : 2 * T.size < fuel) :
    (∃ t rv, cf_rcrb_delete fuel tree key true = some (t, rv) ∧ t.lock = false) ∧
    cf_rcrb_delete fuel tree key false = some (tree, -1) ∧
    (key ∈ T.keys → ∀ m, ∃ t, cf_rcrb_insert_vlock fuel tree key m = some (t, none) ∧
      t.lock = false) ∧
    (key ∉ T.keys → ∃ t, cf_rcrb_insert_vlock fuel tree key none = some (t, none) ∧
      t.lock = false) ∧
    (key ∉ T.keys → ∃ t, cf_rcrb_insert_vlock fuel tree key (some n) = some (t, some n) ∧
      t.lock = true) ∧
    (key ∈ T.keys → ∀ m, ∃ t a, cf_rcrb_get_insert_vlock fuel tree key m = some (t, some a) ∧
      t.lock = true) ∧
    (key ∉ T.keys → ∃ t, cf_rcrb_get_insert_vlock fuel tree key (some n) = some (t, some n) ∧
      t.lock = true) := by
  have hpos : T.size < fuel := by
    by_cases h0 : T.size = 0
    · omega
    · omega
  obtain ⟨hc, hnrr, H, hbh⟩ := id hrb
  refine ⟨?_, by simp [cf_rcrb_delete], ?_, ?_, ?_, ?_, ?_⟩
  · by_cases hk : key ∈ T.keys
    · obtain ⟨t, T', a, v, A, B, e1, -, -, -, -, -, e7⟩ := cf_rcrb_delete_spec h hrb ho hk hf
      exact ⟨t, 0, e1, by rw [e7]⟩
    · exact ⟨_, _, cf_rcrb_delete_miss h hk hpos, rfl⟩
  · intro hk m
    obtain ⟨a, v, hx⟩ := mem_nodes_of_mem_keys hk
    exact ⟨_, cf_rcrb_insert_vlock_dup h ho hpos hx m, rfl⟩
  · intro hk
    exact ⟨_, cf_rcrb_insert_vlock_nomem h hpos hk, rfl⟩
  · intro hk
    obtain ⟨t, T', e1, -, -, -, -, -, -, e8⟩ :=
      cf_rcrb_insert_vlock_new h hc hnrr hbh ho hk hn.1 hn.2.1 hn.2.2 hpos
    exact ⟨t, e1, e8.2.2.2.1⟩
  · intro hk m
    obtain ⟨a, v, hx⟩ := mem_nodes_of_mem_keys hk
    exact ⟨_, a, cf_rcrb_get_insert_vlock_dup h ho hpos hx m, rfl⟩
  · intro hk
    obtain ⟨t, T', e1, -, -, -, -, -, -, e8⟩ :=
      cf_rcrb_get_insert_vlock_new h hc hnrr hbh ho hk hn.1 hn.2.1 hn.2.2 hpos
    exact ⟨t, e1, e8.2.2.2.1⟩

theorem C24_lock_on_exit_witness :
    (∃ t rv, cf_rcrb_delete 5 exTree 40 true = some (t, rv) ∧ t.lock = false) ∧
    cf_rcrb_delete 5 exTree 40 false = some (exTree, -1) ∧
    (40 ∈ exShape.keys → ∀ m, ∃ t, cf_rcrb_insert_vlock 5 exTree 40 m = some (t, none) ∧
      t.lock = false) ∧
    (40 ∉ exShape.keys → ∃ t, cf_rcrb_insert_vlock 5 exTree 40 none = some (t, none) ∧
      t.lock = false) ∧
    (40 ∉ exShape.keys → ∃ t, cf_rcrb_insert_vlock 5 exTree 40 (some 5) = some (t, some 5) ∧
      t.lock = true) ∧
    (40 ∈ exShape.keys → ∀ m, ∃ t a, cf_rcrb_get_insert_vlock 5 exTree 40 m = some (t, some a) ∧
      t.lock = true) ∧
    (40 ∉ exShape.keys → ∃ t, cf_rcrb_get_insert_vlock 5 exTree 40 (some 5) = some (t, some 5) ∧
      t.lock = true) :=
  C24_lock_on_exit exTree exShape 40 5 5 exTree_rep exShape_redBlack exShape_ordered
    exShape_fresh (by decide)


/-! ## The successor -/

/-- The loop of `cf_rcrb_successor` that goes up: it leaves the subtrees it was
the right child of and stops at the first node it is in the left subtree of,
which is the next node in order, or at the root header when there is none. -/
theorem successor_up_spec {tree : cf_rcrb_tree} (hroot : rgt tree tree.root = tree.sentinel) :
    ∀ (fuel : Nat) (ctx : List Frame) {a c l k v r}, RepZ tree ctx (.node a c l k v r) →
    ctx.length < fuel →
    ∃ s, successor_up fuel tree a (ctxPar tree.root ctx) = some s ∧
      ((s = tree.root ∧ ∃ A, (plug ctx (.node a c l k v r)).nodes =
          A ++ (RTree.node a c l k v r).nodes) ∨
       (s ≠ tree.root ∧ ∃ A B ks vs, (plug ctx (.node a c l k v r)).nodes =
          A ++ (RTree.node a c l k v r).nodes ++ (s, ks, vs) :: B))
  | 0, _, _, _, _, _, _, _, _, hf => absurd hf (Nat.not_lt_zero _)
  | fuel + 1, [], a, c, l, k, v, r, h, _ => by
    refine ⟨tree.root, ?_, Or.inl ⟨rfl, [], by simp⟩⟩
    have hne : a ≠ tree.sentinel := h.addr_ne_sent
    simp [successor_up, hroot, hne]
  | fuel + 1, .L p cp kp vp S :: rest, a, c, l, k, v, r, h, _ => by
    obtain ⟨A, B, e⟩ := plug_nodes_split rest
    refine ⟨p, ?_, Or.inr ⟨fun e => h.up_L.addr_ne_root e, A, S.nodes ++ B, kp, vp, ?_⟩⟩
    · have hne : a ≠ S.addr tree.sentinel := by
        cases S with
        | nil => exact h.addr_ne_sent
        | node s cs sl sk sv sr => simpa using h.sib_ne_focus_L
      simp only [successor_up, ctxPar_cons, Frame.addr_L, rgt, h.read_L]
      rw [if_neg hne]
    · rw [plug_cons, Frame.fill_L, e]
      simp
  | fuel + 1, .R p cp S kp vp :: rest, a, c, l, k, v, r, h, hf => by
    simp only [List.length_cons] at hf
    obtain ⟨s, e1, e2⟩ := successor_up_spec hroot fuel rest h.up_R (by omega)
    refine ⟨s, ?_, ?_⟩
    · simp only [successor_up, ctxPar_cons, Frame.addr_R, rgt, h.read_R, RTree.addr_node,
        if_true]
      rw [par, h.up_R.read] at *
      exact e1
    · rw [plug_cons, Frame.fill_R]
      rcases e2 with ⟨hs, A, e⟩ | ⟨hs, A, B, ks, vs, e⟩
      · exact Or.inl ⟨hs, A ++ S.nodes ++ [(p, kp, vp)], by rw [e]; simp⟩
      · exact Or.inr ⟨hs, A ++ S.nodes ++ [(p, kp, vp)], B, ks, vs, by rw [e]; simp⟩

/-- C30: in a well-formed tree (the root header's right link is the sentinel,
as `cf_rcrb_create` sets it) `cf_rcrb_successor` returns, for every node of the
tree, the node that comes next in the sequence left subtree, node, right
subtree of the whole tree, and it returns the sentinel exactly when the node
is the last one of that sequence. -/
theorem C30_successor_in_order (tree : cf_rcrb_tree) (T : RTree) (a k v fuel : Nat)
    (h : Rep tree T) (hroot : rgt tree tree.root = tree.sentinel)
    (hx : (a, k, v) ∈ T.nodes) (hf : T.size < fuel) :
    ∃ A B, T.nodes = A ++ (a, k, v) :: B ∧
      cf_rcrb_successor fuel tree a =
        some (match B with
          | [] => tree.sentinel
          | x :: _ => x.1) ∧
      (cf_rcrb_successor fuel tree a = some tree.sentinel ↔ B = []) := by
  obtain ⟨z, c, l, r, ep⟩ := exists_path_of_mem T hx
  have hp : plug z (.node a c l k v r) = T := by simpa using ep []
  have hz : RepZ tree z (.node a c l k v r) := Rep.unplug (by rw [hp]; exact h)
  have hsize := plug_size z (.node a c l k v r)
  rw [hp] at hsize
  simp only [RTree.size_node] at hsize
  have hread := hz.read
  have key : ∃ A B, T.nodes = A ++ (a, k, v) :: B ∧
      cf_rcrb_successor fuel tree a =
        some (match B with
          | [] => tree.sentinel
          | x :: _ => x.1) := by
    cases r with
    | node a' c' l' k' v' r' =>
      have hne : tree.sentinel ≠ a' := Ne.symm hz.down_R.addr_ne_sent
      obtain ⟨s, cs, ks, vs, sr, hlm⟩ :=
        leftmost_shape (.node a' c' l' k' v' r') (.R a c l k v :: z) (by simp)
      obtain ⟨zs, C, ez, eC⟩ := leftmost_path (.node a' c' l' k' v' r') (.R a c l k v :: z)
      have hpl := leftmost_plug (.node a' c' l' k' v' r') (.R a c l k v :: z)
      obtain ⟨A, B, eAB⟩ := plug_nodes_split z
      have hd := successor_down_spec fuel (.node a' c' l' k' v' r') hz.down_R (by simp)
        (by simp only [RTree.size_node] at hsize ⊢; omega)
      refine ⟨A ++ l.nodes, (s, ks, vs) :: (sr.nodes ++ C ++ B), ?_, ?_⟩
      · have hT : T = plug (zs ++ .R a c l k v :: z) (.node s cs .nil ks vs sr) := by
          rw [← ez, ← hlm, hpl, plug_cons, Frame.fill_R, hp]
        rw [hT, plug_append, plug_cons, Frame.fill_R, eAB, RTree.nodes_node, eC]
        simp
      · rw [cf_rcrb_successor, rgt, hread]
        simp only [RTree.addr_node, ne_eq, hne, not_false_eq_true, if_true] at hd ⊢
        rw [hd, hlm]
        rfl
    | nil =>
      obtain ⟨s, e1, e2⟩ := successor_up_spec hroot fuel z hz (by omega)
      have hpar : par tree a = ctxPar tree.root z := hz.focus_par
      rw [hp] at e2
      rcases e2 with ⟨hs, A, e⟩ | ⟨hs, A, B, ks, vs, e⟩
      · refine ⟨A ++ l.nodes, [], by rw [e]; simp, ?_⟩
        rw [cf_rcrb_successor, rgt, hread]
        simp only [RTree.addr_nil, ne_eq, not_true_eq_false, if_false, hpar, e1, hs, if_true]
      · refine ⟨A ++ l.nodes, (s, ks, vs) :: B, by rw [e]; simp, ?_⟩
        rw [cf_rcrb_successor, rgt, hread]
        simp only [RTree.addr_nil, ne_eq, not_true_eq_false, if_false, hpar, e1,
          if_neg (Ne.symm hs)]
  obtain ⟨A, B, e1, e2⟩ := key
  refine ⟨A, B, e1, e2, ?_⟩
  rw [e2]
  cases B with
  | nil => simp
  | cons x B' =>
    have hin : x.1 ∈ T.addrs := by
      rw [RTree.mem_addrs_iff_nodes]
      exact ⟨x.2.1, x.2.2, by rw [e1]; simp⟩
    have hne : x.1 ≠ tree.sentinel := fun e => h.sent_notin (by simpa [e] using hin)
    simp [hne]

theorem C30_successor_in_order_witness :
    ∃ A B, exShape.nodes = A ++ (4, 30, 88) :: B ∧
      cf_rcrb_successor 3 exTree 4 =
        some (match B with
          | [] => exTree.sentinel
          | x :: _ => x.1) ∧
      (cf_rcrb_successor 3 exTree 4 = some exTree.sentinel ↔ B = []) :=
  C30_successor_in_order exTree exShape 4 30 88 3 exTree_rep rfl (by decide) (by decide)


/-! ## The two traversals -/

theorem reduce_step_pos_le (s : (Nat → Nat) × Nat × (Nat → Nat × Nat)) :
    ∀ (l : List (Nat × Nat)), s.2.1 ≤ (l.foldl reduce_step s).2.1 ∧
      (l.foldl reduce_step s).2.1 ≤ s.2.1 + l.length := by
  intro l
  induction l generalizing s with
  | nil => simp
  | cons kv l ih =>
    rw [List.foldl_cons]
    have := ih (reduce_step s kv)
    have h1 : s.2.1 ≤ (reduce_step s kv).2.1 ∧ (reduce_step s kv).2.1 ≤ s.2.1 + 1 := by
      simp only [reduce_step]
      split_ifs <;> simp
    simp only [List.length_cons]
    omega

theorem RTree.valued_nil : RTree.nil.valued = 0 := rfl

theorem RTree.valued_node (a : Nat) (c : Color) (l : RTree) (k v : Nat) (r : RTree) :
    (RTree.node a c l k v r).valued = (if v ≠ 0 then 1 else 0) + l.valued + r.valued := by
  simp only [RTree.valued, RTree.prepairs, List.filter_cons, List.filter_append,
    List.length_append]
  by_cases hv : v = 0
  · simp [hv]
  · simp [hv]; omega

/-- The snapshot traversal of a subtree with enough room in the array reserves
and records the pairs of the nodes with a value, the node before its left
subtree before its right subtree. -/
theorem reduce_traverse_spec : ∀ (fuel : Nat) (t : RTree) {tree : cf_rcrb_tree}
    {ctx : List Frame} (v_a : cf_rcrb_value_array),
    RepZ tree ctx t → t ≠ .nil → t.size < fuel → v_a.pos + t.size ≤ v_a.alloc_sz →
    v_a.pos + t.valued ≤ v_a.room →
    ∃ rc' va', cf_rcrb_reduce_traverse fuel tree (t.addr tree.sentinel) tree.sentinel v_a =
        some ({ tree with rc := rc' }, va') ∧
      (va'.alloc_sz = v_a.alloc_sz ∧ va'.room = v_a.room ∧ va'.pos = v_a.pos + t.valued) ∧
      (rc', va'.pos, va'.values) = t.prepairs.foldl reduce_step (tree.rc, v_a.pos, v_a.values)
  | 0, _, _, _, _, _, _, hf, _, _ => absurd hf (Nat.not_lt_zero _)
  | _ + 1, .nil, _, _, _, _, hne, _, _, _ => absurd rfl hne
  | fuel + 1, .node a c l k v r, tree, ctx, v_a, h, _, hf, hroom, hcap => by
    simp only [RTree.size_node] at hf hroom
    rw [RTree.valued_node] at hcap
    have hread := h.read
    have hfull : ¬ v_a.pos ≥ v_a.alloc_sz := by omega
    -- the node itself
    obtain ⟨rc1, va1, hs1, ⟨ha1, hr1, hq1⟩, hc1⟩ : ∃ rc1 va1,
        (if (tree.mem a).value ≠ 0 then
          (if v_a.pos < v_a.room then
            some (({ tree with rc := cf_rc_reserve tree.rc (tree.mem a).value } : cf_rcrb_tree),
              ({ v_a with
                values := fun i => if i = v_a.pos then ((tree.mem a).key, (tree.mem a).value)
                                   else v_a.values i
                pos := v_a.pos + 1 } : cf_rcrb_value_array))
           else none)
        else some (tree, v_a)) = some ({ tree with rc := rc1 }, va1) ∧
        (va1.alloc_sz = v_a.alloc_sz ∧ va1.room = v_a.room ∧
          va1.pos = v_a.pos + (if v ≠ 0 then 1 else 0)) ∧
        (rc1, va1.pos, va1.values) = reduce_step (tree.rc, v_a.pos, v_a.values) (k, v) := by
      rw [hread]
      by_cases hv : v = 0
      · exact ⟨tree.rc, v_a, by simp [hv], ⟨rfl, rfl, by simp [hv]⟩, by simp [reduce_step, hv]⟩
      · have hlt : v_a.pos < v_a.room := by
          simp only [ne_eq, hv, not_false_eq_true, if_true] at hcap
          omega
        refine ⟨cf_rc_reserve tree.rc v,
          { v_a with
            values := fun i => if i = v_a.pos then (k, v) else v_a.values i
            pos := v_a.pos + 1 }, ?_, ⟨rfl, rfl, by simp [hv]⟩, ?_⟩
        · simp only [ne_eq, hv, not_false_eq_true, if_true, hlt]
        · simp [reduce_step, hv]
    have hp1 := reduce_step_pos_le (tree.rc, v_a.pos, v_a.values) [(k, v)]
    simp only [List.foldl_cons, List.foldl_nil, ← hc1, List.length_singleton] at hp1
    have h1 : RepZ { tree with rc := rc1 } ctx (.node a c l k v r) := h.congr_fields rfl rfl rfl
    -- the left subtree
    obtain ⟨rc2, va2, hs2, ⟨ha2, hr2, hq2⟩, hc2⟩ : ∃ rc2 va2,
        (if lft { tree with rc := rc1 } a ≠ tree.sentinel then
          cf_rcrb_reduce_traverse fuel { tree with rc := rc1 } (lft { tree with rc := rc1 } a)
            tree.sentinel va1
         else some ({ tree with rc := rc1 }, va1)) = some ({ tree with rc := rc2 }, va2) ∧
        (va2.alloc_sz = v_a.alloc_sz ∧ va2.room = v_a.room ∧ va2.pos = va1.pos + l.valued) ∧
        (rc2, va2.pos, va2.values) = l.prepairs.foldl reduce_step (rc1, va1.pos, va1.values) := by
      rw [lft, h1.read]
      cases l with
      | nil => exact ⟨rc1, va1, by simp, ⟨ha1, hr1, rfl⟩, rfl⟩
      | node a' c' l' k' v' r' =>
        have hne : a' ≠ tree.sentinel := h.down_L.addr_ne_sent
        obtain ⟨rc2, va2, e1, ⟨e2, e4, e5⟩, e3⟩ :=
          reduce_traverse_spec fuel (.node a' c' l' k' v' r') va1
            h1.down_L (by simp) (by simp only [RTree.size_node] at hf ⊢; omega)
            (by simp only [RTree.size_node] at hroom ⊢; omega)
            (by rw [hr1, hq1]; omega)
        refine ⟨rc2, va2, ?_, ⟨e2.trans ha1, e4.trans hr1, e5⟩, e3⟩
        simp only [RTree.addr_node, ne_eq, hne, not_false_eq_true, if_true] at e1 ⊢
        exact e1
    have hp2 := reduce_step_pos_le (rc1, va1.pos, va1.values) l.prepairs
    simp only [← hc2] at hp2
    have hlen : ∀ (t : RTree), t.prepairs.length = t.size := by
      intro t
      induction t with
      | nil => rfl
      | node a c l k v r ihl ihr => simp [RTree.prepairs, ihl, ihr]
    rw [hlen] at hp2
    have h2 : RepZ { tree with rc := rc2 } ctx (.node a c l k v r) := h.congr_fields rfl rfl rfl
    -- the right subtree
    obtain ⟨rc3, va3, hs3, ⟨ha3, hr3, hq3⟩, hc3⟩ : ∃ rc3 va3,
        (if rgt { tree with rc := rc2 } a ≠ tree.sentinel then
          cf_rcrb_reduce_traverse fuel { tree with rc := rc2 } (rgt { tree with rc := rc2 } a)
            tree.sentinel va2
         else some ({ tree with rc := rc2 }, va2)) = some ({ tree with rc := rc3 }, va3) ∧
        (va3.alloc_sz = v_a.alloc_sz ∧ va3.room = v_a.room ∧ va3.pos = va2.pos + r.valued) ∧
        (rc3, va3.pos, va3.values) = r.prepairs.foldl reduce_step (rc2, va2.pos, va2.values) := by
      rw [rgt, h2.read]
      cases r with
      | nil => exact ⟨rc2, va2, by simp, ⟨ha2, hr2, rfl⟩, rfl⟩
      | node a' c' l' k' v' r' =>
        have hne : a' ≠ tree.sentinel := h.down_R.addr_ne_sent
        obtain ⟨rc3, va3, e1, ⟨e2, e4, e5⟩, e3⟩ :=
          reduce_traverse_spec fuel (.node a' c' l' k' v' r') va2
            h2.down_R (by simp) (by simp only [RTree.size_node] at hf ⊢; omega)
            (by simp only [RTree.size_node] at hroom ⊢; omega)
            (by rw [hr2, hq2, hq1]; omega)
        refine ⟨rc3, va3, ?_, ⟨e2.trans ha2, e4.trans hr2, e5⟩, e3⟩
        simp only [RTree.addr_node, ne_eq, hne, not_false_eq_true, if_true] at e1 ⊢
        exact e1
    refine ⟨rc3, va3, ?_, ⟨ha3, hr3, by rw [hq3, hq2, hq1, RTree.valued_node]; omega⟩, ?_⟩
    · rw [cf_rcrb_reduce_traverse, if_neg hfull]
      simp only [RTree.addr_node]
      rw [hs1]
      simp only
      rw [hs2]
      simp only
      exact hs3
    · rw [hc3, hc2, hc1, RTree.prepairs, List.foldl_cons, List.foldl_append]

/-- The synchronous traversal of a subtree calls the callback on the pairs of
the nodes with a value, in the same order. -/
theorem reduce_sync_traverse_spec {tree : cf_rcrb_tree} (udata : Nat) : ∀ (fuel : Nat)
    (t : RTree) {ctx : List Frame} (calls : List (Nat × Nat × Nat)),
    RepZ tree ctx t → t ≠ .nil → t.size < fuel →
    cf_rcrb_reduce_sync_traverse fuel tree (t.addr tree.sentinel) tree.sentinel udata calls =
      some (calls ++ (t.prepairs.filter (fun kv => kv.2 ≠ 0)).map
        (fun kv => (kv.1, kv.2, udata)))
  | 0, _, _, _, _, _, hf => absurd hf (Nat.not_lt_zero _)
  | _ + 1, .nil, _, _, _, hne, _ => absurd rfl hne
  | fuel + 1, .node a c l k v r, ctx, calls, h, _, hf => by
    simp only [RTree.size_node] at hf
    have hread := h.read
    have hl : ∀ c1, (if lft tree a ≠ tree.sentinel then
          cf_rcrb_reduce_sync_traverse fuel tree (lft tree a) tree.sentinel udata c1
        else some c1) = some (c1 ++ (l.prepairs.filter (fun kv => kv.2 ≠ 0)).map
          (fun kv => (kv.1, kv.2, udata))) := by
      intro c1
      rw [lft, hread]
      cases l with
      | nil => simp [RTree.prepairs]
      | node a' c' l' k' v' r' =>
        have hne : a' ≠ tree.sentinel := h.down_L.addr_ne_sent
        have := reduce_sync_traverse_spec udata fuel (.node a' c' l' k' v' r') c1 h.down_L
          (by simp) (by simp only [RTree.size_node] at hf ⊢; omega)
        simp only [RTree.addr_node, ne_eq, hne, not_false_eq_true, if_true] at this ⊢
        exact this
    have hr : ∀ c2, (if rgt tree a ≠ tree.sentinel then
          cf_rcrb_reduce_sync_traverse fuel tree (rgt tree a) tree.sentinel udata c2
        else some c2) = some (c2 ++ (r.prepairs.filter (fun kv => kv.2 ≠ 0)).map
          (fun kv => (kv.1, kv.2, udata))) := by
      intro c2
      rw [rgt, hread]
      cases r with
      | nil => simp [RTree.prepairs]
      | node a' c' l' k' v' r' =>
        have hne : a' ≠ tree.sentinel := h.down_R.addr_ne_sent
        have := reduce_sync_traverse_spec udata fuel (.node a' c' l' k' v' r') c2 h.down_R
          (by simp) (by simp only [RTree.size_node] at hf ⊢; omega)
        simp only [RTree.addr_node, ne_eq, hne, not_false_eq_true, if_true] at this ⊢
        exact this
    rw [cf_rcrb_reduce_sync_traverse]
    simp only [RTree.addr_node]
    rw [hl]
    simp only
    rw [hr, hread]
    by_cases hv : v = 0
    · simp [RTree.prepairs, hv]
    · simp [RTree.prepairs, hv]

/-- The array after the snapshot traversal holds the pairs with a value in the
order they were met, and each of their values was reserved once. -/
theorem reduce_fold_spec : ∀ (l : List (Nat × Nat)) (rc : Nat → Nat) (n : Nat)
    (d : Nat → Nat × Nat),
    (l.foldl reduce_step (rc, n, d)).2.1 = n + (l.filter (fun kv => kv.2 ≠ 0)).length ∧
    (List.range (l.foldl reduce_step (rc, n, d)).2.1).map (l.foldl reduce_step (rc, n, d)).2.2 =
      (List.range n).map d ++ l.filter (fun kv => kv.2 ≠ 0) ∧
    (l.foldl reduce_step (rc, n, d)).1 =
      (l.filter (fun kv => kv.2 ≠ 0)).foldl (fun rc kv => cf_rc_reserve rc kv.2) rc
  | [], rc, n, d => by simp
  | kv :: l, rc, n, d => by
    rw [List.foldl_cons]
    by_cases hv : kv.2 = 0
    · have hs : reduce_step (rc, n, d) kv = (rc, n, d) := by simp [reduce_step, hv]
      rw [hs]
      have := reduce_fold_spec l rc n d
      simpa [List.filter_cons, hv] using this
    · have hs : reduce_step (rc, n, d) kv =
          (cf_rc_reserve rc kv.2, n + 1, fun i => if i = n then kv else d i) := by
        simp [reduce_step, hv]
      rw [hs]
      obtain ⟨i1, i2, i3⟩ := reduce_fold_spec l (cf_rc_reserve rc kv.2) (n + 1)
        (fun i => if i = n then kv else d i)
      have hf : (kv :: l).filter (fun kv => kv.2 ≠ 0) = kv :: l.filter (fun kv => kv.2 ≠ 0) := by
        simp [List.filter_cons, hv]
      rw [hf]
      refine ⟨by rw [i1]; simp; omega, ?_, by rw [i3]; rfl⟩
      rw [i2, List.range_succ, List.map_append]
      simp only [List.map_cons, List.map_nil, if_true, List.append_assoc, List.singleton_append]
      congr 1
      refine List.map_congr_left (fun i hi => ?_)
      have : i ≠ n := by
        have := List.mem_range.mp hi
        omega
      simp [this]

theorem RTree.prepairs_length (t : RTree) : t.prepairs.length = t.size := by
  induction t with
  | nil => rfl
  | node a c l k v r ihl ihr => simp [RTree.prepairs, ihl, ihr]

theorem RTree.prepairs_perm (t : RTree) : t.prepairs.Perm t.toList := by
  induction t with
  | nil => simp [RTree.prepairs]
  | node a c l k v r ihl ihr =>
    simp only [RTree.prepairs, RTree.toList_node]
    exact (List.Perm.cons (k, v) (ihl.append ihr)).trans List.perm_middle.symm

theorem RTree.valued_le_size (t : RTree) : t.valued ≤ t.size := by
  rw [← RTree.prepairs_length, RTree.valued]
  exact List.length_filter_le _ _

/-- When the size of the value array fits 32 bits the memory chosen for the
array has room for one entry per element. -/
theorem reduce_room_ge {A V n : Nat} (hV : 0 < V) (hsz : A + V * n < 2 ^ 32) :
    n ≤ reduce_room A V n := by
  have e : reduce_sz A V n = A + V * n := Nat.mod_eq_of_lt hsz
  rw [reduce_room, e]
  split_ifs with hc
  · rw [Nat.add_sub_cancel_left, Nat.mul_div_cancel_left n hV]
  · rw [Nat.le_div_iff_mul_le hV]
    rw [Nat.mul_comm]
    omega

/-- The two traversal functions on a tree whose counter is its number of nodes
and whose value array has a size that fits 32 bits: both deliver the pairs with
a value in pre-order; the snapshot mode reserves each delivered value once, the
synchronous mode changes nothing but the lock. -/
theorem cf_rcrb_reduce_spec {tree : cf_rcrb_tree} {T : RTree} {fuel A V : Nat} (udata : Nat)
    (h : Rep tree T) (he : tree.elements = T.size) (hr : tree.root ≠ 0) (h0 : 0 ∉ T.addrs)
    (hf : T.size < fuel) (hV : 0 < V) (hsz : A + V * tree.elements < 2 ^ 32) :
    cf_rcrb_reduce fuel tree udata A V true =
      some ({ tree with
          lock := false
          rc := (T.prepairs.filter (fun kv => kv.2 ≠ 0)).foldl
            (fun rc kv => cf_rc_reserve rc kv.2) tree.rc },
        (T.prepairs.filter (fun kv => kv.2 ≠ 0)).map (fun kv => (kv.1, kv.2, udata))) ∧
    cf_rcrb_reduce_sync fuel tree udata =
      some ({ tree with lock := false },
        (T.prepairs.filter (fun kv => kv.2 ≠ 0)).map (fun kv => (kv.1, kv.2, udata))) := by
  have hl : Rep { tree with lock := true } T := h.congr_fields rfl rfl rfl
  have htop : lft { tree with lock := true } tree.root = T.addr tree.sentinel := by
    rw [lft]; exact Rep.read_root hl
  cases T with
  | nil =>
    simp only [RTree.size_nil] at he
    constructor
    · simp [cf_rcrb_reduce, he, RTree.prepairs]
    · simp [cf_rcrb_reduce_sync, htop, RTree.prepairs]
  | node a c l k v r =>
    have ht0 : a ≠ 0 := fun e => h0 (by simp [e])
    have hts : a ≠ tree.sentinel := h.addr_ne_sent
    have hpos : tree.elements ≠ 0 := by rw [he]; simp
    have hmod : tree.elements % 2 ^ 32 = tree.elements := by
      apply Nat.mod_eq_of_lt
      have : tree.elements ≤ V * tree.elements := Nat.le_mul_of_pos_left _ hV
      omega
    have hroom := reduce_room_ge hV hsz
    have hval := RTree.valued_le_size (.node a c l k v r)
    simp only [RTree.addr_node] at htop
    constructor
    · obtain ⟨rc', va', e1, -, e3⟩ := reduce_traverse_spec fuel (.node a c l k v r)
        { alloc_sz := tree.elements % 2 ^ 32, pos := 0, values := fun _ => (0, 0),
          room := reduce_room A V tree.elements } hl (by simp) hf
        (by simp only [Nat.zero_add, hmod]; omega) (by simp only [Nat.zero_add]; omega)
      obtain ⟨f1, f2, f3⟩ := reduce_fold_spec (RTree.node a c l k v r).prepairs tree.rc 0
        (fun _ => (0, 0))
      simp only at e3
      rw [← e3] at f1 f2 f3
      simp only [List.range_zero, List.map_nil, List.nil_append] at f2
      simp only [RTree.addr_node] at e1
      simp only [cf_rcrb_reduce, hpos, if_false, not_true_eq_false, and_false, htop, ne_eq, hr,
        ht0, hts, not_false_eq_true, and_self, if_true, e1]
      rw [← f3]
      congr 2
      have : (List.range va'.pos).map (fun i => ((va'.values i).1, (va'.values i).2, udata)) =
          ((List.range va'.pos).map va'.values).map (fun kv => (kv.1, kv.2, udata)) := by
        rw [List.map_map]; rfl
      rw [this, f2]
    · have := reduce_sync_traverse_spec udata fuel (.node a c l k v r) [] hl (by simp) hf
      simp only [RTree.addr_node, List.nil_append] at this
      simp only [cf_rcrb_reduce_sync, htop, ne_eq, hr, ht0, hts, not_false_eq_true, and_self,
        if_true, this]

theorem reserve_fold_count : ∀ (l : List (Nat × Nat)) (rc : Nat → Nat) (x : Nat),
    (l.foldl (fun rc kv => cf_rc_reserve rc kv.2) rc) x = rc x + (l.map (fun kv => kv.2)).count x
  | [], _, _ => by simp
  | kv :: l, rc, x => by
    rw [List.foldl_cons, reserve_fold_count l]
    simp only [cf_rc_reserve, List.map_cons, List.count_cons]
    by_cases e : x = kv.2
    · subst e; simp; omega
    · have e' : ¬ kv.2 = x := fun h => e h.symm
      simp [e, e']

/-- On a tree in which every node carries a value, whose counter is the number
of nodes and whose value array has a size that fits 32 bits, `cf_rcrb_reduce`
(with memory for the array) invokes the callback once per node, on the key and
the value of that node and the user data, in pre-order; the number of
invocations is the counter; every reference count went up by the number of
times the value was delivered; of the tree state only the reference counts
changed. -/
theorem reduce_snapshot_in_range (tree : cf_rcrb_tree) (T : RTree) (fuel udata A V : Nat)
    (h : Rep tree T) (hv : ∀ kv ∈ T.prepairs, kv.2 ≠ 0) (he : tree.elements = T.size)
    (hr : tree.root ≠ 0) (h0 : 0 ∉ T.addrs) (hf : T.size < fuel) (hV : 0 < V)
    (hsz : A + V * tree.elements < 2 ^ 32) :
    ∃ rc', cf_rcrb_reduce fuel tree udata A V true =
        some ({ tree with lock := false, rc := rc' },
          T.prepairs.map (fun kv => (kv.1, kv.2, udata))) ∧
      T.prepairs.Perm T.toList ∧
      (T.prepairs.map (fun kv => (kv.1, kv.2, udata))).length = tree.elements ∧
      ∀ x, rc' x = tree.rc x + (T.prepairs.map (fun kv => kv.2)).count x := by
  have hfil : T.prepairs.filter (fun kv => kv.2 ≠ 0) = T.prepairs :=
    List.filter_eq_self.mpr (fun kv hkv => by simpa using hv kv hkv)
  have := (cf_rcrb_reduce_spec udata h he hr h0 hf hV hsz).1
  rw [hfil] at this
  refine ⟨_, this, RTree.prepairs_perm T, ?_, fun x => reserve_fold_count _ _ x⟩
  rw [List.length_map, RTree.prepairs_length, he]

/-- On a tree whose counter is the number of nodes and whose value array has a
size that fits 32 bits, `cf_rcrb_reduce` (with memory for the array) and
`cf_rcrb_reduce_sync` make the same sequence of callback invocations; the
snapshot mode reserves each delivered value once and the synchronous mode
changes no reference count. -/
theorem reduce_modes_agree_in_range (tree : cf_rcrb_tree) (T : RTree) (fuel udata A V : Nat)
    (h : Rep tree T) (he : tree.elements = T.size) (hr : tree.root ≠ 0) (h0 : 0 ∉ T.addrs)
    (hf : T.size < fuel) (hV : 0 < V) (hsz : A + V * tree.elements < 2 ^ 32) :
    ∃ rc' calls,
      cf_rcrb_reduce fuel tree udata A V true =
        some ({ tree with lock := false, rc := rc' }, calls) ∧
      cf_rcrb_reduce_sync fuel tree udata = some ({ tree with lock := false }, calls) ∧
      ∀ x, rc' x = tree.rc x + (calls.map (fun kvu => kvu.2.1)).count x := by
  obtain ⟨e1, e2⟩ := cf_rcrb_reduce_spec udata h he hr h0 hf hV hsz
  refine ⟨_, _, e1, e2, fun x => ?_⟩
  rw [reserve_fold_count, List.map_map]
  rfl

theorem reduce_in_range_example :
    ∃ rc' calls,
      cf_rcrb_reduce 3 exTree 9 8 32 true =
        some ({ exTree with lock := false, rc := rc' }, calls) ∧
      cf_rcrb_reduce_sync 3 exTree 9 = some ({ exTree with lock := false }, calls) ∧
      ∀ x, rc' x = exTree.rc x + (calls.map (fun kvu => kvu.2.1)).count x :=
  reduce_modes_agree_in_range exTree exShape 3 9 8 32 exTree_rep rfl (by decide) (by decide)
    (by decide) (by decide) (by decide)


/-! ## Destroying the tree -/

/-- The purge of a subtree releases the values of its nodes in post-order and
frees the nodes; node memory is not written. -/
theorem purge_spec : ∀ (fuel : Nat) (t : RTree) {tree : cf_rcrb_tree} {ctx : List Frame},
    RepZ tree ctx t → t.size < fuel →
    ∃ rc' d', cf_rcrb_purge fuel tree (t.addr tree.sentinel) =
        some { tree with rc := rc', destroyed := d', freed := t.postaddrs.reverse ++ tree.freed } ∧
      (rc', d') = t.postvalues.foldl (release_step tree.destructor_udata)
        (tree.rc, tree.destroyed)
  | 0, _, _, _, _, hf => absurd hf (Nat.not_lt_zero _)
  | fuel + 1, .nil, tree, _, _, _ => by
    refine ⟨tree.rc, tree.destroyed, ?_, rfl⟩
    simp [cf_rcrb_purge, RTree.postaddrs]
  | fuel + 1, .node a c l k v r, tree, ctx, h, hf => by
    simp only [RTree.size_node] at hf
    have hne : a ≠ tree.sentinel := h.addr_ne_sent
    have hread := h.read
    obtain ⟨rc1, d1, e1, f1⟩ := purge_spec fuel l h.down_L (by omega)
    have h1 : RepZ
        { tree with rc := rc1, destroyed := d1, freed := l.postaddrs.reverse ++ tree.freed }
        ctx (.node a c l k v r) :=
      h.congr_fields rfl rfl rfl
    obtain ⟨rc2, d2, e2, f2⟩ := purge_spec fuel r h1.down_R (by omega)
    simp only at e2 f2
    refine ⟨(release_step tree.destructor_udata (rc2, d2) v).1,
      (release_step tree.destructor_udata (rc2, d2) v).2, ?_, ?_⟩
    · rw [cf_rcrb_purge]
      simp only [RTree.addr_node, if_neg hne]
      rw [lft, hread]
      simp only
      rw [e1]
      simp only
      rw [rgt]
      simp only
      rw [hread]
      simp only
      rw [e2]
      simp only [consume, hread, release_step, RTree.postaddrs, List.reverse_append,
        List.reverse_cons, List.reverse_nil, List.nil_append, List.append_assoc,
        List.singleton_append, List.cons_append]
    · simp only [RTree.postvalues, List.foldl_append, List.foldl_cons, List.foldl_nil, ← f1, ← f2]

/-- Releasing a list of values, each at most as often as its count allows: every
count goes down by the number of occurrences of the value, and the destructor is
called once for each value whose count reached zero, and for no other. -/
theorem release_fold_spec (u : Nat) : ∀ (vals : List Nat) (rc : Nat → Nat)
    (d : List (Nat × Nat)), (∀ x, vals.count x ≤ rc x) →
    (∀ x, (vals.foldl (release_step u) (rc, d)).1 x + vals.count x = rc x) ∧
    ∃ D, (vals.foldl (release_step u) (rc, d)).2 = D ++ d ∧
      (∀ x, D.count (x, u) = if x ∈ vals ∧ rc x = vals.count x then 1 else 0) ∧
      (∀ p ∈ D, p.2 = u ∧ p.1 ∈ vals)
  | [], rc, d, _ => ⟨fun x => by simp, [], by simp, fun x => by simp, fun p hp => by simp at hp⟩
  | v :: rest, rc, d, hrc => by
    rw [List.foldl_cons]
    have hv := hrc v
    simp only [List.count_cons_self] at hv
    have hstep : release_step u (rc, d) v =
        (fun x => if x = v then rc v - 1 else rc x,
         if rc v - 1 = 0 then (v, u) :: d else d) := rfl
    rw [hstep]
    have hrc1 : ∀ x, rest.count x ≤ (fun x => if x = v then rc v - 1 else rc x) x := by
      intro x
      simp only
      split_ifs with e
      · subst e; omega
      · have := hrc x
        rw [List.count_cons_of_ne e] at this
        exact this
    obtain ⟨i1, D', i2, i3, i4⟩ := release_fold_spec u rest _
      (if rc v - 1 = 0 then (v, u) :: d else d) hrc1
    refine ⟨fun x => ?_, D' ++ (if rc v - 1 = 0 then [(v, u)] else []), ?_, fun x => ?_,
      fun p hp => ?_⟩
    · have := i1 x
      simp only at this
      by_cases e : x = v
      · subst e
        rw [if_pos rfl] at this
        rw [List.count_cons_self]
        omega
      · rw [if_neg e] at this
        rw [List.count_cons_of_ne e]
        exact this
    · rw [i2]
      split_ifs <;> simp
    · rw [List.count_append, i3 x]
      by_cases e : x = v
      · subst e
        simp only [if_true, List.count_cons_self, List.mem_cons, true_or, true_and]
        by_cases hz : rc x - 1 = 0
        · have hc0 : rest.count x = 0 := by omega
          have hnot : x ∉ rest := List.count_eq_zero.mp hc0
          have h1 : rc x = 1 := by omega
          simp [hz, hnot, hc0, h1]
        · by_cases hc : rc x - 1 = rest.count x
          · have hin : x ∈ rest := by
              apply List.count_pos_iff.mp
              omega
            have : rc x = rest.count x + 1 := by omega
            have hcz : ¬ rest.count x = 0 := by omega
            simp [hin, hc, this, hcz]
          · have : ¬ rc x = rest.count x + 1 := by omega
            simp [hz, hc, this]
      · have hne : (x, u) ≠ (v, u) := fun h => e (Prod.mk.inj h).1
        have hc : (if rc v - 1 = 0 then [(v, u)] else []).count (x, u) = 0 := by
          split_ifs
          · rw [List.count_cons_of_ne hne]; rfl
          · rfl
        rw [hc, if_neg e, List.count_cons_of_ne e]
        simp [e]
    · rcases List.mem_append.mp hp with hp | hp
      · exact ⟨(i4 p hp).1, List.mem_cons_of_mem _ (i4 p hp).2⟩
      · split_ifs at hp
        · simp only [List.mem_singleton] at hp
          subst hp
          exact ⟨rfl, List.mem_cons_self _ _⟩
        · simp at hp

theorem RTree.postvalues_perm (t : RTree) : t.postvalues.Perm (t.nodes.map (fun x => x.2.2)) := by
  induction t with
  | nil => simp [RTree.postvalues]
  | node a c l k v r ihl ihr =>
    simp only [RTree.postvalues, RTree.nodes_node, List.map_append, List.map_cons]
    refine ((ihl.append ihr).append_right [v]).trans ?_
    rw [List.append_assoc]
    exact List.Perm.append_left _ (List.perm_append_singleton _ _)

/-- C23: `cf_rcrb_release` on a tree whose own reference count does not reach
zero returns 1 and changes nothing but that count (nodes, value counts,
destructor log and freed list are untouched); when the count reaches zero it
returns 0, every value count goes down by the number of nodes holding the value
(one release per node), node memory is not written, and the destructor is
called exactly once for each value of the tree whose count thereby reached zero
and for nothing else, always with the tree's `destructor_udata`. -/
theorem C23_release_contract (tree : cf_rcrb_tree) (T : RTree) (fuel du : Nat)
    (h : Rep tree T) (hf : T.size < fuel) (hpos : 0 < tree.refcount)
    (hrc : ∀ x, T.postvalues.count x ≤ tree.rc x) :
    (tree.refcount ≠ 1 →
      cf_rcrb_release fuel tree du =
        some ({ tree with refcount := tree.refcount - 1 }, 1)) ∧
    (tree.refcount = 1 → ∃ t D,
      cf_rcrb_release fuel tree du = some (t, 0) ∧
      t.mem = tree.mem ∧
      T.postvalues.Perm (T.nodes.map (fun x => x.2.2)) ∧
      (∀ x, t.rc x + T.postvalues.count x = tree.rc x) ∧
      t.destroyed = D ++ tree.destroyed ∧
      (∀ x, D.count (x, tree.destructor_udata) =
        if x ∈ T.postvalues ∧ t.rc x = 0 then 1 else 0) ∧
      (∀ p ∈ D, p.2 = tree.destructor_udata ∧ p.1 ∈ T.postvalues)) := by
  constructor
  · intro hne
    have : tree.refcount - 1 ≠ 0 := by omega
    simp [cf_rcrb_release, this]
  · intro he
    have h1 : RepZ { tree with refcount := tree.refcount - 1, lock := true } [] T :=
      h.congr_fields rfl rfl rfl
    obtain ⟨rc1, d1, e1, f1⟩ := purge_spec fuel T h1 hf
    have hroot : lft { tree with refcount := tree.refcount - 1, lock := true } tree.root =
        T.addr tree.sentinel := Rep.read_root h1
    obtain ⟨i1, D, i2, i3, i4⟩ :=
      release_fold_spec tree.destructor_udata T.postvalues tree.rc tree.destroyed hrc
    simp only at e1 f1
    rw [← f1] at i1 i2
    simp only at i1 i2
    refine ⟨{ tree with refcount := tree.refcount - 1, lock := false, rc := rc1, destroyed := d1, freed := tree.sentinel :: tree.root :: (T.postaddrs.reverse ++ tree.freed) }, D, ?_, ?_, T.postvalues_perm, ?_, ?_, ?_, i4⟩
    · have hz : tree.refcount - 1 = 0 := by omega
      simp only [cf_rcrb_release, hz, ne_eq, not_true_eq_false, if_false]
      rw [hz] at hroot e1
      rw [hroot, e1]
    · rfl
    · exact i1
    · exact i2
    · intro x
      rw [i3 x]
      have := i1 x
      by_cases hx : x ∈ T.postvalues
      · have e : (tree.rc x = T.postvalues.count x) ↔ rc1 x = 0 := by omega
        simp only [hx, true_and, e]
      · simp [hx]

/-- An instance of C23: the example tree with one reference, and a tree. -/
theorem C23_release_contract_witness :
    (exTree.refcount ≠ 1 →
      cf_rcrb_release 3 exTree 0 =
        some ({ exTree with refcount := exTree.refcount - 1 }, 1)) ∧
    (exTree.refcount = 1 → ∃ t D,
      cf_rcrb_release 3 exTree 0 = some (t, 0) ∧
      t.mem = exTree.mem ∧
      exShape.postvalues.Perm (exShape.nodes.map (fun x => x.2.2)) ∧
      (∀ x, t.rc x + exShape.postvalues.count x = exTree.rc x) ∧
      t.destroyed = D ++ exTree.destroyed ∧
      (∀ x, D.count (x, exTree.destructor_udata) =
        if x ∈ exShape.postvalues ∧ t.rc x = 0 then 1 else 0) ∧
      (∀ p ∈ D, p.2 = exTree.destructor_udata ∧ p.1 ∈ exShape.postvalues)) :=
  C23_release_contract exTree exShape 3 0 exTree_rep (by decide) (by decide) (by
    intro x
    have e : exShape.postvalues = [88, 77] := rfl
    rw [e]
    by_cases h1 : x = 77
    · subst h1; decide
    · by_cases h2 : x = 88
      · subst h2; decide
      · have : List.count x [88, 77] = 0 :=
          List.count_eq_zero.mpr (by simp [h1, h2])
        omega)


/-! ## The plain tree -/

/-- C25: the plain tree built by inserting the digests 50, 40, 30, 20, 10 is
red-black and ordered and does not hold the digest 5; `cf_rb_insert` of 5
succeeds and leaves a tree whose paths do not all cross the same number of BLACK
nodes: the grandparent (address 6) of the new node, whose uncle was RED, is
BLACK and not RED. -/
theorem C25_rb_insert_breaks_black_height :
    ∃ t t', rb_build 5 [(50, 3), (40, 4), (30, 5), (20, 6), (10, 7)] = some t ∧
      RbRep t exRbBefore ∧ RedBlack exRbBefore ∧ Ordered exRbBefore ∧ 5 ∉ exRbBefore.keys ∧
      cf_rb_insert 5 t 5 0 (some 8) = some (t', some 8) ∧
      RbRep t' exRbAfter ∧ (t'.mem 6).color = BLACK ∧ ¬ ∃ n, BlackHeight exRbAfter n := by
  refine ⟨_, _, rfl, ⟨by decide, by decide, by decide, by decide, rfl, rfl, rfl,
      ⟨rfl, ⟨rfl, trivial, trivial⟩, ⟨rfl, ⟨rfl, trivial, trivial⟩, ⟨rfl, trivial, trivial⟩⟩⟩⟩,
    ⟨rfl, by simp [exRbBefore, NoRedRed, RTree.color], 2, by simp [exRbBefore, BlackHeight]⟩,
    by simp [exRbBefore, Ordered, RTree.keys], by decide, rfl,
    ⟨by decide, by decide, by decide, by decide, rfl, rfl, rfl,
      ⟨rfl, ⟨rfl, trivial, trivial⟩, ⟨rfl, ⟨rfl, trivial, trivial⟩,
        ⟨rfl, trivial, ⟨rfl, trivial, trivial⟩⟩⟩⟩⟩, rfl, ?_⟩
  rintro ⟨n, hn⟩
  simp [exRbAfter, BlackHeight] at hn

/-- C26: the plain tree built by inserting the digests 20 and 30 holds 20 in a
node whose left child is the node of 30; `cf_rb_insert` of the digest 20 on it
returns the new node, not NULL, and the tree then holds the key 20 twice. -/
theorem C26_rb_insert_duplicate :
    ∃ t t', rb_build 5 [(20, 3), (30, 4)] = some t ∧
      RbRep t exRbPair ∧ 20 ∈ exRbPair.keys ∧
      cf_rb_insert 5 t 20 0 (some 5) = some (t', some 5) ∧
      RbRep t' exRbTwice ∧ exRbTwice.keys = [30, 20, 20] ∧
      exRbTwice.size = exRbPair.size + 1 := by
  refine ⟨_, _, rfl, ⟨by decide, by decide, by decide, by decide, rfl, rfl, rfl,
      ⟨rfl, ⟨rfl, trivial, trivial⟩, trivial⟩⟩, by decide, rfl,
    ⟨by decide, by decide, by decide, by decide, rfl, rfl, rfl,
      ⟨rfl, ⟨rfl, trivial, trivial⟩, ⟨rfl, trivial, trivial⟩⟩⟩, rfl, rfl⟩

/-- C29: on the same node memory (a red-black tree with a new RED node attached
below a RED parent that is a right child and has a RED sibling) the
rebalancing loop of `cf_rb_insert` leaves the grandparent (address 6) BLACK and
the loop of `cf_rcrb_insert_vlock` leaves it RED. -/
theorem C29_rebalance_loops_differ :
    ∃ tb tc, RbRep exRbAttached exRbAttachedShape ∧
      Rep (rb_as_rcrb exRbAttached) exRbAttachedShape ∧
      rb_insert_rebalance 3 exRbAttached 8 = some tb ∧
      insert_rebalance 3 (rb_as_rcrb exRbAttached) 8 = some tc ∧
      (tb.mem 6).color = BLACK ∧ (tc.mem 6).color = RED := by
  refine ⟨_, _, ⟨by decide, by decide, by decide, by decide, rfl, rfl, rfl,
      ⟨rfl, ⟨rfl, trivial, trivial⟩, ⟨rfl, ⟨rfl, trivial, trivial⟩,
        ⟨rfl, trivial, ⟨rfl, trivial, trivial⟩⟩⟩⟩⟩,
    ⟨by decide, by decide, by decide, by decide, rfl, rfl, rfl,
      ⟨rfl, ⟨rfl, trivial, trivial⟩, ⟨rfl, ⟨rfl, trivial, trivial⟩,
        ⟨rfl, trivial, ⟨rfl, trivial, trivial⟩⟩⟩⟩, rfl, rfl, rfl⟩, rfl, rfl, rfl, rfl⟩


/-! ## Wire messages -/

theorem be_bytes_length : ∀ n x, (be_bytes n x).length = n
  | 0, _ => rfl
  | n + 1, x => by simp [be_bytes, be_bytes_length n x]

theorem be_read_aux : ∀ (n x a : Nat),
    (be_bytes n x).foldl (fun a b => a * 256 + b) a = a * 256 ^ n + x % 256 ^ n
  | 0, x, a => by simp [be_bytes, Nat.mod_one]
  | n + 1, x, a => by
    rw [be_bytes, List.foldl_cons, be_read_aux n x, Nat.mod_pow_succ]
    ring

/-- Reading back the big-endian bytes of a number gives the number modulo
`256 ^ n`. -/
theorem be_read_be_bytes (n x : Nat) : be_read (be_bytes n x) = x % 256 ^ n := by
  rw [be_read, be_read_aux]; simp

theorem be_bytes_four_mod (x : Nat) : be_bytes 4 (x % 2 ^ 32) = be_bytes 4 x := by
  simp only [be_bytes, Nat.reducePow, Nat.div_one]
  refine congrArg₂ _ (by omega) (congrArg₂ _ (by omega) (congrArg₂ _ (by omega)
    (congrArg₂ _ (by omega) rfl)))

theorem htonll_p_store_eq (x : Nat) : htonll_p_store x = be_bytes 8 x := by
  simp only [htonll_p_store, be_bytes, Nat.reducePow, Nat.div_one, List.cons_append,
    List.nil_append]
  refine congrArg₂ _ (by omega) (congrArg₂ _ (by omega) (congrArg₂ _ (by omega)
    (congrArg₂ _ (by omega) (congrArg₂ _ (by omega) (congrArg₂ _ (by omega)
    (congrArg₂ _ (by omega) (congrArg₂ _ (by omega) rfl)))))))

theorem stamp_id_bytes (x : Nat) : [(x >>> 8) &&& 0xff, x &&& 0xff] = be_bytes 2 x := by
  have h : (255 : Nat) = 2 ^ 8 - 1 := by norm_num
  simp only [be_bytes, Nat.shiftRight_eq_div_pow, h, Nat.and_pow_two_sub_one_eq_mod]
  norm_num

theorem stamp_len_bytes (x : Nat) :
    [(x >>> 16) &&& 0xff, (x >>> 8) &&& 0xff, x &&& 0xff] = be_bytes 3 x := by
  have h : (255 : Nat) = 2 ^ 8 - 1 := by norm_num
  simp only [be_bytes, Nat.shiftRight_eq_div_pow, h, Nat.and_pow_two_sub_one_eq_mod]
  norm_num

theorem be_bytes_lt : ∀ n x, ∀ b ∈ be_bytes n x, b < 256
  | 0, _, b, hb => by simp [be_bytes] at hb
  | n + 1, x, b, hb => by
    simp only [be_bytes, List.mem_cons] at hb
    rcases hb with hb | hb
    · subst hb; exact Nat.mod_lt _ (by norm_num)
    · exact be_bytes_lt n x b hb

theorem write_append (pre rest bytes : List Nat) :
    write (pre ++ rest) pre.length bytes = pre ++ bytes ++ rest.drop bytes.length := by
  simp [write, List.take_append_eq_append_take, List.drop_append_eq_append_drop]

theorem wire_payload_length {mf : msg_field} (hs : Supported mf) :
    (wire_payload mf).length = msg_get_wire_field_size mf := by
  obtain ⟨_, h2, h3, h4⟩ := hs
  unfold wire_payload msg_get_wire_field_size
  cases ht : mf.type <;> simp [be_bytes_length] <;> simp_all

theorem wire_field_length (code : field_type → Nat) {mf : msg_field} (hs : Supported mf) :
    (wire_field code mf).length = 6 + msg_get_wire_field_size mf := by
  simp [wire_field, be_bytes_length, wire_payload_length hs]
  omega

/-- On a supported field `msg_stamp_field` stores the field in the wire format
and returns its length. -/
theorem msg_stamp_field_spec (code : field_type → Nat) (hcode : ∀ t, code t < 256)
    (pre : List Nat) (k : Nat) {mf : msg_field} (hs : Supported mf)
    (hk : 6 + msg_get_wire_field_size mf ≤ k) :
    msg_stamp_field code (pre ++ List.replicate k 255) pre.length mf =
      (pre ++ wire_field code mf ++ List.replicate (k - (6 + msg_get_wire_field_size mf)) 255,
        6 + msg_get_wire_field_size mf) := by
  have hlen := wire_payload_length hs
  obtain ⟨h1, h2, h3, h4⟩ := hs
  have hid : ¬ mf.id ≥ 1 <<< 16 := by
    rw [Nat.shiftLeft_eq]; omega
  have hpay : msg_stamp_payload mf = some (msg_get_wire_field_size mf, wire_payload mf) := by
    unfold msg_stamp_payload msg_get_wire_field_size wire_payload
    cases ht : mf.type <;> simp_all [htonll_p_store_eq] <;> exact be_bytes_four_mod _
  simp only [msg_stamp_field, if_neg hid, hpay]
  rw [write_append]
  have e3 : (pre ++ [(mf.id >>> 8) &&& 0xff, mf.id &&& 0xff, code mf.type % 256]).length
      = pre.length + 3 := by simp
  rw [← e3, write_append, stamp_len_bytes, Nat.mod_eq_of_lt (hcode _)]
  have e2 : [(mf.id >>> 8) &&& 0xff, mf.id &&& 0xff, code mf.type] =
      be_bytes 2 mf.id ++ [code mf.type] := by
    rw [← stamp_id_bytes]; rfl
  rw [e2]
  simp only [wire_field, List.drop_replicate, List.length_cons, List.length_nil,
    List.length_append, be_bytes_length, hlen, List.append_assoc, Prod.mk.injEq, and_true,
    List.append_cancel_left_eq]
  congr 1
  omega

theorem wire_fields_cons_set (code : field_type → Nat) (m : msg) (i : Nat) (is : List Nat)
    (h : (m.f i).is_valid = true ∧ (m.f i).is_set = true) :
    wire_fields code m (i :: is) = wire_field code (m.f i) ++ wire_fields code m is := by
  simp [wire_fields, wire_set, List.filter_cons, h.1, h.2]

theorem wire_fields_cons_unset (code : field_type → Nat) (m : msg) (i : Nat) (is : List Nat)
    (h : ¬ ((m.f i).is_valid = true ∧ (m.f i).is_set = true)) :
    wire_fields code m (i :: is) = wire_fields code m is := by
  have : ((m.f i).is_valid && (m.f i).is_set) = false := by
    rcases hv : (m.f i).is_valid <;> rcases hs : (m.f i).is_set <;> simp_all
  simp [wire_fields, wire_set, List.filter_cons, this]

theorem wire_fields_length (code : field_type → Nat) (m : msg) :
    ∀ is, SupportedOn m is → (wire_fields code m is).length = msg_fillbuf_size m is
  | [], _ => rfl
  | i :: is, hs => by
    have ih := wire_fields_length code m is (fun j hj => hs j (List.mem_cons_of_mem _ hj))
    by_cases h : (m.f i).is_valid = true ∧ (m.f i).is_set = true
    · rw [wire_fields_cons_set code m i is h, List.length_append, ih,
        wire_field_length code (hs i (List.mem_cons_self _ _) h.1 h.2)]
      simp [msg_fillbuf_size, h.1, h.2]
    · rw [wire_fields_cons_unset code m i is h, ih]
      simp only [msg_fillbuf_size, List.map_cons, List.sum_cons, if_neg h, Nat.zero_add]

/-- The second loop of `msg_fillbuf` appends the supported fields in the wire
format, in the order of the indices. -/
theorem msg_fillbuf_loop_spec (code : field_type → Nat) (hcode : ∀ t, code t < 256) (m : msg) :
    ∀ (is : List Nat) (pre : List Nat) (k : Nat), SupportedOn m is →
      msg_fillbuf_size m is ≤ k →
      is.foldl (msg_fillbuf_step code m) (pre ++ List.replicate k 255, pre.length) =
        (pre ++ wire_fields code m is ++ List.replicate (k - msg_fillbuf_size m is) 255,
          pre.length + msg_fillbuf_size m is)
  | [], pre, k, _, _ => by simp [wire_fields, wire_set, msg_fillbuf_size]
  | i :: is, pre, k, hs, hk => by
    have hs1 : SupportedOn m is := fun j hj => hs j (List.mem_cons_of_mem _ hj)
    rw [List.foldl_cons]
    by_cases h : (m.f i).is_valid = true ∧ (m.f i).is_set = true
    · have hsz : msg_fillbuf_size m (i :: is) =
          6 + msg_get_wire_field_size (m.f i) + msg_fillbuf_size m is := by
        simp [msg_fillbuf_size, h.1, h.2]
      have hsup := hs i (List.mem_cons_self _ _) h.1 h.2
      have hstep : msg_fillbuf_step code m (pre ++ List.replicate k 255, pre.length) i =
          ((pre ++ wire_field code (m.f i)) ++
            List.replicate (k - (6 + msg_get_wire_field_size (m.f i))) 255,
           (pre ++ wire_field code (m.f i)).length) := by
        simp only [msg_fillbuf_step, if_pos h]
        rw [msg_stamp_field_spec code hcode pre k hsup (by omega), List.length_append,
          wire_field_length code hsup]
      rw [hstep, msg_fillbuf_loop_spec code hcode m is _ _ hs1 (by omega),
        wire_fields_cons_set code m i is h, List.length_append, wire_field_length code hsup, hsz]
      simp only [List.append_assoc, Prod.mk.injEq]
      constructor
      · rw [Nat.sub_sub]
      · omega
    · have hsz : msg_fillbuf_size m (i :: is) = msg_fillbuf_size m is := by
        simp only [msg_fillbuf_size, List.map_cons, List.sum_cons, if_neg h, Nat.zero_add]
      have hstep : msg_fillbuf_step code m (pre ++ List.replicate k 255, pre.length) i =
          (pre ++ List.replicate k 255, pre.length) := by
        simp only [msg_fillbuf_step, if_neg h]
      rw [hstep, msg_fillbuf_loop_spec code hcode m is pre k hs1 (by omega),
        wire_fields_cons_unset code m i is h, hsz]

/-- On a message whose valid and set fields are supported `msg_fillbuf` fails
with -2 on a buffer that is too small and otherwise stores the 32-bit header,
the fields in the wire format and leaves the rest of the buffer filled with
0xff. -/
theorem msg_fillbuf_spec (code : field_type → Nat) (hcode : ∀ t, code t < 256) (m : msg)
    (buflen : Nat) (hs : SupportedOn m (List.range m.len)) :
    (buflen < 4 + msg_fillbuf_size m (List.range m.len) →
      msg_fillbuf code m buflen = ((List.replicate buflen 255, buflen), -2)) ∧
    (4 + msg_fillbuf_size m (List.range m.len) ≤ buflen →
      msg_fillbuf code m buflen =
        ((be_bytes 4 (msg_fillbuf_size m (List.range m.len) % 2 ^ 32) ++
            wire_fields code m (List.range m.len) ++
            List.replicate (buflen - (4 + msg_fillbuf_size m (List.range m.len))) 255,
          4 + msg_fillbuf_size m (List.range m.len)), 0)) := by
  constructor
  · intro h
    simp [msg_fillbuf, h]
  · intro h
    have hn : ¬ 4 + msg_fillbuf_size m (List.range m.len) > buflen := by omega
    simp only [msg_fillbuf, if_neg hn, Nat.add_sub_cancel_left]
    have hw : write (List.replicate buflen 255) 0
        (be_bytes 4 (msg_fillbuf_size m (List.range m.len) % 2 ^ 32)) =
        be_bytes 4 (msg_fillbuf_size m (List.range m.len) % 2 ^ 32) ++
          List.replicate (buflen - 4) 255 := by
      simp [write, be_bytes_length]
    have h4 : (be_bytes 4 (msg_fillbuf_size m (List.range m.len) % 2 ^ 32)).length = 4 :=
      be_bytes_length _ _
    have hl := msg_fillbuf_loop_spec code hcode m (List.range m.len)
      (be_bytes 4 (msg_fillbuf_size m (List.range m.len) % 2 ^ 32)) (buflen - 4) hs (by omega)
    rw [h4] at hl
    rw [hw, hl, Nat.sub_sub]

theorem be_read_take_append (n x : Nat) (rest : List Nat) :
    be_read ((be_bytes n x ++ rest).take n) = x % 256 ^ n := by
  have : (be_bytes n x ++ rest).take n = be_bytes n x := by
    rw [List.take_append_of_le_length (by rw [be_bytes_length])]
    exact List.take_of_length_le (by rw [be_bytes_length])
  rw [this, be_read_be_bytes]

theorem wire_set_cons_set (m : msg) (i : Nat) (is : List Nat)
    (h : (m.f i).is_valid = true ∧ (m.f i).is_set = true) :
    wire_set m (i :: is) = i :: wire_set m is := by
  simp [wire_set, List.filter_cons, h.1, h.2]

theorem wire_set_cons_unset (m : msg) (i : Nat) (is : List Nat)
    (h : ¬ ((m.f i).is_valid = true ∧ (m.f i).is_set = true)) :
    wire_set m (i :: is) = wire_set m is := by
  have : ((m.f i).is_valid && (m.f i).is_set) = false := by
    rcases hv : (m.f i).is_valid <;> rcases hs : (m.f i).is_set <;> simp_all
  simp [wire_set, List.filter_cons, this]

theorem msg_fillbuf_size_range (m : msg) (is : List Nat) :
    msg_fillbuf_size m is =
      ((wire_set m is).map (fun i => 6 + msg_get_wire_field_size (m.f i))).sum := by
  induction is with
  | nil => rfl
  | cons i is ih =>
    by_cases h : (m.f i).is_valid = true ∧ (m.f i).is_set = true
    · rw [wire_set_cons_set m i is h, List.map_cons, List.sum_cons, ← ih]
      simp [msg_fillbuf_size, h.1, h.2]
    · rw [wire_set_cons_unset m i is h, ← ih]
      simp only [msg_fillbuf_size, List.map_cons, List.sum_cons, if_neg h, Nat.zero_add]

theorem exCode_lt (t : field_type) : exCode t < 256 := by
  cases t <;> decide

theorem exMsg_supported : SupportedOn exMsg (List.range exMsg.len) := by
  intro i hi hv hset
  have hi3 : i < 3 := List.mem_range.mp hi
  interval_cases i
  · exact ⟨by decide, by decide, by decide, by decide⟩
  · exact ⟨by decide, by decide, by decide, fun _ => ⟨by decide, by decide⟩⟩
  · exact absurd hset (by decide)

/-- C28: the message obtained by parsing a buffer with one field of type ARRAY
into a message created with such a field has that field valid and set;
`msg_fillbuf` returns 0 on it with the length 10, but the three bytes after the
type byte are 0xff and not the 3-byte payload length 0 of the wire format. -/
theorem C28_array_field :
    ∃ m, msg_create exArrayDesc exMem = some (exArrayFresh, 0) ∧
      msg_parse 2 exCode exArrayFresh [0, 0, 0, 6, 0, 0, 7, 0, 0, 0] 10 false = some (m, 0) ∧
      m.len = 1 ∧ (m.f 0).is_valid = true ∧ (m.f 0).is_set = true ∧
      (m.f 0).type = .M_FT_ARRAY ∧
      msg_fillbuf exCode m 10 = (([0, 0, 0, 6, 0, 0, 7, 255, 255, 255], 10), 0) ∧
      wire_format exCode m = [0, 0, 0, 6, 0, 0, 7, 0, 0, 0] :=
  ⟨_, rfl, rfl, rfl, rfl, rfl, rfl, rfl, rfl⟩

/-- C28: for a message whose valid and set fields are of type INT32, UINT32,
INT64, UINT64, STR or BUF, with ids below 2^16 and string or buffer lengths
below 2^24, and take less than 2^32 bytes on the wire: the wire format has the
length 4 plus the sum over the valid and set fields of 6 plus the payload size;
on a buffer of at least that length `msg_fillbuf` returns 0, sets the length to
it and stores the wire format (the 4-byte big-endian length of the fields, then
the valid and set fields in ascending order of the index, each as 2-byte
big-endian id, type byte, 3-byte big-endian payload length and payload), and
`msg_get_size` on that buffer returns 0 and that length; on a smaller buffer
`msg_fillbuf` returns -2; `msg_get_size` returns -2 when fewer than 4 bytes
are available. -/
theorem C28_wire_format (code : field_type → Nat) (m : msg) (buflen : Nat)
    (hcode : ∀ t, code t < 256) (hs : SupportedOn m (List.range m.len))
    (hsz : msg_fillbuf_size m (List.range m.len) < 2 ^ 32) :
    (wire_format code m).length =
      4 + ((wire_set m (List.range m.len)).map
        (fun i => 6 + msg_get_wire_field_size (m.f i))).sum ∧
    ((wire_format code m).length ≤ buflen →
      msg_fillbuf code m buflen =
        ((wire_format code m ++ List.replicate (buflen - (wire_format code m).length) 255,
          (wire_format code m).length), 0) ∧
      msg_get_size (msg_fillbuf code m buflen).1.1 (msg_fillbuf code m buflen).1.2 =
        some (some (wire_format code m).length, 0)) ∧
    (buflen < (wire_format code m).length → (msg_fillbuf code m buflen).2 = -2) ∧
    (∀ (buf : List Nat) (n : Nat), n ≤ buf.length → n < 4 →
      msg_get_size buf n = some (none, -2)) := by
  have hlen : (wire_format code m).length = 4 + msg_fillbuf_size m (List.range m.len) := by
    simp [wire_format, be_bytes_length, wire_fields_length code m _ hs]
  have hmod : msg_fillbuf_size m (List.range m.len) % 2 ^ 32 =
      msg_fillbuf_size m (List.range m.len) := Nat.mod_eq_of_lt hsz
  refine ⟨by rw [hlen, msg_fillbuf_size_range], fun hb => ?_, fun hb => ?_,
    fun buf n h1 h2 => ?_⟩
  · rw [hlen] at hb ⊢
    have hfill := (msg_fillbuf_spec code hcode m buflen hs).2 hb
    rw [hmod] at hfill
    refine ⟨hfill, ?_⟩
    rw [hfill]
    have h1 : ¬ (be_bytes 4 (msg_fillbuf_size m (List.range m.len)) ++
        wire_fields code m (List.range m.len) ++
        List.replicate (buflen - (4 + msg_fillbuf_size m (List.range m.len))) 255).length <
        4 + msg_fillbuf_size m (List.range m.len) := by
      simp only [List.length_append, be_bytes_length, wire_fields_length code m _ hs,
        List.length_replicate]
      omega
    have h3 : be_read ((be_bytes 4 (msg_fillbuf_size m (List.range m.len)) ++
        wire_fields code m (List.range m.len) ++
        List.replicate (buflen - (4 + msg_fillbuf_size m (List.range m.len))) 255).take 4) =
        msg_fillbuf_size m (List.range m.len) := by
      rw [List.append_assoc, be_read_take_append]
      omega
    simp only [msg_get_size, if_neg h1, h3]
    rw [if_neg (by omega), Nat.add_comm]
  · rw [hlen] at hb
    rw [(msg_fillbuf_spec code hcode m buflen hs).1 hb]
  · simp only [msg_get_size, if_neg (by omega : ¬ buf.length < n), if_pos h2]

theorem C28_wire_format_witness :
    (wire_format exCode exMsg).length =
      4 + ((wire_set exMsg (List.range exMsg.len)).map
        (fun i => 6 + msg_get_wire_field_size (exMsg.f i))).sum ∧
    ((wire_format exCode exMsg).length ≤ 32 →
      msg_fillbuf exCode exMsg 32 =
        ((wire_format exCode exMsg ++
            List.replicate (32 - (wire_format exCode exMsg).length) 255,
          (wire_format exCode exMsg).length), 0) ∧
      msg_get_size (msg_fillbuf exCode exMsg 32).1.1 (msg_fillbuf exCode exMsg 32).1.2 =
        some (some (wire_format exCode exMsg).length, 0)) ∧
    (32 < (wire_format exCode exMsg).length → (msg_fillbuf exCode exMsg 32).2 = -2) ∧
    (∀ (buf : List Nat) (n : Nat), n ≤ buf.length → n < 4 →
      msg_get_size buf n = some (none, -2)) :=
  C28_wire_format exCode exMsg 32 exCode_lt exMsg_supported (by decide)


/-! ## Sequences of calls -/

theorem OpInv.fuel {c : Client} {T : RTree} (h : OpInv c T) :
    2 * T.size < fuel_for c.tree := by
  rw [fuel_for, h.2.2.2.1]
  omega

theorem alloc_ok_some {c : Client} {n : Nat} (h : alloc_ok c (some n) = true) :
    n ≠ c.tree.root ∧ n ≠ c.tree.sentinel ∧ n ∉ c.live := by
  simpa [alloc_ok, and_assoc] using h

/-- One call on a state that holds a tree returns, and leaves a state that
holds a tree with the number of nodes `op_size` says; the keys afterwards are
among the old keys and the key of the call, the addresses in use among the old
ones and the allocated one. -/
theorem apply_op_spec {c : Client} {T : RTree} (h : OpInv c T) (op : Op)
    (ha : alloc_ok c (op_alloc op) = true) :
    ∃ c1 T1, apply_op c op = .done c1 ∧ OpInv c1 T1 ∧ T1.size = op_size T op ∧
      (∀ k ∈ T1.keys, k ∈ T.keys ∨ k = op_key op) ∧
      (∀ x ∈ c1.live, x ∈ c.live ∨ op_alloc op = some x) ∧
      c1.tree.root = c.tree.root ∧ c1.tree.sentinel = c.tree.sentinel := by
  obtain ⟨hrep, hrb, hord, hel, hlive⟩ := h
  have hf2 : 2 * T.size < fuel_for c.tree := OpInv.fuel ⟨hrep, hrb, hord, hel, hlive⟩
  have hf1 : T.size < fuel_for c.tree := by omega
  cases op with
  | insert key malloc =>
    simp only [op_alloc] at ha
    simp only [apply_op, op_alloc, ha, if_true]
    by_cases hk : key ∈ T.keys
    · obtain ⟨a, v, hx⟩ := mem_nodes_of_mem_keys hk
      rw [cf_rcrb_insert_vlock_dup hrep hord hf1 hx malloc]
      refine ⟨_, T, rfl, ⟨hrep.congr_fields rfl rfl rfl, hrb, hord, hel, hlive⟩, ?_,
        fun k hk => Or.inl hk, fun x hx => Or.inl hx, rfl, rfl⟩
      cases malloc <;> simp [op_size, hk]
    · cases malloc with
      | none =>
        rw [cf_rcrb_insert_vlock_nomem hrep hf1 hk]
        exact ⟨_, T, rfl, ⟨hrep.congr_fields rfl rfl rfl, hrb, hord, hel, hlive⟩,
          by simp [op_size], fun k hk => Or.inl hk, fun x hx => Or.inl hx, rfl, rfl⟩
      | some n =>
        obtain ⟨a1, a2, a3⟩ := alloc_ok_some ha
        obtain ⟨hc, hnrr, H, hbh⟩ := hrb
        obtain ⟨t1, T1, e1, e2, e3, e4, e5, e6, e7, e8⟩ :=
          cf_rcrb_insert_vlock_new hrep hc hnrr hbh hord hk a1 a2
            (fun hm => a3 ((hlive n).mpr hm)) hf1
        rw [e1]
        refine ⟨_, T1, rfl, ⟨e2.congr_fields rfl rfl rfl, ⟨e3, e4, e5⟩, e6, ?_, ?_⟩, ?_, ?_, ?_,
          e8.1, e8.2.1⟩
        · show t1.elements = T1.size
          rw [e8.2.2.1, size_of_perm e7]
          show c.tree.elements + 1 = T.size + 1
          rw [hel]
        · intro x
          simp only [List.mem_cons]
          rw [hlive x, RTree.mem_addrs_iff_nodes, RTree.mem_addrs_iff_nodes]
          constructor
          · rintro (rfl | ⟨k, v, hx⟩)
            · exact ⟨key, 0, e7.symm.subset (List.mem_cons_self _ _)⟩
            · exact ⟨k, v, e7.symm.subset (List.mem_cons_of_mem _ hx)⟩
          · rintro ⟨k, v, hx⟩
            rcases List.mem_cons.mp (e7.subset hx) with e | hx
            · exact Or.inl (Prod.mk.inj e).1
            · exact Or.inr ⟨k, v, hx⟩
        · rw [size_of_perm e7]
          simp [op_size, hk]
        · intro k hk1
          rcases (mem_keys_iff_of_perm e7 k).mp hk1 with e | e
          · exact Or.inr e
          · exact Or.inl e
        · intro x hx
          rcases List.mem_cons.mp hx with e | e
          · exact Or.inr (by rw [e])
          · exact Or.inl e
  | get_insert key malloc =>
    simp only [op_alloc] at ha
    simp only [apply_op, op_alloc, ha, if_true]
    by_cases hk : key ∈ T.keys
    · obtain ⟨a, v, hx⟩ := mem_nodes_of_mem_keys hk
      rw [cf_rcrb_get_insert_vlock_dup hrep hord hf1 hx malloc]
      have hal : a ∈ c.live := (hlive a).mpr (RTree.mem_addrs_iff_nodes.mpr ⟨_, _, hx⟩)
      simp only [if_pos hal]
      refine ⟨_, T, rfl, ⟨hrep.congr_fields rfl rfl rfl, hrb, hord, hel, hlive⟩, ?_,
        fun k hk => Or.inl hk, fun x hx => Or.inl hx, rfl, rfl⟩
      cases malloc <;> simp [op_size, hk]
    · cases malloc with
      | none =>
        rw [cf_rcrb_get_insert_vlock_nomem hrep hf1 hk]
        exact ⟨_, T, rfl, ⟨hrep.congr_fields rfl rfl rfl, hrb, hord, hel, hlive⟩,
          by simp [op_size], fun k hk => Or.inl hk, fun x hx => Or.inl hx, rfl, rfl⟩
      | some n =>
        obtain ⟨a1, a2, a3⟩ := alloc_ok_some ha
        obtain ⟨hc, hnrr, H, hbh⟩ := hrb
        obtain ⟨t1, T1, e1, e2, e3, e4, e5, e6, e7, e8⟩ :=
          cf_rcrb_get_insert_vlock_new hrep hc hnrr hbh hord hk a1 a2
            (fun hm => a3 ((hlive n).mpr hm)) hf1
        rw [e1]
        simp only [if_neg a3]
        refine ⟨_, T1, rfl, ⟨e2.congr_fields rfl rfl rfl, ⟨e3, e4, e5⟩, e6, ?_, ?_⟩, ?_, ?_, ?_,
          e8.1, e8.2.1⟩
        · show t1.elements = T1.size
          rw [e8.2.2.1, size_of_perm e7]
          show c.tree.elements + 1 = T.size + 1
          rw [hel]
        · intro x
          simp only [List.mem_cons]
          rw [hlive x, RTree.mem_addrs_iff_nodes, RTree.mem_addrs_iff_nodes]
          constructor
          · rintro (rfl | ⟨k, v, hx⟩)
            · exact ⟨key, 0, e7.symm.subset (List.mem_cons_self _ _)⟩
            · exact ⟨k, v, e7.symm.subset (List.mem_cons_of_mem _ hx)⟩
          · rintro ⟨k, v, hx⟩
            rcases List.mem_cons.mp (e7.subset hx) with e | hx
            · exact Or.inl (Prod.mk.inj e).1
            · exact Or.inr ⟨k, v, hx⟩
        · rw [size_of_perm e7]
          simp [op_size, hk]
        · intro k hk1
          rcases (mem_keys_iff_of_perm e7 k).mp hk1 with e | e
          · exact Or.inr e
          · exact Or.inl e
        · intro x hx
          rcases List.mem_cons.mp hx with e | e
          · exact Or.inr (by rw [e])
          · exact Or.inl e
  | delete key =>
    simp only [apply_op, op_alloc, alloc_ok, if_true]
    by_cases hk : key ∈ T.keys
    · obtain ⟨t1, T1, a, v, A, B, e1, e2, e3, e4, e5, e6, e7⟩ :=
        cf_rcrb_delete_spec hrep hrb hord hk hf2
      rw [e1]
      simp only [if_true]
      have hfreed : t1.freed = a :: c.tree.freed := by rw [e7]
      have helem : t1.elements = c.tree.elements - 1 := by rw [e7]
      have hnd := hrep.nodup_nodes
      rw [e5] at hnd
      have hsz : T.size = T1.size + 1 := by
        rw [RTree.size_eq_length_nodes, RTree.size_eq_length_nodes, e5, e6]
        simp
        omega
      have haddr : (T.addrs).Nodup := by simpa using hrep.nodup
      have hnot : ∀ k' v', (a, k', v') ∉ A ++ B := by
        intro k' v' hm
        have hp := (RTree.addrs_perm T).nodup_iff.mp haddr
        rw [e5, List.map_append, List.map_cons] at hp
        have h1 := (List.nodup_cons.mp (List.nodup_middle.mp hp)).1
        apply h1
        rw [← List.map_append]
        exact List.mem_map.mpr ⟨_, hm, rfl⟩
      refine ⟨_, T1, rfl, ⟨e2, e3, e4, ?_, ?_⟩, ?_, ?_, ?_, ?_, ?_⟩
      · show t1.elements = T1.size
        rw [helem, hel, hsz]
        rfl
      · intro x
        simp only [hfreed, List.headD_cons, List.mem_filter, decide_eq_true_eq]
        rw [hlive x, RTree.mem_addrs_iff_nodes, RTree.mem_addrs_iff_nodes, e5, e6]
        constructor
        · rintro ⟨⟨k', v', hx⟩, hne⟩
          rcases List.mem_append.mp hx with hx | hx
          · exact ⟨k', v', List.mem_append_left _ hx⟩
          · rcases List.mem_cons.mp hx with e | hx
            · exact absurd (Prod.mk.inj e).1 hne
            · exact ⟨k', v', List.mem_append_right _ hx⟩
        · rintro ⟨k', v', hx⟩
          refine ⟨⟨k', v', ?_⟩, fun e => hnot k' v' (e ▸ hx)⟩
          rcases List.mem_append.mp hx with hx | hx
          · exact List.mem_append_left _ hx
          · exact List.mem_append_right _ (List.mem_cons_of_mem _ hx)
      · simp only [op_size, if_pos hk]
        omega
      · intro k hk1
        left
        rw [RTree.keys_eq_map_nodes] at hk1 ⊢
        rw [e6] at hk1
        rw [e5]
        simp only [List.map_append, List.map_cons, List.mem_append, List.mem_cons] at hk1 ⊢
        tauto
      · intro x hx
        exact Or.inl (List.mem_filter.mp hx).1
      · rw [e7]
      · rw [e7]
    · rw [cf_rcrb_delete_miss hrep hk hf1]
      simp only [show ((-2 : Int) = 0) = False by decide, if_false]
      exact ⟨_, T, rfl, ⟨hrep.congr_fields rfl rfl rfl, hrb, hord, hel, hlive⟩,
        by simp [op_size, hk], fun k hk => Or.inl hk, fun x hx => Or.inl hx, rfl, rfl⟩

theorem run_ops_append (c : Client) (ops1 ops2 : List Op) :
    run_ops c (ops1 ++ ops2) =
      match run_ops c ops1 with
      | .done c1 => run_ops c1 ops2
      | .misuse => .misuse
      | .out_of_fuel => .out_of_fuel := by
  induction ops1 generalizing c with
  | nil => rfl
  | cons op rest ih =>
    simp only [List.cons_append, run_ops]
    cases apply_op c op with
    | done c1 => exact ih c1
    | misuse => rfl
    | out_of_fuel => rfl

theorem apply_op_misuse {c : Client} {op : Op} (ha : ¬ alloc_ok c (op_alloc op) = true) :
    apply_op c op = .misuse := by
  simp only [apply_op, if_neg ha]

/-- A sequence of calls on a state that holds a tree returns, unless the
allocator is made to return memory in use, and leaves a state that holds a
tree. -/
theorem run_ops_spec : ∀ (ops : List Op) {c : Client} {T : RTree}, OpInv c T →
    run_ops c ops = .misuse ∨ ∃ c1 T1, run_ops c ops = .done c1 ∧ OpInv c1 T1
  | [], c, T, h => Or.inr ⟨c, T, rfl, h⟩
  | op :: rest, c, T, h => by
    by_cases ha : alloc_ok c (op_alloc op) = true
    · obtain ⟨c1, T1, e1, e2, -⟩ := apply_op_spec h op ha
      simp only [run_ops, e1]
      exact run_ops_spec rest e2
    · left
      simp only [run_ops, apply_op_misuse ha]

theorem create_inv {udata sn rt : Nat} {mem : Nat → cf_rcrb_node} {rc : Nat → Nat}
    (hne : sn ≠ rt) :
    ∃ t0, cf_rcrb_create udata true (some sn) (some rt) mem rc = some t0 ∧
      OpInv ⟨t0, []⟩ .nil ∧ t0.root = rt ∧ t0.sentinel = sn := by
  obtain ⟨t0, e1, e2, e3, e4, e5, -⟩ := @cf_rcrb_create_rep udata sn rt mem rc hne
  exact ⟨t0, e1, ⟨e2, ⟨rfl, trivial, 0, rfl⟩, trivial, e3, fun x => by simp⟩, e4, e5⟩

/-- C3: in every tree reached from a tree returned by `cf_rcrb_create` by calls
of `cf_rcrb_insert_vlock`, `cf_rcrb_get_insert_vlock` and `cf_rcrb_delete`
(the allocator returning unused memory or failing), for every node all keys of
its left subtree are greater than its key and all keys of its right subtree
smaller; hence no two nodes hold the same key.  The calls never run out of
fuel. -/
theorem C3_key_order_invariant (udata sn rt : Nat) (mem : Nat → cf_rcrb_node)
    (rc : Nat → Nat) (hne : sn ≠ rt) (ops : List Op) :
    ∃ t0, cf_rcrb_create udata true (some sn) (some rt) mem rc = some t0 ∧
      (run_ops ⟨t0, []⟩ ops = .misuse ∨
        ∃ c T, run_ops ⟨t0, []⟩ ops = .done c ∧ Rep c.tree T ∧ Ordered T ∧ T.keys.Nodup) := by
  obtain ⟨t0, e1, e2, -⟩ := @create_inv udata sn rt mem rc hne
  refine ⟨t0, e1, ?_⟩
  rcases run_ops_spec ops e2 with h | ⟨c, T, h1, h2⟩
  · exact Or.inl h
  · exact Or.inr ⟨c, T, h1, h2.1, h2.2.2.1, h2.2.2.1.nodup_keys⟩

theorem C3_key_order_invariant_witness :
    ∃ t0, cf_rcrb_create 0 true (some 2) (some 1) exEmpty.mem exEmpty.rc = some t0 ∧
      (run_ops ⟨t0, []⟩ [.insert 20 (some 3), .get_insert 30 (some 4), .delete 20,
          .insert 30 (some 3)] = .misuse ∨
        ∃ c T, run_ops ⟨t0, []⟩ [.insert 20 (some 3), .get_insert 30 (some 4), .delete 20,
          .insert 30 (some 3)] = .done c ∧ Rep c.tree T ∧ Ordered T ∧ T.keys.Nodup) :=
  C3_key_order_invariant 0 2 1 exEmpty.mem exEmpty.rc (by decide) _

/-- C4: for every sequence of calls of `cf_rcrb_insert_vlock`,
`cf_rcrb_get_insert_vlock` and `cf_rcrb_delete` on a tree returned by
`cf_rcrb_create` (the allocator returning unused memory or failing), and one
more call: the calls return; before and after the last call the counter is the
number of nodes of the tree, which `cf_rcrb_size` returns when it is below
2^32; and the last call leaves one node more when it inserts a key that was
not in the tree, one node less when it deletes a key that was in the tree, and
the same number of nodes otherwise. -/
theorem C4_size_counts_nodes (udata sn rt : Nat) (mem : Nat → cf_rcrb_node)
    (rc : Nat → Nat) (hne : sn ≠ rt) (ops : List Op) (op : Op) :
    ∃ t0, cf_rcrb_create udata true (some sn) (some rt) mem rc = some t0 ∧
      (run_ops ⟨t0, []⟩ ops = .misuse ∨
        ∃ c T, run_ops ⟨t0, []⟩ ops = .done c ∧ Rep c.tree T ∧
          c.tree.elements = T.size ∧
          (T.size < 4294967296 → (cf_rcrb_size c.tree).2 = T.size) ∧
          (apply_op c op = .misuse ∨
            ∃ c1 T1, run_ops ⟨t0, []⟩ (ops ++ [op]) = .done c1 ∧ Rep c1.tree T1 ∧
              c1.tree.elements = T1.size ∧
              (T1.size < 4294967296 → (cf_rcrb_size c1.tree).2 = T1.size) ∧
              T1.size = op_size T op)) := by
  obtain ⟨t0, e1, e2, -⟩ := @create_inv udata sn rt mem rc hne
  refine ⟨t0, e1, ?_⟩
  rcases run_ops_spec ops e2 with h | ⟨c, T, h1, h2⟩
  · exact Or.inl h
  · refine Or.inr ⟨c, T, h1, h2.1, h2.2.2.2.1, fun hlt => ?_, ?_⟩
    · show c.tree.elements % 4294967296 = T.size
      rw [h2.2.2.2.1, Nat.mod_eq_of_lt hlt]
    · by_cases ha : alloc_ok c (op_alloc op) = true
      · obtain ⟨c1, T1, f1, f2, f3, -⟩ := apply_op_spec h2 op ha
        refine Or.inr ⟨c1, T1, ?_, f2.1, f2.2.2.2.1, fun hlt => ?_, f3⟩
        · rw [run_ops_append, h1]
          simp only [run_ops, f1]
        · show c1.tree.elements % 4294967296 = T1.size
          rw [f2.2.2.2.1, Nat.mod_eq_of_lt hlt]
      · exact Or.inl (apply_op_misuse ha)

theorem C4_size_counts_nodes_witness :
    ∃ t0, cf_rcrb_create 0 true (some 2) (some 1) exEmpty.mem exEmpty.rc = some t0 ∧
      (run_ops ⟨t0, []⟩ [.insert 20 (some 3), .get_insert 30 (some 4)] = .misuse ∨
        ∃ c T, run_ops ⟨t0, []⟩ [.insert 20 (some 3), .get_insert 30 (some 4)] = .done c ∧
          Rep c.tree T ∧ c.tree.elements = T.size ∧
          (T.size < 4294967296 → (cf_rcrb_size c.tree).2 = T.size) ∧
          (apply_op c (.delete 20) = .misuse ∨
            ∃ c1 T1, run_ops ⟨t0, []⟩
                ([.insert 20 (some 3), .get_insert 30 (some 4)] ++ [.delete 20]) = .done c1 ∧
              Rep c1.tree T1 ∧ c1.tree.elements = T1.size ∧
              (T1.size < 4294967296 → (cf_rcrb_size c1.tree).2 = T1.size) ∧
              T1.size = op_size T (.delete 20))) :=
  C4_size_counts_nodes 0 2 1 exEmpty.mem exEmpty.rc (by decide) _ _

/-- The insertion of `n` new keys at unused addresses into an empty tree
returns and leaves a tree of `n` nodes. -/
theorem run_many_inserts {c0 : Client} (h0 : OpInv c0 .nil) (hl : c0.live = [])
    (hr : c0.tree.root = 1) (hs : c0.tree.sentinel = 2) :
    ∀ n, ∃ c T, run_ops c0 (exManyOps n) = .done c ∧ OpInv c T ∧ T.size = n ∧
      (∀ k ∈ T.keys, k < n) ∧ (∀ x ∈ c.live, x < n + 3) ∧
      c.tree.root = 1 ∧ c.tree.sentinel = 2
  | 0 => ⟨c0, .nil, rfl, h0, rfl, fun k hk => by simp at hk, fun x hx => by simp [hl] at hx,
      hr, hs⟩
  | n + 1 => by
    obtain ⟨c, T, e1, e2, e3, e4, e5, e6, e7⟩ := run_many_inserts h0 hl hr hs n
    have hops : exManyOps (n + 1) = exManyOps n ++ [Op.insert n (some (n + 3))] := by
      simp [exManyOps, List.range_succ]
    have ha : alloc_ok c (op_alloc (Op.insert n (some (n + 3)))) = true := by
      have : n + 3 ∉ c.live := fun hm => absurd (e5 _ hm) (by omega)
      simp [op_alloc, alloc_ok, e6, e7, this]
    obtain ⟨c1, T1, f1, f2, f3, f4, f5, f6, f7⟩ := apply_op_spec e2 _ ha
    have hk : n ∉ T.keys := fun hm => absurd (e4 _ hm) (by omega)
    refine ⟨c1, T1, ?_, f2, ?_, ?_, ?_, by rw [f6, e6], by rw [f7, e7]⟩
    · rw [hops, run_ops_append, e1]
      simp only [run_ops, f1]
    · rw [f3]
      simp [op_size, hk, e3]
    · intro k hk1
      rcases f4 k hk1 with h | h
      · exact Nat.lt_succ_of_lt (e4 k h)
      · rw [h]
        exact Nat.lt_succ_self n
    · intro x hx
      rcases f5 x hx with h | h
      · have := e5 x h
        omega
      · have : n + 3 = x := by simpa [op_alloc] using h
        omega

/-- C4: after the insertion of 2^32 different keys into a tree returned by
`cf_rcrb_create` the tree holds 2^32 nodes and `cf_rcrb_size` returns 0. -/
theorem C4_size_wraps :
    ∃ t0 c T, cf_rcrb_create 0 true (some 2) (some 1) exEmpty.mem exEmpty.rc = some t0 ∧
      run_ops ⟨t0, []⟩ (exManyOps 4294967296) = .done c ∧ Rep c.tree T ∧
      T.size = 4294967296 ∧ (cf_rcrb_size c.tree).2 = 0 := by
  obtain ⟨t0, e1, e2, e3, e4⟩ :=
    @create_inv 0 2 1 exEmpty.mem exEmpty.rc (show 2 ≠ 1 by decide)
  obtain ⟨c, T, f1, f2, f3, -⟩ := run_many_inserts e2 rfl e3 e4 4294967296
  refine ⟨t0, c, T, e1, f1, f2.1, f3, ?_⟩
  show c.tree.elements % 4294967296 = 0
  rw [f2.2.2.2.1, f3]


/-! ## Values, handles and the destructor -/

theorem cf_rcrb_search_hit {tree : cf_rcrb_tree} {T : RTree} {a k v fuel : Nat} (h : Rep tree T)
    (ho : Ordered T) (hf : T.size < fuel) (hl : tree.lock = false) (hx : (a, k, v) ∈ T.nodes) :
    cf_rcrb_search fuel tree k = some ({ tree with rc := cf_rc_reserve tree.rc v }, v) := by
  have h0 : Rep { tree with lock := true } T := h.congr_fields rfl rfl rfl
  have e := cf_rcrb_search_lockless_hit h0 ho hf hx
  have hv := (h.mem_of_nodes hx).2
  simp only [cf_rcrb_search, e, hv, ← hl]

theorem cf_rcrb_search_miss {tree : cf_rcrb_tree} {T : RTree} {k fuel : Nat} (h : Rep tree T)
    (hf : T.size < fuel) (hl : tree.lock = false) (hk : k ∉ T.keys) :
    cf_rcrb_search fuel tree k = some (tree, 0) := by
  have h0 : Rep { tree with lock := true } T := h.congr_fields rfl rfl rfl
  have e := cf_rcrb_search_lockless_miss h0 hf hk
  simp only [cf_rcrb_search, e, ← hl]

theorem HInv.holder_fuel {s : Holder} {T : RTree} (h : HInv s T) : 2 * T.size < fuel_for s.tree := by
  rw [fuel_for, h.2.2.2.1]
  omega

/-- One call of a holder on a state that holds a tree returns, unless a handle
that is not held is released, and leaves a state that holds a tree; the
destructor is called on a value exactly when the call is a delete that brings
the count of the value from non-zero to zero, and a count that is zero stays
zero. -/
theorem apply_hop_spec {s : Holder} {T : RTree} (h : HInv s T) (op : HOp) :
    apply_hop s op = .misuse ∨
    ∃ s1 T1, apply_hop s op = .done s1 ∧ HInv s1 T1 ∧
      s1.tree.destructor_udata = s.tree.destructor_udata ∧
      (∀ v, s.tree.rc v = 0 → s1.tree.rc v = 0) ∧
      (∀ v, destructor_calls s1.tree v = destructor_calls s.tree v +
        (if op.is_delete = true ∧ s.tree.rc v ≠ 0 ∧ s1.tree.rc v = 0 then 1 else 0)) := by
  obtain ⟨hrep, hrb, hord, hel, hlock, hz, hrc⟩ := h
  have hf2 : 2 * T.size < fuel_for s.tree := HInv.holder_fuel ⟨hrep, hrb, hord, hel, hlock, hz, hrc⟩
  have hf1 : T.size < fuel_for s.tree := by omega
  cases op with
  | search key =>
    right
    by_cases hk : key ∈ T.keys
    · obtain ⟨a, v, hx⟩ := mem_nodes_of_mem_keys hk
      have hv : v ∈ T.values := List.mem_map.mpr ⟨_, hx, rfl⟩
      have hv0 : v ≠ 0 := fun e => hz (e ▸ hv)
      have e := (cf_rcrb_search_hit hrep hord hf1 hlock hx)
      simp only [apply_hop, e, if_neg hv0]
      refine ⟨_, T, rfl, ⟨hrep.congr_fields rfl rfl rfl, hrb, hord, hel, hlock, hz, ?_⟩, rfl,
        ?_, ?_⟩
      · intro x
        simp only [cf_rc_reserve]
        split_ifs with e1
        · subst e1; rw [hrc x]; omega
        · exact hrc x
      · intro w hw
        simp only [cf_rc_reserve]
        split_ifs with e1
        · subst e1
          have := hrc w
          have := List.count_pos_iff.mpr hv
          omega
        · exact hw
      · intro w
        simp [destructor_calls, HOp.is_delete]
    · have e := (cf_rcrb_search_miss hrep hf1 hlock hk)
      simp only [apply_hop, e, if_true]
      exact ⟨_, T, rfl, ⟨hrep, hrb, hord, hel, hlock, hz, hrc⟩, rfl, fun v hv => hv,
        fun w => by simp [HOp.is_delete]⟩
  | release v =>
    by_cases hh : s.handles v = 0
    · left
      simp only [apply_hop, if_pos hh]
    · right
      simp only [apply_hop, if_neg hh]
      refine ⟨_, T, rfl, ⟨hrep.congr_fields rfl rfl rfl, hrb, hord, hel, hlock, hz, ?_⟩, rfl,
        ?_, ?_⟩
      · intro x
        simp only [handle_release, cf_rc_release]
        split_ifs with e1
        · subst e1; rw [hrc x]; omega
        · exact hrc x
      · intro w hw
        simp only [handle_release, cf_rc_release]
        split_ifs with e1
        · subst e1; omega
        · exact hw
      · intro w
        simp [destructor_calls, HOp.is_delete, handle_release]
  | delete key =>
    right
    by_cases hk : key ∈ T.keys
    · obtain ⟨t1, T1, a, v, A, B, e1, e2, e3, e4, e5, e6, e7⟩ :=
        cf_rcrb_delete_spec hrep hrb hord hk hf2
      simp only [apply_hop, e1]
      have hrc1 : t1.rc = (cf_rc_release s.tree.rc v).1 := by rw [e7]
      have hd1 : t1.destroyed = if (cf_rc_release s.tree.rc v).2 = 0 then
          (v, s.tree.destructor_udata) :: s.tree.destroyed else s.tree.destroyed := by rw [e7]
      have hu1 : t1.destructor_udata = s.tree.destructor_udata := by rw [e7]
      have hvals : T.values = A.map (fun x => x.2.2) ++ v :: B.map (fun x => x.2.2) := by
        simp [RTree.values, e5]
      have hvals1 : T1.values = A.map (fun x => x.2.2) ++ B.map (fun x => x.2.2) := by
        simp [RTree.values, e6]
      have hcount : ∀ x, T.values.count x = T1.values.count x + (if x = v then 1 else 0) := by
        intro x
        rw [hvals, hvals1, List.count_append, List.count_append, List.count_cons]
        by_cases e : x = v
        · subst e; simp; omega
        · have e' : ¬ v = x := fun h => e h.symm
          simp [e, e']
      have hsz : T.size = T1.size + 1 := by
        rw [RTree.size_eq_length_nodes, RTree.size_eq_length_nodes, e5, e6]
        simp
        omega
      have hvpos : 1 ≤ s.tree.rc v := by
        have := hrc v
        have := hcount v
        simp at this
        omega
      refine ⟨_, T1, rfl, ⟨e2, e3, e4, ?_, by rw [e7], ?_, ?_⟩, hu1, ?_, ?_⟩
      · show t1.elements = T1.size
        have : t1.elements = s.tree.elements - 1 := by rw [e7]
        rw [this, hel, hsz]
        rfl
      · intro h0
        apply hz
        rw [hvals]
        rw [hvals1] at h0
        simp only [List.mem_append, List.mem_cons] at h0 ⊢
        tauto
      · intro x
        show t1.rc x = _
        rw [hrc1]
        simp only [cf_rc_release]
        have := hrc x
        have := hcount x
        split_ifs with e
        · subst e; simp at this; omega
        · simp [e] at this; omega
      · intro w hw
        show t1.rc w = 0
        rw [hrc1]
        simp only [cf_rc_release]
        split_ifs with e
        · subst e; omega
        · exact hw
      · intro w
        show t1.destroyed.count (w, t1.destructor_udata) = _
        rw [hd1, hu1]
        show _ = _ + (if HOp.is_delete (.delete key) = true ∧ s.tree.rc w ≠ 0 ∧ t1.rc w = 0
          then 1 else 0)
        rw [hrc1]
        simp only [cf_rc_release, HOp.is_delete, true_and, destructor_calls]
        by_cases e : w = v
        · subst e
          simp only [if_true]
          by_cases hz1 : s.tree.rc w - 1 = 0
          · have : s.tree.rc w ≠ 0 := by omega
            simp [hz1, this]
          · simp [hz1]
        · have e' : (w, s.tree.destructor_udata) ≠ (v, s.tree.destructor_udata) :=
            fun h => e (Prod.mk.inj h).1
          simp only [if_neg e]
          have : ¬ (s.tree.rc w ≠ 0 ∧ s.tree.rc w = 0) := fun h => h.1 h.2
          rw [if_neg this, Nat.add_zero]
          split_ifs
          · rw [List.count_cons_of_ne e']
          · rfl
    · rw [apply_hop, cf_rcrb_delete_miss hrep hk hf1]
      refine ⟨_, T, rfl, ⟨hrep.congr_fields rfl rfl rfl, hrb, hord, hel, rfl, hz, hrc⟩, rfl,
        fun v hv => hv, fun w => ?_⟩
      have : ¬ (s.tree.rc w ≠ 0 ∧ s.tree.rc w = 0) := fun h => h.1 h.2
      simp [destructor_calls, this]

theorem run_hops_append (s : Holder) (ops1 ops2 : List HOp) :
    run_hops s (ops1 ++ ops2) =
      match run_hops s ops1 with
      | .done s1 => run_hops s1 ops2
      | .misuse => .misuse
      | .out_of_fuel => .out_of_fuel := by
  induction ops1 generalizing s with
  | nil => rfl
  | cons op rest ih =>
    simp only [List.cons_append, run_hops]
    cases apply_hop s op with
    | done s1 => exact ih s1
    | misuse => rfl
    | out_of_fuel => rfl

/-- A sequence of calls of a holder returns, unless a handle that is not held
is released; afterwards the state holds a tree, a count that was zero is zero,
and for a value whose count is not zero at the end the destructor was not
called. -/
theorem run_hops_spec : ∀ (ops : List HOp) {s : Holder} {T : RTree}, HInv s T →
    run_hops s ops = .misuse ∨
    ∃ s1 T1, run_hops s ops = .done s1 ∧ HInv s1 T1 ∧
      s1.tree.destructor_udata = s.tree.destructor_udata ∧
      (∀ v, s.tree.rc v = 0 →
        s1.tree.rc v = 0 ∧ destructor_calls s1.tree v = destructor_calls s.tree v) ∧
      (∀ v, s1.tree.rc v ≠ 0 → destructor_calls s1.tree v = destructor_calls s.tree v)
  | [], s, T, h => Or.inr ⟨s, T, rfl, h, rfl, fun v hv => ⟨hv, rfl⟩, fun v _ => rfl⟩
  | op :: rest, s, T, h => by
    rcases apply_hop_spec h op with e | ⟨s1, T1, e1, e2, e3, e4, e5⟩
    · left
      simp only [run_hops, e]
    · simp only [run_hops, e1]
      rcases run_hops_spec rest e2 with f | ⟨s2, T2, f1, f2, f3, f4, f5⟩
      · exact Or.inl f
      · refine Or.inr ⟨s2, T2, f1, f2, f3.trans e3, fun v hv => ?_, fun v hv => ?_⟩
        · have h1 := e4 v hv
          have h2 := e5 v
          have : ¬ (op.is_delete = true ∧ s.tree.rc v ≠ 0 ∧ s1.tree.rc v = 0) :=
            fun h => h.2.1 hv
          rw [if_neg this, Nat.add_zero] at h2
          exact ⟨(f4 v h1).1, (f4 v h1).2.trans h2⟩
        · have h1 : s1.tree.rc v ≠ 0 := fun h0 => hv (f4 v h0).1
          have h2 := e5 v
          have : ¬ (op.is_delete = true ∧ s.tree.rc v ≠ 0 ∧ s1.tree.rc v = 0) :=
            fun h => h1 h.2.2
          rw [if_neg this, Nat.add_zero] at h2
          exact (f5 v hv).trans h2

theorem exHolder_inv : HInv exHolder exShape := by
  refine ⟨exTree_rep, exShape_redBlack, exShape_ordered, rfl, rfl, by decide, fun x => ?_⟩
  show exTree.rc x = List.count x [88, 77] + 0
  simp only [exTree, List.count_cons, List.count_nil]
  by_cases h1 : x = 77
  · subst h1; decide
  · by_cases h2 : x = 88
    · subst h2; decide
    · have e1 : ¬ 77 = x := fun h => h1 h.symm
      have e2 : ¬ 88 = x := fun h => h2 h.symm
      simp [h1, h2, e1, e2]

/-- C14, as stated, fails: on the example tree, whose node of the key 20 holds
the value 77 with the count 1, the calls search 20, delete 20 and the release of
the handle on 77 leave the count of 77 at zero, and the destructor was not
called. -/
theorem C14_handle_released_last :
    ∃ s3, HInv exHolder exShape ∧ (3, 20, 77) ∈ exShape.nodes ∧ exHolder.tree.rc 77 = 1 ∧
      run_hops exHolder [.search 20, .delete 20, .release 77] = .done s3 ∧
      s3.tree.rc 77 = 0 ∧ s3.tree.destroyed = [] ∧ destructor_calls s3.tree 77 = 0 :=
  ⟨_, exHolder_inv, by decide, rfl, rfl, rfl, rfl, rfl⟩

/-- C14: for every state that holds a tree, every value and every sequence of
calls of `cf_rcrb_search`, releases of held handles and calls of
`cf_rcrb_delete` in which one call brings the reference count of the value
from non-zero to zero: the count is zero at the end; the destructor of the tree
was not called on the value before that call; when that call is a delete the
destructor was called on the value exactly once, by that call; and when that
call is the release of a handle the destructor was not called on the value at
all.  No sequence of calls runs out of fuel. -/
theorem C14_destructor_on_last_delete (s0 s1 s2 s3 : Holder) (T0 : RTree) (v : Nat)
    (pre post : List HOp) (op : HOp) (h0 : HInv s0 T0)
    (h1 : run_hops s0 pre = .done s1) (h2 : apply_hop s1 op = .done s2)
    (h3 : run_hops s2 post = .done s3) (hv1 : s1.tree.rc v ≠ 0) (hv2 : s2.tree.rc v = 0) :
    (∀ ops, run_hops s0 ops ≠ .out_of_fuel) ∧
    run_hops s0 (pre ++ op :: post) = .done s3 ∧
    s3.tree.rc v = 0 ∧
    destructor_calls s1.tree v = destructor_calls s0.tree v ∧
    destructor_calls s2.tree v =
      destructor_calls s0.tree v + (if op.is_delete = true then 1 else 0) ∧
    destructor_calls s3.tree v = destructor_calls s2.tree v := by
  refine ⟨fun ops hc => ?_, ?_, ?_⟩
  · rcases run_hops_spec ops h0 with e | ⟨_, _, e, -⟩ <;> rw [e] at hc <;> cases hc
  · rw [run_hops_append, h1]
    simp only [run_hops, h2, h3]
  · rcases run_hops_spec pre h0 with e | ⟨s1', T1, e1, e2, e3, e4, e5⟩
    · rw [e] at h1; cases h1
    · rw [e1] at h1
      cases h1
      rcases apply_hop_spec e2 op with f | ⟨s2', T2, f1, f2, f3, f4, f5⟩
      · rw [f] at h2; cases h2
      · rw [f1] at h2
        cases h2
        rcases run_hops_spec post f2 with g | ⟨s3', T3, g1, g2, g3, g4, g5⟩
        · rw [g] at h3; cases h3
        · rw [g1] at h3
          cases h3
          refine ⟨(g4 v hv2).1, e5 v hv1, ?_, (g4 v hv2).2⟩
          rw [f5 v, e5 v hv1]
          congr 1
          by_cases hd : op.is_delete = true
          · simp [hd, hv1, hv2]
          · simp [hd]

theorem C14_destructor_on_last_delete_witness :
    (∀ ops, run_hops exHolder ops ≠ .out_of_fuel) ∧
    run_hops exHolder ([.search 20, .release 77] ++ .delete 20 :: [.search 30]) =
      .done ((run_hops exHolder [.search 20, .release 77, .delete 20, .search 30]).state
        exHolder) ∧
    ((run_hops exHolder [.search 20, .release 77, .delete 20, .search 30]).state
      exHolder).tree.rc 77 = 0 ∧
    destructor_calls ((run_hops exHolder [.search 20, .release 77]).state exHolder).tree 77 =
      destructor_calls exHolder.tree 77 ∧
    destructor_calls ((run_hops exHolder [.search 20, .release 77, .delete 20]).state
        exHolder).tree 77 =
      destructor_calls exHolder.tree 77 + (if (HOp.delete 20).is_delete = true then 1 else 0) ∧
    destructor_calls ((run_hops exHolder [.search 20, .release 77, .delete 20, .search 30]).state
        exHolder).tree 77 =
      destructor_calls ((run_hops exHolder [.search 20, .release 77, .delete 20]).state
        exHolder).tree 77 :=
  C14_destructor_on_last_delete exHolder
    ((run_hops exHolder [.search 20, .release 77]).state exHolder)
    ((run_hops exHolder [.search 20, .release 77, .delete 20]).state exHolder)
    ((run_hops exHolder [.search 20, .release 77, .delete 20, .search 30]).state exHolder)
    exShape 77 [.search 20, .release 77] [.search 30] (.delete 20) exHolder_inv rfl rfl rfl
    (by decide) rfl

/-! ## The root header and the sentinel after an update -/

theorem Rep.headers {s t : cf_rcrb_tree} {T : RTree} (h : Rep t T) (hr : t.root = s.root)
    (hs : t.sentinel = s.sentinel) : HeadersKept s t :=
  ⟨hr, hs, h.sent_color, h.root_color, h.sent_left, h.sent_right, h.root_right⟩

/-- C33: for every tree that satisfies the red-black invariants and the key
ordering, every key and every result of the allocation, each of
`cf_rcrb_insert_vlock`, `cf_rcrb_get_insert_vlock` and `cf_rcrb_delete` returns,
and in the state it leaves the sentinel and the root header are BLACK, the left
and right links of the sentinel point to the sentinel, and the right link of the
root header is the sentinel. -/
theorem C33_headers_stay_black_and_looped (tree : cf_rcrb_tree) (T : RTree)
    (key fuel : Nat) (malloc : Option Nat) (lock_ok : Bool)
    (h : Rep tree T) (hrb : RedBlack T) (ho : Ordered T)
    (hn : ∀ n, malloc = some n → Fresh tree T n) (hf : 2 * T.size < fuel) :
    (∃ t r, cf_rcrb_insert_vlock fuel tree key malloc = some (t, r) ∧ HeadersKept tree t) ∧
    (∃ t r, cf_rcrb_get_insert_vlock fuel tree key malloc = some (t, r) ∧
      HeadersKept tree t) ∧
    (∃ t r, cf_rcrb_delete fuel tree key lock_ok = some (t, r) ∧ HeadersKept tree t) := by
  have hf1 : T.size < fuel := by omega
  have hsame : ∀ b : Bool, HeadersKept tree { tree with lock := b } := fun b =>
    Rep.headers (h.congr_fields rfl rfl rfl : Rep { tree with lock := b } T) rfl rfl
  refine ⟨?_, ?_, ?_⟩
  · by_cases hk : key ∈ T.keys
    · obtain ⟨a, v, hx⟩ := mem_nodes_of_mem_keys hk
      exact ⟨_, _, cf_rcrb_insert_vlock_dup h ho hf1 hx malloc, hsame false⟩
    · cases malloc with
      | none => exact ⟨_, _, cf_rcrb_insert_vlock_nomem h hf1 hk, hsame false⟩
      | some n =>
        obtain ⟨a1, a2, a3⟩ := hn n rfl
        obtain ⟨hc, hnrr, H, hbh⟩ := hrb
        obtain ⟨t1, T1, e1, e2, -, -, -, -, -, e8⟩ :=
          cf_rcrb_insert_vlock_new h hc hnrr hbh ho hk a1 a2 a3 hf1
        exact ⟨_, _, e1, e2.headers e8.1 e8.2.1⟩
  · by_cases hk : key ∈ T.keys
    · obtain ⟨a, v, hx⟩ := mem_nodes_of_mem_keys hk
      exact ⟨_, _, cf_rcrb_get_insert_vlock_dup h ho hf1 hx malloc, hsame true⟩
    · cases malloc with
      | none => exact ⟨_, _, cf_rcrb_get_insert_vlock_nomem h hf1 hk, hsame true⟩
      | some n =>
        obtain ⟨a1, a2, a3⟩ := hn n rfl
        obtain ⟨hc, hnrr, H, hbh⟩ := hrb
        obtain ⟨t1, T1, e1, e2, -, -, -, -, -, e8⟩ :=
          cf_rcrb_get_insert_vlock_new h hc hnrr hbh ho hk a1 a2 a3 hf1
        exact ⟨_, _, e1, e2.headers e8.1 e8.2.1⟩
  · cases lock_ok with
    | false => exact ⟨tree, -1, by simp [cf_rcrb_delete], h.headers rfl rfl⟩
    | true =>
      by_cases hk : key ∈ T.keys
      · obtain ⟨t1, T1, a, v, A, B, e1, e2, -, -, -, -, e7⟩ :=
          cf_rcrb_delete_spec h hrb ho hk hf
        exact ⟨_, _, e1, e2.headers (by rw [e7]) (by rw [e7])⟩
      · exact ⟨_, _, cf_rcrb_delete_miss h hk hf1, hsame false⟩

theorem C33_headers_stay_black_and_looped_witness :
    (∃ t r, cf_rcrb_insert_vlock 5 exTree 40 (some 5) = some (t, r) ∧ HeadersKept exTree t) ∧
    (∃ t r, cf_rcrb_get_insert_vlock 5 exTree 40 (some 5) = some (t, r) ∧
      HeadersKept exTree t) ∧
    (∃ t r, cf_rcrb_delete 5 exTree 40 true = some (t, r) ∧ HeadersKept exTree t) :=
  C33_headers_stay_black_and_looped exTree exShape 40 5 (some 5) true exTree_rep
    exShape_redBlack exShape_ordered (fun n e => by cases e; exact exShape_fresh) (by decide)

/-! ## Rotations: the in-order sequence and the frame -/

theorem exThree_rep : Rep exThree exThreeShape :=
  ⟨by decide, by decide, by decide, by decide, rfl, rfl, rfl,
    ⟨rfl, ⟨rfl, trivial, trivial⟩, ⟨rfl, trivial, trivial⟩⟩, rfl, rfl, rfl⟩

/-- A node of the tree is the focus of a position of the tree. -/
theorem Rep.focus_of_mem {tree : cf_rcrb_tree} {T : RTree} {r : Nat} (h : Rep tree T)
    (hr : r ∈ T.addrs) :
    ∃ ctx c l k v rt, plug ctx (.node r c l k v rt) = T ∧
      RepZ tree ctx (.node r c l k v rt) := by
  obtain ⟨k, v, hx⟩ := RTree.mem_addrs_iff_nodes.mp hr
  obtain ⟨z, c, l, rt, e⟩ := exists_path_of_mem T hx
  have e0 := e []
  rw [List.append_nil] at e0
  change plug z (.node r c l k v rt) = T at e0
  exact ⟨z, c, l, k, v, rt, e0, Rep.unplug (by rw [e0]; exact h)⟩

/-- The memory after a left rotation at a position whose right subtree is not
empty. -/
theorem RepZ.rotate_left_mem {tree : cf_rcrb_tree} {ctx : List Frame} {r c A k v s c' B k' v' C}
    (h : RepZ tree ctx (.node r c A k v (.node s c' B k' v' C))) (x : Nat) :
    (cf_rcrb_rotate_left tree r).mem x =
      if x = r then { tree.mem r with right := B.addr tree.sentinel, parent := s }
      else if x = s then { tree.mem s with left := r, parent := ctxPar tree.root ctx }
      else if x = ctxPar tree.root ctx then
        (if r = (tree.mem (ctxPar tree.root ctx)).left then
          { tree.mem (ctxPar tree.root ctx) with left := s }
         else { tree.mem (ctxPar tree.root ctx) with right := s })
      else if x = B.addr tree.sentinel ∧ B.addr tree.sentinel ≠ tree.sentinel then
        { tree.mem (B.addr tree.sentinel) with parent := r }
      else tree.mem x := by
  have hr := h.read
  have hs := h.down_R.read
  have hB := h.down_R.down_L
  have hBn := hB.focus_notin_ctx
  simp only [ctxAddrs_cons, Frame.addrs_L, Frame.addrs_R, List.cons_append, List.mem_cons,
    List.mem_append, not_or] at hBn
  have hsn := h.down_R.focus_notin_ctx
  simp only [RTree.addr_node, ctxAddrs_cons, Frame.addrs_R, List.cons_append, List.mem_cons,
    List.mem_append, not_or] at hsn
  have hsP : s ≠ ctxPar tree.root ctx := by
    rcases ctxPar_mem tree.root ctx with e | e
    · rw [e]; exact h.down_R.focus_ne_root
    · intro e'; exact hsn.2.2 (e' ▸ e)
  have hbP : B.addr tree.sentinel ≠ ctxPar tree.root ctx := by
    rcases ctxPar_mem tree.root ctx with e | e
    · rw [e]; exact hB.focus_ne_root
    · intro e'; exact hBn.2.2.2.2 (e' ▸ e)
  exact cf_rcrb_rotate_left_mem tree r s (ctxPar tree.root ctx) (B.addr tree.sentinel)
    (by rw [hr]; rfl) (by rw [hs]) (by rw [hr]) (fun e => hsn.1 e.symm)
    (by simpa using h.focus_ne_par) hsP hBn.2.2.1 hBn.1 (fun _ => hbP) x

/-- The memory after a right rotation at a position whose left subtree is not
empty. -/
theorem RepZ.rotate_right_mem {tree : cf_rcrb_tree} {ctx : List Frame}
    {r c A k v s c' B k' v' C}
    (h : RepZ tree ctx (.node r c (.node s c' A k' v' B) k v C)) (x : Nat) :
    (cf_rcrb_rotate_right tree r).mem x =
      if x = r then { tree.mem r with left := B.addr tree.sentinel, parent := s }
      else if x = s then { tree.mem s with right := r, parent := ctxPar tree.root ctx }
      else if x = ctxPar tree.root ctx then
        (if r = (tree.mem (ctxPar tree.root ctx)).left then
          { tree.mem (ctxPar tree.root ctx) with left := s }
         else { tree.mem (ctxPar tree.root ctx) with right := s })
      else if x = B.addr tree.sentinel ∧ B.addr tree.sentinel ≠ tree.sentinel then
        { tree.mem (B.addr tree.sentinel) with parent := r }
      else tree.mem x := by
  have hr := h.read
  have hs := h.down_L.read
  have hB := h.down_L.down_R
  have hBn := hB.focus_notin_ctx
  simp only [ctxAddrs_cons, Frame.addrs_L, Frame.addrs_R, List.cons_append, List.mem_cons,
    List.mem_append, not_or] at hBn
  have hsn := h.down_L.focus_notin_ctx
  simp only [RTree.addr_node, ctxAddrs_cons, Frame.addrs_L, List.cons_append, List.mem_cons,
    List.mem_append, not_or] at hsn
  have hsP : s ≠ ctxPar tree.root ctx := by
    rcases ctxPar_mem tree.root ctx with e | e
    · rw [e]; exact h.down_L.focus_ne_root
    · intro e'; exact hsn.2.2 (e' ▸ e)
  have hbP : B.addr tree.sentinel ≠ ctxPar tree.root ctx := by
    rcases ctxPar_mem tree.root ctx with e | e
    · rw [e]; exact hB.focus_ne_root
    · intro e'; exact hBn.2.2.2.2 (e' ▸ e)
  exact cf_rcrb_rotate_right_mem tree r s (ctxPar tree.root ctx) (B.addr tree.sentinel)
    (by rw [hr]; rfl) (by rw [hs]) (by rw [hr]) (fun e => hsn.1 e.symm)
    (by simpa using h.focus_ne_par) hsP hBn.2.2.1 hBn.1 (fun _ => hbP) x

/-- C34: for every well-formed tree and every node `r` of it (the child of the
root header included) whose right child is not the sentinel, after
`cf_rcrb_rotate_left(tree, r)` the memory again holds a well-formed tree, with
the same in-order (left, node, right) sequence of nodes as before, so with the
same set of nodes and, when the keys were ordered, ordered keys; the same holds
for `cf_rcrb_rotate_right` when the left child of `r` is not the sentinel. -/
theorem C34_rotation_keeps_in_order (tree : cf_rcrb_tree) (T : RTree) (r : Nat)
    (h : Rep tree T) (hr : r ∈ T.addrs) :
    (rgt tree r ≠ tree.sentinel →
      ∃ T1, Rep (cf_rcrb_rotate_left tree r) T1 ∧ T1.nodes = T.nodes ∧
        (Ordered T → Ordered T1)) ∧
    (lft tree r ≠ tree.sentinel →
      ∃ T1, Rep (cf_rcrb_rotate_right tree r) T1 ∧ T1.nodes = T.nodes ∧
        (Ordered T → Ordered T1)) := by
  obtain ⟨ctx, c, l, k, v, rt, e, hz⟩ := h.focus_of_mem hr
  constructor
  · intro hne
    rw [rgt, hz.read] at hne
    cases rt with
    | nil => exact absurd rfl hne
    | node s c' B k' v' C =>
      have hn : (plug ctx (.node s c' (.node r c l k v B) k' v' C)).nodes = T.nodes := by
        rw [← e]
        exact plug_nodes_congr ctx (by simp)
      exact ⟨_, hz.rot_left.1.plug, hn, (Ordered_congr_nodes hn).mpr⟩
  · intro hne
    rw [lft, hz.read] at hne
    cases l with
    | nil => exact absurd rfl hne
    | node s c' A k' v' B =>
      have hn : (plug ctx (.node s c' A k' v' (.node r c B k v rt))).nodes = T.nodes := by
        rw [← e]
        exact plug_nodes_congr ctx (by simp)
      exact ⟨_, hz.rot_right.1.plug, hn, (Ordered_congr_nodes hn).mpr⟩

theorem C34_rotation_keeps_in_order_witness :
    (∃ T1, Rep (cf_rcrb_rotate_left exThree 3) T1 ∧ T1.nodes = exThreeShape.nodes ∧
      (Ordered exThreeShape → Ordered T1)) ∧
    (∃ T1, Rep (cf_rcrb_rotate_right exThree 3) T1 ∧ T1.nodes = exThreeShape.nodes ∧
      (Ordered exThreeShape → Ordered T1)) :=
  ⟨(C34_rotation_keeps_in_order exThree exThreeShape 3 exThree_rep (by decide)).1 (by decide),
    (C34_rotation_keeps_in_order exThree exThreeShape 3 exThree_rep (by decide)).2 (by decide)⟩

/-- C32: for every well-formed tree and every node `r` of it whose right child
`s` is not the sentinel, the memory after `cf_rcrb_rotate_left(tree, r)` differs
from the memory before only in the right and parent links of `r`, the left and
parent links of `s`, the child link of the old parent of `r` that pointed to
`r`, and, when the old left child of `s` is not the sentinel, the parent link of
that child; every other record, the record of the sentinel included, is the
same, no key, value or colour changes, and the state outside the node memory is
untouched.  `cf_rcrb_rotate_right` does the same with left and right
exchanged. -/
theorem C32_rotation_frame (tree : cf_rcrb_tree) (T : RTree) (r : Nat)
    (h : Rep tree T) (hr : r ∈ T.addrs) :
    (rgt tree r ≠ tree.sentinel →
      (∀ x, (cf_rcrb_rotate_left tree r).mem x =
        if x = r then
          { tree.mem r with right := lft tree (rgt tree r), parent := rgt tree r }
        else if x = rgt tree r then
          { tree.mem (rgt tree r) with left := r, parent := par tree r }
        else if x = par tree r then
          (if r = lft tree (par tree r) then { tree.mem (par tree r) with left := rgt tree r }
           else { tree.mem (par tree r) with right := rgt tree r })
        else if x = lft tree (rgt tree r) ∧ lft tree (rgt tree r) ≠ tree.sentinel then
          { tree.mem (lft tree (rgt tree r)) with parent := r }
        else tree.mem x) ∧
      (∀ x, ((cf_rcrb_rotate_left tree r).mem x).key = (tree.mem x).key ∧
        ((cf_rcrb_rotate_left tree r).mem x).value = (tree.mem x).value ∧
        ((cf_rcrb_rotate_left tree r).mem x).color = (tree.mem x).color) ∧
      (cf_rcrb_rotate_left tree r).mem tree.sentinel = tree.mem tree.sentinel ∧
      MemOnly tree (cf_rcrb_rotate_left tree r)) ∧
    (lft tree r ≠ tree.sentinel →
      (∀ x, (cf_rcrb_rotate_right tree r).mem x =
        if x = r then
          { tree.mem r with left := rgt tree (lft tree r), parent := lft tree r }
        else if x = lft tree r then
          { tree.mem (lft tree r) with right := r, parent := par tree r }
        else if x = par tree r then
          (if r = lft tree (par tree r) then { tree.mem (par tree r) with left := lft tree r }
           else { tree.mem (par tree r) with right := lft tree r })
        else if x = rgt tree (lft tree r) ∧ rgt tree (lft tree r) ≠ tree.sentinel then
          { tree.mem (rgt tree (lft tree r)) with parent := r }
        else tree.mem x) ∧
      (∀ x, ((cf_rcrb_rotate_right tree r).mem x).key = (tree.mem x).key ∧
        ((cf_rcrb_rotate_right tree r).mem x).value = (tree.mem x).value ∧
        ((cf_rcrb_rotate_right tree r).mem x).color = (tree.mem x).color) ∧
      (cf_rcrb_rotate_right tree r).mem tree.sentinel = tree.mem tree.sentinel ∧
      MemOnly tree (cf_rcrb_rotate_right tree r)) := by
  obtain ⟨ctx, c, l, k, v, rt, e, hz⟩ := h.focus_of_mem hr
  have eP : par tree r = ctxPar tree.root ctx := hz.focus_par
  constructor
  · intro hne
    have es : rgt tree r = rt.addr tree.sentinel := by rw [rgt, hz.read]
    rw [es] at hne
    cases rt with
    | nil => exact absurd rfl hne
    | node s c' B k' v' C =>
      have eb : lft tree s = B.addr tree.sentinel := by rw [lft, hz.down_R.read]
      simp only [RTree.addr_node] at es
      have hform := hz.rotate_left_mem
      rw [es, eP, eb]
      refine ⟨hform, fun x => ?_, hz.rot_left.2, MemOnly.mo_rotate_left tree r⟩
      rw [hform x]
      split_ifs with e1 e2 e3 e4 e5 <;> simp_all
  · intro hne
    have es : lft tree r = l.addr tree.sentinel := by rw [lft, hz.read]
    rw [es] at hne
    cases l with
    | nil => exact absurd rfl hne
    | node s c' A k' v' B =>
      have eb : rgt tree s = B.addr tree.sentinel := by rw [rgt, hz.down_L.read]
      simp only [RTree.addr_node] at es
      have hform := hz.rotate_right_mem
      rw [es, eP, eb]
      refine ⟨hform, fun x => ?_, hz.rot_right.2, MemOnly.mo_rotate_right tree r⟩
      rw [hform x]
      split_ifs with e1 e2 e3 e4 e5 <;> simp_all

theorem C32_rotation_frame_witness :
    ((∀ x, ((cf_rcrb_rotate_left exThree 3).mem x).key = (exThree.mem x).key ∧
        ((cf_rcrb_rotate_left exThree 3).mem x).value = (exThree.mem x).value ∧
        ((cf_rcrb_rotate_left exThree 3).mem x).color = (exThree.mem x).color) ∧
      (cf_rcrb_rotate_left exThree 3).mem exThree.sentinel = exThree.mem exThree.sentinel ∧
      MemOnly exThree (cf_rcrb_rotate_left exThree 3)) ∧
    ((∀ x, ((cf_rcrb_rotate_right exThree 3).mem x).key = (exThree.mem x).key ∧
        ((cf_rcrb_rotate_right exThree 3).mem x).value = (exThree.mem x).value ∧
        ((cf_rcrb_rotate_right exThree 3).mem x).color = (exThree.mem x).color) ∧
      (cf_rcrb_rotate_right exThree 3).mem exThree.sentinel = exThree.mem exThree.sentinel ∧
      MemOnly exThree (cf_rcrb_rotate_right exThree 3)) :=
  ⟨((C32_rotation_frame exThree exThreeShape 3 exThree_rep (by decide)).1 (by decide)).2,
    ((C32_rotation_frame exThree exThreeShape 3 exThree_rep (by decide)).2 (by decide)).2⟩

/-! ## Nodes without a value in the traversals -/

theorem exPending_rep : Rep exPending exPendingShape :=
  ⟨by decide, by decide, by decide, by decide, rfl, rfl, rfl,
    ⟨rfl, ⟨rfl, trivial, trivial⟩, trivial⟩, rfl, rfl, rfl⟩

theorem count_values_filter (l : List (Nat × Nat)) (x : Nat) (hx : x ≠ 0) :
    ((l.filter (fun kv => kv.2 ≠ 0)).map (fun kv => kv.2)).count x =
      (l.map (fun kv => kv.2)).count x := by
  induction l with
  | nil => rfl
  | cons kv l ih =>
    by_cases e : kv.2 = 0
    · have : x ≠ kv.2 := fun e' => hx (e'.trans e)
      rw [List.filter_cons_of_neg (by simpa using e), ih, List.map_cons,
        List.count_cons_of_ne this]
    · rw [List.filter_cons_of_pos (by simpa using e)]
      simp only [List.map_cons, List.count_cons, ih]

theorem count_calls_filter (udata k v : Nat) (hv : v ≠ 0) : ∀ l : List (Nat × Nat),
    ((l.filter (fun kv => kv.2 ≠ 0)).map (fun kv => (kv.1, kv.2, udata))).count (k, v, udata) =
      l.count (k, v)
  | [] => rfl
  | kv :: l => by
    have ih := count_calls_filter udata k v hv l
    by_cases e : kv.2 = 0
    · have : (k, v) ≠ kv := fun e' => hv (by rw [← e, ← e'])
      rw [List.filter_cons_of_neg (by simpa using e), ih, List.count_cons_of_ne this]
    · rw [List.filter_cons_of_pos (by simpa using e), List.map_cons, List.count_cons,
        List.count_cons, ih]
      congr 1
      simp [Prod.ext_iff]

/-- On a tree whose counter is the number of nodes and whose value array has a
size that fits 32 bits, `cf_rcrb_reduce` (with memory for the array) and
`cf_rcrb_reduce_sync` make no callback invocation with the value 0, and every
node with a value other than 0, wherever it is in the tree, gets its
invocation, once; the count of the value 0 does not change, the snapshot mode
raises the count of every other value by the number of nodes that hold it, and
the synchronous mode changes no count. -/
theorem reduce_skips_empty_in_range (tree : cf_rcrb_tree) (T : RTree) (fuel udata A V : Nat)
    (h : Rep tree T) (he : tree.elements = T.size) (hr : tree.root ≠ 0) (h0 : 0 ∉ T.addrs)
    (hf : T.size < fuel) (hV : 0 < V) (hsz : A + V * tree.elements < 2 ^ 32) :
    ∃ rc1 calls,
      cf_rcrb_reduce fuel tree udata A V true =
        some ({ tree with lock := false, rc := rc1 }, calls) ∧
      cf_rcrb_reduce_sync fuel tree udata = some ({ tree with lock := false }, calls) ∧
      (∀ k, (k, 0, udata) ∉ calls) ∧
      (∀ k v, v ≠ 0 → calls.count (k, v, udata) = T.prepairs.count (k, v)) ∧
      rc1 0 = tree.rc 0 ∧
      (∀ x, x ≠ 0 → rc1 x = tree.rc x + (T.prepairs.map (fun kv => kv.2)).count x) := by
  obtain ⟨e1, e2⟩ := cf_rcrb_reduce_spec udata h he hr h0 hf hV hsz
  refine ⟨_, _, e1, e2, ?_, ?_, ?_, ?_⟩
  · intro k hm
    obtain ⟨kv, hkv, e⟩ := List.mem_map.mp hm
    have := (List.mem_filter.mp hkv).2
    simp only [Prod.mk.injEq] at e
    simp [e.2.1] at this
  · intro k v hv
    exact count_calls_filter udata k v hv T.prepairs
  · rw [reserve_fold_count]
    have : ((T.prepairs.filter (fun kv => kv.2 ≠ 0)).map (fun kv => kv.2)).count 0 = 0 := by
      rw [List.count_eq_zero]
      intro hm
      obtain ⟨kv, hkv, e⟩ := List.mem_map.mp hm
      have := (List.mem_filter.mp hkv).2
      simp [e] at this
    rw [this]; rfl
  · intro x hx
    rw [reserve_fold_count, count_values_filter _ x hx]

theorem reduce_skips_empty_example :
    ∃ rc1 calls,
      cf_rcrb_reduce 3 exPending 9 8 32 true =
        some ({ exPending with lock := false, rc := rc1 }, calls) ∧
      cf_rcrb_reduce_sync 3 exPending 9 = some ({ exPending with lock := false }, calls) ∧
      (∀ k, (k, 0, 9) ∉ calls) ∧
      (∀ k v, v ≠ 0 → calls.count (k, v, 9) = exPendingShape.prepairs.count (k, v)) ∧
      rc1 0 = exPending.rc 0 ∧
      (∀ x, x ≠ 0 →
        rc1 x = exPending.rc x + (exPendingShape.prepairs.map (fun kv => kv.2)).count x) :=
  reduce_skips_empty_in_range exPending exPendingShape 3 9 8 32 exPending_rep rfl (by decide)
    (by decide) (by decide) (by decide) (by decide)

/-! ## The successor in key terms -/

/-- The successor function returns the node that comes next in the in-order
sequence of the whole tree, or the sentinel at the end of the sequence. -/
theorem cf_rcrb_successor_next {tree : cf_rcrb_tree} {T : RTree} {a k v fuel : Nat}
    (h : Rep tree T) (hx : (a, k, v) ∈ T.nodes) (hf : T.size < fuel) :
    ∃ A B, T.nodes = A ++ (a, k, v) :: B ∧
      cf_rcrb_successor fuel tree a =
        some (match B with
          | [] => tree.sentinel
          | x :: _ => x.1) := by
  have hroot : rgt tree tree.root = tree.sentinel := h.root_right
  obtain ⟨z, c, l, r, ep⟩ := exists_path_of_mem T hx
  have hp : plug z (.node a c l k v r) = T := by simpa using ep []
  have hz : RepZ tree z (.node a c l k v r) := Rep.unplug (by rw [hp]; exact h)
  have hsize := plug_size z (.node a c l k v r)
  rw [hp] at hsize
  simp only [RTree.size_node] at hsize
  have hread := hz.read
  cases r with
  | node a' c' l' k' v' r' =>
    have hne : tree.sentinel ≠ a' := Ne.symm hz.down_R.addr_ne_sent
    obtain ⟨s, cs, ks, vs, sr, hlm⟩ :=
      leftmost_shape (.node a' c' l' k' v' r') (.R a c l k v :: z) (by simp)
    obtain ⟨zs, C, ez, eC⟩ := leftmost_path (.node a' c' l' k' v' r') (.R a c l k v :: z)
    have hpl := leftmost_plug (.node a' c' l' k' v' r') (.R a c l k v :: z)
    obtain ⟨A, B, eAB⟩ := plug_nodes_split z
    have hd := successor_down_spec fuel (.node a' c' l' k' v' r') hz.down_R (by simp)
      (by simp only [RTree.size_node] at hsize ⊢; omega)
    refine ⟨A ++ l.nodes, (s, ks, vs) :: (sr.nodes ++ C ++ B), ?_, ?_⟩
    · have hT : T = plug (zs ++ .R a c l k v :: z) (.node s cs .nil ks vs sr) := by
        rw [← ez, ← hlm, hpl, plug_cons, Frame.fill_R, hp]
      rw [hT, plug_append, plug_cons, Frame.fill_R, eAB, RTree.nodes_node, eC]
      simp
    · rw [cf_rcrb_successor, rgt, hread]
      simp only [RTree.addr_node, ne_eq, hne, not_false_eq_true, if_true] at hd ⊢
      rw [hd, hlm]
      rfl
  | nil =>
    obtain ⟨s, e1, e2⟩ := successor_up_spec hroot fuel z hz (by omega)
    have hpar : par tree a = ctxPar tree.root z := hz.focus_par
    rw [hp] at e2
    rcases e2 with ⟨hs, A, e⟩ | ⟨hs, A, B, ks, vs, e⟩
    · refine ⟨A ++ l.nodes, [], by rw [e]; simp, ?_⟩
      rw [cf_rcrb_successor, rgt, hread]
      simp only [RTree.addr_nil, ne_eq, not_true_eq_false, if_false, hpar, e1, hs, if_true]
    · refine ⟨A ++ l.nodes, (s, ks, vs) :: B, by rw [e]; simp, ?_⟩
      rw [cf_rcrb_successor, rgt, hread]
      simp only [RTree.addr_nil, ne_eq, not_true_eq_false, if_false, hpar, e1,
        if_neg (Ne.symm hs)]

/-- C31, as stated, fails: in the tree built by inserting the keys 20 (node 3)
and 30 (node 4) into an empty tree, `cf_rcrb_successor` of the node with the
key 20 returns the sentinel although the key 30 is greater, and of the node
with the maximum key 30 it returns the node with the key 20, not the
sentinel. -/
theorem C31_successor_of_maximum :
    ∃ t, insert_all 4 exEmpty [(20, 77, 3), (30, 88, 4)] = some t ∧
      (t.mem 3).key = 20 ∧ (t.mem 4).key = 30 ∧
      cf_rcrb_successor 3 t 3 = some t.sentinel ∧
      cf_rcrb_successor 3 t 4 = some 3 ∧ 3 ≠ t.sentinel :=
  ⟨_, rfl, rfl, rfl, rfl, rfl, by decide⟩

/-- C31, amended: for every well-formed tree with ordered keys and every node
`n` of it, `cf_rcrb_successor(tree, n)` returns a result; the result is the
sentinel exactly when `n` holds the minimum key of the tree, and otherwise it
is the node of the tree that holds the largest key smaller than the key of
`n`. -/
theorem C31_successor_next_smaller_key (tree : cf_rcrb_tree) (T : RTree) (a k v fuel : Nat)
    (h : Rep tree T) (ho : Ordered T) (hx : (a, k, v) ∈ T.nodes) (hf : T.size < fuel) :
    ∃ s, cf_rcrb_successor fuel tree a = some s ∧
      (s = tree.sentinel ↔ ∀ k1 ∈ T.keys, k ≤ k1) ∧
      (s ≠ tree.sentinel →
        s ∈ T.addrs ∧ (tree.mem s).key ∈ T.keys ∧ (tree.mem s).key < k ∧
        ∀ k1 ∈ T.keys, k1 < k → k1 ≤ (tree.mem s).key) := by
  obtain ⟨A, B, e1, e2⟩ := cf_rcrb_successor_next h hx hf
  have hs := (Ordered_iff_sorted T).mp ho
  have hk : T.keys = A.map (fun x => x.2.1) ++ k :: B.map (fun x => x.2.1) := by
    rw [RTree.keys_eq_map_nodes, e1]; simp
  rw [hk] at hs
  simp only [List.Sorted, List.pairwise_append, List.pairwise_cons, List.mem_cons,
    forall_eq_or_imp] at hs
  obtain ⟨-, ⟨hkB, hB⟩, hA⟩ := hs
  cases B with
  | nil =>
    refine ⟨_, e2, ?_, fun hne => absurd rfl hne⟩
    simp only [true_iff]
    intro k1 hk1
    rw [hk] at hk1
    simp only [List.map_nil, List.mem_append, List.mem_cons, List.not_mem_nil, or_false] at hk1
    rcases hk1 with hk1 | hk1
    · exact Nat.le_of_lt (hA k1 hk1).1
    · exact Nat.le_of_eq hk1.symm
  | cons x B1 =>
    have hin : x ∈ T.nodes := by rw [e1]; simp
    have hxa : x.1 ∈ T.addrs := RTree.mem_addrs_of_mem_nodes hin
    have hne : x.1 ≠ tree.sentinel := fun e => h.sent_notin (by simpa [e] using hxa)
    have hkey : (tree.mem x.1).key = x.2.1 := (h.mem_of_nodes (a := x.1) (k := x.2.1)
      (v := x.2.2) hin).1
    have hlt : x.2.1 < k := hkB x.2.1 (by simp)
    simp only [List.map_cons, List.pairwise_cons] at hB
    refine ⟨_, e2, ?_, fun _ => ⟨hxa, ?_, ?_, ?_⟩⟩
    · constructor
      · intro e; exact absurd e hne
      · intro hall
        have := hall x.2.1 (RTree.mem_keys_of_mem_nodes hin)
        omega
    · show (tree.mem x.1).key ∈ T.keys
      rw [hkey]; exact RTree.mem_keys_of_mem_nodes hin
    · show (tree.mem x.1).key < k
      rw [hkey]; exact hlt
    · intro k1 hk1 hlt1
      show k1 ≤ (tree.mem x.1).key
      rw [hkey]
      rw [hk] at hk1
      simp only [List.map_cons, List.mem_append, List.mem_cons] at hk1
      rcases hk1 with hk1 | hk1 | hk1 | hk1
      · have := (hA k1 hk1).1; omega
      · omega
      · omega
      · exact Nat.le_of_lt (hB.1 k1 hk1)

theorem C31_successor_next_smaller_key_witness :
    ∃ s, cf_rcrb_successor 3 exTree 4 = some s ∧
      (s = exTree.sentinel ↔ ∀ k1 ∈ exShape.keys, 30 ≤ k1) ∧
      (s ≠ exTree.sentinel →
        s ∈ exShape.addrs ∧ (exTree.mem s).key ∈ exShape.keys ∧ (exTree.mem s).key < 30 ∧
        ∀ k1 ∈ exShape.keys, k1 < 30 → k1 ≤ (exTree.mem s).key) :=
  C31_successor_next_smaller_key exTree exShape 4 30 88 3 exTree_rep exShape_ordered
    (by decide) (by decide)

/-! ## A truncated buffer with a large declared length -/

/-- C36: the 14-byte buffer `exTruncated` declares a payload of 2^32 - 1 bytes,
so it is truncated; the sum `len + 4` wraps to 3, the length test of `msg_parse`
does not fire, the first iteration of the loop sets the field 0 of the message,
and the next one reads beyond the buffer: the call does not return -2, whatever
the fuel and the copy flag. -/
theorem C36_parse_truncated_wraps :
    exTruncated.length = 14 ∧ be_read (exTruncated.take 4) = 4294967295 ∧
    14 < be_read (exTruncated.take 4) + 4 ∧
    (be_read (exTruncated.take 4) + 4) % 2 ^ 32 = 3 ∧
    (∀ fuel copy, msg_parse fuel exCode exFresh exTruncated 14 copy = none) ∧
    (exFresh.f 0).is_set = false ∧
    ∀ copy, ∃ m1, msg_parse_step exCode exFresh (exTruncated.drop 4) copy = some (m1, 10) ∧
      (m1.f 0).is_set = true ∧ (m1.f 0).u_int = 7 := by
  refine ⟨rfl, rfl, by decide, rfl, ?_, rfl, fun copy => ⟨_, rfl, rfl, rfl⟩⟩
  intro fuel copy
  cases fuel with
  | zero => rfl
  | succ fuel =>
    cases fuel with
    | zero => rfl
    | succ fuel => rfl

/-! ## Setting and getting strings and buffers -/

/-- C37: on the message created from a descriptor with the BUF field 0 (in a
caller's buffer of 200 bytes at the address 1000, records of 32 and 24 bytes),
the field is valid and of type `M_FT_BUF`, and `msg_set_buf` on it returns -1
and leaves the memory as it is, for every source address, length, copy flag and
allocation result; `msg_get_buf` on the field then returns -2. -/
theorem C37_set_buf_rejects_buf_field :
    ∃ s0, msg_create_heap 32 24 exBufDesc 1000 200 none exTable exBytes = some (s0, 0) ∧
      (s0.hdr.f 0).is_valid = true ∧ (s0.hdr.f 0).type = .M_FT_BUF ∧
      (∀ v len copy malloc, msg_set_buf s0 0 v len copy malloc = some (s0, -1)) ∧
      (∀ copy malloc, msg_get_buf s0 0 copy malloc = some (s0, -2, none)) :=
  ⟨_, rfl, rfl, rfl, fun _ _ _ _ => rfl, fun _ _ => rfl⟩

/-- C38: the message created from a descriptor with the STR fields 0 and 1 in a
caller's buffer of 200 bytes at the address 1000 (records of 32 and 24 bytes)
has 120 spare bytes.  After `msg_set_str` of the field 0 to "ab" and of the
field 1 to "xyz", both with `copy` set, both fields point to the address 1080,
and `msg_get_str` of the field 0 returns that pointer, where the string "xyz"
lies, with the length 3. -/
theorem C38_second_string_overwrites_first :
    ∃ s0 s1 s2, msg_create_heap 32 24 exStrDesc 1000 200 none exTable exBytes = some (s0, 0) ∧
      s0.hdr.is_stack = true ∧ s0.hdr.bytes_alloc - s0.hdr.bytes_used = 120 ∧
      cstr 8 s0.bytes 5000 = some [97, 98] ∧ cstr 8 s0.bytes 6000 = some [120, 121, 122] ∧
      msg_set_str 8 s0 0 5000 true none = some (s1, 0) ∧
      cstr 8 s1.bytes (s1.hdr.f 0).u_str = some [97, 98] ∧
      msg_set_str 8 s1 1 6000 true none = some (s2, 0) ∧
      msg_get_str 8 s2 0 false none = some (s2, 0, some (1080, 3)) ∧
      cstr 8 s2.bytes 1080 = some [120, 121, 122] ∧
      msg_get_str 8 s2 1 false none = some (s2, 0, some (1080, 4)) ∧
      s2.hdr.bytes_used = s0.hdr.bytes_used ∧ s2.hdr.bytes_alloc = 207 :=
  ⟨_, _, _, rfl, rfl, rfl, rfl, rfl, rfl, rfl, rfl, rfl, rfl, rfl, rfl, rfl⟩

/-! ## The value array of the snapshot traversal on a large tree -/

/-- The snapshot traversal of a subtree that holds more values than the memory
of the array has room for, the bound `alloc_sz` not being reached: it stores an
entry beyond the memory of the array, and has no result. -/
theorem reduce_traverse_overrun : ∀ (fuel : Nat) (t : RTree) {tree : cf_rcrb_tree}
    {ctx : List Frame} (v_a : cf_rcrb_value_array),
    RepZ tree ctx t → t ≠ .nil → t.size < fuel → v_a.pos + t.size ≤ v_a.alloc_sz →
    v_a.pos ≤ v_a.room → v_a.room < v_a.pos + t.valued →
    cf_rcrb_reduce_traverse fuel tree (t.addr tree.sentinel) tree.sentinel v_a = none
  | 0, _, _, _, _, _, _, hf, _, _, _ => absurd hf (Nat.not_lt_zero _)
  | _ + 1, .nil, _, _, _, _, hne, _, _, _, _ => absurd rfl hne
  | fuel + 1, .node a c l k v r, tree, ctx, v_a, h, _, hf, hroom, hle, hov => by
    simp only [RTree.size_node] at hf hroom
    rw [RTree.valued_node] at hov
    have hread := h.read
    have hfull : ¬ v_a.pos ≥ v_a.alloc_sz := by omega
    have hvl := RTree.valued_le_size l
    -- the node itself
    have hself : (if (tree.mem a).value ≠ 0 then
          (if v_a.pos < v_a.room then
            some (({ tree with rc := cf_rc_reserve tree.rc (tree.mem a).value } : cf_rcrb_tree),
              ({ v_a with
                values := fun i => if i = v_a.pos then ((tree.mem a).key, (tree.mem a).value)
                                   else v_a.values i
                pos := v_a.pos + 1 } : cf_rcrb_value_array))
           else none)
        else some (tree, v_a)) = none ∨
        ∃ rc1 va1, (if (tree.mem a).value ≠ 0 then
          (if v_a.pos < v_a.room then
            some (({ tree with rc := cf_rc_reserve tree.rc (tree.mem a).value } : cf_rcrb_tree),
              ({ v_a with
                values := fun i => if i = v_a.pos then ((tree.mem a).key, (tree.mem a).value)
                                   else v_a.values i
                pos := v_a.pos + 1 } : cf_rcrb_value_array))
           else none)
        else some (tree, v_a)) = some ({ tree with rc := rc1 }, va1) ∧
        va1.alloc_sz = v_a.alloc_sz ∧ va1.room = v_a.room ∧
        va1.pos = v_a.pos + (if v ≠ 0 then 1 else 0) ∧ va1.pos ≤ v_a.room := by
      rw [hread]
      by_cases hv : v = 0
      · exact Or.inr ⟨tree.rc, v_a, by simp [hv], rfl, rfl, by simp [hv], hle⟩
      · by_cases hlt : v_a.pos < v_a.room
        · refine Or.inr ⟨cf_rc_reserve tree.rc v,
            { v_a with
              values := fun i => if i = v_a.pos then (k, v) else v_a.values i
              pos := v_a.pos + 1 }, ?_, rfl, rfl, by simp [hv], hlt⟩
          simp only [ne_eq, hv, not_false_eq_true, if_true, hlt]
        · exact Or.inl (by simp only [ne_eq, hv, not_false_eq_true, if_true, hlt, if_false])
    rcases hself with hs1 | ⟨rc1, va1, hs1, ha1, hr1, hq1, hb1⟩
    · rw [cf_rcrb_reduce_traverse, if_neg hfull]
      simp only [RTree.addr_node]
      rw [hs1]
    have hd : (if v ≠ 0 then 1 else 0) ≤ 1 := by split_ifs <;> omega
    have h1 : RepZ { tree with rc := rc1 } ctx (.node a c l k v r) := h.congr_fields rfl rfl rfl
    -- the left subtree
    have hleft : (if lft { tree with rc := rc1 } a ≠ tree.sentinel then
          cf_rcrb_reduce_traverse fuel { tree with rc := rc1 } (lft { tree with rc := rc1 } a)
            tree.sentinel va1
         else some ({ tree with rc := rc1 }, va1)) = none ∨
        ∃ rc2 va2, (if lft { tree with rc := rc1 } a ≠ tree.sentinel then
          cf_rcrb_reduce_traverse fuel { tree with rc := rc1 } (lft { tree with rc := rc1 } a)
            tree.sentinel va1
         else some ({ tree with rc := rc1 }, va1)) = some ({ tree with rc := rc2 }, va2) ∧
        va2.alloc_sz = v_a.alloc_sz ∧ va2.room = v_a.room ∧ va2.pos = va1.pos + l.valued ∧
        va2.pos ≤ v_a.room := by
      rw [lft, h1.read]
      cases l with
      | nil => exact Or.inr ⟨rc1, va1, by simp, ha1, hr1, rfl, hb1⟩
      | node a' c' l' k' v' r' =>
        have hne : a' ≠ tree.sentinel := h.down_L.addr_ne_sent
        simp only [RTree.addr_node, ne_eq, hne, not_false_eq_true, if_true]
        by_cases hc : v_a.room < va1.pos + (RTree.node a' c' l' k' v' r').valued
        · left
          exact reduce_traverse_overrun fuel (.node a' c' l' k' v' r') va1 h1.down_L (by simp)
            (by simp only [RTree.size_node] at hf ⊢; omega)
            (by simp only [RTree.size_node] at hroom ⊢; omega)
            (by rw [hr1]; exact hb1) (by rw [hr1]; exact hc)
        · right
          obtain ⟨rc2, va2, e1, ⟨e2, e4, e5⟩, -⟩ :=
            reduce_traverse_spec fuel (.node a' c' l' k' v' r') va1
              h1.down_L (by simp) (by simp only [RTree.size_node] at hf ⊢; omega)
              (by simp only [RTree.size_node] at hroom ⊢; omega)
              (by rw [hr1]; omega)
          refine ⟨rc2, va2, ?_, e2.trans ha1, e4.trans hr1, e5, by omega⟩
          simp only [RTree.addr_node] at e1
          exact e1
    rcases hleft with hs2 | ⟨rc2, va2, hs2, ha2, hr2, hq2, hb2⟩
    · rw [cf_rcrb_reduce_traverse, if_neg hfull]
      simp only [RTree.addr_node]
      rw [hs1]
      simp only
      rw [hs2]
    have h2 : RepZ { tree with rc := rc2 } ctx (.node a c l k v r) := h.congr_fields rfl rfl rfl
    -- the right subtree
    have hright : (if rgt { tree with rc := rc2 } a ≠ tree.sentinel then
          cf_rcrb_reduce_traverse fuel { tree with rc := rc2 } (rgt { tree with rc := rc2 } a)
            tree.sentinel va2
         else some ({ tree with rc := rc2 }, va2)) = none := by
      rw [rgt, h2.read]
      have hrv : 0 < r.valued := by omega
      cases r with
      | nil => simp [RTree.valued_nil] at hrv
      | node a' c' l' k' v' r' =>
        have hne : a' ≠ tree.sentinel := h.down_R.addr_ne_sent
        simp only [RTree.addr_node, ne_eq, hne, not_false_eq_true, if_true]
        exact reduce_traverse_overrun fuel (.node a' c' l' k' v' r') va2 h2.down_R (by simp)
          (by simp only [RTree.size_node] at hf ⊢; omega)
          (by simp only [RTree.size_node] at hroom ⊢; omega)
          (by rw [hr2]; exact hb2) (by rw [hr2]; omega)
    rw [cf_rcrb_reduce_traverse, if_neg hfull]
    simp only [RTree.addr_node]
    rw [hs1]
    simp only
    rw [hs2]
    simp only
    exact hright

/-- On a tree whose counter is its number of nodes, when the 32-bit size of the
value array selects the buffer on the stack and the tree holds more values than
that buffer has room for, `cf_rcrb_reduce` stores an entry beyond the buffer:
it has no result, whatever `CF_MALLOC` would return. -/
theorem cf_rcrb_reduce_overrun {tree : cf_rcrb_tree} {T : RTree} {fuel A V : Nat}
    (udata : Nat) (malloc_ok : Bool)
    (h : Rep tree T) (he : tree.elements = T.size) (hr : tree.root ≠ 0) (h0 : 0 ∉ T.addrs)
    (hf : T.size < fuel) (hn : tree.elements < 2 ^ 32)
    (hsmall : reduce_sz A V tree.elements ≤ 64 * 1024)
    (hov : reduce_room A V tree.elements < T.valued) :
    cf_rcrb_reduce fuel tree udata A V malloc_ok = none := by
  have hl : Rep { tree with lock := true } T := h.congr_fields rfl rfl rfl
  have htop : lft { tree with lock := true } tree.root = T.addr tree.sentinel := by
    rw [lft]; exact Rep.read_root hl
  cases T with
  | nil => simp [RTree.valued_nil] at hov
  | node a c l k v r =>
    have ht0 : a ≠ 0 := fun e => h0 (by simp [e])
    have hts : a ≠ tree.sentinel := h.addr_ne_sent
    have hpos : tree.elements ≠ 0 := by rw [he]; simp
    have hmod : tree.elements % 2 ^ 32 = tree.elements := Nat.mod_eq_of_lt hn
    have hnot : ¬ reduce_sz A V tree.elements > 64 * 1024 := by omega
    simp only [RTree.addr_node] at htop
    have e1 := reduce_traverse_overrun fuel (.node a c l k v r)
      { alloc_sz := tree.elements % 2 ^ 32, pos := 0, values := fun _ => (0, 0),
        room := reduce_room A V tree.elements } hl (by simp) hf
      (by simp only [Nat.zero_add, hmod]; omega) (Nat.zero_le _)
      (by simp only [Nat.zero_add]; exact hov)
    simp only [RTree.addr_node] at e1
    simp only [cf_rcrb_reduce, hpos, if_false, hnot, false_and, htop, ne_eq, hr, ht0, hts,
      not_false_eq_true, and_self, if_true, e1]

theorem exManyItems_length (d n : Nat) : (exManyItems d n).length = n := by
  simp [exManyItems]

/-- The pairs (key, value) of the entries of `exManyItems`. -/
theorem exManyItems_pairs (d n : Nat) :
    (exManyItems d n).reverse.map (fun x => (x.2.2, x.1, x.2.1)) =
      ((List.range n).map (fun i => (i + 3, i, i + d))).reverse := by
  simp [exManyItems, List.map_reverse, Function.comp_def]

/-- The insertion of the entries of `exManyItems` into the empty example tree
returns and leaves a well-formed tree of `n` nodes with the counter `n`, whose
(key, value) pairs are those of the entries. -/
theorem many_items_built (d n : Nat) :
    ∃ tf Tf, insert_all (n + 1) exEmpty (exManyItems d n) = some tf ∧ Rep tf Tf ∧
      tf.elements = Tf.size ∧ Tf.size = n ∧ tf.root ≠ 0 ∧ 0 ∉ Tf.addrs ∧
      Tf.prepairs.Perm ((List.range n).map (fun i => (i, i + d))) := by
  have hk : ((exManyItems d n).map (fun x => x.1)).Nodup := by
    have : (exManyItems d n).map (fun x => x.1) = List.range n := by
      simp [exManyItems, Function.comp_def]
    rw [this]; exact List.nodup_range n
  have hn : ((exManyItems d n).map (fun x => x.2.2)).Nodup := by
    have : (exManyItems d n).map (fun x => x.2.2) = (List.range n).map (fun i => i + 3) := by
      simp [exManyItems, Function.comp_def]
    rw [this]
    exact (List.nodup_range n).map (fun a b e => by simpa using e)
  have hfr : ∀ x ∈ exManyItems d n, x.1 ∉ RTree.nil.keys ∧ Fresh exEmpty .nil x.2.2 := by
    intro x hx
    obtain ⟨i, -, rfl⟩ := List.mem_map.mp hx
    refine ⟨by simp, ?_, ?_, by simp⟩
    · show i + 3 ≠ 1
      omega
    · show i + 3 ≠ 2
      omega
  obtain ⟨tf, Tf, f1, f2, -, -, f5, -, f7, f8, -⟩ :=
    insert_all_spec (n + 1) (exManyItems d n) exEmpty .nil exEmpty_rep ⟨rfl, trivial, 0, rfl⟩
      trivial hk hn hfr (by rw [exManyItems_length]; simp) rfl
  rw [exManyItems_pairs, RTree.nodes_nil, List.append_nil] at f5
  have hsize : Tf.size = n := by
    rw [RTree.size_eq_length_nodes, f5.length_eq]
    simp
  refine ⟨tf, Tf, f1, f2, ?_, hsize, ?_, ?_, ?_⟩
  · rw [f7, exManyItems_length, hsize]
    show 0 + n = n
    omega
  · rw [f8]
    show (1 : Nat) ≠ 0
    omega
  · intro hm
    obtain ⟨k, v, hx⟩ := RTree.mem_addrs_iff_nodes.mp hm
    have := f5.subset hx
    simp only [List.mem_reverse, List.mem_map, List.mem_range, Prod.mk.injEq] at this
    obtain ⟨i, -, e, -⟩ := this
    omega
  · refine (RTree.prepairs_perm Tf).trans ?_
    rw [RTree.toList_eq_map]
    refine (f5.map _).trans ?_
    rw [← List.map_reverse, List.map_map]
    exact ((List.reverse_perm _).map _).trans (List.Perm.of_eq rfl)

/-- Among the values `d`, ..., `n + d` at most one is 0. -/
theorem many_items_valued (d n : Nat) :
    n ≤ (((List.range (n + 1)).map (fun i => (i, i + d))).filter (fun kv => kv.2 ≠ 0)).length := by
  rw [List.range_succ_eq_map, List.map_cons, List.map_map]
  have : (List.map ((fun i => (i, i + d)) ∘ Nat.succ) (List.range n)).filter
      (fun kv => kv.2 ≠ 0) = List.map ((fun i => (i, i + d)) ∘ Nat.succ) (List.range n) := by
    rw [List.filter_eq_self]
    intro kv hkv
    obtain ⟨i, -, rfl⟩ := List.mem_map.mp hkv
    simp
  rw [List.filter_cons]
  split_ifs
  · rw [List.length_cons, this]; simp
  · rw [this]; simp

/-- The tree built from `n + 1` entries of `exManyItems`, when the 32-bit size
of the value array selects the buffer on the stack and that buffer has room for
fewer than `n` entries: `cf_rcrb_reduce` has no result with any amount of fuel
from `n + 2` on, and `cf_rcrb_reduce_sync` calls the callback for every node
with a value. -/
theorem many_items_reduce (d n A V : Nat) (hn : n + 1 < 2 ^ 32)
    (hsmall : reduce_sz A V (n + 1) ≤ 64 * 1024) (hov : reduce_room A V (n + 1) < n) :
    ∃ tf Tf, insert_all (n + 1 + 1) exEmpty (exManyItems d (n + 1)) = some tf ∧ Rep tf Tf ∧
      tf.elements = Tf.size ∧ Tf.size = n + 1 ∧
      Tf.prepairs.Perm ((List.range (n + 1)).map (fun i => (i, i + d))) ∧
      (∀ extra udata malloc_ok,
        cf_rcrb_reduce (n + 1 + 1 + extra) tf udata A V malloc_ok = none) ∧
      ∀ udata, cf_rcrb_reduce_sync (n + 1 + 1) tf udata =
        some ({ tf with lock := false },
          (Tf.prepairs.filter (fun kv => kv.2 ≠ 0)).map (fun kv => (kv.1, kv.2, udata))) := by
  obtain ⟨tf, Tf, f1, f2, f3, f4, f5, f6, f7⟩ := many_items_built d (n + 1)
  have hval : n ≤ Tf.valued := by
    rw [RTree.valued, (f7.filter _).length_eq]
    exact many_items_valued d n
  have he : tf.elements = n + 1 := f3.trans f4
  refine ⟨tf, Tf, f1, f2, f3, f4, f7, fun extra udata malloc_ok => ?_, fun udata => ?_⟩
  · refine cf_rcrb_reduce_overrun udata malloc_ok f2 f3 f5 f6 (by omega) (by rw [he]; exact hn)
      (by rw [he]; exact hsmall) (by rw [he]; omega)
  · exact (@cf_rcrb_reduce_spec tf Tf (n + 1 + 1) 0 1 udata f2 f3 f5 f6 (by omega) (by decide)
      (by rw [he]; omega)).2

/-- C21: the tree built by inserting 2^27 keys, each with a value other than
0, into an empty tree is well formed, every node carries a value and the
counter is the number of nodes.  With a header of 8 bytes and entries of 32
bytes the size `sz` of the value array (rcrb.c 701) wraps to 8, the buffer of 64
KiB on the stack is taken, which has room for 2047 entries, and
`cf_rcrb_reduce` stores the entry 2047 beyond it: the call has no result, with
any fuel that lets the traversal reach every node. -/
theorem C21_reduce_overruns_array :
    ∃ tf Tf, insert_all 134217729 exEmpty (exManyItems 1 134217728) = some tf ∧ Rep tf Tf ∧
      (∀ kv ∈ Tf.prepairs, kv.2 ≠ 0) ∧ tf.elements = Tf.size ∧ Tf.size = 134217728 ∧
      reduce_sz 8 32 134217728 = 8 ∧ reduce_room 8 32 134217728 = 2047 ∧
      ∀ extra udata malloc_ok,
        cf_rcrb_reduce (134217729 + extra) tf udata 8 32 malloc_ok = none := by
  obtain ⟨tf, Tf, f1, f2, f3, f4, f5, f6, -⟩ :=
    many_items_reduce 1 134217727 8 32 (by decide) (by decide) (by decide)
  simp only [Nat.reduceAdd] at f1 f4 f5 f6
  refine ⟨tf, Tf, f1, f2, ?_, f3, f4, by decide, by decide, f6⟩
  intro kv hkv
  obtain ⟨i, -, rfl⟩ := List.mem_map.mp (f5.subset hkv)
  exact Nat.succ_ne_zero i

/-- C22: on the tree built by inserting 2^27 keys, each with a value other than
0, into an empty tree, whose counter is its number of nodes, `cf_rcrb_reduce`
(header of 8 bytes, entries of 32 bytes) stores an entry beyond the buffer on
the stack and has no result, while `cf_rcrb_reduce_sync` calls the callback
2^27 times. -/
theorem C22_reduce_modes_differ :
    ∃ tf Tf calls, insert_all 134217729 exEmpty (exManyItems 1 134217728) = some tf ∧
      Rep tf Tf ∧ tf.elements = Tf.size ∧ Tf.size = 134217728 ∧
      (∀ extra malloc_ok, cf_rcrb_reduce (134217729 + extra) tf 9 8 32 malloc_ok = none) ∧
      cf_rcrb_reduce_sync 134217729 tf 9 = some ({ tf with lock := false }, calls) ∧
      calls.length = 134217728 := by
  obtain ⟨tf, Tf, f1, f2, f3, f4, f5, f6, f7⟩ :=
    many_items_reduce 1 134217727 8 32 (by decide) (by decide) (by decide)
  simp only [Nat.reduceAdd] at f1 f4 f5 f6 f7
  refine ⟨tf, Tf, _, f1, f2, f3, f4, fun extra malloc_ok => f6 extra 9 malloc_ok, f7 9, ?_⟩
  have hfil : Tf.prepairs.filter (fun kv => kv.2 ≠ 0) = Tf.prepairs := by
    rw [List.filter_eq_self]
    intro kv hkv
    obtain ⟨i, -, rfl⟩ := List.mem_map.mp (f5.subset hkv)
    simp
  rw [hfil, List.length_map, RTree.prepairs_length, f4]

/-- C35: the tree built by inserting 2^27 keys into an empty tree, the key 0
with the value slot left 0 and every other key with a value, is well formed and
its counter is its number of nodes.  `cf_rcrb_reduce` (header of 8 bytes,
entries of 32 bytes) stores an entry beyond the buffer on the stack and has no
result: the traversal does not go through the tree. -/
theorem C35_reduce_overruns_with_empty_value :
    ∃ tf Tf, insert_all 134217729 exEmpty (exManyItems 0 134217728) = some tf ∧ Rep tf Tf ∧
      tf.elements = Tf.size ∧ Tf.size = 134217728 ∧ (0, 0) ∈ Tf.prepairs ∧
      ∀ extra udata malloc_ok,
        cf_rcrb_reduce (134217729 + extra) tf udata 8 32 malloc_ok = none := by
  obtain ⟨tf, Tf, f1, f2, f3, f4, f5, f6, -⟩ :=
    many_items_reduce 0 134217727 8 32 (by decide) (by decide) (by decide)
  simp only [Nat.reduceAdd] at f1 f4 f5 f6
  refine ⟨tf, Tf, f1, f2, f3, f4, ?_, f6⟩
  refine f5.symm.subset (List.mem_map.mpr ⟨0, List.mem_range.mpr (by decide), rfl⟩)

end Rcrb
